import Mathlib

/-!
# stragts: scanner, parser, resolved-argument view and value binder

A shallow embedding of the Go package `stragts` (`lex.go`, `classify.go`,
`node.go`, `tree.go`, `parsed.go`, `tag.go`) together with theorems about it.

Conventions of the embedding.

* A Go string is a sequence of runes; the embedding covers the inputs that
  are valid UTF-8, represented by `List Char`.  The scanner cursor
  (`lexer.pos`, `lexer.start`) counts runes; the byte offset published in an
  `item` is recomputed by `byteOffset`.
* A rune read by `lexer.next` is an `Option Char`; `none` is the sentinel
  `eof = -1`.
* A call ends in a `Result`: a value, a returned `error`, a run-time panic,
  or `diverge` when a loop of the embedding ran out of steps.
* What the sources take from the Go standard library and cannot be computed
  here (Unicode tables beyond ASCII, escape processing, floating point, the
  iteration order of a map) and the helper `toKebabCase`, which is not among
  the sources, are collected in the parameter `Lib`.
-/

namespace Stragts

/-! ## Outcomes -/

/-- Outcome of a call: a value, an `error` returned to the caller, a panic
unwinding through the caller, or exhaustion of the step budget of a loop. -/
inductive Result (α : Type) where
  | ok (val : α)
  | err (msg : String)
  | panic (msg : String)
  | diverge
  deriving DecidableEq, Repr

/-- Sequencing of calls: anything but a value ends the computation. -/
def Result.bind {α β : Type} (r : Result α) (f : α → Result β) : Result β :=
  match r with
  | .ok a => f a
  | .err m => .err m
  | .panic m => .panic m
  | .diverge => .diverge

instance : Monad Result where
  pure := Result.ok
  bind := Result.bind

/-- The value of a call seen through `f`; any other outcome is kept. -/
def Result.map {α β : Type} (f : α → β) (r : Result α) : Result β :=
  match r with
  | .ok a => .ok (f a)
  | .err m => .err m
  | .panic m => .panic m
  | .diverge => .diverge

/-! ## Library parameter -/

/-- What the package takes from outside its sources.  Floating-point values
are carried as their 64-bit patterns (`Nat`). -/
structure Lib where
  /-- `unicode.IsLetter` on runes beyond ASCII. -/
  letter : Char → Bool
  /-- `unicode.IsDigit` on runes beyond ASCII. -/
  digit : Char → Bool
  /-- `strconv.IsPrint` on runes beyond ASCII. -/
  printable : Char → Bool
  /-- `strconv.Unquote` on a double-quoted text that holds a backslash. -/
  unquoteEscaped : String → Option String
  /-- `strconv.Quote` on a text that needs escaping. -/
  quoteEscaped : String → String
  /-- `strconv.ParseFloat(text, 64)`; `none` when it reports an error. -/
  parseFloat : String → Option Nat
  /-- The conversion `float64(i)` of an `int64`. -/
  floatOfInt : Int → Nat
  /-- The conversion `float64(u)` of a `uint64`. -/
  floatOfUint : Nat → Nat
  /-- The conversion `int64(f)`. -/
  intOfFloat : Nat → Int
  /-- The conversion `uint64(f)`. -/
  uintOfFloat : Nat → Nat
  /-- The comparison `==` of two `float64`. -/
  floatEq : Nat → Nat → Bool
  /-- The conversion `float32(f)` stored by `SetFloat` in a 32-bit field. -/
  float32Of : Nat → Nat
  /-- The helper `toKebabCase` used by `Tag.Fill`. -/
  toKebabCase : String → String
  /-- The order in which `range` visits the keys of a map, given the keys in
  the order of their insertion. -/
  mapOrder : List String → List String
  /-- A `range` over a map visits every key once. -/
  mapOrder_perm : ∀ keys, (mapOrder keys).Perm keys

/-! ## classify.go -/

/-- The quote characters and the backslash, written by code point. -/
def singleQuote : Char := Char.ofNat 39

/-- The double quote. -/
def doubleQuote : Char := Char.ofNat 34

/-- The backslash. -/
def backslash : Char := Char.ofNat 92

/-- `unicode.IsLetter`: computed on ASCII, taken from the tables beyond. -/
def isLetter (E : Lib) (r : Option Char) : Bool :=
  match r with
  | none => false
  | some c =>
    if c.toNat < 128 then
      (65 ≤ c.toNat && c.toNat ≤ 90) || (97 ≤ c.toNat && c.toNat ≤ 122)
    else E.letter c

/-- `unicode.IsDigit`: computed on ASCII, taken from the tables beyond. -/
def isDigit (E : Lib) (r : Option Char) : Bool :=
  match r with
  | none => false
  | some c => if c.toNat < 128 then (48 ≤ c.toNat && c.toNat ≤ 57) else E.digit c

/-- Go `isSpace`: reports whether r is a space character. -/
def isSpace (r : Option Char) : Bool :=
  r == some ' ' || r == some '\t' || r == some '\r' || r == some '\n'

/-- Go `isNumeric`: reports whether r is the beginning of a numeric value. -/
def isNumeric (r : Option Char) : Bool :=
  match r with
  | none => false
  | some c => c == '+' || c == '-' || (48 ≤ c.toNat && c.toNat ≤ 57)

/-- Go `isAlphaNumeric`: alphabetic, digit, or underscore. -/
def isAlphaNumeric (E : Lib) (r : Option Char) : Bool :=
  r == some '_' || isLetter E r || isDigit E r

/-! ## lex.go -/

/-- The kinds of token, in the order of the Go constants. -/
inductive itemType where
  | itemError
  | itemEOF
  | itemNil
  | itemBool
  | itemNumber
  | itemString
  | itemIdentifier
  | itemEnable
  | itemDisable
  | itemAssign
  | itemListSeparator
  | itemArgumentSeparator
  deriving DecidableEq, Repr

/-- A token returned from the scanner. -/
structure item where
  typ : itemType
  pos : Nat
  val : String
  deriving DecidableEq, Repr

/-- The zero value of `item`, which a receive on the closed channel yields. -/
def zeroItem : item := ⟨.itemError, 0, ""⟩

/-- The state functions of the scanner; `none` stands for the nil state. -/
inductive stateFn where
  | lexArgumentStart
  | lexInArgument
  | lexValue
  | lexIdentifier
  | lexQuote
  | lexNumber
  deriving DecidableEq, Repr

/-- The state of the scanner.  `items` is what has been sent on the channel. -/
structure lexer where
  input : List Char
  pos : Nat
  start : Nat
  atEOF : Bool
  items : List item
  deriving DecidableEq, Repr

/-- Byte offset of the rune with index `n`. -/
def byteOffset (input : List Char) (n : Nat) : Nat :=
  ((input.take n).map Char.utf8Size).sum

/-- The text `input[start:pos]`. -/
def slice (input : List Char) (start pos : Nat) : String :=
  String.mk ((input.drop start).take (pos - start))

/-- Go `lexer.next`: returns and consumes the next rune in the input. -/
def lexer.next (l : lexer) : Option Char × lexer :=
  match l.input[l.pos]? with
  | none => (none, { l with atEOF := true })
  | some r => (some r, { l with pos := l.pos + 1 })

/-- Go `lexer.undo`: steps back one rune. -/
def lexer.undo (l : lexer) : lexer :=
  if !l.atEOF && l.pos > 0 then { l with pos := l.pos - 1 } else l

/-- Go `lexer.peek`: returns but does not consume the next rune. -/
def lexer.peek (l : lexer) : Option Char × lexer :=
  let r := l.next
  (r.1, r.2.undo)

/-- Go `lexer.emit`: passes an item back to the client. -/
def lexer.emit (l : lexer) (t : itemType) : lexer :=
  { l with
    items := l.items ++ [⟨t, byteOffset l.input l.start, slice l.input l.start l.pos⟩],
    start := l.pos }

/-- Go `strings.ContainsRune(valid, r)`; the sentinel is in no set. -/
def containsRune (valid : String) (r : Option Char) : Bool :=
  match r with
  | none => false
  | some c => valid.data.contains c

/-- Go `lexer.accept`: consumes the next rune if it is from the valid set. -/
def lexer.accept (l : lexer) (valid : String) : Bool × lexer :=
  let r := l.next
  if containsRune valid r.1 then (true, r.2) else (false, r.2.undo)

/-- The loop of `lexer.acceptRun`. -/
def lexer.acceptRunLoop (valid : String) : Nat → lexer → Result lexer
  | 0, _ => .diverge
  | n + 1, l =>
    let r := l.next
    if containsRune valid r.1 then lexer.acceptRunLoop valid n r.2 else .ok r.2.undo

/-- Go `lexer.acceptRun`: consumes a run of runes from the valid set. -/
def lexer.acceptRun (l : lexer) (valid : String) : Result lexer :=
  lexer.acceptRunLoop valid (l.input.length + 1) l

/-- Upper-case hexadecimal digits of a number, most significant first. -/
def hexDigits (n : Nat) : List Char :=
  (Nat.toDigits 16 n).map Char.toUpper

/-- The verb `%#U`: `U+0040 '@'`, the quoted rune only when it is printable. -/
def fmtSharpU (E : Lib) (r : Option Char) : String :=
  match r with
  | none => "U+FFFFFFFFFFFFFFFF"
  | some c =>
    let hex := hexDigits c.toNat
    let code := "U+" ++ String.mk (List.replicate (4 - hex.length) '0' ++ hex)
    let shown := if c.toNat < 128 then (32 ≤ c.toNat && c.toNat ≤ 126) else E.printable c
    if shown then code ++ " " ++ String.mk [singleQuote, c, singleQuote] else code

/-- Go `lexer.errorf`: sends an error token and ends the scan. -/
def lexer.errorf (l : lexer) (msg : String) : Option stateFn × lexer :=
  (none, { l with items := l.items ++ [⟨.itemError, byteOffset l.input l.start, msg⟩] })

/-- Go `lexer.atTerminator`: whether the input is at a character that may
follow an identifier or a number. -/
def lexer.atTerminator (l : lexer) : Bool × lexer :=
  let r := l.peek
  if isSpace r.1 then (true, r.2)
  else if r.1 == none || r.1 == some ',' || r.1 == some ';' || r.1 == some '=' then (true, r.2)
  else (false, r.2)

/-- Go `lexArgumentStart`. -/
def lexArgumentStart (E : Lib) (l : lexer) : Option stateFn × lexer :=
  let n := l.next
  let r := n.1
  let l := n.2
  if r == none then (none, l.emit .itemEOF)
  else if r == some '~' || r == some '!' then
    let p := l.peek
    if !isLetter E p.1 then p.2.errorf ("bad character " ++ fmtSharpU E r)
    else if r == some '!' then (some .lexIdentifier, p.2.emit .itemDisable)
    else (some .lexIdentifier, p.2.emit .itemEnable)
  else if isLetter E r then (some .lexIdentifier, l.undo)
  else if isNumeric r then (some .lexNumber, l.undo)
  else if r == some doubleQuote || r == some singleQuote then (some .lexQuote, l.undo)
  else l.errorf ("bad character " ++ fmtSharpU E r)

/-- Go `lexInArgument`. -/
def lexInArgument (E : Lib) (l : lexer) : Option stateFn × lexer :=
  let n := l.next
  let r := n.1
  let l := n.2
  if r == none then (none, l.emit .itemEOF)
  else if r == some ',' then (some .lexArgumentStart, l.emit .itemArgumentSeparator)
  else if r == some ';' then (some .lexValue, l.emit .itemListSeparator)
  else if r == some '=' then (some .lexValue, l.emit .itemAssign)
  else l.errorf ("bad character " ++ fmtSharpU E r)

/-- Go `lexValue`. -/
def lexValue (E : Lib) (l : lexer) : Option stateFn × lexer :=
  let n := l.next
  let r := n.1
  let l := n.2
  if r == none then l.errorf "assignment missing simpleValue"
  else if isLetter E r then (some .lexIdentifier, l.undo)
  else if isNumeric r then (some .lexNumber, l.undo)
  else if r == some doubleQuote || r == some singleQuote then (some .lexQuote, l.undo)
  else l.errorf ("bad character " ++ fmtSharpU E r)

/-- The loop of `lexIdentifier`. -/
def lexIdentifierLoop (E : Lib) : Nat → lexer → Result (Option stateFn × lexer)
  | 0, _ => .diverge
  | n + 1, l =>
    let nx := l.next
    let r := nx.1
    if r == some '-' || isAlphaNumeric E r then lexIdentifierLoop E n nx.2
    else
      let l1 := nx.2.undo
      let word := slice l1.input l1.start l1.pos
      let tm := l1.atTerminator
      if !tm.1 then .ok (tm.2.errorf ("bad character " ++ fmtSharpU E r))
      else if word == "true" || word == "false" then .ok (some .lexInArgument, tm.2.emit .itemBool)
      else if word == "nil" then .ok (some .lexInArgument, tm.2.emit .itemNil)
      else .ok (some .lexInArgument, tm.2.emit .itemIdentifier)

/-- Go `lexIdentifier`. -/
def lexIdentifier (E : Lib) (l : lexer) : Result (Option stateFn × lexer) :=
  lexIdentifierLoop E (l.input.length + 1) l

/-- The loop of `lexQuote`. -/
def lexQuoteLoop (closingQuote : Option Char) : Nat → lexer → Result (Option stateFn × lexer)
  | 0, _ => .diverge
  | n + 1, l =>
    let nx := l.next
    if nx.1 == some backslash then
      let esc := nx.2.next
      if esc.1 != none then lexQuoteLoop closingQuote n esc.2
      else .ok (esc.2.errorf "unterminated quoted string")
    else if nx.1 == none then .ok (nx.2.errorf "unterminated quoted string")
    else if nx.1 == closingQuote then .ok (some .lexInArgument, nx.2.emit .itemString)
    else lexQuoteLoop closingQuote n nx.2

/-- Go `lexQuote`. -/
def lexQuote (l : lexer) : Result (Option stateFn × lexer) :=
  let q := l.next
  lexQuoteLoop q.1 (l.input.length + 1) q.2

/-- The statement `if l.accept("0") ...` of `scanNumber`: the digits of the
base that the marker after a leading zero selects. -/
def lexer.scanBase (l : lexer) : String × lexer :=
  let z := l.accept "0"
  let x := if z.1 then z.2.accept "xX" else (false, z.2)
  let o := if z.1 && !x.1 then x.2.accept "oO" else (false, x.2)
  let b := if z.1 && !x.1 && !o.1 then o.2.accept "bB" else (false, o.2)
  (if x.1 then "0123456789abcdefABCDEF_"
    else if o.1 then "01234567_"
    else if b.1 then "01_"
    else "0123456789_", b.2)

/-- The statement `if l.accept(".") ...` of `scanNumber`. -/
def lexer.scanFraction (l : lexer) (digits : String) : Result lexer :=
  let dot := l.accept "."
  if dot.1 then dot.2.acceptRun digits else .ok dot.2

/-- The statements `if len(digits) == ... && l.accept(marks) ...` of
`scanNumber`: an exponent with an optional sign. -/
def lexer.scanExponent (l : lexer) (cond : Bool) (marks : String) : Result lexer :=
  let e := if cond then l.accept marks else (false, l)
  if e.1 then (e.2.accept "+-").2.acceptRun "0123456789_" else .ok e.2

/-- Go `lexer.scanNumber`. -/
def lexer.scanNumber (l : lexer) : Result (Bool × lexer) :=
  let pre := (l.accept "+-").2.scanBase
  match pre.2.acceptRun pre.1 with
  | .ok l1 =>
    match l1.scanFraction pre.1 with
    | .ok l2 =>
      match l2.scanExponent (pre.1.length == 10 + 1) "eE" with
      | .ok l3 =>
        match l3.scanExponent (pre.1.length == 16 + 6 + 1) "pP" with
        | .ok l4 => .ok (true, l4)
        | .err m => .err m
        | .panic m => .panic m
        | .diverge => .diverge
      | .err m => .err m
      | .panic m => .panic m
      | .diverge => .diverge
    | .err m => .err m
    | .panic m => .panic m
    | .diverge => .diverge
  | .err m => .err m
  | .panic m => .panic m
  | .diverge => .diverge

/-- Go `strconv.Quote` on plain text; anything that needs escaping is left to `Lib`. -/
def quote (E : Lib) (s : String) : String :=
  if s.data.all (fun c => 32 ≤ c.toNat && c.toNat ≤ 126 && c != doubleQuote && c != backslash) then
    String.mk ([doubleQuote] ++ s.data ++ [doubleQuote])
  else E.quoteEscaped s

/-- Go `lexNumber`. -/
def lexNumber (E : Lib) (l : lexer) : Result (Option stateFn × lexer) :=
  match l.scanNumber with
  | .ok s =>
    if !s.1 then
      .ok (s.2.errorf ("bad number syntax: " ++ quote E (slice s.2.input s.2.start s.2.pos)))
    else
      let tm := s.2.atTerminator
      if !tm.1 then
        let p := tm.2.peek
        .ok (p.2.errorf ("bad character " ++ fmtSharpU E p.1))
      else .ok (some .lexInArgument, tm.2.emit .itemNumber)
  | .err m => .err m
  | .panic m => .panic m
  | .diverge => .diverge

/-- One call `state(l)` of the loop in `lexer.run`. -/
def callState (E : Lib) (s : stateFn) (l : lexer) : Result (Option stateFn × lexer) :=
  match s with
  | .lexArgumentStart => .ok (lexArgumentStart E l)
  | .lexInArgument => .ok (lexInArgument E l)
  | .lexValue => .ok (lexValue E l)
  | .lexIdentifier => lexIdentifier E l
  | .lexQuote => lexQuote l
  | .lexNumber => lexNumber E l

/-- The loop of `lexer.run`: `for state != nil`. -/
def lexer.runLoop (E : Lib) : Nat → stateFn → lexer → Result lexer
  | 0, _, _ => .diverge
  | n + 1, s, l =>
    match callState E s l with
    | .ok (none, l1) => .ok l1
    | .ok (some s1, l1) => lexer.runLoop E n s1 l1
    | .err m => .err m
    | .panic m => .panic m
    | .diverge => .diverge

/-- Go `lexer.run`: executes the state machine, starting in `lexArgumentStart`. -/
def lexer.run (E : Lib) (l : lexer) : Result lexer :=
  lexer.runLoop E (2 * l.input.length + 2) .lexArgumentStart l

/-- Go `lex` followed by draining the channel: the items the scanner sends
for an input, in order (`collect` of `lex_test.go`). -/
def lex (E : Lib) (input : String) : Result (List item) :=
  match lexer.run E ⟨input.data, 0, 0, false, []⟩ with
  | .ok l => .ok l.items
  | .err m => .err m
  | .panic m => .panic m
  | .diverge => .diverge

/-! ## Go `strconv`: integers in base 0 -/

/-- Go `lower`: the byte forced to lower case (`c | 0x20`). -/
def lowerByte (c : Char) : Nat := c.toNat ||| 32

/-- Value of a byte as a digit, as the loop of `strconv.ParseUint` reads it. -/
def digitValue (c : Char) : Option Nat :=
  if 48 ≤ c.toNat ∧ c.toNat ≤ 57 then some (c.toNat - 48)
  else if c.toNat < 128 ∧ 97 ≤ lowerByte c ∧ lowerByte c ≤ 122 then some (lowerByte c - 97 + 10)
  else none

/-- Whether `s` opens with a base marker `0b`, `0o` or `0x` (any case). -/
def basePrefix (s : List Char) : Option Nat :=
  match s with
  | c0 :: c1 :: _ =>
    if c0 == '0' then
      if lowerByte c1 == 98 then some 2
      else if lowerByte c1 == 111 then some 8
      else if lowerByte c1 == 120 then some 16
      else none
    else none
  | _ => none

/-- The loop of `underscoreOK`; `saw` is `0` for a digit or base marker,
`1` for an underscore, `2` for the start and `3` for anything else. -/
def underscoreLoop (hex : Bool) : List Char → Nat → Bool
  | [], saw => saw != 1
  | c :: cs, saw =>
    if (48 ≤ c.toNat && c.toNat ≤ 57) ||
        (hex && c.toNat < 128 && 97 ≤ lowerByte c && lowerByte c ≤ 102) then
      underscoreLoop hex cs 0
    else if c == '_' then
      if saw != 0 then false else underscoreLoop hex cs 1
    else if saw == 1 then false
    else underscoreLoop hex cs 3

/-- Go `strconv.underscoreOK`: underscores only between digits or between a
base marker and a digit. -/
def underscoreOK (s : List Char) : Bool :=
  let s := match s with
    | c :: cs => if c == '-' || c == '+' then cs else c :: cs
    | [] => []
  match basePrefix s with
  | some b => underscoreLoop (b == 16) (s.drop 2) 0
  | none => underscoreLoop false s 2

/-- The digit loop of `strconv.ParseUint` for 64 bits: the value and whether
an underscore was seen, or the value returned with the error. -/
def parseUintLoop (base : Nat) : List Char → Nat → Bool → Except Nat (Nat × Bool)
  | [], n, us => .ok (n, us)
  | c :: cs, n, us =>
    if c == '_' then parseUintLoop base cs n true
    else
      match digitValue c with
      | none => .error 0
      | some d =>
        if d ≥ base then .error 0
        else if n * base + d ≥ 2 ^ 64 then .error (2 ^ 64 - 1)
        else parseUintLoop base cs (n * base + d) us

/-- Go `strconv.ParseUint(s, 0, 64)`: the value returned and whether `err == nil`. -/
def ParseUint (s : String) : Nat × Bool :=
  match s.data with
  | [] => (0, false)
  | c :: cs =>
    let bd : Nat × List Char :=
      if c == '0' then
        match basePrefix (c :: cs) with
        | some b => if (c :: cs).length ≥ 3 then (b, cs.drop 1) else (8, cs)
        | none => (8, cs)
      else (10, c :: cs)
    match parseUintLoop bd.1 bd.2 0 false with
    | .error v => (v, false)
    | .ok (n, us) => if us && !underscoreOK (c :: cs) then (0, false) else (n, true)

/-- Go `strconv.ParseInt(s, 0, 64)`: the value returned and whether `err == nil`. -/
def ParseInt (s : String) : Int × Bool :=
  match s.data with
  | [] => (0, false)
  | c :: cs =>
    let neg := c == '-'
    let rest := if c == '+' || c == '-' then cs else c :: cs
    let u := ParseUint (String.mk rest)
    if !u.2 && u.1 != 2 ^ 64 - 1 then (0, false)
    else if !neg && u.1 ≥ 2 ^ 63 then (2 ^ 63 - 1, false)
    else if neg && u.1 > 2 ^ 63 then (-(2 ^ 63), false)
    else if !u.2 then (0, false)
    else (if neg then -(u.1 : Int) else (u.1 : Int), true)

/-! ## node.go -/

/-- The type of a parse tree node. -/
inductive nodeType where
  | nodeList
  | nodeArgument
  | nodeNil
  | nodeBool
  | nodeNumber
  | nodeString
  | nodeIdentifier
  | nodeSwitch
  | nodeSlice
  deriving DecidableEq, Repr

/-- An identifier. -/
structure identifierNode where
  pos : Nat
  value : String
  deriving DecidableEq, Repr

/-- The untyped nil constant. -/
structure nilNode where
  pos : Nat
  deriving DecidableEq, Repr

/-- A boolean constant. -/
structure boolNode where
  pos : Nat
  value : Bool
  deriving DecidableEq, Repr

/-- A string constant: the original text with quotes and the unquoted text. -/
structure stringNode where
  pos : Nat
  Quoted : String
  Text : String
  deriving DecidableEq, Repr

/-- An enabling or disabling field value. -/
structure switchNode where
  pos : Nat
  ident : identifierNode
  value : boolNode
  deriving DecidableEq, Repr

/-- A number, stored under all the types that can represent the value. -/
structure numberNode where
  pos : Nat
  IsInt : Bool
  IsUint : Bool
  IsFloat : Bool
  Int64 : Int
  Uint64 : Nat
  Float64 : Nat
  Text : String
  deriving DecidableEq, Repr

/-- The value nodes behind the Go interface `node`; a slice holds nodes. -/
inductive node where
  | nilN (n : nilNode)
  | boolN (n : boolNode)
  | numberN (n : numberNode)
  | stringN (n : stringNode)
  | identifierN (n : identifierNode)
  | switchN (n : switchNode)
  | sliceN (pos : Nat) (values : List node)
  deriving Repr

mutual
/-- Decision of equality on `node`, constructor by constructor. -/
def node.decEq : (a b : node) → Decidable (a = b)
  | .nilN x0, .nilN y0 =>
    if h : x0 = y0 then isTrue (by simp only [h])
    else isFalse (by intro e; cases e; exact h (by simp))
  | .nilN _, .boolN _ => isFalse (by intro e; cases e)
  | .nilN _, .numberN _ => isFalse (by intro e; cases e)
  | .nilN _, .stringN _ => isFalse (by intro e; cases e)
  | .nilN _, .identifierN _ => isFalse (by intro e; cases e)
  | .nilN _, .switchN _ => isFalse (by intro e; cases e)
  | .nilN _, .sliceN _ _ => isFalse (by intro e; cases e)
  | .boolN _, .nilN _ => isFalse (by intro e; cases e)
  | .boolN x0, .boolN y0 =>
    if h : x0 = y0 then isTrue (by simp only [h])
    else isFalse (by intro e; cases e; exact h (by simp))
  | .boolN _, .numberN _ => isFalse (by intro e; cases e)
  | .boolN _, .stringN _ => isFalse (by intro e; cases e)
  | .boolN _, .identifierN _ => isFalse (by intro e; cases e)
  | .boolN _, .switchN _ => isFalse (by intro e; cases e)
  | .boolN _, .sliceN _ _ => isFalse (by intro e; cases e)
  | .numberN _, .nilN _ => isFalse (by intro e; cases e)
  | .numberN _, .boolN _ => isFalse (by intro e; cases e)
  | .numberN x0, .numberN y0 =>
    if h : x0 = y0 then isTrue (by simp only [h])
    else isFalse (by intro e; cases e; exact h (by simp))
  | .numberN _, .stringN _ => isFalse (by intro e; cases e)
  | .numberN _, .identifierN _ => isFalse (by intro e; cases e)
  | .numberN _, .switchN _ => isFalse (by intro e; cases e)
  | .numberN _, .sliceN _ _ => isFalse (by intro e; cases e)
  | .stringN _, .nilN _ => isFalse (by intro e; cases e)
  | .stringN _, .boolN _ => isFalse (by intro e; cases e)
  | .stringN _, .numberN _ => isFalse (by intro e; cases e)
  | .stringN x0, .stringN y0 =>
    if h : x0 = y0 then isTrue (by simp only [h])
    else isFalse (by intro e; cases e; exact h (by simp))
  | .stringN _, .identifierN _ => isFalse (by intro e; cases e)
  | .stringN _, .switchN _ => isFalse (by intro e; cases e)
  | .stringN _, .sliceN _ _ => isFalse (by intro e; cases e)
  | .identifierN _, .nilN _ => isFalse (by intro e; cases e)
  | .identifierN _, .boolN _ => isFalse (by intro e; cases e)
  | .identifierN _, .numberN _ => isFalse (by intro e; cases e)
  | .identifierN _, .stringN _ => isFalse (by intro e; cases e)
  | .identifierN x0, .identifierN y0 =>
    if h : x0 = y0 then isTrue (by simp only [h])
    else isFalse (by intro e; cases e; exact h (by simp))
  | .identifierN _, .switchN _ => isFalse (by intro e; cases e)
  | .identifierN _, .sliceN _ _ => isFalse (by intro e; cases e)
  | .switchN _, .nilN _ => isFalse (by intro e; cases e)
  | .switchN _, .boolN _ => isFalse (by intro e; cases e)
  | .switchN _, .numberN _ => isFalse (by intro e; cases e)
  | .switchN _, .stringN _ => isFalse (by intro e; cases e)
  | .switchN _, .identifierN _ => isFalse (by intro e; cases e)
  | .switchN x0, .switchN y0 =>
    if h : x0 = y0 then isTrue (by simp only [h])
    else isFalse (by intro e; cases e; exact h (by simp))
  | .switchN _, .sliceN _ _ => isFalse (by intro e; cases e)
  | .sliceN _ _, .nilN _ => isFalse (by intro e; cases e)
  | .sliceN _ _, .boolN _ => isFalse (by intro e; cases e)
  | .sliceN _ _, .numberN _ => isFalse (by intro e; cases e)
  | .sliceN _ _, .stringN _ => isFalse (by intro e; cases e)
  | .sliceN _ _, .identifierN _ => isFalse (by intro e; cases e)
  | .sliceN _ _, .switchN _ => isFalse (by intro e; cases e)
  | .sliceN x0 u, .sliceN y0 v =>
    if h : x0 = y0 then
      match node.decEqList u v with
      | isTrue h2 => isTrue (by simp only [h, h2])
      | isFalse h2 => isFalse (by intro e; cases e; exact h2 rfl)
    else isFalse (by intro e; cases e; exact h (by simp))
/-- Decision of equality on lists of `node`. -/
def node.decEqList : (as bs : List node) → Decidable (as = bs)
  | [], [] => isTrue rfl
  | [], _ :: _ => isFalse (by intro e; cases e)
  | _ :: _, [] => isFalse (by intro e; cases e)
  | a :: as, b :: bs =>
    match node.decEq a b with
    | isTrue h1 =>
      match node.decEqList as bs with
      | isTrue h2 => isTrue (by rw [h1, h2])
      | isFalse h2 => isFalse (by intro e; cases e; exact h2 rfl)
    | isFalse h1 => isFalse (by intro e; cases e; exact h1 rfl)
end

instance : DecidableEq node := node.decEq

/-- A single argument: an optional keyword and a value. -/
structure argumentNode where
  pos : Nat
  ident : Option identifierNode
  value : node
  deriving DecidableEq, Repr

/-- A sequence of arguments, the root of a tree. -/
structure listNode where
  pos : Nat
  nodes : List argumentNode
  deriving DecidableEq, Repr

/-- Go `getType` of a value node. -/
def node.getType : node → nodeType
  | .nilN _ => .nodeNil
  | .boolN _ => .nodeBool
  | .numberN _ => .nodeNumber
  | .stringN _ => .nodeString
  | .identifierN _ => .nodeIdentifier
  | .switchN _ => .nodeSwitch
  | .sliceN _ _ => .nodeSlice

/-- Go `getPosition` of a value node. -/
def node.getPosition : node → Nat
  | .nilN n => n.pos
  | .boolN n => n.pos
  | .numberN n => n.pos
  | .stringN n => n.pos
  | .identifierN n => n.pos
  | .switchN n => n.pos
  | .sliceN p _ => p

/-- Go `identifierNode.String`. -/
def identifierNode.String (n : identifierNode) : String := n.value

/-- Go `boolNode.String`. -/
def boolNode.String (n : boolNode) : String := if n.value then "true" else "false"

/-- Go `switchNode.String`. -/
def switchNode.String (n : switchNode) : String :=
  if n.value.value then "~" ++ n.ident.String else "!" ++ n.ident.String

mutual
/-- Go `String` of a value node (`writeTo` into a fresh builder). -/
def node.String : node → String
  | .nilN _ => "nil"
  | .boolN n => n.String
  | .numberN n => n.Text
  | .stringN n => n.Quoted
  | .identifierN n => n.String
  | .switchN n => n.String
  | .sliceN _ [] => ""
  | .sliceN _ (v :: vs) => v.String ++ node.writeRest vs
/-- The loop of `sliceNode.writeTo` over `values[1:]`. -/
def node.writeRest : List node → String
  | [] => ""
  | c :: cs => ";" ++ c.String ++ node.writeRest cs
end

/-- Go `argumentNode.String`. -/
def argumentNode.String (n : argumentNode) : String :=
  match n.ident with
  | some ident =>
    if n.value.getType != .nodeSwitch then ident.String ++ "=" ++ n.value.String
    else n.value.String
  | none => n.value.String

/-- Go `listNode.String`. -/
def listNode.String (n : listNode) : String :=
  match n.nodes with
  | [] => ""
  | a :: rest => rest.foldl (fun sb c => sb ++ "," ++ c.String) a.String

/-- Go `strings.ContainsAny(text, chars)`. -/
def containsAny (text chars : String) : Bool :=
  text.data.any (fun c => chars.data.contains c)

/-- The integer tests at the head of `tree.newNumber`: `ParseUint` and
`ParseInt` on the text, with the repair for `-0`. -/
def integerTests (pos : Nat) (text : String) : numberNode :=
  let n : numberNode := ⟨pos, false, false, false, 0, 0, 0, text⟩
  let u := ParseUint text
  let n := if u.2 then { n with IsUint := true, Uint64 := u.1 } else n
  let i := ParseInt text
  if i.2 then
    let n := { n with IsInt := true, Int64 := i.1 }
    if i.1 == 0 then { n with IsUint := true, Uint64 := u.1 } else n
  else n

/-- The float test of `tree.newNumber` once `ParseFloat` has returned `f`:
the float is stored and the integers are extracted from it if needed. -/
def floatTests (E : Lib) (n : numberNode) (f : Nat) : numberNode :=
  let n := { n with IsFloat := true, Float64 := f }
  let n :=
    if !n.IsInt && E.floatEq (E.floatOfInt (E.intOfFloat f)) f then
      { n with IsInt := true, Int64 := E.intOfFloat f }
    else n
  if !n.IsUint && E.floatEq (E.floatOfUint (E.uintOfFloat f)) f then
    { n with IsUint := true, Uint64 := E.uintOfFloat f }
  else n

/-- The last statement of `tree.newNumber`: a number without any valid
interpretation is an error. -/
def numberChecked (E : Lib) (n : numberNode) : Result numberNode :=
  if !n.IsInt && !n.IsUint && !n.IsFloat then
    .err ("illegal number syntax: " ++ quote E n.Text)
  else .ok n

/-- Go `tree.newNumber`. -/
def newNumber (E : Lib) (pos : Nat) (text : String) : Result numberNode :=
  let n := integerTests pos text
  if n.IsInt then numberChecked E { n with IsFloat := true, Float64 := E.floatOfInt n.Int64 }
  else if n.IsUint then
    numberChecked E { n with IsFloat := true, Float64 := E.floatOfUint n.Uint64 }
  else
    match E.parseFloat text with
    | some f =>
      if !containsAny text ".eEpP" then .err ("integer overflow: " ++ quote E text)
      else numberChecked E (floatTests E n f)
    | none => numberChecked E n

/-! ## tree.go -/

/-- Go `item.String`. -/
def item.String (E : Lib) (i : item) : String :=
  if i.typ == .itemEOF then "EOF"
  else if i.typ == .itemError then i.val
  else if i.val.utf8ByteSize > 10 then quote E (String.mk (i.val.data.take 10)) ++ "..."
  else quote E i.val

/-- Go `lexer.item`: the next item from the channel; once the scanner has
closed the channel a receive yields the zero item. -/
def lexerItem (ch : List item) : item × List item :=
  match ch with
  | [] => (zeroItem, [])
  | i :: rest => (i, rest)

/-- The representation of a single parsed tag.  `lex` holds the items the
scanner has still to deliver. -/
structure tree where
  root : Option listNode
  lex : List item
  token0 : item
  token1 : item
  token2 : item
  peekCount : Nat
  deriving DecidableEq, Repr

/-- The element `t.token[i]` of the three-token lookahead. -/
def tree.tokenAt (t : tree) (i : Nat) : Result item :=
  match i with
  | 0 => .ok t.token0
  | 1 => .ok t.token1
  | 2 => .ok t.token2
  | _ => .panic "runtime error: index out of range"

/-- Go `tree.undo`: backs the input stream up one token. -/
def tree.undo (t : tree) : tree := { t with peekCount := t.peekCount + 1 }

/-- Go `tree.backup2`: backs the input stream up two tokens. -/
def tree.backup2 (t : tree) (t1 : item) : tree := { t with token1 := t1, peekCount := 2 }

/-- Go `tree.next`: returns the next token. -/
def tree.next (t : tree) : Result (item × tree) :=
  let t1 : tree :=
    if t.peekCount > 0 then { t with peekCount := t.peekCount - 1 }
    else { t with token0 := (lexerItem t.lex).1, lex := (lexerItem t.lex).2 }
  match t1.tokenAt t1.peekCount with
  | .ok i => .ok (i, t1)
  | .err m => .err m
  | .panic m => .panic m
  | .diverge => .diverge

/-- Go `tree.peek`. -/
def tree.peek (t : tree) : Result (item × tree) :=
  if t.peekCount > 0 then
    match t.tokenAt (t.peekCount - 1) with
    | .ok i => .ok (i, t)
    | .err m => .err m
    | .panic m => .panic m
    | .diverge => .diverge
  else
    .ok ((lexerItem t.lex).1,
      { t with peekCount := 1, token0 := (lexerItem t.lex).1, lex := (lexerItem t.lex).2 })

/-- Go `tree.unexpected`: complains about the token and terminates processing. -/
def tree.unexpected {α : Type} (E : Lib) (token : item) : Result α :=
  .panic ("unexpected " ++ token.String E)

/-- Go `tree.nil`. -/
def tree.nil (t : tree) : Result (node × tree) :=
  match t.next with
  | .ok r => .ok (.nilN ⟨r.1.pos⟩, r.2)
  | .err m => .err m
  | .panic m => .panic m
  | .diverge => .diverge

/-- Go `tree.bool`. -/
def tree.bool (t : tree) : Result (node × tree) :=
  match t.next with
  | .ok r =>
    if r.1.val == "true" then .ok (.boolN ⟨r.1.pos, true⟩, r.2)
    else .ok (.boolN ⟨r.1.pos, false⟩, r.2)
  | .err m => .err m
  | .panic m => .panic m
  | .diverge => .diverge

/-- Go `tree.identifier`. -/
def tree.identifier (t : tree) : Result (identifierNode × tree) :=
  match t.next with
  | .ok r => .ok (⟨r.1.pos, r.1.val⟩, r.2)
  | .err m => .err m
  | .panic m => .panic m
  | .diverge => .diverge

/-- Go `strconv.Unquote` applied to `inner` between double quotes: plain
text is returned as it is, a double quote or a line feed in it is an error,
and text with a backslash is left to `Lib`. -/
def unquote (E : Lib) (inner : String) : Option String :=
  if inner.data.contains backslash then E.unquoteEscaped inner
  else if inner.data.contains doubleQuote || inner.data.contains '\n' then none
  else some inner

/-- Go `tree.string`.  A string token opens and closes with a one-byte quote,
so `token.val[1:len(token.val)-1]` drops the first and the last rune. -/
def tree.string (E : Lib) (t : tree) : Result (node × tree) :=
  match t.next with
  | .ok r =>
    if r.1.val.data.length < 2 then .panic "runtime error: slice bounds out of range"
    else
      match unquote E (String.mk (r.1.val.data.drop 1).dropLast) with
      | none => .panic "invalid syntax"
      | some s => .ok (.stringN ⟨r.1.pos, r.1.val, s⟩, r.2)
  | .err m => .err m
  | .panic m => .panic m
  | .diverge => .diverge

/-- Go `tree.number`. -/
def tree.number (E : Lib) (t : tree) : Result (node × tree) :=
  match t.next with
  | .ok r =>
    match newNumber E r.1.pos r.1.val with
    | .ok n => .ok (.numberN n, r.2)
    | .err m => .panic m
    | .panic m => .panic m
    | .diverge => .diverge
  | .err m => .err m
  | .panic m => .panic m
  | .diverge => .diverge

/-- Go `tree.simpleValue`. -/
def tree.simpleValue (E : Lib) (t : tree) : Result (node × tree) :=
  match t.peek with
  | .ok p =>
    match p.1.typ with
    | .itemNil => p.2.nil
    | .itemBool => p.2.bool
    | .itemIdentifier =>
      match p.2.identifier with
      | .ok r => .ok (.identifierN r.1, r.2)
      | .err m => .err m
      | .panic m => .panic m
      | .diverge => .diverge
    | .itemString => p.2.string E
    | .itemNumber => p.2.number E
    | _ =>
      match p.2.next with
      | .ok r => tree.unexpected E r.1
      | .err m => .err m
      | .panic m => .panic m
      | .diverge => .diverge
  | .err m => .err m
  | .panic m => .panic m
  | .diverge => .diverge

/-- The loop of `tree.slice`: `for t.next().typ == itemListSeparator`. -/
def tree.sliceLoop (E : Lib) : Nat → List node → tree → Result (List node × tree)
  | 0, _, _ => .diverge
  | n + 1, items, t =>
    match t.next with
    | .ok r =>
      if r.1.typ == .itemListSeparator then
        match r.2.simpleValue E with
        | .ok v => tree.sliceLoop E n (items ++ [v.1]) v.2
        | .err m => .err m
        | .panic m => .panic m
        | .diverge => .diverge
      else .ok (items, r.2)
    | .err m => .err m
    | .panic m => .panic m
    | .diverge => .diverge

/-- Go `tree.slice`. -/
def tree.slice (E : Lib) (t : tree) : Result (node × tree) :=
  match t.simpleValue E with
  | .ok v =>
    match tree.sliceLoop E (v.2.lex.length + v.2.peekCount + 1) [v.1] v.2 with
    | .ok r => .ok (.sliceN v.1.getPosition r.1, r.2.undo)
    | .err m => .err m
    | .panic m => .panic m
    | .diverge => .diverge
  | .err m => .err m
  | .panic m => .panic m
  | .diverge => .diverge

/-- Go `tree.argumentValue`. -/
def tree.argumentValue (E : Lib) (t : tree) : Result (node × tree) :=
  match t.next with
  | .ok prev =>
    match prev.2.peek with
    | .ok nextToken =>
      let t1 := nextToken.2.backup2 prev.1
      if nextToken.1.typ == .itemListSeparator then t1.slice E else t1.simpleValue E
    | .err m => .err m
    | .panic m => .panic m
    | .diverge => .diverge
  | .err m => .err m
  | .panic m => .panic m
  | .diverge => .diverge

/-- Go `tree.switchNode`. -/
def tree.switchNode (E : Lib) (t : tree) : Result (switchNode × tree) :=
  match t.next with
  | .ok pre =>
    let value : Result Bool :=
      match pre.1.typ with
      | .itemDisable => .ok false
      | .itemEnable => .ok true
      | _ => tree.unexpected E pre.1
    match value with
    | .ok b =>
      match pre.2.peek with
      | .ok p =>
        if p.1.typ != .itemIdentifier then
          match p.2.next with
          | .ok r => tree.unexpected E r.1
          | .err m => .err m
          | .panic m => .panic m
          | .diverge => .diverge
        else
          match p.2.identifier with
          | .ok id => .ok (⟨pre.1.pos, id.1, ⟨pre.1.pos, b⟩⟩, id.2)
          | .err m => .err m
          | .panic m => .panic m
          | .diverge => .diverge
      | .err m => .err m
      | .panic m => .panic m
      | .diverge => .diverge
    | .err m => .err m
    | .panic m => .panic m
    | .diverge => .diverge
  | .err m => .err m
  | .panic m => .panic m
  | .diverge => .diverge

/-- Go `tree.switchArgument`. -/
def tree.switchArgument (E : Lib) (t : tree) : Result (argumentNode × tree) :=
  match t.switchNode E with
  | .ok sn => .ok (⟨sn.1.pos, some sn.1.ident, .switchN sn.1⟩, sn.2)
  | .err m => .err m
  | .panic m => .panic m
  | .diverge => .diverge

/-- The tail of `tree.argument`: a positional argument. -/
def tree.positional (E : Lib) (t : tree) : Result (argumentNode × tree) :=
  match t.argumentValue E with
  | .ok a => .ok (⟨a.1.getPosition, none, a.1⟩, a.2)
  | .err m => .err m
  | .panic m => .panic m
  | .diverge => .diverge

/-- The branch of `tree.argument` taken when an identifier is followed by `=`. -/
def tree.keyword (E : Lib) (t : tree) : Result (argumentNode × tree) :=
  match t.identifier with
  | .ok ident =>
    match ident.2.next with
    | .ok eq =>
      match eq.2.argumentValue E with
      | .ok a => .ok (⟨ident.1.pos, some ident.1, a.1⟩, a.2)
      | .err m => .err m
      | .panic m => .panic m
      | .diverge => .diverge
    | .err m => .err m
    | .panic m => .panic m
    | .diverge => .diverge
  | .err m => .err m
  | .panic m => .panic m
  | .diverge => .diverge

/-- Go `tree.argument`. -/
def tree.argument (E : Lib) (t : tree) : Result (argumentNode × tree) :=
  match t.peek with
  | .ok pt =>
    if pt.1.typ == .itemDisable || pt.1.typ == .itemEnable then pt.2.switchArgument E
    else
      match pt.2.peek with
      | .ok pi =>
        if pi.1.typ == .itemIdentifier then
          match pi.2.next with
          | .ok token =>
            match token.2.peek with
            | .ok separatorToken =>
              let t1 := separatorToken.2.backup2 token.1
              if separatorToken.1.typ == .itemAssign then t1.keyword E else t1.positional E
            | .err m => .err m
            | .panic m => .panic m
            | .diverge => .diverge
          | .err m => .err m
          | .panic m => .panic m
          | .diverge => .diverge
        else pi.2.positional E
      | .err m => .err m
      | .panic m => .panic m
      | .diverge => .diverge
  | .err m => .err m
  | .panic m => .panic m
  | .diverge => .diverge

/-- Go `listNode.append` on `t.root`. -/
def tree.appendRoot (t : tree) (a : argumentNode) : Result tree :=
  match t.root with
  | none => .panic "runtime error: invalid memory address or nil pointer dereference"
  | some r => .ok { t with root := some { r with nodes := r.nodes ++ [a] } }

/-- The loop of `tree.parse`: `for t.peek().typ != itemEOF`. -/
def tree.parseLoop (E : Lib) : Nat → tree → Result tree
  | 0, _ => .diverge
  | n + 1, t =>
    match t.peek with
    | .ok p =>
      if p.1.typ == .itemEOF then .ok p.2
      else
        match p.2.argument E with
        | .ok a =>
          match a.2.appendRoot a.1 with
          | .ok t1 =>
            match t1.next with
            | .ok token =>
              match token.1.typ with
              | .itemArgumentSeparator => tree.parseLoop E n token.2
              | .itemEOF => .ok token.2
              | _ => tree.parseLoop E n token.2
            | .err m => .err m
            | .panic m => .panic m
            | .diverge => .diverge
          | .err m => .err m
          | .panic m => .panic m
          | .diverge => .diverge
        | .err m => .err m
        | .panic m => .panic m
        | .diverge => .diverge
    | .err m => .err m
    | .panic m => .panic m
    | .diverge => .diverge

/-- Go `tree.parse`. -/
def tree.parse (E : Lib) (t : tree) : Result tree :=
  match t.peek with
  | .ok p => tree.parseLoop E (t.lex.length + 2) { p.2 with root := some ⟨p.1.pos, []⟩ }
  | .err m => .err m
  | .panic m => .panic m
  | .diverge => .diverge

/-- Go `newTree`. -/
def newTree : tree := ⟨none, [], zeroItem, zeroItem, zeroItem, 0⟩

/-- Go `tree.startParse`: the scanner is started on the text and the tree is
parsed from its items.  No panic is recovered and the error result is always nil. -/
def tree.startParse (E : Lib) (t : tree) (text : String) : Result tree :=
  match Stragts.lex E text with
  | .ok items => tree.parse E { t with lex := items }
  | .err m => .err m
  | .panic m => .panic m
  | .diverge => .diverge

/-- Go `Parse`. -/
def Parse (E : Lib) (inp : String) : Result tree := newTree.startParse E inp

/-! ## parsed.go -/

/-- The message of `ErrPositionalAfterKeyword`. -/
def ErrPositionalAfterKeyword : String := "positional argument after keywords"

/-- Go `m[k] = v` on a map kept as a list of its entries in order of insertion. -/
def mapInsert (m : List (String × node)) (k : String) (v : node) : List (String × node) :=
  match m with
  | [] => [(k, v)]
  | e :: rest => if e.1 == k then (k, v) :: rest else e :: mapInsert rest k v

/-- Go `m[k]` with the comma-ok result. -/
def mapLookup (m : List (String × node)) (k : String) : Option node :=
  match m with
  | [] => none
  | e :: rest => if e.1 == k then some e.2 else mapLookup rest k

/-- The resolved-argument view. -/
structure parsed where
  indexed : List node
  keyword : List (String × node)
  deriving DecidableEq, Repr

/-- The loop of `parseValue` over `t.root.nodes`. -/
def parseValueLoop : List argumentNode → parsed → Result parsed
  | [], p => .ok p
  | n :: rest, p =>
    match n.ident with
    | none =>
      if p.keyword.length != 0 then .err ErrPositionalAfterKeyword
      else parseValueLoop rest { p with indexed := p.indexed ++ [n.value] }
    | some ident =>
      parseValueLoop rest { p with keyword := mapInsert p.keyword ident.String n.value }

/-- Go `parseValue`. -/
def parseValue (E : Lib) (inp : String) : Result parsed :=
  match Parse E inp with
  | .ok t =>
    match t.root with
    | some root => parseValueLoop root.nodes ⟨[], []⟩
    | none => .panic "runtime error: invalid memory address or nil pointer dereference"
  | .err m => .err m
  | .panic m => .panic m
  | .diverge => .diverge

/-! ## Go `reflect`: the values a field can hold -/

/-- A field of a struct: its name, whether the name is exported, what the
field holds (a type in a struct type, a value in a struct value), and whether
the field is embedded (Go `StructField.Anonymous`). -/
structure FieldOf (α : Type) where
  name : String
  exported : Bool
  value : α
  embedded : Bool
  deriving DecidableEq, Repr

/-- The types of fields, by kind; `other` is any kind the binder never
writes.  A struct type is its name and its fields in the order of their
declaration; two struct types are the same type when they agree in both, so
the name of a defined type is meant with its package.  Types are finite
trees: a struct type that reaches itself through a pointer is not among
them. -/
inductive GoType where
  | bool
  | int (bits : Nat)
  | uint (bits : Nat)
  | float (bits : Nat)
  | string
  | pointer (elem : GoType)
  | slice (elem : GoType)
  | struct (name : String) (fields : List (FieldOf GoType))
  | other (name : String)
  deriving Repr

mutual
/-- Decision of equality on `GoType`, constructor by constructor. -/
def GoType.decEq : (a b : GoType) → Decidable (a = b)
  | .bool, .bool => isTrue rfl
  | .bool, .int _ => isFalse (by intro e; cases e)
  | .bool, .uint _ => isFalse (by intro e; cases e)
  | .bool, .float _ => isFalse (by intro e; cases e)
  | .bool, .string  => isFalse (by intro e; cases e)
  | .bool, .pointer _ => isFalse (by intro e; cases e)
  | .bool, .slice _ => isFalse (by intro e; cases e)
  | .bool, .struct _ _ => isFalse (by intro e; cases e)
  | .bool, .other _ => isFalse (by intro e; cases e)
  | .int _, .bool  => isFalse (by intro e; cases e)
  | .int x0, .int y0 =>
    if h : x0 = y0 then isTrue (by simp only [h])
    else isFalse (by intro e; cases e; exact h (by simp))
  | .int _, .uint _ => isFalse (by intro e; cases e)
  | .int _, .float _ => isFalse (by intro e; cases e)
  | .int _, .string  => isFalse (by intro e; cases e)
  | .int _, .pointer _ => isFalse (by intro e; cases e)
  | .int _, .slice _ => isFalse (by intro e; cases e)
  | .int _, .struct _ _ => isFalse (by intro e; cases e)
  | .int _, .other _ => isFalse (by intro e; cases e)
  | .uint _, .bool  => isFalse (by intro e; cases e)
  | .uint _, .int _ => isFalse (by intro e; cases e)
  | .uint x0, .uint y0 =>
    if h : x0 = y0 then isTrue (by simp only [h])
    else isFalse (by intro e; cases e; exact h (by simp))
  | .uint _, .float _ => isFalse (by intro e; cases e)
  | .uint _, .string  => isFalse (by intro e; cases e)
  | .uint _, .pointer _ => isFalse (by intro e; cases e)
  | .uint _, .slice _ => isFalse (by intro e; cases e)
  | .uint _, .struct _ _ => isFalse (by intro e; cases e)
  | .uint _, .other _ => isFalse (by intro e; cases e)
  | .float _, .bool  => isFalse (by intro e; cases e)
  | .float _, .int _ => isFalse (by intro e; cases e)
  | .float _, .uint _ => isFalse (by intro e; cases e)
  | .float x0, .float y0 =>
    if h : x0 = y0 then isTrue (by simp only [h])
    else isFalse (by intro e; cases e; exact h (by simp))
  | .float _, .string  => isFalse (by intro e; cases e)
  | .float _, .pointer _ => isFalse (by intro e; cases e)
  | .float _, .slice _ => isFalse (by intro e; cases e)
  | .float _, .struct _ _ => isFalse (by intro e; cases e)
  | .float _, .other _ => isFalse (by intro e; cases e)
  | .string, .bool  => isFalse (by intro e; cases e)
  | .string, .int _ => isFalse (by intro e; cases e)
  | .string, .uint _ => isFalse (by intro e; cases e)
  | .string, .float _ => isFalse (by intro e; cases e)
  | .string, .string => isTrue rfl
  | .string, .pointer _ => isFalse (by intro e; cases e)
  | .string, .slice _ => isFalse (by intro e; cases e)
  | .string, .struct _ _ => isFalse (by intro e; cases e)
  | .string, .other _ => isFalse (by intro e; cases e)
  | .pointer _, .bool  => isFalse (by intro e; cases e)
  | .pointer _, .int _ => isFalse (by intro e; cases e)
  | .pointer _, .uint _ => isFalse (by intro e; cases e)
  | .pointer _, .float _ => isFalse (by intro e; cases e)
  | .pointer _, .string  => isFalse (by intro e; cases e)
  | .pointer u, .pointer v =>
    if h : True then
      match GoType.decEq u v with
      | isTrue h2 => isTrue (by simp only [h, h2])
      | isFalse h2 => isFalse (by intro e; cases e; exact h2 rfl)
    else isFalse (by intro e; cases e; exact h (by simp))
  | .pointer _, .slice _ => isFalse (by intro e; cases e)
  | .pointer _, .struct _ _ => isFalse (by intro e; cases e)
  | .pointer _, .other _ => isFalse (by intro e; cases e)
  | .slice _, .bool  => isFalse (by intro e; cases e)
  | .slice _, .int _ => isFalse (by intro e; cases e)
  | .slice _, .uint _ => isFalse (by intro e; cases e)
  | .slice _, .float _ => isFalse (by intro e; cases e)
  | .slice _, .string  => isFalse (by intro e; cases e)
  | .slice _, .pointer _ => isFalse (by intro e; cases e)
  | .slice u, .slice v =>
    if h : True then
      match GoType.decEq u v with
      | isTrue h2 => isTrue (by simp only [h, h2])
      | isFalse h2 => isFalse (by intro e; cases e; exact h2 rfl)
    else isFalse (by intro e; cases e; exact h (by simp))
  | .slice _, .struct _ _ => isFalse (by intro e; cases e)
  | .slice _, .other _ => isFalse (by intro e; cases e)
  | .struct _ _, .bool  => isFalse (by intro e; cases e)
  | .struct _ _, .int _ => isFalse (by intro e; cases e)
  | .struct _ _, .uint _ => isFalse (by intro e; cases e)
  | .struct _ _, .float _ => isFalse (by intro e; cases e)
  | .struct _ _, .string  => isFalse (by intro e; cases e)
  | .struct _ _, .pointer _ => isFalse (by intro e; cases e)
  | .struct _ _, .slice _ => isFalse (by intro e; cases e)
  | .struct x0 u, .struct y0 v =>
    if h : x0 = y0 then
      match GoType.decEqFields u v with
      | isTrue h2 => isTrue (by simp only [h, h2])
      | isFalse h2 => isFalse (by intro e; cases e; exact h2 rfl)
    else isFalse (by intro e; cases e; exact h (by simp))
  | .struct _ _, .other _ => isFalse (by intro e; cases e)
  | .other _, .bool  => isFalse (by intro e; cases e)
  | .other _, .int _ => isFalse (by intro e; cases e)
  | .other _, .uint _ => isFalse (by intro e; cases e)
  | .other _, .float _ => isFalse (by intro e; cases e)
  | .other _, .string  => isFalse (by intro e; cases e)
  | .other _, .pointer _ => isFalse (by intro e; cases e)
  | .other _, .slice _ => isFalse (by intro e; cases e)
  | .other _, .struct _ _ => isFalse (by intro e; cases e)
  | .other x0, .other y0 =>
    if h : x0 = y0 then isTrue (by simp only [h])
    else isFalse (by intro e; cases e; exact h (by simp))
/-- Decision of equality on lists of fields that hold a `GoType`. -/
def GoType.decEqFields : (as bs : List (FieldOf GoType)) → Decidable (as = bs)
  | [], [] => isTrue rfl
  | [], _ :: _ => isFalse (by intro e; cases e)
  | _ :: _, [] => isFalse (by intro e; cases e)
  | ⟨n1, x1, a, e1⟩ :: as, ⟨n2, x2, b, e2⟩ :: bs =>
    if h : n1 = n2 ∧ x1 = x2 ∧ e1 = e2 then
      match GoType.decEq a b with
      | isTrue h1 =>
        match GoType.decEqFields as bs with
        | isTrue h2 => isTrue (by simp only [h, h1, h2])
        | isFalse h2 => isFalse (by intro e; cases e; exact h2 rfl)
      | isFalse h1 => isFalse (by intro e; cases e; exact h1 rfl)
    else isFalse (by intro e; cases e; exact h (by simp))
end

instance : DecidableEq GoType := GoType.decEq

/-- The values of fields.  A pointer owns what it points to; a slice is nil
or holds its elements; a float is carried as its bit pattern; a struct holds
its fields. -/
inductive GoValue where
  | bool (b : Bool)
  | int (bits : Nat) (v : Int)
  | uint (bits : Nat) (v : Nat)
  | float (bits : Nat) (v : Nat)
  | string (s : String)
  | pointer (elem : GoType) (target : Option GoValue)
  | slice (elem : GoType) (vals : Option (List GoValue))
  | struct (name : String) (fields : List (FieldOf GoValue))
  | other (name : String)
  deriving Repr

mutual
/-- Decision of equality on `GoValue`, constructor by constructor. -/
def GoValue.decEq : (a b : GoValue) → Decidable (a = b)
  | .bool x0, .bool y0 =>
    if h : x0 = y0 then isTrue (by simp only [h])
    else isFalse (by intro e; cases e; exact h (by simp))
  | .bool _, .int _ _ => isFalse (by intro e; cases e)
  | .bool _, .uint _ _ => isFalse (by intro e; cases e)
  | .bool _, .float _ _ => isFalse (by intro e; cases e)
  | .bool _, .string _ => isFalse (by intro e; cases e)
  | .bool _, .pointer _ _ => isFalse (by intro e; cases e)
  | .bool _, .slice _ _ => isFalse (by intro e; cases e)
  | .bool _, .struct _ _ => isFalse (by intro e; cases e)
  | .bool _, .other _ => isFalse (by intro e; cases e)
  | .int _ _, .bool _ => isFalse (by intro e; cases e)
  | .int x0 x1, .int y0 y1 =>
    if h : x0 = y0 ∧ x1 = y1 then isTrue (by simp only [h])
    else isFalse (by intro e; cases e; exact h (by simp))
  | .int _ _, .uint _ _ => isFalse (by intro e; cases e)
  | .int _ _, .float _ _ => isFalse (by intro e; cases e)
  | .int _ _, .string _ => isFalse (by intro e; cases e)
  | .int _ _, .pointer _ _ => isFalse (by intro e; cases e)
  | .int _ _, .slice _ _ => isFalse (by intro e; cases e)
  | .int _ _, .struct _ _ => isFalse (by intro e; cases e)
  | .int _ _, .other _ => isFalse (by intro e; cases e)
  | .uint _ _, .bool _ => isFalse (by intro e; cases e)
  | .uint _ _, .int _ _ => isFalse (by intro e; cases e)
  | .uint x0 x1, .uint y0 y1 =>
    if h : x0 = y0 ∧ x1 = y1 then isTrue (by simp only [h])
    else isFalse (by intro e; cases e; exact h (by simp))
  | .uint _ _, .float _ _ => isFalse (by intro e; cases e)
  | .uint _ _, .string _ => isFalse (by intro e; cases e)
  | .uint _ _, .pointer _ _ => isFalse (by intro e; cases e)
  | .uint _ _, .slice _ _ => isFalse (by intro e; cases e)
  | .uint _ _, .struct _ _ => isFalse (by intro e; cases e)
  | .uint _ _, .other _ => isFalse (by intro e; cases e)
  | .float _ _, .bool _ => isFalse (by intro e; cases e)
  | .float _ _, .int _ _ => isFalse (by intro e; cases e)
  | .float _ _, .uint _ _ => isFalse (by intro e; cases e)
  | .float x0 x1, .float y0 y1 =>
    if h : x0 = y0 ∧ x1 = y1 then isTrue (by simp only [h])
    else isFalse (by intro e; cases e; exact h (by simp))
  | .float _ _, .string _ => isFalse (by intro e; cases e)
  | .float _ _, .pointer _ _ => isFalse (by intro e; cases e)
  | .float _ _, .slice _ _ => isFalse (by intro e; cases e)
  | .float _ _, .struct _ _ => isFalse (by intro e; cases e)
  | .float _ _, .other _ => isFalse (by intro e; cases e)
  | .string _, .bool _ => isFalse (by intro e; cases e)
  | .string _, .int _ _ => isFalse (by intro e; cases e)
  | .string _, .uint _ _ => isFalse (by intro e; cases e)
  | .string _, .float _ _ => isFalse (by intro e; cases e)
  | .string x0, .string y0 =>
    if h : x0 = y0 then isTrue (by simp only [h])
    else isFalse (by intro e; cases e; exact h (by simp))
  | .string _, .pointer _ _ => isFalse (by intro e; cases e)
  | .string _, .slice _ _ => isFalse (by intro e; cases e)
  | .string _, .struct _ _ => isFalse (by intro e; cases e)
  | .string _, .other _ => isFalse (by intro e; cases e)
  | .pointer _ _, .bool _ => isFalse (by intro e; cases e)
  | .pointer _ _, .int _ _ => isFalse (by intro e; cases e)
  | .pointer _ _, .uint _ _ => isFalse (by intro e; cases e)
  | .pointer _ _, .float _ _ => isFalse (by intro e; cases e)
  | .pointer _ _, .string _ => isFalse (by intro e; cases e)
  | .pointer x0 none, .pointer y0 none =>
    if h : x0 = y0 then isTrue (by simp only [h])
    else isFalse (by intro e; cases e; exact h (by simp))
  | .pointer _ none, .pointer _ (some _) => isFalse (by intro e; cases e)
  | .pointer _ (some _), .pointer _ none => isFalse (by intro e; cases e)
  | .pointer x0 (some u), .pointer y0 (some v) =>
    if h : x0 = y0 then
      match GoValue.decEq u v with
      | isTrue h2 => isTrue (by simp only [h, h2])
      | isFalse h2 => isFalse (by intro e; cases e; exact h2 rfl)
    else isFalse (by intro e; cases e; exact h (by simp))
  | .pointer _ _, .slice _ _ => isFalse (by intro e; cases e)
  | .pointer _ _, .struct _ _ => isFalse (by intro e; cases e)
  | .pointer _ _, .other _ => isFalse (by intro e; cases e)
  | .slice _ _, .bool _ => isFalse (by intro e; cases e)
  | .slice _ _, .int _ _ => isFalse (by intro e; cases e)
  | .slice _ _, .uint _ _ => isFalse (by intro e; cases e)
  | .slice _ _, .float _ _ => isFalse (by intro e; cases e)
  | .slice _ _, .string _ => isFalse (by intro e; cases e)
  | .slice _ _, .pointer _ _ => isFalse (by intro e; cases e)
  | .slice x0 none, .slice y0 none =>
    if h : x0 = y0 then isTrue (by simp only [h])
    else isFalse (by intro e; cases e; exact h (by simp))
  | .slice _ none, .slice _ (some _) => isFalse (by intro e; cases e)
  | .slice _ (some _), .slice _ none => isFalse (by intro e; cases e)
  | .slice x0 (some u), .slice y0 (some v) =>
    if h : x0 = y0 then
      match GoValue.decEqList u v with
      | isTrue h2 => isTrue (by simp only [h, h2])
      | isFalse h2 => isFalse (by intro e; cases e; exact h2 rfl)
    else isFalse (by intro e; cases e; exact h (by simp))
  | .slice _ _, .struct _ _ => isFalse (by intro e; cases e)
  | .slice _ _, .other _ => isFalse (by intro e; cases e)
  | .struct _ _, .bool _ => isFalse (by intro e; cases e)
  | .struct _ _, .int _ _ => isFalse (by intro e; cases e)
  | .struct _ _, .uint _ _ => isFalse (by intro e; cases e)
  | .struct _ _, .float _ _ => isFalse (by intro e; cases e)
  | .struct _ _, .string _ => isFalse (by intro e; cases e)
  | .struct _ _, .pointer _ _ => isFalse (by intro e; cases e)
  | .struct _ _, .slice _ _ => isFalse (by intro e; cases e)
  | .struct x0 u, .struct y0 v =>
    if h : x0 = y0 then
      match GoValue.decEqFields u v with
      | isTrue h2 => isTrue (by simp only [h, h2])
      | isFalse h2 => isFalse (by intro e; cases e; exact h2 rfl)
    else isFalse (by intro e; cases e; exact h (by simp))
  | .struct _ _, .other _ => isFalse (by intro e; cases e)
  | .other _, .bool _ => isFalse (by intro e; cases e)
  | .other _, .int _ _ => isFalse (by intro e; cases e)
  | .other _, .uint _ _ => isFalse (by intro e; cases e)
  | .other _, .float _ _ => isFalse (by intro e; cases e)
  | .other _, .string _ => isFalse (by intro e; cases e)
  | .other _, .pointer _ _ => isFalse (by intro e; cases e)
  | .other _, .slice _ _ => isFalse (by intro e; cases e)
  | .other _, .struct _ _ => isFalse (by intro e; cases e)
  | .other x0, .other y0 =>
    if h : x0 = y0 then isTrue (by simp only [h])
    else isFalse (by intro e; cases e; exact h (by simp))
/-- Decision of equality on lists of `GoValue`. -/
def GoValue.decEqList : (as bs : List GoValue) → Decidable (as = bs)
  | [], [] => isTrue rfl
  | [], _ :: _ => isFalse (by intro e; cases e)
  | _ :: _, [] => isFalse (by intro e; cases e)
  | a :: as, b :: bs =>
    match GoValue.decEq a b with
    | isTrue h1 =>
      match GoValue.decEqList as bs with
      | isTrue h2 => isTrue (by rw [h1, h2])
      | isFalse h2 => isFalse (by intro e; cases e; exact h2 rfl)
    | isFalse h1 => isFalse (by intro e; cases e; exact h1 rfl)
/-- Decision of equality on lists of fields that hold a `GoValue`. -/
def GoValue.decEqFields : (as bs : List (FieldOf GoValue)) → Decidable (as = bs)
  | [], [] => isTrue rfl
  | [], _ :: _ => isFalse (by intro e; cases e)
  | _ :: _, [] => isFalse (by intro e; cases e)
  | ⟨n1, x1, a, e1⟩ :: as, ⟨n2, x2, b, e2⟩ :: bs =>
    if h : n1 = n2 ∧ x1 = x2 ∧ e1 = e2 then
      match GoValue.decEq a b with
      | isTrue h1 =>
        match GoValue.decEqFields as bs with
        | isTrue h2 => isTrue (by simp only [h, h1, h2])
        | isFalse h2 => isFalse (by intro e; cases e; exact h2 rfl)
      | isFalse h1 => isFalse (by intro e; cases e; exact h1 rfl)
    else isFalse (by intro e; cases e; exact h (by simp))
end

instance : DecidableEq GoValue := GoValue.decEq

mutual
/-- Go `Value.Type`. -/
def GoValue.typeOf : GoValue → GoType
  | .bool _ => .bool
  | .int b _ => .int b
  | .uint b _ => .uint b
  | .float b _ => .float b
  | .string _ => .string
  | .pointer e _ => .pointer e
  | .slice e _ => .slice e
  | .struct n fs => .struct n (GoValue.typesOf fs)
  | .other n => .other n
/-- The fields of the type of a struct value. -/
def GoValue.typesOf : List (FieldOf GoValue) → List (FieldOf GoType)
  | [] => []
  | ⟨n, x, v, e⟩ :: rest => ⟨n, x, v.typeOf, e⟩ :: GoValue.typesOf rest
end

mutual
/-- Go `reflect.Zero(t)`, and what `reflect.New(t)` points to. -/
def GoType.zero : GoType → GoValue
  | .bool => .bool false
  | .int b => .int b 0
  | .uint b => .uint b 0
  | .float b => .float b 0
  | .string => .string ""
  | .pointer e => .pointer e none
  | .slice e => .slice e none
  | .struct n fs => .struct n (GoType.zeros fs)
  | .other n => .other n
/-- The fields of the zero value of a struct type. -/
def GoType.zeros : List (FieldOf GoType) → List (FieldOf GoValue)
  | [] => []
  | ⟨n, x, t, e⟩ :: rest => ⟨n, x, t.zero, e⟩ :: GoType.zeros rest
end

/-- The conversion of an `int64` to a signed integer of `bits` bits. -/
def wrapInt (bits : Nat) (x : Int) : Int :=
  (x + 2 ^ (bits - 1)) % 2 ^ bits - 2 ^ (bits - 1)

/-- The conversion of a `uint64` to an unsigned integer of `bits` bits. -/
def wrapUint (bits : Nat) (x : Nat) : Nat := x % 2 ^ bits

/-- Go `Value.SetBool`.  The message with which Go panics on a value of
another kind names that kind; here, and in the setters below, it says only
that the kind is not the one required. -/
def SetBool (settable : Bool) (f : GoValue) (x : Bool) : GoValue × Result Unit :=
  if !settable then (f, .panic "reflect: reflect.Value.SetBool using value obtained using unexported field")
  else
    match f with
    | .bool _ => (.bool x, .ok ())
    | _ => (f, .panic "reflect: call of reflect.Value.SetBool on non-bool Value")

/-- Go `Value.SetInt`. -/
def SetInt (settable : Bool) (f : GoValue) (x : Int) : GoValue × Result Unit :=
  if !settable then (f, .panic "reflect: reflect.Value.SetInt using value obtained using unexported field")
  else
    match f with
    | .int b _ => (.int b (wrapInt b x), .ok ())
    | _ => (f, .panic "reflect: call of reflect.Value.SetInt on non-int Value")

/-- Go `Value.SetUint`. -/
def SetUint (settable : Bool) (f : GoValue) (x : Nat) : GoValue × Result Unit :=
  if !settable then (f, .panic "reflect: reflect.Value.SetUint using value obtained using unexported field")
  else
    match f with
    | .uint b _ => (.uint b (wrapUint b x), .ok ())
    | _ => (f, .panic "reflect: call of reflect.Value.SetUint on non-uint Value")

/-- Go `Value.SetFloat`. -/
def SetFloat (E : Lib) (settable : Bool) (f : GoValue) (x : Nat) : GoValue × Result Unit :=
  if !settable then (f, .panic "reflect: reflect.Value.SetFloat using value obtained using unexported field")
  else
    match f with
    | .float b _ => (.float b (if b == 32 then E.float32Of x else x), .ok ())
    | _ => (f, .panic "reflect: call of reflect.Value.SetFloat on non-float Value")

/-- Go `Value.SetString`. -/
def SetString (settable : Bool) (f : GoValue) (x : String) : GoValue × Result Unit :=
  if !settable then (f, .panic "reflect: reflect.Value.SetString using value obtained using unexported field")
  else
    match f with
    | .string _ => (.string x, .ok ())
    | _ => (f, .panic "reflect: call of reflect.Value.SetString on non-string Value")

/-- Go `Value.Set` with a value of the type of `f`. -/
def SetValue (settable : Bool) (f : GoValue) (x : GoValue) : GoValue × Result Unit :=
  if !settable then (f, .panic "reflect: reflect.Value.Set using value obtained using unexported field")
  else (x, .ok ())

/-! ## Go `reflect`: the fields of a struct -/

/-- A field of a struct value.  A field that is not exported is read-only
under `reflect`. -/
abbrev Field := FieldOf GoValue

/-- Go `fieldScan` of reflect/type.go: a struct type met by the search of
`FieldByNameFunc` and the index sequence that leads to it. -/
structure fieldScan where
  typ : GoType
  index : List Nat
  deriving DecidableEq, Repr

/-- The variables of `structType.FieldByNameFunc` that its loops change: the
queue `next`, the map `nextCount`, the set `visited`, and `result.Index`,
which is present once `ok` is set. -/
structure scanState where
  next : List fieldScan
  nextCount : List (GoType × Nat)
  visited : List GoType
  result : Option (List Nat)
  deriving Repr

/-- The entry of a map from struct types to numbers, zero when there is none;
an entry is written by putting it in front. -/
def countOf (count : List (GoType × Nat)) (t : GoType) : Nat :=
  match count.find? (fun e => e.1 == t) with
  | some e => e.2
  | none => 0

/-- The fields of a struct type. -/
def GoType.fields : GoType → List (FieldOf GoType)
  | .struct _ fs => fs
  | _ => []

/-- The struct type `ntyp` that `FieldByNameFunc` may descend into at a
field: the type of an embedded field, or what it points to, when that is a
struct. -/
def embeddedStruct (f : FieldOf GoType) : Option GoType :=
  if f.embedded then
    match f.value with
    | .pointer (.struct n fs) => some (.struct n fs)
    | .struct n fs => some (.struct n fs)
    | _ => none
  else none

/-- The loop `for i := range t.Fields` of `FieldByNameFunc` from the field
`i` on, for a struct type reached by `index`; `multiple` is `count[t] > 1`.
The result is `none` when the function returns from inside the loop, a name
having matched twice at this depth. -/
def scanFields (m : String → Bool) (multiple : Bool) (index : List Nat) :
    List (FieldOf GoType) → Nat → scanState → Option scanState
  | [], _, s => some s
  | f :: rest, i, s =>
    if m f.name then
      if multiple || s.result.isSome then none
      else scanFields m multiple index rest (i + 1) { s with result := some (index ++ [i]) }
    else
      match embeddedStruct f with
      | none => scanFields m multiple index rest (i + 1) s
      | some styp =>
        if s.result.isSome then scanFields m multiple index rest (i + 1) s
        else if 0 < countOf s.nextCount styp then
          scanFields m multiple index rest (i + 1)
            { s with nextCount := (styp, 2) :: s.nextCount }
        else
          scanFields m multiple index rest (i + 1)
            { s with
              nextCount := (styp, if multiple then 2 else 1) :: s.nextCount,
              next := s.next ++ [⟨styp, index ++ [i]⟩] }

/-- The loop `for _, scan := range current` of `FieldByNameFunc`; `count`
is the map `nextCount` of the level before. -/
def scanLevel (m : String → Bool) (count : List (GoType × Nat)) :
    List fieldScan → scanState → Option scanState
  | [], s => some s
  | scan :: rest, s =>
    if s.visited.contains scan.typ then scanLevel m count rest s
    else
      match scanFields m (1 < countOf count scan.typ) scan.index scan.typ.fields 0
          { s with visited := scan.typ :: s.visited } with
      | none => none
      | some s1 => scanLevel m count rest s1

/-- The loop `for len(next) > 0` of `FieldByNameFunc`, one depth of embedding
per round: the index sequence of the field found, if any.  The rounds are
counted down from a bound that `scanLevels_total` shows is never used up. -/
def scanLevels (m : String → Bool) :
    Nat → List fieldScan → List (GoType × Nat) → List GoType → Result (Option (List Nat))
  | _, [], _, _ => .ok none
  | 0, _ :: _, _, _ => .diverge
  | fuel + 1, scan :: rest, nextCount, visited =>
    match scanLevel m nextCount (scan :: rest) ⟨[], [], visited, none⟩ with
    | none => .ok none
    | some s =>
      match s.result with
      | some index => .ok (some index)
      | none => scanLevels m fuel s.next s.nextCount s.visited

mutual
/-- The depth to which struct types are nested inside a type. -/
def GoType.nesting : GoType → Nat
  | .pointer e => e.nesting
  | .slice e => e.nesting
  | .struct _ fs => GoType.nestingAll fs + 1
  | _ => 0
/-- The greatest nesting among the types of the fields. -/
def GoType.nestingAll : List (FieldOf GoType) → Nat
  | [] => 0
  | ⟨_, _, t, _⟩ :: rest => max t.nesting (GoType.nestingAll rest)
end

/-- Go `(*structType).FieldByNameFunc` of reflect/type.go: the index sequence
of the one field whose name satisfies `m` at the least depth of embedding at
which a name does, found breadth first. -/
def GoType.FieldByNameFunc (t : GoType) (m : String → Bool) : Result (Option (List Nat)) :=
  scanLevels m t.nesting [⟨t, []⟩] [] []

/-! ## tag.go -/

/-- The head of `applyNode`: a nil pointer is set to a fresh zero value of
its element type and the rest of the call, `k`, works on what it points to;
any other value is handed to `k` as it is. -/
def throughNilPointer (settable : Bool) (f : GoValue)
    (k : GoValue → GoValue × Result Unit) : GoValue × Result Unit :=
  match f with
  | .pointer elem none =>
    if !settable then
      (f, .panic "reflect: reflect.Value.Set using value obtained using unexported field")
    else ((.pointer elem (some (k elem.zero).1)), (k elem.zero).2)
  | _ => k f

mutual
/-- The type switch of `applyNode`: the value the storage of `f` holds
afterwards and how the call ended. -/
def applyKind (E : Lib) (settable : Bool) (f : GoValue) : node → GoValue × Result Unit
  | .boolN nv => SetBool settable f nv.value
  | .switchN nv => SetBool settable f nv.value.value
  | .identifierN nv => SetString settable f nv.value
  | .nilN _ => SetValue settable f f.typeOf.zero
  | .numberN nv =>
    if nv.IsInt then SetInt settable f nv.Int64
    else if nv.IsUint then SetUint settable f nv.Uint64
    else if nv.IsFloat then SetFloat E settable f nv.Float64
    else (f, .ok ())
  | .sliceN _ values =>
    match f.typeOf with
    | .slice elem =>
      if !settable then
        (f, .panic "reflect: reflect.Value.Set using value obtained using unexported field")
      else ((.slice elem (some (applyElems E settable elem values).1)),
        (applyElems E settable elem values).2)
    | _ => (f, .panic "reflect.MakeSlice of non-slice type")
  | .stringN nv => SetString settable f nv.Text
/-- The loop `for i, el := range nv.values` with its call
`applyNode(f.Index(i), el)` over the fresh slice, whose elements start as the
zero value of `elem`. -/
def applyElems (E : Lib) (settable : Bool) (elem : GoType) :
    List node → List GoValue × Result Unit
  | [] => ([], .ok ())
  | el :: rest =>
    match (throughNilPointer settable elem.zero (fun g => applyKind E settable g el)).2 with
    | .ok _ =>
      ((throughNilPointer settable elem.zero (fun g => applyKind E settable g el)).1 ::
        (applyElems E settable elem rest).1, (applyElems E settable elem rest).2)
    | other =>
      ((throughNilPointer settable elem.zero (fun g => applyKind E settable g el)).1 ::
        rest.map (fun _ => elem.zero), other)
end

/-- Go `applyNode(f, n)`. -/
def applyNode (E : Lib) (settable : Bool) (f : GoValue) (n : node) : GoValue × Result Unit :=
  throughNilPointer settable f (fun g => applyKind E settable g n)

/-- What `applyNode` does on the zero `reflect.Value`, which
`FieldByNameFunc` returns when no field or more than one field matches: every
setter and `Type` panic on it. -/
def applyNodeZero : node → Result Unit
  | .boolN _ => .panic "reflect: call of reflect.Value.SetBool on zero Value"
  | .switchN _ => .panic "reflect: call of reflect.Value.SetBool on zero Value"
  | .identifierN _ => .panic "reflect: call of reflect.Value.SetString on zero Value"
  | .nilN _ => .panic "reflect: call of reflect.Value.Type on zero Value"
  | .numberN nv =>
    if nv.IsInt then .panic "reflect: call of reflect.Value.SetInt on zero Value"
    else if nv.IsUint then .panic "reflect: call of reflect.Value.SetUint on zero Value"
    else if nv.IsFloat then .panic "reflect: call of reflect.Value.SetFloat on zero Value"
    else .ok ()
  | .sliceN _ _ => .panic "reflect: call of reflect.Value.Type on zero Value"
  | .stringN _ => .panic "reflect: call of reflect.Value.SetString on zero Value"

/-- A struct tag: the key it was found under and its text. -/
structure Tag where
  Name : String
  Value : String
  deriving DecidableEq, Repr

/-- The argument `model any` of `Tag.Fill`, by what the guard of `Fill`
distinguishes; a struct is its name and the list of its fields. -/
inductive Model where
  | invalid
  | nilValue (typeName : String)
  | notNilable (typeName : String)
  | notStructPointer (typeName : String)
  | structPointer (typeName : String) (fields : List Field)
  deriving DecidableEq, Repr

/-- The index sequence that Go `Value.FieldByNameFunc` hands to `FieldByIndex`
on the struct named `ty` with the fields `fields`, `none` when it returns the
zero Value. -/
def fieldByNameFunc (ty : String) (fields : List Field) (m : String → Bool) :
    Result (Option (List Nat)) :=
  GoType.FieldByNameFunc (.struct ty (GoValue.typesOf fields)) m

/-- The step of Go `Value.FieldByIndex` between two indices: the fields of the
struct that the value is or, the value being an embedded pointer to a struct,
that it points to; the pointer must not be nil. -/
def embeddedFields : GoValue → Result (List Field)
  | .struct _ sub => .ok sub
  | .pointer (.struct _ _) none =>
    .panic "reflect: indirection through nil pointer to embedded struct"
  | .pointer (.struct _ _) (some (.struct _ sub)) => .ok sub
  | _ => .panic "reflect: call of reflect.Value.Field on non-struct Value"

/-- The value once the fields that `embeddedFields` gave have been written
to in place. -/
def withFields : GoValue → List Field → GoValue
  | .struct name _, sub => .struct name sub
  | .pointer t (some (.struct name _)), sub => .pointer t (some (.struct name sub))
  | v, _ => v

/-- Go `applyNode(v.FieldByIndex(index), n)` on the struct with the fields
`fs`: `Value.Field` at every index, through an embedded pointer to a struct
between two of them, and the binding at the field reached.  `Value.Field`
hands down only the read-only mark of fields that are not embedded, so the
field reached can be set when it is exported itself.  `FieldByNameFunc`
yields no empty index (`fieldByNameFunc_head`); that case is closed like an
index out of range. -/
def applyAt (E : Lib) (n : node) : List Nat → List Field → List Field × Result Unit
  | [], fs => (fs, .panic "reflect: Field index out of range")
  | i :: rest, fs =>
    match fs[i]? with
    | none => (fs, .panic "reflect: Field index out of range")
    | some f =>
      if rest.isEmpty then
        (fs.set i { f with value := (applyNode E f.exported f.value n).1 },
          (applyNode E f.exported f.value n).2)
      else
        match embeddedFields f.value with
        | .ok sub =>
          (fs.set i { f with value := withFields f.value (applyAt E n rest sub).1 },
            (applyAt E n rest sub).2)
        | .err msg => (fs, .err msg)
        | .panic msg => (fs, .panic msg)
        | .diverge => (fs, .diverge)

/-- The first loop of `Tag.Fill`: `applyNode(m.Field(i), n)` for the values
from index `i` on. -/
def fillIndexed (E : Lib) : List node → Nat → List Field → List Field × Result Unit
  | [], _, fs => (fs, .ok ())
  | n :: rest, i, fs =>
    match fs[i]? with
    | none => (fs, .panic "reflect: Field index out of range")
    | some f =>
      match (applyNode E f.exported f.value n).2 with
      | .ok _ =>
        fillIndexed E rest (i + 1) (fs.set i { f with value := (applyNode E f.exported f.value n).1 })
      | other => (fs.set i { f with value := (applyNode E f.exported f.value n).1 }, other)

/-- The second loop of `Tag.Fill`, over the entries of the map in the order
of the iteration, on the struct named `ty`. -/
def fillKeyword (E : Lib) (ty : String) :
    List (String × node) → List Field → List Field × Result Unit
  | [], fs => (fs, .ok ())
  | kv :: rest, fs =>
    match fieldByNameFunc ty fs (fun s => E.toKebabCase s == kv.1) with
    | .ok none =>
      match applyNodeZero kv.2 with
      | .ok _ => fillKeyword E ty rest fs
      | other => (fs, other)
    | .ok (some index) =>
      match (applyAt E kv.2 index fs).2 with
      | .ok _ => fillKeyword E ty rest (applyAt E kv.2 index fs).1
      | other => ((applyAt E kv.2 index fs).1, other)
    | .err msg => (fs, .err msg)
    | .panic msg => (fs, .panic msg)
    | .diverge => (fs, .diverge)

/-- The entries of a map in the order in which `range` visits them. -/
def mapRange (E : Lib) (m : List (String × node)) : List (String × node) :=
  (E.mapOrder (m.map Prod.fst)).filterMap (fun k => (mapLookup m k).map (fun v => (k, v)))

/-- Go `Tag.Fill`: the target as the call leaves it and how the call ended. -/
def Tag.Fill (E : Lib) (tag : Tag) (model : Model) : Model × Result Unit :=
  match model with
  | .invalid => (model, .err "fill target must be a pointer to a struct, not <nil>")
  | .nilValue ty => (model, .err ("fill target must be a pointer to a struct, not " ++ ty))
  | .notNilable _ => (model, .panic "reflect: call of reflect.Value.IsNil on a Value that cannot be nil")
  | .notStructPointer ty =>
    (model, .err ("fill target must be a pointer to a struct, not " ++ ty))
  | .structPointer ty fields =>
    if tag.Value == "-" then (model, .ok ())
    else
      match parseValue E tag.Value with
      | .ok p =>
        match (fillIndexed E p.indexed 0 fields).2 with
        | .ok _ =>
          (.structPointer ty
              (fillKeyword E ty (mapRange E p.keyword) (fillIndexed E p.indexed 0 fields).1).1,
            (fillKeyword E ty (mapRange E p.keyword) (fillIndexed E p.indexed 0 fields).1).2)
        | other => (.structPointer ty (fillIndexed E p.indexed 0 fields).1, other)
      | .err m => (model, .err m)
      | .panic m => (model, .panic m)
      | .diverge => (model, .diverge)

/-! ## An environment for evaluation -/

/-- Modelled from the spec: `toKebabCase` is called by `Tag.Fill` but is not
among the sources; the spec says only that camelCase-style field names match
kebab-case keys.  This rendering puts a hyphen before every upper-case ASCII
letter but the first and lowers the letters.  It is used for evaluating
examples; the theorems hold for every `Lib`. -/
def kebab (s : String) : String :=
  String.mk (s.data.enum.flatMap (fun p =>
    if 65 ≤ p.2.toNat && p.2.toNat ≤ 90 then
      (if p.1 == 0 then [] else ['-']) ++ [Char.ofNat (p.2.toNat + 32)]
    else [p.2]))

/-- The number of binary digits of `m`, for `m` below `2 ^ fuel`. -/
def bitLength : Nat → Nat → Nat
  | 0, _ => 0
  | fuel + 1, m => if m == 0 then 0 else bitLength fuel (m / 2) + 1

/-- Go `float64(u)` for a `uint64`: the bit pattern of the nearest float64,
a tie going to the even mantissa. -/
def float64OfNat (m : Nat) : Nat :=
  if m == 0 then 0
  else
    let n := bitLength 64 m
    if n ≤ 53 then (n - 1 + 1023) * 2 ^ 52 + (m * 2 ^ (53 - n) - 2 ^ 52)
    else
      let q := m / 2 ^ (n - 53)
      let r := m % 2 ^ (n - 53)
      let half := 2 ^ (n - 54)
      let q := if half < r || (r == half && q % 2 == 1) then q + 1 else q
      (n - 1 + 1023) * 2 ^ 52 + (q - 2 ^ 52)

/-- Go `float64(i)` for an `int64`. -/
def float64OfInt (x : Int) : Nat :=
  if x < 0 then 2 ^ 63 + float64OfNat x.natAbs else float64OfNat x.toNat

/-- An environment for evaluating examples written in ASCII without escapes
and without floating-point literals, on which the tables of `Lib` and its
conversions from a float are not consulted. -/
def asciiLib : Lib where
  letter := fun _ => false
  digit := fun _ => false
  printable := fun _ => false
  unquoteEscaped := fun _ => none
  quoteEscaped := fun s => s
  parseFloat := fun _ => none
  floatOfInt := float64OfInt
  floatOfUint := float64OfNat
  intOfFloat := fun _ => 0
  uintOfFloat := fun _ => 0
  floatEq := fun _ _ => false
  float32Of := fun x => x
  toKebabCase := kebab
  mapOrder := fun keys => keys
  mapOrder_perm := fun _ => List.Perm.refl _

/-- The struct of `TestTag_Fill` in tag_test.go, as `v := &TestStruct{}`
leaves it; `int` has 64 bits. -/
def TestStruct : List Field :=
  [⟨"NumField", true, .int 64 0, false⟩, ⟨"BoolField", true, .bool false, false⟩,
    ⟨"StringField", true, .string "", false⟩, ⟨"Switch", true, .pointer .bool none, false⟩,
    ⟨"Slice", true, .slice .string none, false⟩]

/-! ## Specification vocabulary -/

/-- The cursor invariant: the cursor is within the input, and once the end
of input has been seen, it is at the end. -/
def lexer.Inv (l : lexer) : Prop :=
  (l.atEOF = true → l.input.length ≤ l.pos) ∧ l.pos ≤ l.input.length

/-- The cursor of the second state is the first one moved forward; nothing
else of the scanner changed. -/
structure lexer.Adv (l l1 : lexer) : Prop where
  input : l1.input = l.input
  items : l1.items = l.items
  start : l1.start = l.start
  pos : l.pos ≤ l1.pos
  inv : l1.Inv

/-- The step potential of the scanner: it falls with every state function called. -/
def potential (s : stateFn) (l : lexer) : Nat :=
  2 * (l.input.length - l.pos) +
    (match s with
      | .lexArgumentStart => 2
      | .lexValue => 2
      | _ => 1)

/-- What a state function may rely on when it is entered. -/
def Ready (E : Lib) (s : stateFn) (l : lexer) : Prop :=
  match s with
  | .lexIdentifier => isLetter E (l.input[l.pos]?) = true
  | .lexNumber => isNumeric (l.input[l.pos]?) = true
  | .lexQuote => ∃ c, l.input[l.pos]? = some c
  | _ => True

/-- What one call of a state function does: it ends the scan with one
terminal item, or goes on after at most one item that is not terminal. -/
def StepOK (E : Lib) (s : stateFn) (l : lexer) (r : Option stateFn × lexer) : Prop :=
  r.2.input = l.input ∧ r.2.Inv ∧
    match r.1 with
    | none => ∃ it, r.2.items = l.items ++ [it] ∧ (it.typ = .itemEOF ∨ it.typ = .itemError)
    | some s1 =>
      Ready E s1 r.2 ∧ potential s1 r.2 < potential s l ∧
        (r.2.items = l.items ∨
          ∃ it, r.2.items = l.items ++ [it] ∧ it.typ ≠ .itemEOF ∧ it.typ ≠ .itemError)

/-- What a scanning loop does when it ends: one error item and the end of
the scan, or one item that is not terminal and the state `lexInArgument`,
with the next token starting at the cursor. -/
def LoopOK (l : lexer) (r : Option stateFn × lexer) : Prop :=
  r.2.input = l.input ∧ r.2.Inv ∧ l.pos ≤ r.2.pos ∧
    match r.1 with
    | none => ∃ it, r.2.items = l.items ++ [it] ∧ it.typ = .itemError
    | some s1 =>
      s1 = .lexInArgument ∧ r.2.start = r.2.pos ∧
        ∃ it, r.2.items = l.items ++ [it] ∧ it.typ ≠ .itemEOF ∧ it.typ ≠ .itemError

/-- The items of a finished scan: items that are not terminal, then one
terminal item. -/
def Scanned (before after : List item) : Prop :=
  ∃ front last, after = before ++ front ++ [last] ∧
    (last.typ = .itemEOF ∨ last.typ = .itemError) ∧
    ∀ i ∈ front, i.typ ≠ .itemEOF ∧ i.typ ≠ .itemError

/-- The tokens the parser has still to read: the lookahead that was backed
up, then the items the scanner has still to deliver. -/
def tree.pending (t : tree) : List item :=
  match t.peekCount with
  | 0 => t.lex
  | 1 => t.token0 :: t.lex
  | 2 => t.token1 :: t.token0 :: t.lex
  | _ => t.token2 :: t.token1 :: t.token0 :: t.lex

/-- The token stream ahead of the parser; past the last item of the scanner
every receive yields the zero item. -/
def tree.stream (t : tree) (i : Nat) : item := t.pending.getD i zeroItem

/-- The second state is the first one after `k` tokens were read. -/
def tree.Consumed (t t1 : tree) (k : Nat) : Prop :=
  (∀ i, t1.stream i = t.stream (i + k)) ∧ t1.root = t.root

/-- From position `n` on the stream holds error items only. -/
def tree.Bounded (t : tree) (n : Nat) : Prop :=
  ∀ i, n ≤ i → (t.stream i).typ = .itemError

/-- No end-of-input token is ahead. -/
def tree.NoEOF (t : tree) : Prop := ∀ i, (t.stream i).typ ≠ .itemEOF

/-- What a parsing function does on a tree whose lookahead holds at most two
tokens: it panics, or it returns after reading at least one token, the first
of them not an error token, and leaves at most one token backed up. -/
def Parsed {α : Type} (t : tree) (r : Result (α × tree)) : Prop :=
  match r with
  | .ok v => (∃ k, 1 ≤ k ∧ t.Consumed v.2 k) ∧ v.2.peekCount ≤ 1 ∧
      (t.stream 0).typ ≠ .itemError
  | .panic _ => True
  | .err _ => False
  | .diverge => False

/-- An argument whose value is a switch carries the identifier of the switch. -/
def argumentNode.WF (a : argumentNode) : Prop :=
  ∀ sn, a.value = .switchN sn → a.ident = some sn.ident

/-- What the loop of `parse` has done when it returns: it met an end-of-input
token, and the root holds the arguments it held before followed by the
arguments read, each of them well formed. -/
def ParseLoopDone (t t1 : tree) : Prop :=
  (∃ i, (t.stream i).typ = .itemEOF) ∧
    ∀ r, t.root = some r → ∃ r1, t1.root = some r1 ∧ r1.pos = r.pos ∧
      ∃ added, r1.nodes = r.nodes ++ added ∧ ∀ a ∈ added, a.WF

/-- Some argument without an identifier stands after an argument that carries one. -/
def PositionalAfterKeyword (nodes : List argumentNode) : Prop :=
  ∃ l1 a l2 b l3, nodes = l1 ++ a :: (l2 ++ b :: l3) ∧ a.ident ≠ none ∧ b.ident = none

/-- The value of the last argument of the list that carries the identifier `k`. -/
def lastNamed (nodes : List argumentNode) (k : String) : Option node :=
  (nodes.reverse.find? (fun a => a.ident.map identifierNode.String == some k)).map
    argumentNode.value

/-! ## The vocabulary of the binder -/

/-- The type a binding writes to: for a pointer type, whose zero value is a
nil pointer that the binding sets to a fresh value, the type pointed to; any
other type itself. -/
def GoType.target : GoType → GoType
  | .pointer e => e
  | t => t

/-- The kind of the type is a signed integer. -/
def GoType.isInt : GoType → Bool
  | .int _ => true
  | _ => false

/-- The kind of the type is an unsigned integer. -/
def GoType.isUint : GoType → Bool
  | .uint _ => true
  | _ => false

/-- The kind of the type is a floating-point number. -/
def GoType.isFloat : GoType → Bool
  | .float _ => true
  | _ => false

mutual
/-- A type takes a node when the binder writes the node to a settable value
of the type as it is: bool takes a Bool or a switch; string an Identifier or
a String; every type takes nil; a Number goes by the first of its flags that
holds, to a signed integer when it is an integer, else to an unsigned integer
when it is one, else to a float, and a Number with no flag, which the binder
skips, goes anywhere; a slice type takes a Slice whose values the target of
the element type takes. -/
def GoType.takes : GoType → node → Bool
  | t, .boolN _ => t == .bool
  | t, .switchN _ => t == .bool
  | t, .identifierN _ => t == .string
  | t, .stringN _ => t == .string
  | _, .nilN _ => true
  | t, .numberN nv =>
    if nv.IsInt then t.isInt
    else if nv.IsUint then t.isUint
    else if nv.IsFloat then t.isFloat
    else true
  | t, .sliceN _ values =>
    match t with
    | .slice elem => GoType.takesAll elem.target values
    | _ => false
/-- The type takes every node of the list. -/
def GoType.takesAll : GoType → List node → Bool
  | _, [] => true
  | t, v :: rest => GoType.takes t v && GoType.takesAll t rest
end

/-- A value is compatible with a node when its type takes the node or, the
value being a nil pointer, the type it points to does.  `applyNode_ok_iff`
shows that these are the bindings to a settable value that succeed. -/
def Compatible : GoValue → node → Bool
  | .pointer e none, n => e.takes n
  | f, n => f.typeOf.takes n

/-- The integer `x` is a value of the signed integer type of `bits` bits. -/
def Fits (bits : Nat) (x : Int) : Prop :=
  0 < bits ∧ -(2 : Int) ^ (bits - 1) ≤ x ∧ x < 2 ^ (bits - 1)

mutual
/-- The value holds what the node says: the boolean of a Bool or a switch, the
name of an Identifier, the unquoted text of a String, the zero value of its
type for nil, for a Number the interpretation its flags select, converted to
the width of the value (an integer reduced modulo two to the width, which is
the integer itself when it fits), and for a Slice a slice of as many elements,
each holding its value.  A Number without a flag, which the parser never
makes and the binder skips, says nothing. -/
def HoldsDirect (E : Lib) : GoValue → node → Prop
  | g, .boolN nv => g = .bool nv.value
  | g, .switchN nv => g = .bool nv.value.value
  | g, .identifierN nv => g = .string nv.value
  | g, .stringN nv => g = .string nv.Text
  | g, .nilN _ => g = g.typeOf.zero
  | g, .numberN nv =>
    if nv.IsInt then
      ∃ bits x, g = .int bits x ∧ x = wrapInt bits nv.Int64 ∧ (Fits bits nv.Int64 → x = nv.Int64)
    else if nv.IsUint then ∃ bits, g = .uint bits (wrapUint bits nv.Uint64)
    else if nv.IsFloat then
      ∃ bits, g = .float bits (if bits == 32 then E.float32Of nv.Float64 else nv.Float64)
    else True
  | g, .sliceN _ values => ∃ elem gs, g = .slice elem (some gs) ∧ HoldsAll E gs values
/-- The elements hold the values one by one, each directly or behind a
pointer. -/
def HoldsAll (E : Lib) : List GoValue → List node → Prop
  | [], [] => True
  | g :: gs, v :: vs =>
    (match g with
      | .pointer _ (some h) => HoldsDirect E h v
      | _ => HoldsDirect E g v) ∧ HoldsAll E gs vs
  | _, _ => False
end

/-- The value holds what the node says, directly or behind a pointer. -/
def Holds (E : Lib) : GoValue → node → Prop
  | .pointer _ (some g), n => HoldsDirect E g n
  | g, n => HoldsDirect E g n

/-- What the binder never changes of a field: its name, whether it is
exported, its type, and whether it is embedded. -/
def FieldOf.shape (f : FieldOf GoValue) : FieldOf GoType :=
  ⟨f.name, f.exported, f.value.typeOf, f.embedded⟩

/-- Go `v.FieldByIndex(index)` on the struct with the fields `fs`, read only:
the field reached, if the walk gets there. -/
def fieldAt : List Nat → List Field → Option Field
  | [], _ => none
  | i :: rest, fs =>
    match fs[i]? with
    | none => none
    | some f =>
      if rest.isEmpty then some f
      else
        match embeddedFields f.value with
        | .ok sub => fieldAt rest sub
        | _ => none

/-- Two index sequences lead to fields neither of which lies inside the
other: neither sequence begins with the other. -/
def Apart (a b : List Nat) : Prop := ¬ a <+: b ∧ ¬ b <+: a

/-- `Tag.Fill` on a view without the argument named `k`: both loops, the
second passing over the entry of `k`. -/
def fillWithout (E : Lib) (ty : String) (p : parsed) (k : String) (fs : List Field) :
    List Field × Result Unit :=
  match (fillIndexed E p.indexed 0 fs).2 with
  | .ok _ =>
    fillKeyword E ty ((mapRange E p.keyword).filter (fun kv => kv.1 != k))
      (fillIndexed E p.indexed 0 fs).1
  | other => ((fillIndexed E p.indexed 0 fs).1, other)

mutual
/-- The names of the promoted fields of a struct type: the fields of its
embedded structs, at any depth. -/
def GoType.promotedNames : List (FieldOf GoType) → List String
  | [] => []
  | ⟨_, _, t, e⟩ :: rest =>
    (if e then GoType.innerNames t else []) ++ GoType.promotedNames rest
/-- The names of the fields, promoted ones included, of a struct type or of
the struct type a pointer type points to. -/
def GoType.innerNames : GoType → List String
  | .struct _ fs => fs.map FieldOf.name ++ GoType.promotedNames fs
  | .pointer e =>
    match e with
    | .struct _ fs => fs.map FieldOf.name ++ GoType.promotedNames fs
    | _ => []
  | _ => []
end

/-! ## The vocabulary of number literals -/

/-- A decimal digit. -/
def isDecDigit (c : Char) : Bool := 48 ≤ c.toNat && c.toNat ≤ 57

/-- The number that a text of decimal digits denotes in base ten. -/
def decimalValue (cs : List Char) : Nat :=
  cs.foldl (fun n c => 10 * n + (c.toNat - 48)) 0

/-- A text of one or more decimal digits that does not open with `0`, or the
text `0` itself. -/
def DecimalLiteral (cs : List Char) : Prop :=
  cs ≠ [] ∧ (∀ c ∈ cs, isDecDigit c = true) ∧ (cs.head? = some '0' → cs = ['0'])

/-! ## The reference parser on token lists -/

/-- The tokens ahead of the parser are those of the list, in order. -/
def tree.Reads (t : tree) (L : List item) : Prop := ∀ i, t.stream i = L.getD i zeroItem

/-- The node that `tree.simpleValue` builds from one token. -/
def leafOf (E : Lib) (tok : item) : Result node :=
  match tok.typ with
  | .itemNil => .ok (.nilN ⟨tok.pos⟩)
  | .itemBool => .ok (.boolN ⟨tok.pos, tok.val == "true"⟩)
  | .itemIdentifier => .ok (.identifierN ⟨tok.pos, tok.val⟩)
  | .itemString =>
    if tok.val.data.length < 2 then .panic "runtime error: slice bounds out of range"
    else
      match unquote E (String.mk (tok.val.data.drop 1).dropLast) with
      | none => .panic "invalid syntax"
      | some s => .ok (.stringN ⟨tok.pos, tok.val, s⟩)
  | .itemNumber =>
    match newNumber E tok.pos tok.val with
    | .ok n => .ok (.numberN n)
    | .err m => .panic m
    | .panic m => .panic m
    | .diverge => .diverge
  | _ => .panic ("unexpected " ++ tok.String E)

/-- Reference for `tree.simpleValue`: the node of the first token and the
tokens after it.  Past the end of the list stands the zero item. -/
def refSimple (E : Lib) (L : List item) : Result (node × List item) :=
  match leafOf E (L.headD zeroItem) with
  | .ok n => .ok (n, L.tail)
  | .err m => .err m
  | .panic m => .panic m
  | .diverge => .diverge

/-- Reference for the loop of `tree.slice`: the values that follow, each
after a `;`, and the tokens after the last of them. -/
def refRest (E : Lib) : List item → Result (List node × List item)
  | [] => .ok ([], [])
  | [tok] =>
    if tok.typ == .itemListSeparator then
      match leafOf E zeroItem with
      | .ok n => .ok ([n], [])
      | .err m => .err m
      | .panic m => .panic m
      | .diverge => .diverge
    else .ok ([], [tok])
  | tok :: v :: rest =>
    if tok.typ == .itemListSeparator then
      match leafOf E v with
      | .ok n =>
        match refRest E rest with
        | .ok r => .ok (n :: r.1, r.2)
        | .err m => .err m
        | .panic m => .panic m
        | .diverge => .diverge
      | .err m => .err m
      | .panic m => .panic m
      | .diverge => .diverge
    else .ok ([], tok :: v :: rest)

/-- Reference for `tree.argumentValue`: a Slice when the second token is a
`;`, a simple value otherwise. -/
def refValue (E : Lib) (L : List item) : Result (node × List item) :=
  if (L.tail.headD zeroItem).typ == .itemListSeparator then
    match refSimple E L with
    | .ok v =>
      match refRest E v.2 with
      | .ok r => .ok (.sliceN v.1.getPosition (v.1 :: r.1), r.2)
      | .err m => .err m
      | .panic m => .panic m
      | .diverge => .diverge
    | .err m => .err m
    | .panic m => .panic m
    | .diverge => .diverge
  else refSimple E L

/-- Reference for `tree.argument`: a switch, an identifier with `=` and a
value, or a value alone. -/
def refArgument (E : Lib) (L : List item) : Result (argumentNode × List item) :=
  if (L.headD zeroItem).typ == .itemDisable || (L.headD zeroItem).typ == .itemEnable then
    if (L.tail.headD zeroItem).typ != .itemIdentifier then
      .panic ("unexpected " ++ (L.tail.headD zeroItem).String E)
    else
      .ok (⟨(L.headD zeroItem).pos,
          some ⟨(L.tail.headD zeroItem).pos, (L.tail.headD zeroItem).val⟩,
          .switchN ⟨(L.headD zeroItem).pos,
            ⟨(L.tail.headD zeroItem).pos, (L.tail.headD zeroItem).val⟩,
            ⟨(L.headD zeroItem).pos, (L.headD zeroItem).typ == .itemEnable⟩⟩⟩, L.tail.tail)
  else if (L.headD zeroItem).typ == .itemIdentifier &&
      (L.tail.headD zeroItem).typ == .itemAssign then
    match refValue E L.tail.tail with
    | .ok v =>
      .ok (⟨(L.headD zeroItem).pos, some ⟨(L.headD zeroItem).pos, (L.headD zeroItem).val⟩, v.1⟩,
        v.2)
    | .err m => .err m
    | .panic m => .panic m
    | .diverge => .diverge
  else
    match refValue E L with
    | .ok v => .ok (⟨v.1.getPosition, none, v.1⟩, v.2)
    | .err m => .err m
    | .panic m => .panic m
    | .diverge => .diverge

/-- Reference for the loop of `tree.parse`: arguments are read until the end
of input stands before or after one of them; the token after an argument is
dropped whatever it is. -/
def refArgs (E : Lib) : Nat → List item → List argumentNode → Result (List argumentNode)
  | 0, _, _ => .diverge
  | n + 1, L, acc =>
    if (L.headD zeroItem).typ == .itemEOF then .ok acc
    else
      match refArgument E L with
      | .ok a =>
        if (a.2.headD zeroItem).typ == .itemEOF then .ok (acc ++ [a.1])
        else refArgs E n a.2.tail (acc ++ [a.1])
      | .err m => .err m
      | .panic m => .panic m
      | .diverge => .diverge

/-- Reference for `Parse` on the items of the scanner: the arguments of the root. -/
def refParse (E : Lib) (L : List item) : Result (List argumentNode) :=
  refArgs E (L.length + 2) L []

/-- What a parsing function returns agrees with its reference on the tokens
ahead: the same value with the tokens left as the reference says, or the same
failure. -/
def Agrees {α : Type} (t : tree) (r : Result (α × tree)) (ref : Result (α × List item)) :
    Prop :=
  match ref with
  | .ok v => ∃ t1, r = .ok (v.1, t1) ∧ t1.Reads v.2 ∧ t1.peekCount ≤ 1 ∧ t1.root = t.root
  | .err m => r = .err m
  | .panic m => r = .panic m
  | .diverge => r = .diverge

/-! ## Vocabulary of the scanner's locality -/

/-- One of the three separator characters `,` `;` `=`. -/
def isSep (c : Char) : Bool := c == ',' || c == ';' || c == '='

/-- The scanner reads the text `v`: its input is `pre ++ v ++ suf`, where
`suf` is empty or opens with a separator; the token under way starts `s`
runes into `v` and the cursor stands `p` runes into `v`. -/
structure lexer.At (l : lexer) (pre v suf : List Char) (s p : Nat) : Prop where
  input : l.input = pre ++ (v ++ suf)
  sep : ∀ c, suf.head? = some c → isSep c = true
  pos : l.pos = pre.length + p
  start : l.start = pre.length + s
  sle : s ≤ p
  ple : p ≤ v.length
  inv : l.Inv

/-- A test on runes that does not tell a separator from the end of input. -/
def Blind (f : Option Char → Bool) : Prop := ∀ c, isSep c = true → f (some c) = f none

/-- The kind of the token that `lexIdentifier` sends for a word. -/
def wordType (w : String) : itemType :=
  if w == "true" || w == "false" then .itemBool
  else if w == "nil" then .itemNil
  else .itemIdentifier

/-- The test of `atTerminator` on the rune under the cursor. -/
def terminates (r : Option Char) : Bool :=
  isSpace r || (r == none || r == some ',' || r == some ';' || r == some '=')

/-- The test of the loop of `lexIdentifier`: the rune goes on the word. -/
def isIdentRune (E : Lib) (r : Option Char) : Bool := r == some '-' || isAlphaNumeric E r

/-- The kinds of token that stand for a value. -/
def itemType.isValue : itemType → Bool
  | .itemNil => true
  | .itemBool => true
  | .itemNumber => true
  | .itemString => true
  | .itemIdentifier => true
  | _ => false

/-- The state in which the scanner reads a value that opens with the rune
`c`: the choice made by `lexValue`, and by `lexArgumentStart` for a rune
that is no switch mark. -/
def valueState (E : Lib) (c : Char) : Option stateFn :=
  if isLetter E (some c) then some .lexIdentifier
  else if isNumeric (some c) then some .lexNumber
  else if c == doubleQuote || c == singleQuote then some .lexQuote
  else none

/-- The scanner `l2` is `l` after the token `ty` with the text `v` has been
sent: it stands right behind the text. -/
structure lexer.Sent (l l2 : lexer) (pre v suf : List Char) (ty : itemType) : Prop where
  stands : l2.At pre v suf v.length v.length
  items : l2.items = l.items ++
    [⟨ty, byteOffset (pre ++ (v ++ suf)) pre.length, String.mk v⟩]

/-- The text `v` is one value token of the kind `ty` wherever it stands:
entered with `v` under the cursor, followed by a separator or by the end of
input, the scanner sends exactly that token and goes on behind it. -/
structure Local (E : Lib) (v : List Char) (ty : itemType) : Prop where
  nonempty : v ≠ []
  kind : ty.isValue = true
  letter : ty ≠ .itemNumber → ty ≠ .itemString → isLetter E v.head? = true
  word : isLetter E v.head? = true → ty = wordType (String.mk v)
  enter : ∀ (l : lexer) (pre suf : List Char) (s : stateFn), l.At pre v suf 0 0 →
    s = .lexArgumentStart ∨ s = .lexValue →
    ∃ s1 l2, callState E s l = .ok (some s1, l) ∧
      callState E s1 l = .ok (some .lexInArgument, l2) ∧ l.Sent l2 pre v suf ty
  ident : isLetter E v.head? = true → ∀ (l : lexer) (pre suf : List Char),
    l.At pre v suf 0 0 →
    ∃ l2, lexIdentifier E l = .ok (some .lexInArgument, l2) ∧ l.Sent l2 pre v suf ty

/-! ## Sequences of tokens -/

/-- The kind of the token for a separator rune. -/
def sepType (c : Char) : itemType :=
  if c == ',' then .itemArgumentSeparator
  else if c == ';' then .itemListSeparator
  else .itemAssign

/-- The state of the scanner behind a separator rune. -/
def sepState (c : Char) : stateFn := if c == ',' then .lexArgumentStart else .lexValue

/-- The kind of the token for a switch mark. -/
def markType (c : Char) : itemType := if c == '!' then .itemDisable else .itemEnable

/-- The text is a sequence of tokens that the scanner, entered in the state
`s`, reads to the end of input without an error: separators, values, and
switch marks with the word behind them, each as `(kind, text)`. -/
inductive Lexed (E : Lib) : stateFn → List Char → List (itemType × List Char) → Prop where
  | stop (s : stateFn) : s = .lexArgumentStart ∨ s = .lexInArgument → Lexed E s [] []
  | sep (c : Char) (rest : List Char) (toks : List (itemType × List Char)) :
      isSep c = true → Lexed E (sepState c) rest toks →
      Lexed E .lexInArgument (c :: rest) ((sepType c, [c]) :: toks)
  | value (s : stateFn) (v : List Char) (ty : itemType) (rest : List Char)
      (toks : List (itemType × List Char)) :
      s = .lexArgumentStart ∨ s = .lexValue → Local E v ty →
      Lexed E .lexInArgument rest toks → Lexed E s (v ++ rest) ((ty, v) :: toks)
  | switch (c : Char) (v : List Char) (ty : itemType) (rest : List Char)
      (toks : List (itemType × List Char)) :
      c = '~' ∨ c = '!' → Local E v ty → isLetter E v.head? = true →
      Lexed E .lexInArgument rest toks →
      Lexed E .lexArgumentStart (c :: (v ++ rest)) ((markType c, [c]) :: (ty, v) :: toks)

/-- The length of a text in bytes. -/
def utf8Len (v : List Char) : Nat := (v.map Char.utf8Size).sum

/-- The items for a sequence of tokens that starts at the byte offset `b`,
with the end-of-input token behind them. -/
def tokensAt : Nat → List (itemType × List Char) → List item
  | b, [] => [⟨.itemEOF, b, ""⟩]
  | b, tk :: r => ⟨tk.1, b, String.mk tk.2⟩ :: tokensAt (b + utf8Len tk.2) r

/-- The call of a state function ended the scan with an error token. -/
def ErrorStep (l : lexer) (r : Option stateFn × lexer) : Prop :=
  r.1 = none ∧ ∃ it, r.2.items = l.items ++ [it] ∧ it.typ = .itemError

/-! ## Identifiers, and nodes without their byte offsets -/

/-- An identifier as the specification describes it: a letter followed by
letters, digits, `_` or `-`, other than `true`, `false` and `nil`. -/
def IsIdentifier (E : Lib) (x : String) : Prop :=
  (∃ c w, x.data = c :: w ∧ isLetter E (some c) = true ∧
    ∀ d ∈ w, (isLetter E (some d) || isDigit E (some d) || d == '_' || d == '-') = true) ∧
  x ≠ "true" ∧ x ≠ "false" ∧ x ≠ "nil"

/-- The identifier without its byte offset. -/
def identifierNode.strip (n : identifierNode) : identifierNode := ⟨0, n.value⟩

mutual
/-- The value node without its byte offsets: what is left is the kind of the
node and its value. -/
def node.strip : node → node
  | .nilN _ => .nilN ⟨0⟩
  | .boolN n => .boolN ⟨0, n.value⟩
  | .numberN n => .numberN { n with pos := 0 }
  | .stringN n => .stringN { n with pos := 0 }
  | .identifierN n => .identifierN n.strip
  | .switchN n => .switchN ⟨0, n.ident.strip, ⟨0, n.value.value⟩⟩
  | .sliceN _ vs => .sliceN 0 (node.stripAll vs)
/-- The nodes of a Slice without their byte offsets. -/
def node.stripAll : List node → List node
  | [] => []
  | v :: vs => v.strip :: node.stripAll vs
end

/-- The argument without its byte offsets. -/
def argumentNode.strip (a : argumentNode) : argumentNode :=
  ⟨0, a.ident.map identifierNode.strip, a.value.strip⟩

/-- Two items with the same kind and the same text. -/
def item.Same (a b : item) : Prop := a.typ = b.typ ∧ a.val = b.val

/-! ## The tokens of rendered nodes -/

/-- The simple value nodes: all but Switch and Slice. -/
def node.isLeaf : node → Bool
  | .switchN _ => false
  | .sliceN _ _ => false
  | _ => true

/-- The token of a simple value node in the rendered text: its kind and its
text. -/
def leafTok : node → itemType × List Char
  | .nilN _ => (.itemNil, "nil".data)
  | .boolN n => (.itemBool, n.String.data)
  | .numberN n => (.itemNumber, n.Text.data)
  | .stringN n => (.itemString, n.Quoted.data)
  | .identifierN n => (.itemIdentifier, n.value.data)
  | _ => (.itemError, [])

/-- The tokens of the values of a Slice after the first, each behind a `;`. -/
def restToks : List node → List (itemType × List Char)
  | [] => []
  | v :: vs => (.itemListSeparator, [';']) :: leafTok v :: restToks vs

/-- The tokens of a value in the rendered text. -/
def valueToks : node → List (itemType × List Char)
  | .sliceN _ [] => []
  | .sliceN _ (v :: vs) => leafTok v :: restToks vs
  | n => [leafTok n]

/-- The tokens of an argument in the rendered text. -/
def argToks (a : argumentNode) : List (itemType × List Char) :=
  match a.value with
  | .switchN sw =>
    [(markType (if sw.value.value then '~' else '!'), [if sw.value.value then '~' else '!']),
      (.itemIdentifier, sw.ident.value.data)]
  | v =>
    match a.ident with
    | some ident => (.itemIdentifier, ident.value.data) :: (.itemAssign, ['=']) :: valueToks v
    | none => valueToks v

/-- The tokens of the arguments after the first, each behind a `,`. -/
def moreToks : List argumentNode → List (itemType × List Char)
  | [] => []
  | a :: as => (.itemArgumentSeparator, [',']) :: (argToks a ++ moreToks as)

/-- The tokens of a list of arguments in the rendered text. -/
def listToks : List argumentNode → List (itemType × List Char)
  | [] => []
  | a :: as => argToks a ++ moreToks as

/-- The text of the arguments after the first, each behind a `,`. -/
def moreString : List argumentNode → String
  | [] => ""
  | a :: as => "," ++ a.String ++ moreString as

/-- A simple value node that came from a token: its text is a token of its
kind wherever it stands, and the token gives the node back at every position. -/
structure LeafOK (E : Lib) (n : node) : Prop where
  leaf : n.isLeaf = true
  loc : Local E (leafTok n).2 (leafTok n).1
  again : ∀ b, ∃ n1, leafOf E ⟨(leafTok n).1, b, String.mk (leafTok n).2⟩ = .ok n1 ∧
    n1.strip = n.strip

/-- A value node that came from tokens: a simple value, or a Slice of at
least two simple values. -/
def ValueOK (E : Lib) (n : node) : Prop :=
  LeafOK E n ∨ ∃ p v1 v2 vs, n = .sliceN p (v1 :: v2 :: vs) ∧ ∀ v ∈ v1 :: v2 :: vs, LeafOK E v

/-- An argument that came from tokens: a switch under its own identifier, or
a value with or without an identifier before it. -/
def ArgOK (E : Lib) (a : argumentNode) : Prop :=
  (∃ sw, a.value = .switchN sw ∧ a.ident.map identifierNode.strip = some sw.ident.strip ∧
    Local E sw.ident.value.data .itemIdentifier) ∨
  (ValueOK E a.value ∧ ∀ ident, a.ident = some ident → Local E ident.value.data .itemIdentifier)

/-- Every value token of the list is a token wherever it stands. -/
def AllLocal (E : Lib) (L : List item) : Prop :=
  ∀ tok ∈ L, tok.typ.isValue = true → Local E tok.val.data tok.typ

/-! ## Simple value literals -/

/-- A simple value literal that is valid on its own, with its node: the
scanner reads the text as one token before the end of input, and `Parse`
returns a root with one argument, which has no identifier and holds the node. -/
def SimpleLiteral (E : Lib) (v : String) (n : node) : Prop :=
  (∃ tok eof, lex E v = .ok [tok, eof] ∧ eof.typ = .itemEOF) ∧
  ∃ t, Parse E v = .ok t ∧ t.root = some ⟨0, [⟨0, none, n⟩]⟩

/-! ## Slices of at least two elements -/

mutual
/-- Every Slice node in the value, the value itself included, has at least
two elements. -/
def node.wideSlices : node → Bool
  | .sliceN _ vs => decide (2 ≤ vs.length) && node.wideSlicesAll vs
  | _ => true
/-- Every Slice node in the values of the list has at least two elements. -/
def node.wideSlicesAll : List node → Bool
  | [] => true
  | v :: vs => v.wideSlices && node.wideSlicesAll vs
end

/-! ## Runs without white space -/

/-- The cursor of the second state is the first one moved forward over runes
none of which is white space; nothing else of the scanner changed. -/
def lexer.Dense (l l1 : lexer) : Prop :=
  l.Adv l1 ∧ ∀ i, l.pos ≤ i → i < l1.pos → isSpace l.input[i]? = false

/-- No rune of the set is white space. -/
def NoSpace (valid : String) : Prop := ∀ c ∈ valid.data, isSpace (some c) = false

/-- The byte offset `b` lies inside a string token of the items. -/
def InString (items : List item) (b : Nat) : Prop :=
  ∃ tok ∈ items, tok.typ = .itemString ∧ tok.pos ≤ b ∧ b < tok.pos + tok.val.utf8ByteSize

/-! ## Quotes that are not closed -/

/-- The number of backslashes that stand at the end of the text. -/
def trailingBackslashes (text : List Char) : Nat :=
  (text.reverse.takeWhile (fun c => c == backslash)).length

/-- The rune with the index `i` of the text is escaped: an odd number of
backslashes stands right before it. -/
def Escaped (text : List Char) (i : Nat) : Bool := trailingBackslashes (text.take i) % 2 == 1

/-- The text holds no `q` that is not escaped by a backslash before it. -/
def Unclosed (q : Char) (text : List Char) : Prop :=
  ∀ i < text.length, text[i]? = some q → Escaped text i = true

instance (q : Char) (text : List Char) : Decidable (Unclosed q text) :=
  inferInstanceAs (Decidable (∀ i < text.length, text[i]? = some q → Escaped text i = true))

/-- The loop of `lexer.run` after `n` calls of a state function: the state
that is called next and the scanner it is called on, or how the scan ended
before. -/
def lexer.runSteps (E : Lib) : Nat → stateFn → lexer → Result (Option stateFn × lexer)
  | 0, s, l => .ok (some s, l)
  | n + 1, s, l =>
    match callState E s l with
    | .ok (some s1, l1) => lexer.runSteps E n s1 l1
    | .ok (none, l1) => .ok (none, l1)
    | .err m => .err m
    | .panic m => .panic m
    | .diverge => .diverge

/-! ## The order of the tokens of a scan -/

/-- The kinds of the switch marks `~` and `!`. -/
def itemType.isMark : itemType → Bool
  | .itemEnable => true
  | .itemDisable => true
  | _ => false

/-- The kinds of the separators `=`, `;` and `,`. -/
def itemType.isSeparator : itemType → Bool
  | .itemAssign => true
  | .itemListSeparator => true
  | .itemArgumentSeparator => true
  | _ => false

/-- The kinds of token that `lexIdentifier` sends for a word. -/
def itemType.isWord : itemType → Bool
  | .itemIdentifier => true
  | .itemBool => true
  | .itemNil => true
  | _ => false

/-- A token behind which a value is expected: a separator or a switch mark. -/
def itemType.opens (t : itemType) : Bool := t.isSeparator || t.isMark

/-- A token of the kind `b` may stand right behind a token of the kind `a`;
`none` is the start of the scan. -/
def mayFollow (a : Option itemType) (b : itemType) : Bool :=
  match a with
  | none => b.isValue || b.isMark || b == .itemEOF || b == .itemError
  | some .itemArgumentSeparator => b.isValue || b.isMark || b == .itemEOF || b == .itemError
  | some .itemAssign => b.isValue || b == .itemError
  | some .itemListSeparator => b.isValue || b == .itemError
  | some .itemEnable => b.isWord || b == .itemError
  | some .itemDisable => b.isWord || b == .itemError
  | some .itemEOF => false
  | some .itemError => false
  | some _ => b.isSeparator || b == .itemEOF || b == .itemError

/-- Every token of the list may stand behind the one before it, the first
one behind a token of the kind `a`. -/
def chained : Option itemType → List item → Bool
  | _, [] => true
  | a, t :: ts => mayFollow a t.typ && chained (some t.typ) ts

/-- The kind of the last item, `a` for no item. -/
def lastKind (a : Option itemType) (items : List item) : Option itemType :=
  match items.getLast? with
  | some t => some t.typ
  | none => a

/-- The state function may be called when the last token sent was of the
kind `a`. -/
def stateFn.behind (s : stateFn) (a : Option itemType) : Bool :=
  match s, a with
  | .lexArgumentStart, none => true
  | .lexArgumentStart, some t => t == .itemArgumentSeparator
  | .lexInArgument, none => false
  | .lexInArgument, some t => t.isValue
  | .lexValue, none => false
  | .lexValue, some t => t == .itemAssign || t == .itemListSeparator
  | .lexIdentifier, none => true
  | .lexIdentifier, some t => t.opens
  | _, none => true
  | _, some t => t.isSeparator

/-- What a call of a state function may do: send a token of the kind `ty`,
or none, and name the state `next` to go on in, or end the scan. -/
def stateFn.sends (s : stateFn) (next : Option stateFn) (ty : Option itemType) : Bool :=
  match s, next, ty with
  | .lexArgumentStart, none, some t => t == .itemEOF || t == .itemError
  | .lexArgumentStart, some .lexIdentifier, some t => t.isMark
  | .lexArgumentStart, some .lexIdentifier, none => true
  | .lexArgumentStart, some .lexNumber, none => true
  | .lexArgumentStart, some .lexQuote, none => true
  | .lexInArgument, none, some t => t == .itemEOF || t == .itemError
  | .lexInArgument, some .lexArgumentStart, some t => t == .itemArgumentSeparator
  | .lexInArgument, some .lexValue, some t => t == .itemAssign || t == .itemListSeparator
  | .lexValue, none, some t => t == .itemError
  | .lexValue, some .lexIdentifier, none => true
  | .lexValue, some .lexNumber, none => true
  | .lexValue, some .lexQuote, none => true
  | .lexIdentifier, none, some t => t == .itemError
  | .lexIdentifier, some .lexInArgument, some t => t.isWord
  | .lexNumber, none, some t => t == .itemError
  | .lexNumber, some .lexInArgument, some t => t == .itemNumber
  | .lexQuote, none, some t => t == .itemError
  | .lexQuote, some .lexInArgument, some t => t == .itemString
  | _, _, _ => false

/-- The call of the state function `s` on the scanner `l` ended in `r`
as the table of `stateFn.sends` allows: at most one token was sent. -/
def Transits (s : stateFn) (l : lexer) (r : Option stateFn × lexer) : Prop :=
  (r.2.items = l.items ∧ s.sends r.1 none = true) ∨
    ∃ it, r.2.items = l.items ++ [it] ∧ s.sends r.1 (some it.typ) = true

/-- A list of tokens that ends with the error token `e` where a value is
expected, every token before `e` being one that the parser reads without a
failure: values with a node, each followed by a separator, and switch marks
followed by an identifier.  The flag tells whether the list stands at the
start of an argument, where a switch mark may stand. -/
inductive ErrForm (E : Lib) (e : item) : Bool → List item → Prop where
  | stop (arg : Bool) : ErrForm E e arg [e]
  | value (arg : Bool) (v sep : item) (R : List item) (n : node) :
      leafOf E v = .ok n → sep.typ.isSeparator = true →
      ErrForm E e (sep.typ == .itemArgumentSeparator) R → ErrForm E e arg (v :: sep :: R)
  | mark (c : item) : c.typ.isMark = true → ErrForm E e true [c, e]
  | switch (c w sep : item) (R : List item) :
      c.typ.isMark = true → w.typ = .itemIdentifier → sep.typ.isSeparator = true →
      ErrForm E e (sep.typ == .itemArgumentSeparator) R → ErrForm E e true (c :: w :: sep :: R)

/-- The flag of `ErrForm` behind a token of the kind `a`: an argument starts
at the start of the scan and behind a `,`. -/
def argFlag (a : Option itemType) : Bool :=
  match a with
  | none => true
  | some t => t == .itemArgumentSeparator

/-! ## The scanner halts -/

theorem lexer.Adv.refl {l : lexer} (h : l.Inv) : l.Adv l := ⟨rfl, rfl, rfl, le_refl _, h⟩

theorem lexer.Adv.trans {a b c : lexer} (h1 : a.Adv b) (h2 : b.Adv c) : a.Adv c :=
  ⟨h2.input.trans h1.input, h2.items.trans h1.items, h2.start.trans h1.start,
    le_trans h1.pos h2.pos, h2.inv⟩

theorem lexer.next_some {l : lexer} {c : Char} (h : l.input[l.pos]? = some c) :
    l.next = (some c, { l with pos := l.pos + 1 }) := by
  simp [lexer.next, h]

theorem lexer.next_none {l : lexer} (h : l.input[l.pos]? = none) :
    l.next = (none, { l with atEOF := true }) := by
  simp [lexer.next, h]

theorem lexer.next_fst (l : lexer) : l.next.1 = l.input[l.pos]? := by
  cases h : l.input[l.pos]? with
  | none => rw [lexer.next_none h]
  | some c => rw [lexer.next_some h]

theorem lexer.undo_next_some {l : lexer} {c : Char} (hi : l.Inv)
    (h : l.input[l.pos]? = some c) : l.next.2.undo = l := by
  have hlt : l.pos < l.input.length := by
    by_contra hc
    rw [List.getElem?_eq_none_iff.mpr (not_lt.mp hc)] at h
    cases h
  have hf : l.atEOF = false := by
    cases ha : l.atEOF with
    | false => rfl
    | true => exact absurd (hi.1 ha) (not_le.mpr hlt)
  rw [lexer.next_some h]
  cases l
  simp_all [lexer.undo]

theorem lexer.undo_next_none {l : lexer} (h : l.input[l.pos]? = none) :
    l.next.2.undo = { l with atEOF := true } := by
  rw [lexer.next_none h]
  simp [lexer.undo]

theorem lexer.adv_next {l : lexer} (hi : l.Inv) : l.Adv l.next.2 := by
  cases h : l.input[l.pos]? with
  | none =>
    rw [lexer.next_none h]
    exact ⟨rfl, rfl, rfl, le_refl _, fun _ => List.getElem?_eq_none_iff.mp h, hi.2⟩
  | some c =>
    rw [lexer.next_some h]
    have hlt : l.pos < l.input.length := by
      by_contra hc
      rw [List.getElem?_eq_none_iff.mpr (not_lt.mp hc)] at h
      cases h
    refine ⟨rfl, rfl, rfl, Nat.le_succ _, ?_, hlt⟩
    intro ha
    exact absurd (hi.1 ha) (not_le.mpr hlt)

theorem lexer.adv_peek {l : lexer} (hi : l.Inv) : l.Adv l.peek.2 := by
  unfold lexer.peek
  cases h : l.input[l.pos]? with
  | none =>
    simp only [lexer.undo_next_none h]
    exact ⟨rfl, rfl, rfl, le_refl _, fun _ => List.getElem?_eq_none_iff.mp h, hi.2⟩
  | some c =>
    simp only [lexer.undo_next_some hi h]
    exact lexer.Adv.refl hi

theorem lexer.peek_fst (l : lexer) : l.peek.1 = l.input[l.pos]? := by
  unfold lexer.peek
  exact lexer.next_fst l

theorem lexer.peek_pos {l : lexer} (hi : l.Inv) : l.peek.2.pos = l.pos := by
  unfold lexer.peek
  cases h : l.input[l.pos]? with
  | none => simp only [lexer.undo_next_none h]
  | some c => simp only [lexer.undo_next_some hi h]

theorem lexer.lt_of_get {l : lexer} {c : Char} (h : l.input[l.pos]? = some c) :
    l.pos < l.input.length := by
  by_contra hc
  rw [List.getElem?_eq_none_iff.mpr (not_lt.mp hc)] at h
  cases h

@[simp] theorem potential_emit (s : stateFn) (l : lexer) (t : itemType) :
    potential s (l.emit t) = potential s l := rfl

@[simp] theorem Ready_emit (E : Lib) (s : stateFn) (l : lexer) (t : itemType) :
    Ready E s (l.emit t) = Ready E s l := by
  cases s <;> rfl

theorem potential_adv_le (s : stateFn) {l l1 : lexer} (h : l.Adv l1) :
    potential s l1 ≤ potential s l := by
  have h1 := h.input
  have h2 := h.pos
  simp only [potential, h1]
  omega

theorem stepOK_errorf (E : Lib) (s : stateFn) {l l1 : lexer} (h : l.Adv l1) (msg : String) :
    StepOK E s l (l1.errorf msg) := by
  refine ⟨h.input, h.inv, ?_⟩
  exact ⟨⟨.itemError, byteOffset l1.input l1.start, msg⟩, by simp [lexer.errorf, h.items],
    Or.inr rfl⟩

theorem stepOK_emitEOF (E : Lib) (s : stateFn) {l l1 : lexer} (h : l.Adv l1) :
    StepOK E s l (none, l1.emit .itemEOF) := by
  refine ⟨h.input, h.inv, ?_⟩
  exact ⟨⟨.itemEOF, byteOffset l1.input l1.start, slice l1.input l1.start l1.pos⟩,
    by simp [lexer.emit, h.items], Or.inl rfl⟩

theorem stepOK_emit (E : Lib) (s s1 : stateFn) {l l1 : lexer} (t : itemType) (h : l.Adv l1)
    (h1 : t ≠ .itemEOF) (h2 : t ≠ .itemError) (hr : Ready E s1 l1)
    (hp : potential s1 l1 < potential s l) : StepOK E s l (some s1, l1.emit t) := by
  refine ⟨h.input, h.inv, ?_⟩
  refine ⟨by simpa using hr, by simpa using hp, Or.inr ?_⟩
  exact ⟨⟨t, byteOffset l1.input l1.start, slice l1.input l1.start l1.pos⟩,
    by simp [lexer.emit, h.items], h1, h2⟩

theorem stepOK_same (E : Lib) (s s1 : stateFn) {l l1 : lexer} (h : l.Adv l1)
    (hr : Ready E s1 l1) (hp : potential s1 l1 < potential s l) : StepOK E s l (some s1, l1) :=
  ⟨h.input, h.inv, hr, hp, Or.inl h.items⟩

theorem lexArgumentStart_ok (E : Lib) {l : lexer} (hi : l.Inv) :
    StepOK E .lexArgumentStart l (lexArgumentStart E l) := by
  cases h : l.input[l.pos]? with
  | none =>
    have hn := lexer.next_none h
    have ha := lexer.adv_next hi
    simp only [lexArgumentStart]
    rw [hn] at ha ⊢
    simpa using stepOK_emitEOF E _ ha
  | some c =>
    have hn := lexer.next_some h
    have ha := lexer.adv_next hi
    have hu := lexer.undo_next_some hi h
    have hlt := lexer.lt_of_get h
    simp only [lexArgumentStart]
    rw [hn] at ha hu ⊢
    simp only [beq_iff_eq, Bool.or_eq_true, reduceCtorEq, ↓reduceIte, Option.some.injEq]
    have hp := lexer.adv_peek ha.inv
    have hpp := lexer.peek_pos ha.inv
    have hpf := lexer.peek_fst (l.next.2)
    rw [hn] at hpf
    split_ifs with h1 h2 h3 h4 h5 h6
    · exact stepOK_errorf E _ (ha.trans hp) _
    · simp only [Bool.not_eq_true, Bool.not_eq_false] at h2
      refine stepOK_emit E _ _ _ (ha.trans hp) (by simp) (by simp) ?_ ?_
      · simp only [Ready]
        rw [hpp, hp.input, ← hpf]
        simpa using h2
      · simp only [potential]
        rw [hpp, hp.input]
        simp only
        omega
    · simp only [Bool.not_eq_true, Bool.not_eq_false] at h2
      refine stepOK_emit E _ _ _ (ha.trans hp) (by simp) (by simp) ?_ ?_
      · simp only [Ready]
        rw [hpp, hp.input, ← hpf]
        simpa using h2
      · simp only [potential]
        rw [hpp, hp.input]
        simp only
        omega
    · rw [hu]
      refine stepOK_same E _ _ (lexer.Adv.refl hi) ?_ ?_
      · simp only [Ready]; rw [h]; exact h4
      · simp only [potential]; omega
    · rw [hu]
      refine stepOK_same E _ _ (lexer.Adv.refl hi) ?_ ?_
      · simp only [Ready]; rw [h]; exact h5
      · simp only [potential]; omega
    · rw [hu]
      refine stepOK_same E _ _ (lexer.Adv.refl hi) ?_ ?_
      · simp only [Ready]; exact ⟨c, h⟩
      · simp only [potential]; omega
    · exact stepOK_errorf E _ ha _

theorem lexInArgument_ok (E : Lib) {l : lexer} (hi : l.Inv) :
    StepOK E .lexInArgument l (lexInArgument E l) := by
  cases h : l.input[l.pos]? with
  | none =>
    have hn := lexer.next_none h
    have ha := lexer.adv_next hi
    simp only [lexInArgument]
    rw [hn] at ha ⊢
    simpa using stepOK_emitEOF E _ ha
  | some c =>
    have hn := lexer.next_some h
    have ha := lexer.adv_next hi
    have hlt := lexer.lt_of_get h
    simp only [lexInArgument]
    rw [hn] at ha ⊢
    simp only [beq_iff_eq, reduceCtorEq, ↓reduceIte, Option.some.injEq]
    split_ifs with h1 h2 h3
    · refine stepOK_emit E _ _ _ ha (by simp) (by simp) trivial ?_
      simp only [potential]; omega
    · refine stepOK_emit E _ _ _ ha (by simp) (by simp) trivial ?_
      simp only [potential]; omega
    · refine stepOK_emit E _ _ _ ha (by simp) (by simp) trivial ?_
      simp only [potential]; omega
    · exact stepOK_errorf E _ ha _

theorem lexValue_ok (E : Lib) {l : lexer} (hi : l.Inv) :
    StepOK E .lexValue l (lexValue E l) := by
  cases h : l.input[l.pos]? with
  | none =>
    have hn := lexer.next_none h
    have ha := lexer.adv_next hi
    simp only [lexValue]
    rw [hn] at ha ⊢
    simpa using stepOK_errorf E _ ha _
  | some c =>
    have hn := lexer.next_some h
    have ha := lexer.adv_next hi
    have hu := lexer.undo_next_some hi h
    have hlt := lexer.lt_of_get h
    simp only [lexValue]
    rw [hn] at ha hu ⊢
    simp only [beq_iff_eq, Bool.or_eq_true, reduceCtorEq, ↓reduceIte, Option.some.injEq]
    split_ifs with h4 h5 h6
    · rw [hu]
      refine stepOK_same E _ _ (lexer.Adv.refl hi) ?_ ?_
      · simp only [Ready]; rw [h]; exact h4
      · simp only [potential]; omega
    · rw [hu]
      refine stepOK_same E _ _ (lexer.Adv.refl hi) ?_ ?_
      · simp only [Ready]; rw [h]; exact h5
      · simp only [potential]; omega
    · rw [hu]
      refine stepOK_same E _ _ (lexer.Adv.refl hi) ?_ ?_
      · simp only [Ready]; exact ⟨c, h⟩
      · simp only [potential]; omega
    · exact stepOK_errorf E _ ha _

theorem lexer.adv_atTerminator {l : lexer} (hi : l.Inv) : l.Adv l.atTerminator.2 := by
  have hp := lexer.adv_peek hi
  simp only [lexer.atTerminator]
  split_ifs <;> exact hp

theorem lexer.atTerminator_pos {l : lexer} (hi : l.Inv) : l.atTerminator.2.pos = l.pos := by
  have hp := lexer.peek_pos hi
  simp only [lexer.atTerminator]
  split_ifs <;> exact hp

theorem loopOK_errorf {l l1 : lexer} (h : l.Adv l1) (msg : String) :
    LoopOK l (l1.errorf msg) :=
  ⟨h.input, h.inv, h.pos, ⟨.itemError, byteOffset l1.input l1.start, msg⟩,
    by simp [lexer.errorf, h.items], rfl⟩

theorem loopOK_emit {l l1 : lexer} (t : itemType) (h : l.Adv l1)
    (h1 : t ≠ .itemEOF) (h2 : t ≠ .itemError) :
    LoopOK l (some .lexInArgument, l1.emit t) :=
  ⟨h.input, h.inv, h.pos, rfl, rfl,
    ⟨t, byteOffset l1.input l1.start, slice l1.input l1.start l1.pos⟩,
    by simp [lexer.emit, h.items], h1, h2⟩

theorem loopOK_of_adv {l l1 : lexer} {r : Option stateFn × lexer} (h : l.Adv l1)
    (hr : LoopOK l1 r) : LoopOK l r := by
  obtain ⟨a, b, c, d⟩ := hr
  refine ⟨a.trans h.input, b, le_trans h.pos c, ?_⟩
  rw [h.items] at d
  exact d

theorem stepOK_of_loopOK (E : Lib) (s : stateFn) {l : lexer} {r : Option stateFn × lexer}
    (hr : LoopOK l r) (hs : 1 ≤ (match s with
      | .lexArgumentStart => 2
      | .lexValue => 2
      | _ => 1))
    (hlt : l.pos < r.2.pos) (hlen : l.pos < l.input.length) : StepOK E s l r := by
  obtain ⟨a, b, c, d⟩ := hr
  refine ⟨a, b, ?_⟩
  cases hr1 : r.1 with
  | none =>
    rw [hr1] at d
    obtain ⟨it, d1, d2⟩ := d
    exact ⟨it, d1, Or.inr d2⟩
  | some s1 =>
    rw [hr1] at d
    obtain ⟨d1, -, d2⟩ := d
    subst d1
    refine ⟨trivial, ?_, Or.inr d2⟩
    simp only [potential, a]
    omega

theorem lexIdentifierLoop_ok (E : Lib) :
    ∀ (n : Nat) (l : lexer), l.Inv → l.input.length - l.pos < n →
      ∃ r, lexIdentifierLoop E n l = .ok r ∧ LoopOK l r := by
  intro n
  induction n with
  | zero => intro l _ h; omega
  | succ n ih =>
    intro l hi hn
    have ha := lexer.adv_next hi
    have hu := lexer.adv_peek hi
    simp only [lexer.peek] at hu
    simp only [lexIdentifierLoop]
    split_ifs with h1 h2 h3 h4
    · cases h : l.input[l.pos]? with
      | none =>
        rw [lexer.next_fst, h] at h1
        simp [isAlphaNumeric, isLetter, isDigit] at h1
      | some c =>
        have hlt := lexer.lt_of_get h
        have hp : l.next.2.pos = l.pos + 1 := by rw [lexer.next_some h]
        obtain ⟨r, hr1, hr2⟩ := ih l.next.2 ha.inv (by rw [ha.input, hp]; omega)
        exact ⟨r, hr1, loopOK_of_adv ha hr2⟩
    · exact ⟨_, rfl, loopOK_errorf (hu.trans (lexer.adv_atTerminator hu.inv)) _⟩
    · exact ⟨_, rfl, loopOK_emit _ (hu.trans (lexer.adv_atTerminator hu.inv)) (by simp) (by simp)⟩
    · exact ⟨_, rfl, loopOK_emit _ (hu.trans (lexer.adv_atTerminator hu.inv)) (by simp) (by simp)⟩
    · exact ⟨_, rfl, loopOK_emit _ (hu.trans (lexer.adv_atTerminator hu.inv)) (by simp) (by simp)⟩

theorem isAlphaNumeric_of_isLetter (E : Lib) {r : Option Char} (h : isLetter E r = true) :
    isAlphaNumeric E r = true := by
  simp [isAlphaNumeric, h]

theorem lexIdentifier_ok (E : Lib) {l : lexer} (hi : l.Inv) (hr : Ready E .lexIdentifier l) :
    ∃ r, lexIdentifier E l = .ok r ∧ StepOK E .lexIdentifier l r := by
  simp only [Ready] at hr
  cases h : l.input[l.pos]? with
  | none => rw [h] at hr; simp [isLetter] at hr
  | some c =>
    have hlt := lexer.lt_of_get h
    have ha := lexer.adv_next hi
    have hp : l.next.2.pos = l.pos + 1 := by rw [lexer.next_some h]
    have hal : isAlphaNumeric E l.next.1 = true := by
      rw [lexer.next_fst]
      exact isAlphaNumeric_of_isLetter E hr
    obtain ⟨r, hr1, hr2⟩ := lexIdentifierLoop_ok E l.input.length l.next.2 ha.inv
      (by rw [ha.input, hp]; omega)
    refine ⟨r, ?_, ?_⟩
    · simp only [lexIdentifier, lexIdentifierLoop, hal, Bool.or_true, ↓reduceIte]
      exact hr1
    · have h3 := hr2.2.2.1
      exact stepOK_of_loopOK E _ (loopOK_of_adv ha hr2) (le_refl _) (by omega) hlt

theorem lexQuoteLoop_ok (q : Option Char) :
    ∀ (n : Nat) (l : lexer), l.Inv → l.input.length - l.pos < n →
      ∃ r, lexQuoteLoop q n l = .ok r ∧ LoopOK l r := by
  intro n
  induction n with
  | zero => intro l _ h; omega
  | succ n ih =>
    intro l hi hn
    have ha := lexer.adv_next hi
    have hb := lexer.adv_next ha.inv
    simp only [lexQuoteLoop]
    cases h : l.input[l.pos]? with
    | none =>
      have h0 : l.next.1 = none := by rw [lexer.next_fst, h]
      have h1 : (none == some backslash) = false := rfl
      simp only [h0, h1, beq_self_eq_true, ↓reduceIte, Bool.false_eq_true]
      exact ⟨_, rfl, loopOK_errorf ha _⟩
    | some c =>
      have hlt := lexer.lt_of_get h
      have hp : l.next.2.pos = l.pos + 1 := by rw [lexer.next_some h]
      split_ifs with h1 h2 h3 h4
      · obtain ⟨r, hr1, hr2⟩ := ih l.next.2.next.2 hb.inv (by
          have := hb.pos
          rw [hb.input, ha.input]
          omega)
        exact ⟨r, hr1, loopOK_of_adv (ha.trans hb) hr2⟩
      · exact ⟨_, rfl, loopOK_errorf (ha.trans hb) _⟩
      · exact ⟨_, rfl, loopOK_errorf ha _⟩
      · exact ⟨_, rfl, loopOK_emit _ ha (by simp) (by simp)⟩
      · obtain ⟨r, hr1, hr2⟩ := ih l.next.2 ha.inv (by rw [ha.input, hp]; omega)
        exact ⟨r, hr1, loopOK_of_adv ha hr2⟩

theorem lexQuote_ok (E : Lib) {l : lexer} (hi : l.Inv) (hr : Ready E .lexQuote l) :
    ∃ r, lexQuote l = .ok r ∧ StepOK E .lexQuote l r := by
  obtain ⟨c, h⟩ := hr
  have hlt := lexer.lt_of_get h
  have ha := lexer.adv_next hi
  have hp : l.next.2.pos = l.pos + 1 := by rw [lexer.next_some h]
  obtain ⟨r, hr1, hr2⟩ := lexQuoteLoop_ok l.next.1 (l.input.length + 1) l.next.2 ha.inv
      (by rw [ha.input, hp]; omega)
  refine ⟨r, hr1, ?_⟩
  have h3 := hr2.2.2.1
  exact stepOK_of_loopOK E _ (loopOK_of_adv ha hr2) (le_refl _) (by omega) hlt

theorem lexer.adv_accept {l : lexer} (hi : l.Inv) (valid : String) :
    l.Adv (l.accept valid).2 := by
  have ha := lexer.adv_next hi
  have hu := lexer.adv_peek hi
  simp only [lexer.peek] at hu
  simp only [lexer.accept]
  split_ifs
  · exact ha
  · exact hu

theorem lexer.accept_of_mem {l : lexer} {c : Char} {valid : String}
    (h : l.input[l.pos]? = some c) (hc : containsRune valid (some c) = true) :
    (l.accept valid).2.pos = l.pos + 1 := by
  simp only [lexer.accept, lexer.next_some h, hc, ↓reduceIte]

theorem lexer.accept_of_not_mem {l : lexer} {c : Char} {valid : String} (hi : l.Inv)
    (h : l.input[l.pos]? = some c) (hc : containsRune valid (some c) = false) :
    l.accept valid = (false, l) := by
  have hu := lexer.undo_next_some hi h
  simp only [lexer.accept]
  rw [lexer.next_fst, h, hc]
  simp [hu]

theorem lexer.acceptRunLoop_ok (valid : String) :
    ∀ (n : Nat) (l : lexer), l.Inv → l.input.length - l.pos < n →
      ∃ l1, lexer.acceptRunLoop valid n l = .ok l1 ∧ l.Adv l1 ∧
        (∀ c, l.input[l.pos]? = some c → containsRune valid (some c) = true → l.pos < l1.pos) := by
  intro n
  induction n with
  | zero => intro l _ h; omega
  | succ n ih =>
    intro l hi hn
    have ha := lexer.adv_next hi
    have hu := lexer.adv_peek hi
    simp only [lexer.peek] at hu
    simp only [lexer.acceptRunLoop]
    split_ifs with h1
    · cases h : l.input[l.pos]? with
      | none =>
        rw [lexer.next_fst, h] at h1
        simp [containsRune] at h1
      | some c =>
        have hlt := lexer.lt_of_get h
        have hp : l.next.2.pos = l.pos + 1 := by rw [lexer.next_some h]
        obtain ⟨l1, hr1, hr2, _⟩ := ih l.next.2 ha.inv (by rw [ha.input, hp]; omega)
        refine ⟨l1, hr1, ha.trans hr2, ?_⟩
        intro _ _ _
        have := hr2.pos
        omega
    · refine ⟨_, rfl, hu, ?_⟩
      intro c hc hv
      rw [lexer.next_fst, hc, hv] at h1
      exact absurd rfl h1

theorem lexer.acceptRun_ok {l : lexer} (hi : l.Inv) (valid : String) :
    ∃ l1, l.acceptRun valid = .ok l1 ∧ l.Adv l1 ∧
      (∀ c, l.input[l.pos]? = some c → containsRune valid (some c) = true → l.pos < l1.pos) :=
  lexer.acceptRunLoop_ok valid (l.input.length + 1) l hi (by omega)

theorem lexer.acceptRun_if {l : lexer} (hi : l.Inv) (b : Bool) (valid : String) :
    ∃ l1, (if b = true then l.acceptRun valid else pure l) = Result.ok l1 ∧ l.Adv l1 := by
  cases b with
  | false => exact ⟨l, rfl, lexer.Adv.refl hi⟩
  | true =>
    obtain ⟨l1, h1, h2, _⟩ := lexer.acceptRun_ok hi valid
    exact ⟨l1, by simpa using h1, h2⟩

theorem containsRune_digits {c : Char} (h1 : 48 ≤ c.toNat) (h2 : c.toNat ≤ 57) :
    containsRune "0123456789_" (some c) = true := by
  have hc : c = Char.ofNat c.toNat := (Char.ofNat_toNat c).symm
  generalize c.toNat = n at hc h1 h2
  subst hc
  interval_cases n <;> decide

theorem lexer.scanFraction_ok {l : lexer} (hi : l.Inv) (digits : String) :
    ∃ l1, l.scanFraction digits = .ok l1 ∧ l.Adv l1 := by
  have ha := lexer.adv_accept hi "."
  simp only [lexer.scanFraction]
  split_ifs
  · obtain ⟨l1, h1, a1, _⟩ := lexer.acceptRun_ok ha.inv digits
    exact ⟨l1, h1, ha.trans a1⟩
  · exact ⟨_, rfl, ha⟩

theorem lexer.scanExponent_ok {l : lexer} (hi : l.Inv) (cond : Bool) (marks : String) :
    ∃ l1, l.scanExponent cond marks = .ok l1 ∧ l.Adv l1 := by
  have ha : l.Adv (if cond = true then l.accept marks else (false, l)).2 := by
    split_ifs
    · exact lexer.adv_accept hi _
    · exact lexer.Adv.refl hi
  simp only [lexer.scanExponent]
  generalize (if cond = true then l.accept marks else (false, l)) = e at ha ⊢
  have hb := lexer.adv_accept ha.inv "+-"
  split_ifs with h1
  · obtain ⟨l1, h1, a1, _⟩ := lexer.acceptRun_ok hb.inv "0123456789_"
    exact ⟨l1, h1, ha.trans (hb.trans a1)⟩
  · exact ⟨_, rfl, ha⟩

theorem lexer.scanBase_adv {l : lexer} (hi : l.Inv) : l.Adv l.scanBase.2 := by
  have az := lexer.adv_accept hi "0"
  simp only [lexer.scanBase]
  generalize l.accept "0" = z at az ⊢
  have ax : z.2.Adv (if z.1 = true then z.2.accept "xX" else (false, z.2)).2 := by
    split_ifs
    · exact lexer.adv_accept az.inv _
    · exact lexer.Adv.refl az.inv
  generalize (if z.1 = true then z.2.accept "xX" else (false, z.2)) = x at ax ⊢
  have ao : x.2.Adv (if (z.1 && !x.1) = true then x.2.accept "oO" else (false, x.2)).2 := by
    split_ifs
    · exact lexer.adv_accept ax.inv _
    · exact lexer.Adv.refl ax.inv
  generalize (if (z.1 && !x.1) = true then x.2.accept "oO" else (false, x.2)) = o at ao ⊢
  have ab : o.2.Adv (if (z.1 && !x.1 && !o.1) = true then o.2.accept "bB" else (false, o.2)).2 := by
    split_ifs
    · exact lexer.adv_accept ao.inv _
    · exact lexer.Adv.refl ao.inv
  exact az.trans (ax.trans (ao.trans ab))

theorem lexer.scanBase_zero {l : lexer} (hi : l.Inv) (h : l.input[l.pos]? = some '0') :
    l.pos < l.scanBase.2.pos := by
  have hm : containsRune "0" (some '0') = true := by decide
  have hp := lexer.accept_of_mem h hm
  have az := lexer.adv_accept hi "0"
  simp only [lexer.scanBase]
  generalize l.accept "0" = z at az hp ⊢
  have ax : z.2.Adv (if z.1 = true then z.2.accept "xX" else (false, z.2)).2 := by
    split_ifs
    · exact lexer.adv_accept az.inv _
    · exact lexer.Adv.refl az.inv
  generalize (if z.1 = true then z.2.accept "xX" else (false, z.2)) = x at ax ⊢
  have ao : x.2.Adv (if (z.1 && !x.1) = true then x.2.accept "oO" else (false, x.2)).2 := by
    split_ifs
    · exact lexer.adv_accept ax.inv _
    · exact lexer.Adv.refl ax.inv
  generalize (if (z.1 && !x.1) = true then x.2.accept "oO" else (false, x.2)) = o at ao ⊢
  have ab : o.2.Adv (if (z.1 && !x.1 && !o.1) = true then o.2.accept "bB" else (false, o.2)).2 := by
    split_ifs
    · exact lexer.adv_accept ao.inv _
    · exact lexer.Adv.refl ao.inv
  have := (ax.trans (ao.trans ab)).pos
  omega

theorem lexer.scanBase_digit {l : lexer} {c : Char} (hi : l.Inv) (h : l.input[l.pos]? = some c)
    (hc : c ≠ '0') : l.scanBase = ("0123456789_", l) := by
  have hz : l.accept "0" = (false, l) := by
    apply lexer.accept_of_not_mem hi h
    simp only [containsRune, List.contains_eq_any_beq, List.any_cons, List.any_nil, Bool.or_false,
      beq_eq_false_iff_ne, ne_eq]
    exact hc
  simp [lexer.scanBase, hz]

theorem lexer.scanNumber_ok {l : lexer} (hi : l.Inv) :
    ∃ l1, l.scanNumber = .ok (true, l1) ∧ l.Adv l1 ∧
      (isNumeric (l.input[l.pos]?) = true → l.pos < l1.pos) := by
  have a0 := lexer.adv_accept hi "+-"
  have a1 := lexer.scanBase_adv a0.inv
  unfold lexer.scanNumber
  simp only []
  generalize hpre : (l.accept "+-").2.scanBase = pre at a1 ⊢
  obtain ⟨l2, h2, a2, s2⟩ := lexer.acceptRun_ok a1.inv pre.1
  obtain ⟨l3, h3, a3⟩ := lexer.scanFraction_ok a2.inv pre.1
  obtain ⟨l4, h4, a4⟩ := lexer.scanExponent_ok a3.inv (pre.1.length == 10 + 1) "eE"
  obtain ⟨l5, h5, a5⟩ := lexer.scanExponent_ok a4.inv (pre.1.length == 16 + 6 + 1) "pP"
  refine ⟨l5, ?_, a0.trans (a1.trans (a2.trans (a3.trans (a4.trans a5)))), ?_⟩
  · rw [h2]
    simp only []
    rw [h3]
    simp only []
    rw [h4]
    simp only []
    rw [h5]
  · intro hnum
    have t2 := (a3.trans (a4.trans a5)).pos
    have p0 := a0.pos
    have p1 := a1.pos
    have p2 := a2.pos
    cases h : l.input[l.pos]? with
    | none => rw [h] at hnum; simp [isNumeric] at hnum
    | some c =>
      rw [h] at hnum
      by_cases hs : containsRune "+-" (some c) = true
      · have := lexer.accept_of_mem h hs
        omega
      · simp only [Bool.not_eq_true] at hs
        have e0 := lexer.accept_of_not_mem hi h hs
        rw [e0] at hpre
        simp only at hpre
        by_cases hz : c = '0'
        · subst hz
          have := lexer.scanBase_zero hi h
          rw [hpre] at this
          omega
        · have eb := lexer.scanBase_digit hi h hz
          rw [hpre] at eb
          rw [eb] at s2
          have hd : containsRune "0123456789_" (some c) = true := by
            simp only [isNumeric, Bool.or_eq_true, beq_iff_eq, Bool.and_eq_true,
              decide_eq_true_eq] at hnum
            rcases hnum with (h1 | h1) | h1
            · subst h1; simp [containsRune] at hs
            · subst h1; simp [containsRune] at hs
            · exact containsRune_digits h1.1 h1.2
          have := s2 c h hd
          simp only at this
          omega

theorem lexNumber_loopOK (E : Lib) {l : lexer} (hi : l.Inv) :
    ∃ r, lexNumber E l = .ok r ∧ LoopOK l r := by
  obtain ⟨l1, h1, a1, -⟩ := lexer.scanNumber_ok hi
  have at1 := lexer.adv_atTerminator a1.inv
  have ap1 := lexer.adv_peek at1.inv
  unfold lexNumber
  rw [h1]
  simp only [Bool.not_true, Bool.false_eq_true, ↓reduceIte]
  generalize l1.atTerminator = tm at at1 ap1 ⊢
  cases htm : tm.1 with
  | false =>
    simp only [Bool.not_false, ↓reduceIte]
    generalize tm.2.peek = p at ap1 ⊢
    exact ⟨_, rfl, loopOK_errorf (a1.trans (at1.trans ap1)) _⟩
  | true =>
    simp only [Bool.not_true, Bool.false_eq_true, ↓reduceIte]
    exact ⟨_, rfl, loopOK_emit _ (a1.trans at1) (by simp) (by simp)⟩

/-- What a state function that reads one token does. -/
theorem token_loopOK (E : Lib) {s : stateFn} {l : lexer} (hi : l.Inv)
    (hs : s = .lexIdentifier ∨ s = .lexNumber ∨ s = .lexQuote) :
    ∃ r, callState E s l = .ok r ∧ LoopOK l r := by
  rcases hs with rfl | rfl | rfl
  · exact lexIdentifierLoop_ok E (l.input.length + 1) l hi (by omega)
  · exact lexNumber_loopOK E hi
  · have ha := lexer.adv_next hi
    obtain ⟨r, hr1, hr2⟩ := lexQuoteLoop_ok l.next.1 (l.input.length + 1) l.next.2 ha.inv
      (by rw [ha.input]; omega)
    exact ⟨r, hr1, loopOK_of_adv ha hr2⟩

theorem lexNumber_ok (E : Lib) {l : lexer} (hi : l.Inv) (hr : Ready E .lexNumber l) :
    ∃ r, lexNumber E l = .ok r ∧ StepOK E .lexNumber l r := by
  simp only [Ready] at hr
  obtain ⟨l1, h1, a1, s1⟩ := lexer.scanNumber_ok hi
  have hlt : l.pos < l.input.length := by
    cases h : l.input[l.pos]? with
    | none => rw [h] at hr; simp [isNumeric] at hr
    | some c => exact lexer.lt_of_get h
  have hs := s1 hr
  have at1 := lexer.adv_atTerminator a1.inv
  have ap1 := lexer.adv_peek at1.inv
  have hpos := lexer.atTerminator_pos a1.inv
  have hpp := lexer.peek_pos at1.inv
  unfold lexNumber
  rw [h1]
  simp only [Bool.not_true, Bool.false_eq_true, ↓reduceIte]
  generalize l1.atTerminator = tm at at1 ap1 hpos hpp ⊢
  cases htm : tm.1 with
  | false =>
    simp only [Bool.not_false, ↓reduceIte]
    generalize tm.2.peek = p at ap1 hpp ⊢
    refine ⟨_, rfl, stepOK_of_loopOK E _ (loopOK_errorf (a1.trans (at1.trans ap1)) _)
      (le_refl _) ?_ hlt⟩
    show l.pos < p.2.pos
    omega
  | true =>
    simp only [Bool.not_true, Bool.false_eq_true, ↓reduceIte]
    refine ⟨_, rfl, stepOK_of_loopOK E _ (loopOK_emit _ (a1.trans at1) (by simp) (by simp))
      (le_refl _) ?_ hlt⟩
    show l.pos < tm.2.pos
    omega

theorem callState_ok (E : Lib) (s : stateFn) {l : lexer} (hi : l.Inv) (hr : Ready E s l) :
    ∃ r, callState E s l = .ok r ∧ StepOK E s l r := by
  cases s with
  | lexArgumentStart => exact ⟨_, rfl, lexArgumentStart_ok E hi⟩
  | lexInArgument => exact ⟨_, rfl, lexInArgument_ok E hi⟩
  | lexValue => exact ⟨_, rfl, lexValue_ok E hi⟩
  | lexIdentifier => exact lexIdentifier_ok E hi hr
  | lexQuote => exact lexQuote_ok E hi hr
  | lexNumber => exact lexNumber_ok E hi hr

theorem lexer.runLoop_ok (E : Lib) :
    ∀ (n : Nat) (s : stateFn) (l : lexer), l.Inv → Ready E s l → potential s l ≤ n →
      ∃ l1, lexer.runLoop E n s l = .ok l1 ∧ Scanned l.items l1.items := by
  intro n
  induction n with
  | zero =>
    intro s l _ _ h
    have : 1 ≤ potential s l := by
      simp only [potential]
      cases s <;> simp
    omega
  | succ n ih =>
    intro s l hi hr hp
    obtain ⟨r, h1, h2, h3, h4⟩ := callState_ok E s hi hr
    obtain ⟨r1, r2⟩ := r
    simp only [lexer.runLoop, h1]
    cases r1 with
    | none =>
      obtain ⟨it, e1, e2⟩ := h4
      exact ⟨r2, rfl, [], it, by simpa using e1, e2, by simp⟩
    | some s1 =>
      obtain ⟨g1, g2, g3⟩ := h4
      obtain ⟨l1, k1, front, last, k2, k3, k4⟩ := ih s1 r2 h3 g1 (by simp only at g2; omega)
      refine ⟨l1, k1, ?_⟩
      rcases g3 with g3 | ⟨it, g3, g4, g5⟩
      · simp only at g3
        exact ⟨front, last, by rw [k2, g3], k3, k4⟩
      · simp only at g3
        refine ⟨it :: front, last, by rw [k2, g3]; simp, k3, ?_⟩
        intro i hi
        rcases List.mem_cons.mp hi with rfl | hi
        · exact ⟨g4, g5⟩
        · exact k4 i hi

/-- The scanner halts on every input, and what it has sent is a run of
items that are not terminal followed by one terminal item. -/
theorem lex_scanned (E : Lib) (input : String) :
    ∃ items, lex E input = .ok items ∧ Scanned [] items := by
  obtain ⟨l1, h1, h2⟩ := lexer.runLoop_ok E (2 * input.data.length + 2) .lexArgumentStart
    ⟨input.data, 0, 0, false, []⟩ ⟨fun h => Bool.noConfusion h, Nat.zero_le _⟩ trivial
    (by simp [potential])
  refine ⟨l1.items, ?_, h2⟩
  simp only [lex, lexer.run, h1]

/-! ## The parser reads its tokens in order -/

theorem tree.Consumed.here (t : tree) : t.Consumed t 0 := ⟨fun _ => rfl, rfl⟩

theorem tree.Consumed.followedBy {a b c : tree} {j k : Nat} (h1 : a.Consumed b j)
    (h2 : b.Consumed c k) : a.Consumed c (j + k) := by
  refine ⟨fun i => ?_, h2.2.trans h1.2⟩
  rw [h2.1, h1.1, Nat.add_assoc, Nat.add_comm k j]

theorem tree.Bounded.consumed {t t1 : tree} {n k : Nat} (hb : t.Bounded n)
    (hc : t.Consumed t1 k) : t1.Bounded (n - k) := by
  intro i hi
  rw [hc.1]
  exact hb _ (by omega)

theorem tree.NoEOF.carried {t t1 : tree} {k : Nat} (hb : t.NoEOF)
    (hc : t.Consumed t1 k) : t1.NoEOF := by
  intro i
  rw [hc.1]
  exact hb _

theorem tree.bounded_pending (t : tree) : t.Bounded t.pending.length := by
  intro i hi
  simp only [tree.stream, List.getD_eq_getElem?_getD]
  rw [List.getElem?_eq_none_iff.mpr hi]
  rfl

theorem tree.pending_length {t : tree} (h : t.peekCount ≤ 2) :
    t.pending.length = t.lex.length + t.peekCount := by
  obtain ⟨r, l, t0, t1, t2, pc⟩ := t
  simp only at h
  interval_cases pc <;> simp [tree.pending]

theorem tree.pos_of_bounded {t : tree} {n : Nat} (hb : t.Bounded n)
    (h : (t.stream 0).typ ≠ .itemError) : 1 ≤ n := by
  by_contra hn
  exact h (hb 0 (by omega))

theorem tree.next_spec {t : tree} (h : t.peekCount ≤ 2) :
    ∃ t1, t.next = .ok (t.stream 0, t1) ∧ t.Consumed t1 1 ∧ t1.peekCount = t.peekCount - 1 ∧
      t.Consumed t1.undo 0 ∧ t1.undo.peekCount = t.peekCount + (1 - t.peekCount) := by
  obtain ⟨r, l, t0, t1, t2, pc⟩ := t
  simp only at h
  interval_cases pc
  · cases l with
    | nil =>
      refine ⟨_, rfl, ⟨fun i => ?_, rfl⟩, rfl, ⟨fun i => ?_, rfl⟩, rfl⟩
      · simp [tree.stream, tree.pending, lexerItem]
      · cases i <;> simp [tree.stream, tree.pending, lexerItem, tree.undo]
    | cons x xs =>
      refine ⟨_, rfl, ⟨fun i => ?_, rfl⟩, rfl, ⟨fun i => ?_, rfl⟩, rfl⟩
      · simp [tree.stream, tree.pending, lexerItem]
      · cases i <;> simp [tree.stream, tree.pending, lexerItem, tree.undo]
  · refine ⟨_, rfl, ⟨fun i => ?_, rfl⟩, rfl, ⟨fun i => ?_, rfl⟩, rfl⟩
    · simp [tree.stream, tree.pending]
    · simp [tree.stream, tree.pending, tree.undo]
  · refine ⟨_, rfl, ⟨fun i => ?_, rfl⟩, rfl, ⟨fun i => ?_, rfl⟩, rfl⟩
    · simp [tree.stream, tree.pending]
    · simp [tree.stream, tree.pending, tree.undo]

theorem tree.peek_spec {t : tree} (h : t.peekCount ≤ 2) :
    ∃ t1, t.peek = .ok (t.stream 0, t1) ∧ t.Consumed t1 0 ∧
      t1.peekCount = t.peekCount + (1 - t.peekCount) := by
  obtain ⟨r, l, t0, t1, t2, pc⟩ := t
  simp only at h
  interval_cases pc
  · cases l with
    | nil =>
      refine ⟨_, rfl, ⟨fun i => ?_, rfl⟩, rfl⟩
      cases i <;> simp [tree.stream, tree.pending, lexerItem]
    | cons x xs =>
      refine ⟨_, rfl, ⟨fun i => ?_, rfl⟩, rfl⟩
      simp [tree.stream, tree.pending, lexerItem]
  · exact ⟨_, rfl, ⟨fun i => rfl, rfl⟩, rfl⟩
  · exact ⟨_, rfl, ⟨fun i => rfl, rfl⟩, rfl⟩

/-- The lookahead of `argument` and `argumentValue`: `next`, `peek`, `backup2`. -/
theorem tree.lookahead_spec {t : tree} (h : t.peekCount ≤ 2) :
    ∃ t1 t2, t.next = .ok (t.stream 0, t1) ∧ t1.peek = .ok (t.stream 1, t2) ∧
      t.Consumed (t2.backup2 (t.stream 0)) 0 ∧ (t2.backup2 (t.stream 0)).peekCount = 2 := by
  obtain ⟨t1, h1, c1, p1, -, -⟩ := tree.next_spec h
  obtain ⟨t2, h2, c2, p2⟩ := tree.peek_spec (t := t1) (by omega)
  refine ⟨t1, t2, h1, ?_, ⟨fun i => ?_, ?_⟩, rfl⟩
  · rw [h2, c1.1]
  · have hp : t2.peekCount = 1 := by omega
    cases i with
    | zero => simp [tree.stream, tree.pending, tree.backup2]
    | succ i =>
      have := c2.1 i
      rw [c1.1] at this
      rw [Nat.add_zero, ← this]
      obtain ⟨r, l, t0, t1, t2, pc⟩ := t2
      simp only at hp
      subst hp
      simp [tree.stream, tree.pending, tree.backup2]
  · show t2.root = t.root
    rw [c2.2, c1.2]

theorem parsed_of_consumed {α : Type} {t tp : tree} {j : Nat} {r : Result (α × tree)}
    (hc : t.Consumed tp j) (hne : (t.stream 0).typ ≠ .itemError) (hr : Parsed tp r) :
    Parsed t r := by
  cases r with
  | ok v =>
    obtain ⟨⟨k, hk, hck⟩, hp, _⟩ := hr
    exact ⟨⟨j + k, by omega, hc.followedBy hck⟩, hp, hne⟩
  | panic m => trivial
  | err m => exact hr
  | diverge => exact hr

theorem parsed_next {α : Type} {t : tree} (h : t.peekCount ≤ 2)
    (hne : (t.stream 0).typ ≠ .itemError) (f : item → Result α)
    (hf : ∀ i, (∃ a, f i = .ok a) ∨ ∃ m, f i = .panic m) :
    Parsed t (match t.next with
      | .ok r =>
        (match f r.1 with
          | .ok a => Result.ok (a, r.2)
          | .err m => .err m
          | .panic m => .panic m
          | .diverge => .diverge)
      | .err m => .err m
      | .panic m => .panic m
      | .diverge => .diverge) := by
  obtain ⟨t1, h1, c1, p1, -, -⟩ := tree.next_spec h
  rw [h1]
  simp only []
  rcases hf (t.stream 0) with ⟨a, ha⟩ | ⟨m, hm⟩
  · rw [ha]
    exact ⟨⟨1, le_refl _, c1⟩, by simp only; omega, hne⟩
  · rw [hm]
    trivial

theorem tree.nil_spec {t : tree} (h : t.peekCount ≤ 2) (hne : (t.stream 0).typ ≠ .itemError) :
    Parsed t t.nil := by
  have := parsed_next h hne (fun i => Result.ok (node.nilN ⟨i.pos⟩)) (fun i => Or.inl ⟨_, rfl⟩)
  simpa [tree.nil] using this

theorem tree.bool_spec {t : tree} (h : t.peekCount ≤ 2) (hne : (t.stream 0).typ ≠ .itemError) :
    Parsed t t.bool := by
  have := parsed_next h hne
    (fun i => if i.val == "true" then Result.ok (node.boolN ⟨i.pos, true⟩)
      else Result.ok (node.boolN ⟨i.pos, false⟩))
    (fun i => by by_cases hv : (i.val == "true") = true <;> simp [hv])
  unfold tree.bool
  obtain ⟨t1, h1, -⟩ := tree.next_spec h
  rw [h1] at this ⊢
  simp only [] at this ⊢
  split_ifs at this ⊢ <;> exact this

theorem tree.identifier_spec {t : tree} (h : t.peekCount ≤ 2)
    (hne : (t.stream 0).typ ≠ .itemError) : Parsed t t.identifier := by
  have := parsed_next h hne (fun i => Result.ok (identifierNode.mk i.pos i.val))
    (fun i => Or.inl ⟨_, rfl⟩)
  simpa [tree.identifier] using this

theorem tree.string_spec (E : Lib) {t : tree} (h : t.peekCount ≤ 2)
    (hne : (t.stream 0).typ ≠ .itemError) : Parsed t (t.string E) := by
  obtain ⟨t1, h1, c1, p1, -, -⟩ := tree.next_spec h
  unfold tree.string
  rw [h1]
  simp only []
  split_ifs
  · trivial
  · split
    · trivial
    · exact ⟨⟨1, le_refl _, c1⟩, by simp only; omega, hne⟩

theorem numberChecked_ok_or_err (E : Lib) (n : numberNode) :
    (∃ n1, numberChecked E n = .ok n1) ∨ ∃ m, numberChecked E n = .err m := by
  unfold numberChecked
  split_ifs
  · exact Or.inr ⟨_, rfl⟩
  · exact Or.inl ⟨_, rfl⟩

theorem newNumber_ok_or_err (E : Lib) (pos : Nat) (text : String) :
    (∃ n, newNumber E pos text = .ok n) ∨ ∃ m, newNumber E pos text = .err m := by
  unfold newNumber
  simp only []
  split_ifs
  · exact numberChecked_ok_or_err E _
  · exact numberChecked_ok_or_err E _
  · split
    · exact Or.inr ⟨_, rfl⟩
    · exact numberChecked_ok_or_err E _
  · split
    · exact numberChecked_ok_or_err E _
    · exact numberChecked_ok_or_err E _

theorem tree.number_spec (E : Lib) {t : tree} (h : t.peekCount ≤ 2)
    (hne : (t.stream 0).typ ≠ .itemError) : Parsed t (t.number E) := by
  obtain ⟨t1, h1, c1, p1, -, -⟩ := tree.next_spec h
  unfold tree.number
  rw [h1]
  simp only []
  rcases newNumber_ok_or_err E (t.stream 0).pos (t.stream 0).val with ⟨n, hn⟩ | ⟨m, hm⟩
  · rw [hn]
    exact ⟨⟨1, le_refl _, c1⟩, by simp only; omega, hne⟩
  · rw [hm]
    trivial

theorem tree.simpleValue_spec (E : Lib) {t : tree} (h : t.peekCount ≤ 2) :
    Parsed t (t.simpleValue E) := by
  obtain ⟨tp, hp, cp, pp⟩ := tree.peek_spec h
  have hpc : tp.peekCount ≤ 2 := by omega
  have h0 : tp.stream 0 = t.stream 0 := cp.1 0
  unfold tree.simpleValue
  rw [hp]
  simp only []
  split
  · rename_i ht
    have hne : (t.stream 0).typ ≠ .itemError := by rw [ht]; simp
    exact parsed_of_consumed cp hne (tree.nil_spec hpc (by rw [h0]; exact hne))
  · rename_i ht
    have hne : (t.stream 0).typ ≠ .itemError := by rw [ht]; simp
    exact parsed_of_consumed cp hne (tree.bool_spec hpc (by rw [h0]; exact hne))
  · rename_i ht
    have hne : (t.stream 0).typ ≠ .itemError := by rw [ht]; simp
    have := parsed_of_consumed cp hne (tree.identifier_spec hpc (by rw [h0]; exact hne))
    cases hid : tp.identifier with
    | ok r => rw [hid] at this; exact this
    | err m => rw [hid] at this; exact this
    | panic m => trivial
    | diverge => rw [hid] at this; exact this
  · rename_i ht
    have hne : (t.stream 0).typ ≠ .itemError := by rw [ht]; simp
    exact parsed_of_consumed cp hne (tree.string_spec E hpc (by rw [h0]; exact hne))
  · rename_i ht
    have hne : (t.stream 0).typ ≠ .itemError := by rw [ht]; simp
    exact parsed_of_consumed cp hne (tree.number_spec E hpc (by rw [h0]; exact hne))
  · obtain ⟨t1, h1, -⟩ := tree.next_spec hpc
    rw [h1]
    trivial

theorem tree.sliceLoop_spec (E : Lib) :
    ∀ (fuel : Nat) (items : List node) (t : tree) (n : Nat), t.peekCount ≤ 1 → t.Bounded n →
      n < fuel →
      match tree.sliceLoop E fuel items t with
      | .ok r => (∃ k, t.Consumed r.2.undo k) ∧ r.2.undo.peekCount ≤ 1
      | .panic _ => True
      | .err _ => False
      | .diverge => False := by
  intro fuel
  induction fuel with
  | zero => intro _ _ _ _ _ h; omega
  | succ fuel ih =>
    intro items t n hpc hb hn
    obtain ⟨t1, h1, c1, p1, cu, pu⟩ := tree.next_spec (t := t) (by omega)
    unfold tree.sliceLoop
    rw [h1]
    simp only []
    split_ifs with hsep
    · have hne : (t.stream 0).typ ≠ .itemError := by
        simp only [beq_iff_eq] at hsep
        rw [hsep]; simp
      have hn1 := tree.pos_of_bounded hb hne
      have hs := tree.simpleValue_spec E (t := t1) (by omega)
      cases hv : t1.simpleValue E with
      | ok v =>
        rw [hv] at hs
        obtain ⟨⟨k, hk, ck⟩, pk, _⟩ := hs
        have := ih (items ++ [v.1]) v.2 (n - 1 - k) pk ((hb.consumed c1).consumed ck) (by omega)
        simp only []
        cases hl : tree.sliceLoop E fuel (items ++ [v.1]) v.2 with
        | ok r =>
          rw [hl] at this
          obtain ⟨⟨j, cj⟩, pj⟩ := this
          exact ⟨⟨1 + k + j, (c1.followedBy ck).followedBy cj⟩, pj⟩
        | panic m => trivial
        | err m => rw [hl] at this; exact this
        | diverge => rw [hl] at this; exact this
      | panic m => trivial
      | err m => rw [hv] at hs; exact hs
      | diverge => rw [hv] at hs; exact hs
    · refine ⟨⟨0, cu⟩, ?_⟩
      show t1.undo.peekCount ≤ 1
      omega

theorem tree.slice_spec (E : Lib) {t : tree} (h : t.peekCount ≤ 2) :
    Parsed t (t.slice E) := by
  have hs := tree.simpleValue_spec E h
  unfold tree.slice
  cases hv : t.simpleValue E with
  | ok v =>
    rw [hv] at hs
    obtain ⟨⟨k, hk, ck⟩, pk, hne⟩ := hs
    have hb : v.2.Bounded (v.2.lex.length + v.2.peekCount) := by
      rw [← tree.pending_length (by omega)]
      exact tree.bounded_pending v.2
    have := tree.sliceLoop_spec E (v.2.lex.length + v.2.peekCount + 1) [v.1] v.2 _ pk hb
      (Nat.lt_succ_self _)
    simp only []
    cases hl : tree.sliceLoop E (v.2.lex.length + v.2.peekCount + 1) [v.1] v.2 with
    | ok r =>
      rw [hl] at this
      obtain ⟨⟨j, cj⟩, pj⟩ := this
      exact ⟨⟨k + j, by omega, ck.followedBy cj⟩, pj, hne⟩
    | panic m => trivial
    | err m => rw [hl] at this; exact this
    | diverge => rw [hl] at this; exact this
  | panic m => trivial
  | err m => rw [hv] at hs; exact hs
  | diverge => rw [hv] at hs; exact hs

theorem parsed_of_consumed_zero {α : Type} {t tp : tree} {r : Result (α × tree)}
    (hc : t.Consumed tp 0) (hr : Parsed tp r) : Parsed t r := by
  cases r with
  | ok v =>
    obtain ⟨⟨k, hk, hck⟩, hp, hne⟩ := hr
    refine ⟨⟨0 + k, by omega, hc.followedBy hck⟩, hp, ?_⟩
    have := hc.1 0
    rw [Nat.add_zero] at this
    rw [← this]
    exact hne
  | panic m => trivial
  | err m => exact hr
  | diverge => exact hr

theorem tree.argumentValue_spec (E : Lib) {t : tree} (h : t.peekCount ≤ 2) :
    Parsed t (t.argumentValue E) := by
  obtain ⟨t1, t2, h1, h2, c3, p3⟩ := tree.lookahead_spec h
  unfold tree.argumentValue
  rw [h1]
  simp only []
  rw [h2]
  simp only []
  split_ifs
  · exact parsed_of_consumed_zero c3 (tree.slice_spec E (by omega))
  · exact parsed_of_consumed_zero c3 (tree.simpleValue_spec E (by omega))

theorem tree.positional_spec (E : Lib) {t : tree} (h : t.peekCount ≤ 2) :
    Parsed t (t.positional E) := by
  have hv := tree.argumentValue_spec E h
  unfold tree.positional
  cases ha : t.argumentValue E with
  | ok a => rw [ha] at hv; exact hv
  | panic m => trivial
  | err m => rw [ha] at hv; exact hv
  | diverge => rw [ha] at hv; exact hv

theorem tree.switchNode_spec (E : Lib) {t : tree} (h : t.peekCount ≤ 2) :
    Parsed t (t.switchNode E) := by
  obtain ⟨t1, h1, c1, p1, -, -⟩ := tree.next_spec h
  obtain ⟨t2, h2, c2, p2⟩ := tree.peek_spec (t := t1) (by omega)
  obtain ⟨t3, h3, c3, p3, -, -⟩ := tree.next_spec (t := t2) (by omega)
  unfold tree.switchNode
  rw [h1]
  simp only []
  have key : ∀ b : Bool, (t.stream 0).typ ≠ .itemError →
      Parsed t (match t1.peek with
        | .ok p =>
          if (p.1.typ != .itemIdentifier) = true then
            (match p.2.next with
              | .ok r => (tree.unexpected E r.1 : Result (Stragts.switchNode × tree))
              | .err m => .err m
              | .panic m => .panic m
              | .diverge => .diverge)
          else
            (match p.2.identifier with
              | .ok id => .ok (⟨(t.stream 0).pos, id.1, ⟨(t.stream 0).pos, b⟩⟩, id.2)
              | .err m => .err m
              | .panic m => .panic m
              | .diverge => .diverge)
        | .err m => .err m
        | .panic m => .panic m
        | .diverge => .diverge) := by
    intro b hne
    rw [h2]
    simp only []
    split_ifs
    · rw [h3]
      trivial
    · unfold tree.identifier
      rw [h3]
      exact ⟨⟨1 + 0 + 1, by omega, (c1.followedBy c2).followedBy c3⟩, by simp only; omega, hne⟩
  cases htyp : (t.stream 0).typ <;> simp only [tree.unexpected] <;>
    first
    | trivial
    | exact key _ (by rw [htyp]; simp)

theorem tree.switchArgument_spec (E : Lib) {t : tree} (h : t.peekCount ≤ 2) :
    Parsed t (t.switchArgument E) := by
  have hv := tree.switchNode_spec E h
  unfold tree.switchArgument
  cases ha : t.switchNode E with
  | ok a => rw [ha] at hv; exact hv
  | panic m => trivial
  | err m => rw [ha] at hv; exact hv
  | diverge => rw [ha] at hv; exact hv

theorem tree.keyword_spec (E : Lib) {t : tree} (h : t.peekCount ≤ 2)
    (hne : (t.stream 0).typ ≠ .itemError) : Parsed t (t.keyword E) := by
  obtain ⟨t1, h1, c1, p1, -, -⟩ := tree.next_spec h
  obtain ⟨t2, h2, c2, p2, -, -⟩ := tree.next_spec (t := t1) (by omega)
  have hv := tree.argumentValue_spec E (t := t2) (by omega)
  unfold tree.keyword tree.identifier
  rw [h1]
  simp only []
  rw [h2]
  simp only []
  cases ha : t2.argumentValue E with
  | ok a =>
    rw [ha] at hv
    obtain ⟨⟨k, hk, ck⟩, pk, _⟩ := hv
    exact ⟨⟨1 + 1 + k, by omega, (c1.followedBy c2).followedBy ck⟩, pk, hne⟩
  | panic m => trivial
  | err m => rw [ha] at hv; exact hv
  | diverge => rw [ha] at hv; exact hv

theorem tree.argument_spec (E : Lib) {t : tree} (h : t.peekCount ≤ 2) :
    Parsed t (t.argument E) := by
  obtain ⟨tp, hp, cp, pp⟩ := tree.peek_spec h
  obtain ⟨tq, hq, cq, pq⟩ := tree.peek_spec (t := tp) (by omega)
  obtain ⟨t1, t2, h1, h2, c3, p3⟩ := tree.lookahead_spec (t := tq) (by omega)
  have e0 : tp.stream 0 = t.stream 0 := cp.1 0
  have e1 : tq.stream 0 = t.stream 0 := by rw [← e0]; exact cq.1 0
  unfold tree.argument
  rw [hp]
  simp only []
  split_ifs with hsw
  · exact parsed_of_consumed_zero cp (tree.switchArgument_spec E (by omega))
  · rw [hq]
    simp only []
    split_ifs with hid
    · rw [h1]
      simp only []
      rw [h2]
      simp only []
      have c03 : t.Consumed (t2.backup2 (tq.stream 0)) 0 := (cp.followedBy cq).followedBy c3
      have hne : ((t2.backup2 (tq.stream 0)).stream 0).typ ≠ .itemError := by
        have := c3.1 0
        rw [Nat.add_zero] at this
        rw [this]
        simp only [beq_iff_eq] at hid
        rw [e0] at hid
        rw [e1, hid]
        simp
      split_ifs
      · exact parsed_of_consumed_zero c03 (tree.keyword_spec E (by omega) hne)
      · exact parsed_of_consumed_zero c03 (tree.positional_spec E (by omega))
    · exact parsed_of_consumed_zero (cp.followedBy cq) (tree.positional_spec E (by omega))

theorem tree.simpleValue_not_switch (E : Lib) {t : tree} {v : node × tree}
    (h : t.simpleValue E = .ok v) : ∀ sn, v.1 ≠ .switchN sn := by
  intro sn hsn
  unfold tree.simpleValue at h
  cases hp : t.peek with
  | ok p =>
    rw [hp] at h
    simp only [] at h
    cases hn : p.2.next with
    | ok r =>
      simp only [tree.nil, tree.bool, tree.identifier, tree.string, tree.number, hn,
        tree.unexpected] at h
      split at h
      · cases h; cases hsn
      · split_ifs at h <;> cases h <;> cases hsn
      · cases h; cases hsn
      · split_ifs at h
        split at h
        · cases h
        · cases h; cases hsn
      · split at h <;> cases h
        cases hsn
      · cases h
    | err m =>
      simp only [tree.nil, tree.bool, tree.identifier, tree.string, tree.number, hn] at h
      split at h <;> cases h
    | panic m =>
      simp only [tree.nil, tree.bool, tree.identifier, tree.string, tree.number, hn] at h
      split at h <;> cases h
    | diverge =>
      simp only [tree.nil, tree.bool, tree.identifier, tree.string, tree.number, hn] at h
      split at h <;> cases h
  | err m => rw [hp] at h; cases h
  | panic m => rw [hp] at h; cases h
  | diverge => rw [hp] at h; cases h

theorem tree.slice_not_switch (E : Lib) {t : tree} {v : node × tree}
    (h : t.slice E = .ok v) : ∀ sn, v.1 ≠ .switchN sn := by
  intro sn hsn
  unfold tree.slice at h
  split at h
  · split at h
    · cases h; cases hsn
    · cases h
    · cases h
    · cases h
  · cases h
  · cases h
  · cases h

theorem tree.argumentValue_not_switch (E : Lib) {t : tree} {v : node × tree}
    (h : t.argumentValue E = .ok v) : ∀ sn, v.1 ≠ .switchN sn := by
  unfold tree.argumentValue at h
  split at h
  · split at h
    · simp only [] at h
      split_ifs at h
      · exact tree.slice_not_switch E h
      · exact tree.simpleValue_not_switch E h
    · cases h
    · cases h
    · cases h
  · cases h
  · cases h
  · cases h

theorem tree.positional_wf (E : Lib) {t : tree} {a : argumentNode × tree}
    (h : t.positional E = .ok a) : a.1.WF := by
  unfold tree.positional at h
  split at h
  · rename_i v hv
    cases h
    intro sn hsn
    exact absurd hsn (tree.argumentValue_not_switch E hv sn)
  · cases h
  · cases h
  · cases h

theorem tree.keyword_wf (E : Lib) {t : tree} {a : argumentNode × tree}
    (h : t.keyword E = .ok a) : a.1.WF := by
  unfold tree.keyword at h
  split at h
  · split at h
    · split at h
      · rename_i v hv
        cases h
        intro sn hsn
        exact absurd hsn (tree.argumentValue_not_switch E hv sn)
      · cases h
      · cases h
      · cases h
    · cases h
    · cases h
    · cases h
  · cases h
  · cases h
  · cases h

theorem tree.switchArgument_wf (E : Lib) {t : tree} {a : argumentNode × tree}
    (h : t.switchArgument E = .ok a) : a.1.WF := by
  unfold tree.switchArgument at h
  split at h
  · cases h
    intro sn hsn
    cases hsn
    rfl
  · cases h
  · cases h
  · cases h

theorem tree.argument_wf (E : Lib) {t : tree} {a : argumentNode × tree}
    (h : t.argument E = .ok a) : a.1.WF := by
  unfold tree.argument at h
  split at h
  · split_ifs at h
    · exact tree.switchArgument_wf E h
    · split at h
      · split_ifs at h
        · split at h
          · split at h
            · simp only [] at h
              split_ifs at h
              · exact tree.keyword_wf E h
              · exact tree.positional_wf E h
            · cases h
            · cases h
            · cases h
          · cases h
          · cases h
          · cases h
        · exact tree.positional_wf E h
      · cases h
      · cases h
      · cases h
  · cases h
  · cases h
  · cases h

theorem tree.appendRoot_spec (t : tree) (a : argumentNode) :
    (∃ m, t.appendRoot a = .panic m) ∨
      ∃ t1 r, t.appendRoot a = .ok t1 ∧ t.root = some r ∧
        t1.root = some { r with nodes := r.nodes ++ [a] } ∧ t1.peekCount = t.peekCount ∧
        ∀ i, t1.stream i = t.stream i := by
  unfold tree.appendRoot
  cases hr : t.root with
  | none => exact Or.inl ⟨_, rfl⟩
  | some r => exact Or.inr ⟨_, r, rfl, rfl, rfl, rfl, fun _ => rfl⟩

theorem tree.parseLoop_spec (E : Lib) :
    ∀ (fuel : Nat) (t : tree) (n : Nat), t.peekCount ≤ 1 → t.Bounded n → n < fuel →
      match tree.parseLoop E fuel t with
      | .ok t1 => ParseLoopDone t t1
      | .panic _ => True
      | .err _ => False
      | .diverge => False := by
  intro fuel
  induction fuel with
  | zero => intro _ _ _ _ h; omega
  | succ fuel ih =>
    intro t n hpc hb hn
    obtain ⟨tp, hp, cp, pp⟩ := tree.peek_spec (t := t) (by omega)
    have e0 : tp.stream 0 = t.stream 0 := cp.1 0
    unfold tree.parseLoop
    rw [hp]
    simp only []
    split_ifs with heof
    · simp only [beq_iff_eq] at heof
      exact ⟨⟨0, heof⟩, fun r hr => ⟨r, by rw [cp.2]; exact hr, rfl, [], by simp, by simp⟩⟩
    · have ha := tree.argument_spec E (t := tp) (by omega)
      cases harg : tp.argument E with
      | ok a =>
        have hwf := tree.argument_wf E harg
        rw [harg] at ha
        obtain ⟨⟨k, hk, ck⟩, pk, hne⟩ := ha
        simp only []
        rcases tree.appendRoot_spec a.2 a.1 with ⟨m, hm⟩ | ⟨t2, r2, h2, hr0, hr2, p2, s2⟩
        · rw [hm]
          trivial
        · rw [h2]
          simp only []
          obtain ⟨t3, h3, c3, p3, -, -⟩ := tree.next_spec (t := t2) (by omega)
          rw [h3]
          simp only []
          have hn1 := tree.pos_of_bounded hb (by rw [← e0]; exact hne)
          have c23 : ∀ i, t3.stream i = t.stream (i + (k + 1)) := by
            intro i
            rw [c3.1, s2, ck.1, cp.1]
            congr 1
            omega
          have hb3 : t3.Bounded (n - (k + 1)) := by
            intro i hi
            rw [c23]
            exact hb _ (by omega)
          have hroot3 : t3.root = some { r2 with nodes := r2.nodes ++ [a.1] } := by
            rw [c3.2]
            exact hr2
          have hroot0 : t.root = some r2 := by
            rw [← cp.2, ← ck.2]
            exact hr0
          have rec := ih t3 (n - (k + 1)) (by omega) hb3 (by omega)
          have hrec : match tree.parseLoop E fuel t3 with
              | .ok t1 => ParseLoopDone t t1
              | .panic _ => True
              | .err _ => False
              | .diverge => False := by
            cases hl : tree.parseLoop E fuel t3 with
            | ok t4 =>
              rw [hl] at rec
              obtain ⟨⟨i, hi⟩, hroot⟩ := rec
              refine ⟨⟨i + (k + 1), by rw [← c23]; exact hi⟩, fun r hr => ?_⟩
              obtain ⟨r1, g1, g2, added, g3, g4⟩ := hroot _ hroot3
              rw [hroot0] at hr
              cases hr
              refine ⟨r1, g1, g2, a.1 :: added, by rw [g3]; simp, ?_⟩
              intro x hx
              rcases List.mem_cons.mp hx with rfl | hx
              · exact hwf
              · exact g4 x hx
            | panic m => trivial
            | err m => rw [hl] at rec; exact rec
            | diverge => rw [hl] at rec; exact rec
          cases htyp : (t2.stream 0).typ with
          | itemEOF =>
            refine ⟨⟨0 + k + 0, ?_⟩, fun r hr => ?_⟩
            · have h0 : t2.stream 0 = t.stream (0 + k + 0) := by
                rw [s2, ck.1, cp.1]
              rw [← h0]
              exact htyp
            · rw [hroot0] at hr
              cases hr
              exact ⟨_, hroot3, rfl, [a.1], rfl, by simpa using hwf⟩
          | _ => exact hrec
      | panic m => trivial
      | err m => rw [harg] at ha; exact ha
      | diverge => rw [harg] at ha; exact ha

/-- How a parse ends: never with a returned error and never out of steps; when it returns, an
end-of-input token was among the items of the scanner and the tree has a
root whose arguments are well formed. -/
theorem Parse_spec (E : Lib) (inp : String) :
    match Parse E inp with
    | .ok t => (∃ items, lex E inp = .ok items ∧ ∃ i ∈ items, i.typ = .itemEOF) ∧
        ∃ r, t.root = some r ∧ ∀ a ∈ r.nodes, a.WF
    | .panic _ => True
    | .err _ => False
    | .diverge => False := by
  obtain ⟨items, hl, -⟩ := lex_scanned E inp
  unfold Parse tree.startParse
  rw [hl]
  simp only []
  generalize ht0 : ({ newTree with lex := items } : tree) = t0
  have hpc0 : t0.peekCount = 0 := by rw [← ht0]; rfl
  have hlex0 : t0.lex = items := by rw [← ht0]
  obtain ⟨tp, hp, cp, pp⟩ := tree.peek_spec (t := t0) (by omega)
  unfold tree.parse
  rw [hp]
  simp only []
  have hb : t0.Bounded items.length := by
    have := tree.bounded_pending t0
    rw [tree.pending_length (by omega), hpc0, hlex0] at this
    exact this
  have hbp : ({ tp with root := some ⟨(t0.stream 0).pos, []⟩ } : tree).Bounded items.length := by
    intro i hi
    have : ({ tp with root := some ⟨(t0.stream 0).pos, []⟩ } : tree).stream i = tp.stream i := rfl
    rw [this, cp.1]
    exact hb _ (by omega)
  have := tree.parseLoop_spec E (t0.lex.length + 2)
    { tp with root := some ⟨(t0.stream 0).pos, []⟩ } items.length
    (by show tp.peekCount ≤ 1; omega) hbp (by rw [hlex0]; omega)
  cases hr : tree.parseLoop E (t0.lex.length + 2)
      { tp with root := some ⟨(t0.stream 0).pos, []⟩ } with
  | ok t1 =>
    rw [hr] at this
    obtain ⟨⟨i, hi⟩, hroot⟩ := this
    obtain ⟨r1, g1, -, added, g3, g4⟩ := hroot _ rfl
    refine ⟨⟨items, rfl, ?_⟩, r1, g1, ?_⟩
    · have hs : ({ tp with root := some ⟨(t0.stream 0).pos, []⟩ } : tree).stream i =
          items.getD i zeroItem := by
        have h1 : ({ tp with root := some ⟨(t0.stream 0).pos, []⟩ } : tree).stream i =
            tp.stream i := rfl
        rw [h1, cp.1, Nat.add_zero]
        simp only [tree.stream]
        have : t0.pending = items := by
          rw [← ht0]
          rfl
        rw [this]
      rw [hs] at hi
      by_cases hlt : i < items.length
      · refine ⟨items[i], List.getElem_mem _, ?_⟩
        rw [List.getD_eq_getElem?_getD, List.getElem?_eq_getElem hlt] at hi
        exact hi
      · rw [List.getD_eq_getElem?_getD, List.getElem?_eq_none_iff.mpr (not_lt.mp hlt)] at hi
        cases hi
    · rw [g3]
      simpa using g4
  | panic m => trivial
  | err m => rw [hr] at this; exact this
  | diverge => rw [hr] at this; exact this

/-- A scan that ends with an error token holds no end-of-input token. -/
theorem no_eof_of_error (E : Lib) (input : String) (items : List item) (last : item)
    (hl : lex E input = .ok (items ++ [last])) (he : last.typ = .itemError) :
    ∀ i ∈ items ++ [last], i.typ ≠ .itemEOF := by
  obtain ⟨its, h1, front, last1, h2, h3, h4⟩ := lex_scanned E input
  rw [hl] at h1
  cases h1
  simp only [List.nil_append] at h2
  obtain ⟨e1, e2⟩ := List.append_inj' h2 rfl
  subst e1
  cases e2
  intro i hi
  rcases List.mem_append.mp hi with hi | hi
  · exact (h4 i hi).1
  · simp only [List.mem_singleton] at hi
    subst hi
    rw [he]
    simp

/-! ## The resolved-argument view -/

theorem mapInsert_ne_nil (m : List (String × node)) (k : String) (v : node) :
    mapInsert m k v ≠ [] := by
  cases m with
  | nil => simp [mapInsert]
  | cons e rest =>
    simp only [mapInsert]
    split_ifs <;> simp

theorem mapLookup_mapInsert (m : List (String × node)) (k k1 : String) (v : node) :
    mapLookup (mapInsert m k v) k1 = if k = k1 then some v else mapLookup m k1 := by
  induction m with
  | nil =>
    simp only [mapInsert, mapLookup, beq_iff_eq]
  | cons e rest ih =>
    simp only [mapInsert]
    by_cases h1 : e.1 = k
    · simp only [h1, beq_self_eq_true, ↓reduceIte, mapLookup, beq_iff_eq]
      split_ifs <;> rfl
    · have hb : (e.1 == k) = false := by simpa using h1
      simp only [hb, Bool.false_eq_true, ↓reduceIte, mapLookup, ih, beq_iff_eq]
      by_cases h2 : e.1 = k1
      · have : ¬ k = k1 := fun h => h1 (h2.trans h.symm)
        simp [h2, this]
      · simp [h2]

theorem keys_mapInsert (m : List (String × node)) (k : String) (v : node) :
    (∀ k1, k1 ∈ (mapInsert m k v).map Prod.fst ↔ k1 = k ∨ k1 ∈ m.map Prod.fst) ∧
      ((m.map Prod.fst).Nodup → ((mapInsert m k v).map Prod.fst).Nodup) := by
  induction m with
  | nil => simp [mapInsert]
  | cons e rest ih =>
    simp only [mapInsert]
    by_cases h1 : e.1 = k
    · simp only [h1, beq_self_eq_true, ↓reduceIte, List.map_cons, List.mem_cons, List.nodup_cons]
      exact ⟨fun k1 => by tauto, fun h => h⟩
    · have hb : (e.1 == k) = false := by simpa using h1
      simp only [hb, Bool.false_eq_true, ↓reduceIte, List.map_cons, List.mem_cons,
        List.nodup_cons]
      refine ⟨fun k1 => by rw [ih.1]; tauto, fun h => ⟨?_, ih.2 h.2⟩⟩
      rw [ih.1]
      rintro (h2 | h2)
      · exact h1 h2
      · exact h.1 h2

theorem mem_keys_iff (m : List (String × node)) (k : String) :
    k ∈ m.map Prod.fst ↔ ∃ v, mapLookup m k = some v := by
  induction m with
  | nil => simp [mapLookup]
  | cons e rest ih =>
    simp only [List.map_cons, List.mem_cons, mapLookup, beq_iff_eq]
    by_cases h : e.1 = k
    · simp [h]
    · have : ¬ k = e.1 := fun h1 => h h1.symm
      simp [h, this, ih]

theorem parseValueLoop_result (nodes : List argumentNode) :
    ∀ p : parsed, (∃ p1, parseValueLoop nodes p = .ok p1) ∨
      parseValueLoop nodes p = .err ErrPositionalAfterKeyword := by
  induction nodes with
  | nil => intro p; exact Or.inl ⟨p, rfl⟩
  | cons n rest ih =>
    intro p
    simp only [parseValueLoop]
    split
    · split_ifs
      · exact Or.inr rfl
      · exact ih _
    · exact ih _

theorem positionalAfterKeyword_cons_none {n : argumentNode} {rest : List argumentNode}
    (h : n.ident = none) : PositionalAfterKeyword (n :: rest) ↔ PositionalAfterKeyword rest := by
  constructor
  · rintro ⟨l1, a, l2, b, l3, e, ha, hb⟩
    cases l1 with
    | nil =>
      simp only [List.nil_append, List.cons.injEq] at e
      rw [← e.1] at ha
      exact absurd h ha
    | cons x l1 =>
      simp only [List.cons_append, List.cons.injEq] at e
      exact ⟨l1, a, l2, b, l3, e.2, ha, hb⟩
  · rintro ⟨l1, a, l2, b, l3, e, ha, hb⟩
    exact ⟨n :: l1, a, l2, b, l3, by rw [e]; rfl, ha, hb⟩

theorem positionalAfterKeyword_cons_some {n : argumentNode} {rest : List argumentNode}
    (h : n.ident ≠ none) :
    PositionalAfterKeyword (n :: rest) ↔
      (∃ b ∈ rest, b.ident = none) ∨ PositionalAfterKeyword rest := by
  constructor
  · rintro ⟨l1, a, l2, b, l3, e, ha, hb⟩
    cases l1 with
    | nil =>
      simp only [List.nil_append, List.cons.injEq] at e
      exact Or.inl ⟨b, by rw [e.2]; simp, hb⟩
    | cons x l1 =>
      simp only [List.cons_append, List.cons.injEq] at e
      exact Or.inr ⟨l1, a, l2, b, l3, e.2, ha, hb⟩
  · rintro (⟨b, hb, hn⟩ | ⟨l1, a, l2, b, l3, e, ha, hb⟩)
    · obtain ⟨l2, l3, e⟩ := List.append_of_mem hb
      exact ⟨[], n, l2, b, l3, by rw [e]; rfl, h, hn⟩
    · exact ⟨n :: l1, a, l2, b, l3, by rw [e]; rfl, ha, hb⟩

theorem parseValueLoop_err_iff (nodes : List argumentNode) :
    ∀ p : parsed, parseValueLoop nodes p = .err ErrPositionalAfterKeyword ↔
      (p.keyword ≠ [] ∧ ∃ b ∈ nodes, b.ident = none) ∨ PositionalAfterKeyword nodes := by
  induction nodes with
  | nil =>
    intro p
    simp only [parseValueLoop, reduceCtorEq, List.not_mem_nil, false_and, exists_false,
      and_false, false_or, false_iff]
    rintro ⟨l1, a, l2, b, l3, e, -⟩
    cases l1 <;> cases e
  | cons n rest ih =>
    intro p
    simp only [parseValueLoop]
    cases hid : n.ident with
    | none =>
      simp only []
      rw [positionalAfterKeyword_cons_none hid]
      by_cases hk : p.keyword = []
      · simp only [hk, List.length_nil, bne_self_eq_false, Bool.false_eq_true, ↓reduceIte, ih,
          ne_eq, not_true_eq_false, false_and, false_or]
      · have hl : (p.keyword.length != 0) = true := by
          simp only [bne_iff_ne, ne_eq, List.length_eq_zero]
          exact hk
        simp only [hl, ↓reduceIte, ne_eq, hk, not_false_eq_true, List.mem_cons, true_and,
          true_iff]
        exact Or.inl ⟨n, Or.inl rfl, hid⟩
    | some id =>
      simp only []
      rw [ih, positionalAfterKeyword_cons_some (by rw [hid]; simp)]
      simp only [ne_eq, mapInsert_ne_nil, not_false_eq_true, true_and, List.mem_cons]
      constructor
      · intro h
        exact Or.inr h
      · rintro (⟨_, b, hb | hb, hn⟩ | h)
        · rw [hb, hid] at hn
          cases hn
        · exact Or.inl ⟨b, hb, hn⟩
        · exact h

theorem parseValueLoop_ok (nodes : List argumentNode) :
    ∀ p p1 : parsed, parseValueLoop nodes p = .ok p1 →
      p1.indexed = p.indexed ++ (nodes.filter (fun a => a.ident.isNone)).map argumentNode.value ∧
      (∀ k, mapLookup p1.keyword k = (lastNamed nodes k).or (mapLookup p.keyword k)) ∧
      (∀ k, k ∈ p1.keyword.map Prod.fst ↔
        k ∈ p.keyword.map Prod.fst ∨ ∃ a ∈ nodes, ∃ id, a.ident = some id ∧ id.String = k) ∧
      ((p.keyword.map Prod.fst).Nodup → (p1.keyword.map Prod.fst).Nodup) := by
  induction nodes with
  | nil =>
    intro p p1 h
    simp only [parseValueLoop, Result.ok.injEq] at h
    subst h
    simp [lastNamed]
  | cons n rest ih =>
    intro p p1 h
    simp only [parseValueLoop] at h
    cases hid : n.ident with
    | none =>
      rw [hid] at h
      simp only [] at h
      split_ifs at h
      obtain ⟨h1, h2, h3, h4⟩ := ih _ _ h
      refine ⟨?_, ?_, ?_, h4⟩
      · rw [h1]
        simp [List.filter_cons, hid]
      · intro k
        rw [h2]
        simp [lastNamed, List.find?_append, hid]
      · intro k
        rw [h3]
        simp only [List.mem_cons, exists_eq_or_imp, hid, reduceCtorEq, false_and, exists_false,
          false_or]
    | some id =>
      rw [hid] at h
      simp only [] at h
      obtain ⟨h1, h2, h3, h4⟩ := ih _ _ h
      refine ⟨?_, ?_, ?_, fun hn => h4 ((keys_mapInsert _ _ _).2 hn)⟩
      · rw [h1]
        simp [List.filter_cons, hid]
      · intro k
        rw [h2, mapLookup_mapInsert]
        simp only [lastNamed, List.reverse_cons, List.find?_append, Option.map_or']
        cases hf : List.find? (fun a => a.ident.map identifierNode.String == some k)
            rest.reverse with
        | some x => simp
        | none =>
          simp only [Option.map_none', Option.none_or, Option.or_none, List.find?_cons, hid,
            Option.map_some', beq_iff_eq, Option.some.injEq, List.find?_nil]
          by_cases hk : id.String = k
          · simp [hk]
          · have hb : (id.String == k) = false := by simpa using hk
            simp [hk, hb]
      · intro k
        rw [h3, (keys_mapInsert _ _ _).1]
        simp only [List.mem_cons, exists_eq_or_imp, hid, Option.some.injEq, exists_eq_left']
        constructor
        · rintro ((h | h) | h)
          · exact Or.inr (Or.inl h.symm)
          · exact Or.inl h
          · exact Or.inr (Or.inr h)
        · rintro (h | h | h)
          · exact Or.inl (Or.inr h)
          · exact Or.inl (Or.inl h.symm)
          · exact Or.inr h

theorem Parse_ok_root (E : Lib) (inp : String) (t : tree) (h : Parse E inp = .ok t) :
    ∃ r, t.root = some r ∧ ∀ a ∈ r.nodes, a.WF := by
  have := Parse_spec E inp
  rw [h] at this
  exact this.2
/-! ## The binder: `applyNode` and the loops of `Tag.Fill` -/

mutual
theorem GoType.zero_typeOf : ∀ ty : GoType, ty.zero.typeOf = ty
  | .bool => rfl
  | .int _ => rfl
  | .uint _ => rfl
  | .float _ => rfl
  | .string => rfl
  | .pointer _ => rfl
  | .slice _ => rfl
  | .other _ => rfl
  | .struct n fs => by
    simp only [GoType.zero, GoValue.typeOf, GoType.zeros_typesOf fs]
theorem GoType.zeros_typesOf : ∀ fs : List (FieldOf GoType),
    GoValue.typesOf (GoType.zeros fs) = fs
  | [] => rfl
  | ⟨n, x, t, e⟩ :: rest => by
    simp only [GoType.zeros, GoValue.typesOf, GoType.zero_typeOf t, GoType.zeros_typesOf rest]
end

theorem typesOf_eq_map (fs : List Field) : GoValue.typesOf fs = fs.map FieldOf.shape := by
  induction fs with
  | nil => rfl
  | cons f rest ih =>
    obtain ⟨n, x, v, e⟩ := f
    simp only [GoValue.typesOf, ih, List.map_cons, FieldOf.shape]

theorem wrapInt_of_fits (bits : Nat) (x : Int) (h : Fits bits x) : wrapInt bits x = x := by
  obtain ⟨hb, h1, h2⟩ := h
  obtain ⟨c, rfl⟩ : ∃ c, bits = c + 1 := ⟨bits - 1, by omega⟩
  simp only [Nat.add_sub_cancel] at h1 h2
  unfold wrapInt
  simp only [Nat.add_sub_cancel]
  have hp : (2 : Int) ^ (c + 1) = 2 * 2 ^ c := by ring
  rw [hp, Int.emod_eq_of_lt (by omega) (by omega)]
  omega

theorem SetBool_typeOf (s : Bool) (f : GoValue) (x : Bool) :
    (SetBool s f x).1.typeOf = f.typeOf := by
  cases s <;> cases f <;> rfl

theorem SetInt_typeOf (s : Bool) (f : GoValue) (x : Int) :
    (SetInt s f x).1.typeOf = f.typeOf := by
  cases s <;> cases f <;> rfl

theorem SetUint_typeOf (s : Bool) (f : GoValue) (x : Nat) :
    (SetUint s f x).1.typeOf = f.typeOf := by
  cases s <;> cases f <;> rfl

theorem SetFloat_typeOf (E : Lib) (s : Bool) (f : GoValue) (x : Nat) :
    (SetFloat E s f x).1.typeOf = f.typeOf := by
  cases s <;> cases f <;> rfl

theorem SetString_typeOf (s : Bool) (f : GoValue) (x : String) :
    (SetString s f x).1.typeOf = f.typeOf := by
  cases s <;> cases f <;> rfl

theorem applyKind_typeOf (E : Lib) (s : Bool) (f : GoValue) (n : node) :
    (applyKind E s f n).1.typeOf = f.typeOf := by
  cases n with
  | boolN nv => simp only [applyKind, SetBool_typeOf]
  | switchN nv => simp only [applyKind, SetBool_typeOf]
  | identifierN nv => simp only [applyKind, SetString_typeOf]
  | stringN nv => simp only [applyKind, SetString_typeOf]
  | nilN nv =>
    simp only [applyKind, SetValue]
    cases s
    · rfl
    · exact GoType.zero_typeOf _
  | numberN nv =>
    simp only [applyKind]
    split_ifs
    · exact SetInt_typeOf _ _ _
    · exact SetUint_typeOf _ _ _
    · exact SetFloat_typeOf _ _ _ _
    · rfl
  | sliceN pos values =>
    simp only [applyKind]
    split
    · rename_i elem he
      split_ifs
      · rfl
      · exact he.symm
    · rfl

theorem applyNode_typeOf (E : Lib) (s : Bool) (f : GoValue) (n : node) :
    (applyNode E s f n).1.typeOf = f.typeOf := by
  unfold applyNode throughNilPointer
  split
  · split_ifs <;> rfl
  · exact applyKind_typeOf E s f n

/-- The head of `applyNode` on a settable value: a nil pointer is written
through, any other value is written to. -/
theorem throughNilPointer_settable (f : GoValue) (k : GoValue → GoValue × Result Unit) :
    (∃ e, f = .pointer e none ∧
      throughNilPointer true f k = (.pointer e (some (k e.zero).1), (k e.zero).2)) ∨
    ((∀ e, f ≠ .pointer e none) ∧ throughNilPointer true f k = k f) := by
  cases f with
  | pointer e t =>
    cases t with
    | none => exact Or.inl ⟨e, rfl, rfl⟩
    | some g => exact Or.inr ⟨(fun e h => by cases h), rfl⟩
  | _ => exact Or.inr ⟨(fun e h => by cases h), rfl⟩

theorem compatible_zero (elem : GoType) (n : node) :
    Compatible elem.zero n = elem.target.takes n := by
  cases elem <;> simp only [Compatible, GoType.zero, GoType.target, GoValue.typeOf]
  rename_i name fs
  rw [GoType.zeros_typesOf]

mutual
theorem applyKind_ok_iff (E : Lib) (g : GoValue) :
    ∀ n : node, (applyKind E true g n).2 = .ok () ↔ g.typeOf.takes n = true
  | .boolN nv => by cases g <;> simp [applyKind, SetBool, GoType.takes, GoValue.typeOf]
  | .switchN nv => by cases g <;> simp [applyKind, SetBool, GoType.takes, GoValue.typeOf]
  | .identifierN nv => by cases g <;> simp [applyKind, SetString, GoType.takes, GoValue.typeOf]
  | .stringN nv => by cases g <;> simp [applyKind, SetString, GoType.takes, GoValue.typeOf]
  | .nilN nv => by simp [applyKind, SetValue, GoType.takes]
  | .numberN nv => by
    simp only [applyKind, GoType.takes]
    split_ifs
    · cases g <;> simp [SetInt, GoType.isInt, GoValue.typeOf]
    · cases g <;> simp [SetUint, GoType.isUint, GoValue.typeOf]
    · cases g <;> simp [SetFloat, GoType.isFloat, GoValue.typeOf]
    · simp
  | .sliceN pos values => by
    simp only [applyKind, GoType.takes]
    cases ht : g.typeOf with
    | slice elem =>
      simp only [Bool.not_true, Bool.false_eq_true, ↓reduceIte]
      exact applyElems_ok_iff E elem values
    | _ => simp
theorem applyElems_ok_iff (E : Lib) (elem : GoType) :
    ∀ values : List node, (applyElems E true elem values).2 = .ok () ↔
      GoType.takesAll elem.target values = true
  | [] => by simp [applyElems, GoType.takesAll]
  | el :: rest => by
    have h1 : (throughNilPointer true elem.zero (fun g => applyKind E true g el)).2 = .ok () ↔
        elem.target.takes el = true := by
      rw [← compatible_zero]
      rcases throughNilPointer_settable elem.zero (fun g => applyKind E true g el) with
        ⟨e, he, h⟩ | ⟨hne, h⟩
      · rw [h, he]
        simp only [Compatible]
        rw [applyKind_ok_iff E e.zero el, GoType.zero_typeOf]
      · rw [h]
        have hc : Compatible elem.zero el = elem.zero.typeOf.takes el := by
          cases hz : elem.zero with
          | pointer e t =>
            cases t with
            | none => exact absurd hz (hne e)
            | some g => rfl
          | _ => rfl
        rw [hc]
        exact applyKind_ok_iff E elem.zero el
    rw [applyElems]
    simp only [GoType.takesAll, Bool.and_eq_true]
    cases hr : (throughNilPointer true elem.zero (fun g => applyKind E true g el)).2 with
    | ok u =>
      simp only []
      rw [applyElems_ok_iff E elem rest]
      have := h1.1 (by rw [hr])
      simp [this]
    | err m =>
      have : ¬ elem.target.takes el = true := fun h => by
        have := h1.2 h
        rw [hr] at this
        cases this
      simp [this]
    | panic m =>
      have : ¬ elem.target.takes el = true := fun h => by
        have := h1.2 h
        rw [hr] at this
        cases this
      simp [this]
    | diverge =>
      have : ¬ elem.target.takes el = true := fun h => by
        have := h1.2 h
        rw [hr] at this
        cases this
      simp [this]
end

/-- The bindings to a settable value that succeed are those of a compatible
node. -/
theorem applyNode_ok_iff (E : Lib) (f : GoValue) (n : node) :
    (applyNode E true f n).2 = .ok () ↔ Compatible f n = true := by
  unfold applyNode
  rcases throughNilPointer_settable f (fun g => applyKind E true g n) with ⟨e, he, h⟩ | ⟨hne, h⟩
  · rw [h, he]
    simp only [Compatible]
    rw [applyKind_ok_iff E e.zero n, GoType.zero_typeOf]
  · rw [h]
    have hc : Compatible f n = f.typeOf.takes n := by
      cases f with
      | pointer e t =>
        cases t with
        | none => exact absurd rfl (hne e)
        | some g => rfl
      | _ => rfl
    rw [hc]
    exact applyKind_ok_iff E f n

theorem holds_cons (E : Lib) (g : GoValue) (gs : List GoValue) (v : node) (vs : List node) :
    HoldsAll E (g :: gs) (v :: vs) ↔ Holds E g v ∧ HoldsAll E gs vs := by
  cases g with
  | pointer e t =>
    cases t <;> simp only [HoldsAll, Holds]
  | _ => simp only [HoldsAll, Holds]

theorem holds_of_typeOf (E : Lib) (g : GoValue) (n : node)
    (h : ∀ e, g.typeOf ≠ .pointer e) : Holds E g n ↔ HoldsDirect E g n := by
  cases g with
  | pointer e t => exact absurd rfl (h e)
  | _ => simp only [Holds]

mutual
theorem applyKind_holds (E : Lib) (g : GoValue) :
    ∀ n : node, (applyKind E true g n).2 = .ok () → HoldsDirect E (applyKind E true g n).1 n
  | .boolN nv => by cases g <;> simp [applyKind, SetBool, HoldsDirect]
  | .switchN nv => by cases g <;> simp [applyKind, SetBool, HoldsDirect]
  | .identifierN nv => by cases g <;> simp [applyKind, SetString, HoldsDirect]
  | .stringN nv => by cases g <;> simp [applyKind, SetString, HoldsDirect]
  | .nilN nv => by
    intro _
    simp only [applyKind, SetValue, Bool.not_true, Bool.false_eq_true, ↓reduceIte, HoldsDirect]
    rw [GoType.zero_typeOf]
  | .numberN nv => by
    simp only [applyKind, HoldsDirect]
    split_ifs
    · cases g <;> simp [SetInt]
      exact ⟨_, _, ⟨rfl, rfl⟩, rfl, fun hf => wrapInt_of_fits _ _ hf⟩
    · cases g <;> simp [SetUint]
    · cases g <;> simp [SetFloat]
    · simp
  | .sliceN pos values => by
    simp only [applyKind, HoldsDirect]
    cases ht : g.typeOf with
    | slice elem =>
      simp only [Bool.not_true, Bool.false_eq_true, ↓reduceIte]
      intro hok
      exact ⟨elem, _, rfl, applyElems_holds E elem values hok⟩
    | _ => simp
theorem applyElems_holds (E : Lib) (elem : GoType) :
    ∀ values : List node, (applyElems E true elem values).2 = .ok () →
      HoldsAll E (applyElems E true elem values).1 values
  | [] => by simp [applyElems, HoldsAll]
  | el :: rest => by
    intro hok
    rw [applyElems] at hok ⊢
    cases hr : (throughNilPointer true elem.zero (fun g => applyKind E true g el)).2 with
    | ok u =>
      rw [hr] at hok
      simp only [] at hok ⊢
      rw [holds_cons]
      refine ⟨?_, applyElems_holds E elem rest hok⟩
      rcases throughNilPointer_settable elem.zero (fun g => applyKind E true g el) with
        ⟨e, he, h⟩ | ⟨hne, h⟩
      · rw [h] at hr ⊢
        simp only [Holds]
        exact applyKind_holds E e.zero el hr
      · rw [h] at hr ⊢
        rw [holds_of_typeOf]
        · exact applyKind_holds E elem.zero el hr
        · intro e he
          rw [applyKind_typeOf, GoType.zero_typeOf] at he
          rw [he] at hne
          exact hne e rfl
    | err m => rw [hr] at hok; cases hok
    | panic m => rw [hr] at hok; cases hok
    | diverge => rw [hr] at hok; cases hok
end

/-- What a binding to a settable value leaves holds the node. -/
theorem applyNode_holds (E : Lib) (f : GoValue) (n : node)
    (hok : (applyNode E true f n).2 = .ok ()) : Holds E (applyNode E true f n).1 n := by
  unfold applyNode at hok ⊢
  rcases throughNilPointer_settable f (fun g => applyKind E true g n) with ⟨e, he, h⟩ | ⟨hne, h⟩
  · rw [h] at hok ⊢
    simp only [Holds]
    exact applyKind_holds E e.zero n hok
  · rw [h] at hok ⊢
    have hd := applyKind_holds E f n hok
    cases f with
    | pointer e t =>
      cases t with
      | none => exact absurd rfl (hne e)
      | some g =>
        cases n with
        | nilN nv =>
          simp only [applyKind, SetValue, Bool.not_true, Bool.false_eq_true, ↓reduceIte,
            GoValue.typeOf, GoType.zero, Holds, HoldsDirect]
        | numberN nv =>
          simp only [applyKind] at hok ⊢
          split_ifs at hok ⊢
          · simp [SetInt] at hok
          · simp [SetUint] at hok
          · simp [SetFloat] at hok
          · simp [Holds, HoldsDirect, *]
        | boolN nv => simp [applyKind, SetBool] at hok
        | switchN nv => simp [applyKind, SetBool] at hok
        | identifierN nv => simp [applyKind, SetString] at hok
        | stringN nv => simp [applyKind, SetString] at hok
        | sliceN pos values => simp [applyKind, GoValue.typeOf] at hok
    | _ =>
      rw [holds_of_typeOf]
      · exact hd
      · intro e he
        rw [applyKind_typeOf] at he
        cases he

/-- A binding to a value that cannot be set succeeds only for a Number
without a flag, which the binder skips. -/
theorem applyNode_unsettable (E : Lib) (f : GoValue) (n : node)
    (hok : (applyNode E false f n).2 = .ok ()) : applyNodeZero n = .ok () := by
  unfold applyNode throughNilPointer at hok
  have hk : ∀ g, (applyKind E false g n).2 = .ok () → applyNodeZero n = .ok () := by
    intro g hg
    cases n with
    | numberN nv =>
      simp only [applyKind, applyNodeZero] at hg ⊢
      split_ifs at hg ⊢
      · simp [SetInt] at hg
      · simp [SetUint] at hg
      · simp [SetFloat] at hg
      · rfl
    | boolN nv => simp [applyKind, SetBool] at hg
    | switchN nv => simp [applyKind, SetBool] at hg
    | identifierN nv => simp [applyKind, SetString] at hg
    | stringN nv => simp [applyKind, SetString] at hg
    | nilN nv => simp [applyKind, SetValue] at hg
    | sliceN pos values =>
      simp only [applyKind] at hg
      split at hg
      · simp at hg
      · simp at hg
  split at hok
  · simp at hok
  · exact hk _ hok

/-- A node that the parser made is bound to a field only if the field is
exported and compatible with it. -/
theorem applyNode_ok_field (E : Lib) (f : Field) (n : node)
    (hz : ∃ m, applyNodeZero n = .panic m) :
    (applyNode E f.exported f.value n).2 = .ok () ↔
      f.exported = true ∧ Compatible f.value n = true := by
  obtain ⟨m, hz⟩ := hz
  cases hx : f.exported with
  | false =>
    simp only [Bool.false_eq_true, false_and, iff_false]
    intro hok
    rw [applyNode_unsettable E f.value n hok] at hz
    cases hz
  | true =>
    simp only [true_and]
    exact applyNode_ok_iff E f.value n

/-! ### How a binding ends -/

theorem setters_ok_or_panic (E : Lib) (s : Bool) (f : GoValue) :
    (∀ x, (SetBool s f x).2 = .ok () ∨ ∃ m, (SetBool s f x).2 = .panic m) ∧
    (∀ x, (SetInt s f x).2 = .ok () ∨ ∃ m, (SetInt s f x).2 = .panic m) ∧
    (∀ x, (SetUint s f x).2 = .ok () ∨ ∃ m, (SetUint s f x).2 = .panic m) ∧
    (∀ x, (SetFloat E s f x).2 = .ok () ∨ ∃ m, (SetFloat E s f x).2 = .panic m) ∧
    (∀ x, (SetString s f x).2 = .ok () ∨ ∃ m, (SetString s f x).2 = .panic m) ∧
    (∀ x, (SetValue s f x).2 = .ok () ∨ ∃ m, (SetValue s f x).2 = .panic m) := by
  refine ⟨?_, ?_, ?_, ?_, ?_, ?_⟩ <;> intro x <;> cases s <;> cases f <;>
    simp [SetBool, SetInt, SetUint, SetFloat, SetString, SetValue]

mutual
theorem applyKind_ok_or_panic (E : Lib) (s : Bool) (f : GoValue) :
    ∀ n : node, (applyKind E s f n).2 = .ok () ∨ ∃ m, (applyKind E s f n).2 = .panic m
  | .boolN nv => by simpa only [applyKind] using (setters_ok_or_panic E s f).1 _
  | .switchN nv => by simpa only [applyKind] using (setters_ok_or_panic E s f).1 _
  | .identifierN nv => by simpa only [applyKind] using (setters_ok_or_panic E s f).2.2.2.2.1 _
  | .stringN nv => by simpa only [applyKind] using (setters_ok_or_panic E s f).2.2.2.2.1 _
  | .nilN nv => by simpa only [applyKind] using (setters_ok_or_panic E s f).2.2.2.2.2 _
  | .numberN nv => by
    simp only [applyKind]
    split_ifs
    · exact (setters_ok_or_panic E s f).2.1 _
    · exact (setters_ok_or_panic E s f).2.2.1 _
    · exact (setters_ok_or_panic E s f).2.2.2.1 _
    · exact Or.inl rfl
  | .sliceN pos values => by
    simp only [applyKind]
    split
    · split_ifs
      · exact Or.inr ⟨_, rfl⟩
      · exact applyElems_ok_or_panic E s _ values
    · exact Or.inr ⟨_, rfl⟩
theorem applyElems_ok_or_panic (E : Lib) (s : Bool) (elem : GoType) :
    ∀ values : List node, (applyElems E s elem values).2 = .ok () ∨
      ∃ m, (applyElems E s elem values).2 = .panic m
  | [] => Or.inl rfl
  | el :: rest => by
    have h1 : (throughNilPointer s elem.zero (fun g => applyKind E s g el)).2 = .ok () ∨
        ∃ m, (throughNilPointer s elem.zero (fun g => applyKind E s g el)).2 = .panic m := by
      unfold throughNilPointer
      split
      · split_ifs
        · exact Or.inr ⟨_, rfl⟩
        · exact applyKind_ok_or_panic E s _ el
      · exact applyKind_ok_or_panic E s _ el
    rw [applyElems]
    rcases h1 with h1 | ⟨m, h1⟩
    · rw [h1]
      exact applyElems_ok_or_panic E s elem rest
    · rw [h1]
      exact Or.inr ⟨m, rfl⟩
end

theorem applyNode_ok_or_panic (E : Lib) (s : Bool) (f : GoValue) (n : node) :
    (applyNode E s f n).2 = .ok () ∨ ∃ m, (applyNode E s f n).2 = .panic m := by
  unfold applyNode throughNilPointer
  split
  · split_ifs
    · exact Or.inr ⟨_, rfl⟩
    · exact applyKind_ok_or_panic E s _ n
  · exact applyKind_ok_or_panic E s _ n

theorem applyElems_ok (E : Lib) (elem : GoType) : ∀ (values : List node),
    (∀ v ∈ values, (applyNode E true elem.zero v).2 = .ok ()) →
    applyElems E true elem values =
      (values.map (fun v => (applyNode E true elem.zero v).1), .ok ()) := by
  intro values
  induction values with
  | nil =>
    intro _
    simp [applyElems]
  | cons el rest ih =>
    intro h
    have h0 := h el (List.mem_cons_self _ _)
    have hr := ih (fun v hv => h v (List.mem_cons_of_mem _ hv))
    unfold applyNode at h0
    rw [applyElems, h0]
    simp only [hr, List.map_cons, applyNode]

/-! ## `FieldByNameFunc`: the search for a field by its name -/

/-- What the loop over the fields of one struct type does to the variables of
the search: the set `visited` stays; every new entry of `next` is the struct
of an embedded field, with the index of that field; and `result` stays or
becomes the index of a field whose name matches. -/
theorem scanFields_spec (m : String → Bool) (multiple : Bool) (index : List Nat) :
    ∀ (fields : List (FieldOf GoType)) (i : Nat) (s s1 : scanState),
    scanFields m multiple index fields i s = some s1 →
    s1.visited = s.visited ∧
    (∀ sc ∈ s1.next, sc ∈ s.next ∨ ∃ k f, fields[k]? = some f ∧
      embeddedStruct f = some sc.typ ∧ sc.index = index ++ [i + k]) ∧
    (s1.result = s.result ∨ ∃ k f, fields[k]? = some f ∧ m f.name = true ∧
      s1.result = some (index ++ [i + k])) := by
  intro fields
  induction fields with
  | nil =>
    intro i s s1 h
    simp only [scanFields, Option.some.injEq] at h
    subst h
    exact ⟨rfl, fun sc hsc => Or.inl hsc, Or.inl rfl⟩
  | cons f rest ih =>
    intro i s s1 h
    have shift : ∀ (s0 : scanState), scanFields m multiple index rest (i + 1) s0 = some s1 →
        s1.visited = s0.visited ∧
        (∀ sc ∈ s1.next, sc ∈ s0.next ∨ ∃ k g, (f :: rest)[k]? = some g ∧
          embeddedStruct g = some sc.typ ∧ sc.index = index ++ [i + k]) ∧
        (s1.result = s0.result ∨ ∃ k g, (f :: rest)[k]? = some g ∧ m g.name = true ∧
          s1.result = some (index ++ [i + k])) := by
      intro s0 h0
      obtain ⟨h1, h2, h3⟩ := ih (i + 1) s0 s1 h0
      refine ⟨h1, fun sc hsc => ?_, ?_⟩
      · rcases h2 sc hsc with h | ⟨k, g, hg, he, hi⟩
        · exact Or.inl h
        · exact Or.inr ⟨k + 1, g, by simpa using hg, he, by rw [hi]; congr 2; omega⟩
      · rcases h3 with h | ⟨k, g, hg, hm, hi⟩
        · exact Or.inl h
        · exact Or.inr ⟨k + 1, g, by simpa using hg, hm, by rw [hi]; congr 3; omega⟩
    unfold scanFields at h
    by_cases hm : m f.name = true
    · simp only [hm, ↓reduceIte] at h
      split_ifs at h with hc
      obtain ⟨h1, h2, h3⟩ := shift _ h
      refine ⟨h1, h2, Or.inr ?_⟩
      rcases h3 with h3 | h3
      · exact ⟨0, f, List.getElem?_cons_zero, hm, by simpa using h3⟩
      · exact h3
    · simp only [hm, Bool.false_eq_true, ↓reduceIte] at h
      cases he : embeddedStruct f with
      | none =>
        rw [he] at h
        exact shift _ h
      | some styp =>
        rw [he] at h
        simp only [] at h
        split_ifs at h
        all_goals
          obtain ⟨h1, h2, h3⟩ := shift _ h
          refine ⟨h1, fun sc hsc => ?_, h3⟩
          rcases h2 sc hsc with h | h
          · first
              | exact Or.inl h
              | (simp only [List.mem_append, List.mem_singleton] at h
                 rcases h with h | h
                 · exact Or.inl h
                 · subst h
                   exact Or.inr ⟨0, f, List.getElem?_cons_zero, he, rfl⟩)
          · exact Or.inr h

/-- What the loop over the struct types of one depth does to the variables
of the search. -/
theorem scanLevel_spec (m : String → Bool) (count : List (GoType × Nat)) :
    ∀ (current : List fieldScan) (s s1 : scanState),
    scanLevel m count current s = some s1 →
    (∀ sc ∈ s1.next, sc ∈ s.next ∨ ∃ cur ∈ current, ∃ k f, cur.typ.fields[k]? = some f ∧
      embeddedStruct f = some sc.typ ∧ sc.index = cur.index ++ [k]) ∧
    (s1.result = s.result ∨ ∃ cur ∈ current, ∃ k f, cur.typ.fields[k]? = some f ∧
      m f.name = true ∧ s1.result = some (cur.index ++ [k])) := by
  intro current
  induction current with
  | nil =>
    intro s s1 h
    simp only [scanLevel, Option.some.injEq] at h
    subst h
    exact ⟨fun sc hsc => Or.inl hsc, Or.inl rfl⟩
  | cons cur rest ih =>
    intro s s1 h
    have lift : ∀ s0 : scanState, scanLevel m count rest s0 = some s1 →
        (∀ sc ∈ s1.next, sc ∈ s0.next ∨ ∃ c ∈ cur :: rest, ∃ k f, c.typ.fields[k]? = some f ∧
          embeddedStruct f = some sc.typ ∧ sc.index = c.index ++ [k]) ∧
        (s1.result = s0.result ∨ ∃ c ∈ cur :: rest, ∃ k f, c.typ.fields[k]? = some f ∧
          m f.name = true ∧ s1.result = some (c.index ++ [k])) := by
      intro s0 h0
      obtain ⟨h1, h2⟩ := ih s0 s1 h0
      refine ⟨fun sc hsc => ?_, ?_⟩
      · rcases h1 sc hsc with h | ⟨c, hc, h⟩
        · exact Or.inl h
        · exact Or.inr ⟨c, List.mem_cons_of_mem _ hc, h⟩
      · rcases h2 with h | ⟨c, hc, h⟩
        · exact Or.inl h
        · exact Or.inr ⟨c, List.mem_cons_of_mem _ hc, h⟩
    unfold scanLevel at h
    split_ifs at h with hv
    · exact lift s h
    · cases hf : scanFields m (decide (1 < countOf count cur.typ)) cur.index cur.typ.fields 0
          { s with visited := cur.typ :: s.visited } with
      | none =>
        rw [hf] at h
        cases h
      | some s0 =>
        rw [hf] at h
        simp only [] at h
        obtain ⟨-, f2, f3⟩ := scanFields_spec m _ _ _ _ _ _ hf
        obtain ⟨l1, l2⟩ := lift s0 h
        refine ⟨fun sc hsc => ?_, ?_⟩
        · rcases l1 sc hsc with h1 | h1
          · rcases f2 sc h1 with h2 | ⟨k, f, hk, he, hi⟩
            · exact Or.inl h2
            · exact Or.inr ⟨cur, List.mem_cons_self _ _, k, f, hk, he, by simpa using hi⟩
          · exact Or.inr h1
        · rcases l2 with h1 | h1
          · rcases f3 with h2 | ⟨k, f, hk, hm, hi⟩
            · exact Or.inl (h1.trans h2)
            · exact Or.inr ⟨cur, List.mem_cons_self _ _, k, f, hk, hm,
                by rw [h1, hi]; simp⟩
          · exact Or.inr h1

/-- The field that the search finds: its name matches, and it is a field of
a struct type reached from the types the search began with, through embedded
fields alone; `I` is any property of the entries of the queue that is handed
down to the struct of an embedded field. -/
theorem scanLevels_sound (m : String → Bool) (I : fieldScan → Prop)
    (hstep : ∀ (sc : fieldScan) (k : Nat) (f : FieldOf GoType) (t : GoType), I sc →
      sc.typ.fields[k]? = some f → embeddedStruct f = some t → I ⟨t, sc.index ++ [k]⟩) :
    ∀ (fuel : Nat) (next : List fieldScan) (count : List (GoType × Nat)) (visited : List GoType)
      (r : List Nat), (∀ sc ∈ next, I sc) → scanLevels m fuel next count visited = .ok (some r) →
      ∃ sc k f, I sc ∧ sc.typ.fields[k]? = some f ∧ m f.name = true ∧ r = sc.index ++ [k] := by
  intro fuel
  induction fuel with
  | zero =>
    intro next count visited r _ h
    cases next <;> simp [scanLevels] at h
  | succ fuel ih =>
    intro next count visited r hI h
    cases next with
    | nil => simp [scanLevels] at h
    | cons scan rest =>
      simp only [scanLevels] at h
      cases hl : scanLevel m count (scan :: rest) ⟨[], [], visited, none⟩ with
      | none =>
        rw [hl] at h
        cases h
      | some s =>
        rw [hl] at h
        simp only [] at h
        obtain ⟨l1, l2⟩ := scanLevel_spec m count _ _ _ hl
        cases hr : s.result with
        | some index =>
          rw [hr] at h
          simp only [Result.ok.injEq, Option.some.injEq] at h
          subst h
          rcases l2 with h2 | ⟨cur, hc, k, f, hk, hm, hi⟩
          · rw [hr] at h2
            cases h2
          · rw [hr] at hi
            simp only [Option.some.injEq] at hi
            exact ⟨cur, k, f, hI cur hc, hk, hm, hi⟩
        | none =>
          rw [hr] at h
          simp only [] at h
          refine ih s.next s.nextCount s.visited r (fun sc hsc => ?_) h
          rcases l1 sc hsc with h1 | ⟨cur, hc, k, f, hk, he, hi⟩
          · cases h1
          · have := hstep cur k f sc.typ (hI cur hc) hk he
            rw [← hi] at this
            exact this

theorem embeddedStruct_some (f : FieldOf GoType) (t : GoType) (h : embeddedStruct f = some t) :
    f.embedded = true ∧ (∃ n fs, t = .struct n fs) ∧ (f.value = t ∨ f.value = .pointer t) := by
  unfold embeddedStruct at h
  split_ifs at h with he
  split at h
  · rename_i n fs hv
    cases h
    exact ⟨he, ⟨n, fs, rfl⟩, Or.inr hv⟩
  · rename_i n fs hv
    cases h
    exact ⟨he, ⟨n, fs, rfl⟩, Or.inl hv⟩
  · cases h

theorem nestingAll_get : ∀ (fs : List (FieldOf GoType)) (k : Nat) (f : FieldOf GoType),
    fs[k]? = some f → f.value.nesting ≤ GoType.nestingAll fs
  | [], k, f, h => by simp at h
  | ⟨n, x, t, e⟩ :: rest, 0, f, h => by
    simp only [List.getElem?_cons_zero, Option.some.injEq] at h
    subst h
    simp only [GoType.nestingAll]
    exact le_max_left _ _
  | ⟨n, x, t, e⟩ :: rest, k + 1, f, h => by
    simp only [List.getElem?_cons_succ] at h
    simp only [GoType.nestingAll]
    exact le_trans (nestingAll_get rest k f h) (le_max_right _ _)

theorem nesting_fields (t : GoType) (k : Nat) (f : FieldOf GoType)
    (h : t.fields[k]? = some f) : t.nesting = GoType.nestingAll t.fields + 1 := by
  cases t with
  | struct n fs => rfl
  | _ => simp [GoType.fields] at h

theorem fields_struct (t : GoType) (k : Nat) (f : FieldOf GoType)
    (h : t.fields[k]? = some f) : ∃ n, t = .struct n t.fields := by
  cases t with
  | struct n fs => exact ⟨n, rfl⟩
  | _ => simp [GoType.fields] at h

/-- The search ends: a struct type on the queue of a round is nested less
deeply than the rounds that are left. -/
theorem scanLevels_total (m : String → Bool) :
    ∀ (fuel : Nat) (next : List fieldScan) (count : List (GoType × Nat)) (visited : List GoType),
      (∀ sc ∈ next, 0 < sc.typ.nesting ∧ sc.typ.nesting ≤ fuel) →
      ∃ r, scanLevels m fuel next count visited = .ok r := by
  intro fuel
  induction fuel with
  | zero =>
    intro next count visited h
    cases next with
    | nil => exact ⟨none, rfl⟩
    | cons sc rest =>
      have := h sc (List.mem_cons_self _ _)
      omega
  | succ fuel ih =>
    intro next count visited h
    cases next with
    | nil => exact ⟨none, by simp [scanLevels]⟩
    | cons scan rest =>
      simp only [scanLevels]
      cases hl : scanLevel m count (scan :: rest) ⟨[], [], visited, none⟩ with
      | none => exact ⟨none, rfl⟩
      | some s =>
        simp only []
        cases hr : s.result with
        | some index => exact ⟨some index, rfl⟩
        | none =>
          simp only []
          apply ih
          intro sc hsc
          obtain ⟨l1, -⟩ := scanLevel_spec m count _ _ _ hl
          rcases l1 sc hsc with h1 | ⟨cur, hc, k, f, hk, he, -⟩
          · cases h1
          · obtain ⟨-, ⟨n, fs, ht⟩, hv⟩ := embeddedStruct_some f sc.typ he
            have h1 := (h cur hc).2
            have h2 := nestingAll_get _ k f hk
            rw [nesting_fields cur.typ k f hk] at h1
            have h3 : sc.typ.nesting ≤ f.value.nesting := by
              rcases hv with hv | hv <;> rw [hv]
              simp only [GoType.nesting, le_refl]
            refine ⟨?_, by omega⟩
            rw [ht]
            simp only [GoType.nesting]
            omega

/-- `FieldByNameFunc` returns. -/
theorem FieldByNameFunc_total (ty : String) (fields : List (FieldOf GoType))
    (m : String → Bool) : ∃ r, GoType.FieldByNameFunc (.struct ty fields) m = .ok r := by
  unfold GoType.FieldByNameFunc
  apply scanLevels_total
  intro sc hsc
  simp only [List.mem_singleton] at hsc
  subst hsc
  simp only [GoType.nesting]
  omega

theorem scanFields_nomatch (m : String → Bool) (multiple : Bool) (index : List Nat) :
    ∀ (fields : List (FieldOf GoType)) (i : Nat) (s : scanState),
    (∀ f ∈ fields, m f.name = false) →
    ∃ s1, scanFields m multiple index fields i s = some s1 ∧ s1.result = s.result := by
  intro fields
  induction fields with
  | nil =>
    intro i s _
    exact ⟨s, rfl, rfl⟩
  | cons f rest ih =>
    intro i s h
    have hf := h f (List.mem_cons_self _ _)
    have hrest : ∀ g ∈ rest, m g.name = false := fun g hg => h g (List.mem_cons_of_mem _ hg)
    unfold scanFields
    simp only [hf, Bool.false_eq_true, ↓reduceIte]
    cases he : embeddedStruct f with
    | none => exact ih _ _ hrest
    | some styp =>
      simp only []
      split_ifs
      all_goals exact ih _ _ hrest

theorem scanFields_unique (m : String → Bool) (index : List Nat) (f : FieldOf GoType)
    (post : List (FieldOf GoType)) (hf : m f.name = true)
    (hpost : ∀ g ∈ post, m g.name = false) :
    ∀ (pre : List (FieldOf GoType)) (i : Nat) (s : scanState), s.result = none →
    (∀ g ∈ pre, m g.name = false) →
    ∃ s1, scanFields m false index (pre ++ f :: post) i s = some s1 ∧
      s1.result = some (index ++ [i + pre.length]) := by
  intro pre
  induction pre with
  | nil =>
    intro i s hs _
    simp only [List.nil_append, List.length_nil, Nat.add_zero]
    unfold scanFields
    simp only [hf, ↓reduceIte, hs, Option.isSome_none, Bool.or_self, Bool.false_eq_true]
    obtain ⟨s1, h1, h2⟩ := scanFields_nomatch m false index post (i + 1)
      { s with result := some (index ++ [i]) } hpost
    exact ⟨s1, h1, h2⟩
  | cons g rest ih =>
    intro i s hs h
    have hg := h g (List.mem_cons_self _ _)
    have hrest : ∀ x ∈ rest, m x.name = false := fun x hx => h x (List.mem_cons_of_mem _ hx)
    have e : i + (g :: rest).length = i + 1 + rest.length := by
      simp only [List.length_cons]
      omega
    rw [e]
    simp only [List.cons_append]
    unfold scanFields
    simp only [hg, Bool.false_eq_true, ↓reduceIte]
    cases he : embeddedStruct g with
    | none => exact ih _ _ hs hrest
    | some styp =>
      simp only []
      split_ifs
      all_goals exact ih _ _ hs hrest

/-- A name that exactly one field of the struct itself carries is found at
that field, whatever the embedded structs hold. -/
theorem FieldByNameFunc_unique (ty : String) (fields : List (FieldOf GoType))
    (m : String → Bool) (j : Nat) (f : FieldOf GoType) (hf : fields[j]? = some f)
    (h : ∀ i g, fields[i]? = some g → (m g.name = true ↔ i = j)) :
    GoType.FieldByNameFunc (.struct ty fields) m = .ok (some [j]) := by
  have hlt : j < fields.length := by
    by_contra hc
    rw [List.getElem?_eq_none (by omega)] at hf
    cases hf
  have hfj : fields[j] = f := by
    rw [List.getElem?_eq_getElem hlt] at hf
    exact Option.some.inj hf
  have hsplit : fields = fields.take j ++ f :: fields.drop (j + 1) := by
    rw [← hfj, ← List.drop_eq_getElem_cons hlt, List.take_append_drop]
  have hpre : ∀ g ∈ fields.take j, m g.name = false := by
    intro g hg
    obtain ⟨i, hi, rfl⟩ := List.getElem_of_mem hg
    simp only [List.length_take] at hi
    have := h i (fields.take j)[i] (by
      rw [List.getElem_take]
      exact List.getElem?_eq_getElem (by omega))
    cases hm : m (fields.take j)[i].name
    · rfl
    · have := this.1 hm
      omega
  have hpost : ∀ g ∈ fields.drop (j + 1), m g.name = false := by
    intro g hg
    obtain ⟨i, hi, rfl⟩ := List.getElem_of_mem hg
    simp only [List.length_drop] at hi
    have := h (j + 1 + i) (fields.drop (j + 1))[i] (by
      rw [List.getElem_drop]
      exact List.getElem?_eq_getElem (by omega))
    cases hm : m (fields.drop (j + 1))[i].name
    · rfl
    · have := this.1 hm
      omega
  have hmf : m f.name = true := (h j f hf).2 rfl
  obtain ⟨s1, h1, h2⟩ := scanFields_unique m [] f _ hmf hpost (fields.take j) 0
    ⟨[], [], [GoType.struct ty fields], none⟩ rfl hpre
  rw [← hsplit] at h1
  simp only [List.length_take, List.nil_append, Nat.zero_add] at h2
  rw [Nat.min_eq_left (by omega)] at h2
  unfold GoType.FieldByNameFunc
  simp only [GoType.nesting, scanLevels, scanLevel, List.contains_nil, Bool.false_eq_true,
    ↓reduceIte, countOf, List.find?_nil, Nat.not_lt_zero, decide_False, GoType.fields, h1, h2]

/-- The index sequence that the search returns is the position of a field of
the struct itself whose name matches, or begins at an embedded field of the
struct and goes on. -/
theorem FieldByNameFunc_head (ty : String) (fields : List (FieldOf GoType))
    (m : String → Bool) (r : List Nat)
    (h : GoType.FieldByNameFunc (.struct ty fields) m = .ok (some r)) :
    (∃ j f, r = [j] ∧ fields[j]? = some f ∧ m f.name = true) ∨
    (∃ j rest f, r = j :: rest ∧ rest ≠ [] ∧ fields[j]? = some f ∧ f.embedded = true) := by
  unfold GoType.FieldByNameFunc at h
  obtain ⟨sc, k, f, hI, hk, hm, hr⟩ := scanLevels_sound m
    (fun sc => sc = ⟨.struct ty fields, []⟩ ∨
      ∃ j rest g, sc.index = j :: rest ∧ fields[j]? = some g ∧ g.embedded = true)
    (fun sc k f t hI hk he => by
      right
      rcases hI with rfl | ⟨j, rest, g, hi, hg, hge⟩
      · exact ⟨k, [], f, rfl, hk, (embeddedStruct_some f t he).1⟩
      · exact ⟨j, rest ++ [k], g, by simp [hi], hg, hge⟩)
    _ _ _ _ r (fun sc hsc => by
      simp only [List.mem_singleton] at hsc
      exact Or.inl hsc) h
  rcases hI with rfl | ⟨j, rest, g, hi, hg, hge⟩
  · exact Or.inl ⟨k, f, by simpa using hr, hk, hm⟩
  · exact Or.inr ⟨j, rest ++ [k], g, by simp [hr, hi], by simp, hg, hge⟩

theorem promotedNames_get : ∀ (fs : List (FieldOf GoType)) (k : Nat) (f : FieldOf GoType),
    fs[k]? = some f → f.embedded = true →
    ∀ x ∈ GoType.innerNames f.value, x ∈ GoType.promotedNames fs
  | [], k, f, h, _ => by simp at h
  | ⟨n, a, t, e⟩ :: rest, 0, f, h, he => by
    simp only [List.getElem?_cons_zero, Option.some.injEq] at h
    subst h
    simp only at he
    intro x hx
    simp only [GoType.promotedNames, he, ↓reduceIte, List.mem_append]
    exact Or.inl hx
  | ⟨n, a, t, e⟩ :: rest, k + 1, f, h, he => by
    simp only [List.getElem?_cons_succ] at h
    intro x hx
    simp only [GoType.promotedNames, List.mem_append]
    exact Or.inr (promotedNames_get rest k f h he x hx)

/-- The name that the search matched is the name of a field of the struct or
of a promoted field. -/
theorem FieldByNameFunc_name (ty : String) (fields : List (FieldOf GoType))
    (m : String → Bool) (r : List Nat)
    (h : GoType.FieldByNameFunc (.struct ty fields) m = .ok (some r)) :
    ∃ name ∈ fields.map FieldOf.name ++ GoType.promotedNames fields, m name = true := by
  unfold GoType.FieldByNameFunc at h
  obtain ⟨sc, k, f, hI, hk, hm, -⟩ := scanLevels_sound m
    (fun sc => ∀ x ∈ GoType.innerNames sc.typ,
      x ∈ fields.map FieldOf.name ++ GoType.promotedNames fields)
    (fun sc k f t hI hk he x hx => by
      obtain ⟨hemb, ⟨n, fs, ht⟩, hv⟩ := embeddedStruct_some f t he
      obtain ⟨cn, hc⟩ := fields_struct sc.typ k f hk
      apply hI
      rw [hc]
      simp only [GoType.innerNames, List.mem_append]
      right
      apply promotedNames_get _ k f hk hemb
      rcases hv with hv | hv
      · rw [hv]
        exact hx
      · rw [hv, ht]
        rw [ht] at hx
        simpa only [GoType.innerNames] using hx)
    _ _ _ _ r (fun sc hsc => by
      simp only [List.mem_singleton] at hsc
      subst hsc
      intro x hx
      simpa only [GoType.innerNames] using hx) h
  obtain ⟨cn, hc⟩ := fields_struct sc.typ k f hk
  refine ⟨f.name, hI _ ?_, hm⟩
  rw [hc]
  simp only [GoType.innerNames, List.mem_append, List.mem_map]
  exact Or.inl ⟨f, List.getElem?_mem hk, rfl⟩

/-- A name that no field carries, the promoted fields included, is not
found. -/
theorem FieldByNameFunc_none (ty : String) (fields : List (FieldOf GoType))
    (m : String → Bool)
    (h : ∀ name ∈ fields.map FieldOf.name ++ GoType.promotedNames fields, m name = false) :
    GoType.FieldByNameFunc (.struct ty fields) m = .ok none := by
  obtain ⟨r, hr⟩ := FieldByNameFunc_total ty fields m
  cases r with
  | none => exact hr
  | some r =>
    obtain ⟨name, hn, hm⟩ := FieldByNameFunc_name ty fields m r hr
    rw [h name hn] at hm
    cases hm

/-! ### The search on a struct value -/

theorem shape_getElem? (fs gs : List Field) (h : gs.map FieldOf.shape = fs.map FieldOf.shape)
    (j : Nat) (f : Field) (hf : fs[j]? = some f) : ∃ g, gs[j]? = some g ∧ g.shape = f.shape := by
  have h1 : (gs.map FieldOf.shape)[j]? = (fs.map FieldOf.shape)[j]? := by rw [h]
  simp only [List.getElem?_map, hf, Option.map_some'] at h1
  cases hg : gs[j]? with
  | none => simp [hg] at h1
  | some g =>
    simp only [hg, Option.map_some', Option.some.injEq] at h1
    exact ⟨g, rfl, h1⟩

/-- The search goes by the types of the fields alone. -/
theorem fieldByNameFunc_shape (ty : String) (fs gs : List Field)
    (h : gs.map FieldOf.shape = fs.map FieldOf.shape) (m : String → Bool) :
    fieldByNameFunc ty gs m = fieldByNameFunc ty fs m := by
  unfold fieldByNameFunc
  rw [typesOf_eq_map, typesOf_eq_map, h]

theorem fieldByNameFunc_total (ty : String) (fs : List Field) (m : String → Bool) :
    ∃ r, fieldByNameFunc ty fs m = .ok r :=
  FieldByNameFunc_total ty _ m

theorem fieldByNameFunc_unique (ty : String) (fs : List Field) (m : String → Bool) (j : Nat)
    (f : Field) (hf : fs[j]? = some f)
    (h : ∀ i g, fs[i]? = some g → (m g.name = true ↔ i = j)) :
    fieldByNameFunc ty fs m = .ok (some [j]) := by
  unfold fieldByNameFunc
  rw [typesOf_eq_map]
  apply FieldByNameFunc_unique ty _ m j f.shape
  · simp [hf]
  · intro i g hg
    simp only [List.getElem?_map] at hg
    cases hi : fs[i]? with
    | none => simp [hi] at hg
    | some g1 =>
      simp only [hi, Option.map_some', Option.some.injEq] at hg
      subst hg
      exact h i g1 hi

theorem fieldByNameFunc_head (ty : String) (fs : List Field) (m : String → Bool)
    (r : List Nat) (h : fieldByNameFunc ty fs m = .ok (some r)) :
    (∃ j f, r = [j] ∧ fs[j]? = some f ∧ m f.name = true) ∨
    (∃ j rest f, r = j :: rest ∧ rest ≠ [] ∧ fs[j]? = some f ∧ f.embedded = true) := by
  unfold fieldByNameFunc at h
  rw [typesOf_eq_map] at h
  rcases FieldByNameFunc_head ty _ m r h with ⟨j, f, hr, hf, hm⟩ | ⟨j, rest, f, hr, hne, hf, he⟩
  · simp only [List.getElem?_map] at hf
    cases hj : fs[j]? with
    | none => simp [hj] at hf
    | some g =>
      simp only [hj, Option.map_some', Option.some.injEq] at hf
      subst hf
      exact Or.inl ⟨j, g, hr, hj, hm⟩
  · simp only [List.getElem?_map] at hf
    cases hj : fs[j]? with
    | none => simp [hj] at hf
    | some g =>
      simp only [hj, Option.map_some', Option.some.injEq] at hf
      subst hf
      exact Or.inr ⟨j, rest, g, hr, hne, hj, he⟩

/-- A key that is the kebab-case name of no field of the struct, the promoted
fields included, is not found. -/
theorem fieldByNameFunc_none (ty : String) (fs : List Field) (m : String → Bool)
    (h : ∀ f ∈ fs, m f.name = false)
    (hp : ∀ name ∈ GoType.promotedNames (fs.map FieldOf.shape), m name = false) :
    fieldByNameFunc ty fs m = .ok none := by
  unfold fieldByNameFunc
  rw [typesOf_eq_map]
  apply FieldByNameFunc_none
  intro name hn
  rcases List.mem_append.1 hn with hn | hn
  · simp only [List.map_map, List.mem_map, Function.comp_apply] at hn
    obtain ⟨f, hf, rfl⟩ := hn
    exact h f hf
  · exact hp name hn

theorem mem_promotedNames (x : String) : ∀ (ts : List (FieldOf GoType)),
    x ∈ GoType.promotedNames ts ↔
      ∃ t ∈ ts, t.embedded = true ∧ x ∈ GoType.innerNames t.value
  | [] => by simp [GoType.promotedNames]
  | ⟨n, a, t, e⟩ :: rest => by
    simp only [GoType.promotedNames, List.mem_append, mem_promotedNames x rest, List.mem_cons,
      exists_eq_or_imp]
    cases e <;> simp
/-! ## `FieldByIndex`: the walk to a field -/

theorem getElem?_lt {α : Type} (l : List α) (i : Nat) (a : α) (h : l[i]? = some a) :
    i < l.length := by
  by_contra hc
  rw [List.getElem?_eq_none (by omega)] at h
  cases h

theorem set_getElem?_self {α : Type} (l : List α) (i : Nat) (a : α) (h : l[i]? = some a) :
    l.set i a = l := by
  apply List.ext_getElem?
  intro k
  by_cases hk : i = k
  · subst hk
    rw [List.getElem?_set_self (getElem?_lt l i a h), h]
  · rw [List.getElem?_set_ne hk]

theorem FieldOf.shape_value (f : Field) (v : GoValue) (h : v.typeOf = f.value.typeOf) :
    FieldOf.shape { f with value := v } = f.shape := by
  simp [FieldOf.shape, h]

theorem shape_set (fs : List Field) (i : Nat) (f g : Field) (hf : fs[i]? = some f)
    (hg : g.shape = f.shape) : (fs.set i g).map FieldOf.shape = fs.map FieldOf.shape := by
  rw [List.map_set, hg]
  apply set_getElem?_self
  simp [hf]

/-- Writing the fields of an embedded struct back leaves the type of the
value, and the fields written are the fields read next. -/
theorem embeddedFields_withFields (v : GoValue) (sub sub1 : List Field)
    (h : embeddedFields v = .ok sub) :
    embeddedFields (withFields v sub1) = .ok sub1 ∧
    (sub1.map FieldOf.shape = sub.map FieldOf.shape → (withFields v sub1).typeOf = v.typeOf) ∧
    (∀ sub2, withFields (withFields v sub1) sub2 = withFields v sub2) ∧
    withFields v sub = v := by
  unfold embeddedFields at h
  split at h
  · cases h
    refine ⟨rfl, fun hs => ?_, fun _ => rfl, rfl⟩
    simp only [withFields, GoValue.typeOf, typesOf_eq_map, hs]
  · cases h
  · cases h
    exact ⟨rfl, fun _ => rfl, fun _ => rfl, rfl⟩
  · cases h

theorem embeddedFields_cases (v : GoValue) :
    (∃ sub, embeddedFields v = .ok sub) ∨ ∃ msg, embeddedFields v = .panic msg := by
  unfold embeddedFields
  split <;> simp

theorem applyAt_cons (E : Lib) (n : node) (i : Nat) (rest : List Nat) (fs : List Field)
    (f : Field) (hf : fs[i]? = some f) :
    applyAt E n (i :: rest) fs =
      if rest.isEmpty then
        (fs.set i { f with value := (applyNode E f.exported f.value n).1 },
          (applyNode E f.exported f.value n).2)
      else
        match embeddedFields f.value with
        | .ok sub =>
          (fs.set i { f with value := withFields f.value (applyAt E n rest sub).1 },
            (applyAt E n rest sub).2)
        | .err msg => (fs, .err msg)
        | .panic msg => (fs, .panic msg)
        | .diverge => (fs, .diverge) := by
  rw [applyAt]
  simp only [hf]

theorem applyAt_none (E : Lib) (n : node) (i : Nat) (rest : List Nat) (fs : List Field)
    (hf : fs[i]? = none) :
    applyAt E n (i :: rest) fs = (fs, .panic "reflect: Field index out of range") := by
  rw [applyAt]
  simp only [hf]

theorem fieldAt_cons (i : Nat) (rest : List Nat) (fs : List Field) (f : Field)
    (hf : fs[i]? = some f) :
    fieldAt (i :: rest) fs =
      if rest.isEmpty then some f
      else
        match embeddedFields f.value with
        | .ok sub => fieldAt rest sub
        | _ => none := by
  rw [fieldAt]
  simp only [hf]

theorem fieldAt_none (i : Nat) (rest : List Nat) (fs : List Field) (hf : fs[i]? = none) :
    fieldAt (i :: rest) fs = none := by
  rw [fieldAt]
  simp only [hf]

/-- The walk and the binding at its end leave the name, the type and the
marks of every field. -/
theorem applyAt_shape (E : Lib) (n : node) : ∀ (index : List Nat) (fs : List Field),
    (applyAt E n index fs).1.map FieldOf.shape = fs.map FieldOf.shape := by
  intro index
  induction index with
  | nil => intro fs; rfl
  | cons i rest ih =>
    intro fs
    cases hf : fs[i]? with
    | none => rw [applyAt_none E n i rest fs hf]
    | some f =>
      rw [applyAt_cons E n i rest fs f hf]
      split_ifs
      · exact shape_set fs i f _ hf (FieldOf.shape_value f _ (applyNode_typeOf E _ _ _))
      · cases he : embeddedFields f.value with
        | ok sub =>
          simp only []
          exact shape_set fs i f _ hf (FieldOf.shape_value f _
            ((embeddedFields_withFields f.value sub _ he).2.1 (ih sub)))
        | _ => rfl

/-- The walk changes no field of the struct but the one it begins at. -/
theorem applyAt_frame (E : Lib) (n : node) (index : List Nat) (fs : List Field) (k : Nat)
    (h : index.head? ≠ some k) : (applyAt E n index fs).1[k]? = fs[k]? := by
  cases index with
  | nil => rfl
  | cons i rest =>
    have hik : i ≠ k := fun e => h (by simp [e])
    cases hf : fs[i]? with
    | none => rw [applyAt_none E n i rest fs hf]
    | some f =>
      rw [applyAt_cons E n i rest fs f hf]
      split_ifs
      · exact List.getElem?_set_ne hik
      · cases he : embeddedFields f.value with
        | ok sub => exact List.getElem?_set_ne hik
        | _ => rfl

/-- The walk at one field of the struct goes by that field alone. -/
theorem applyAt_local (E : Lib) (n : node) (i : Nat) (rest : List Nat) (fs gs : List Field)
    (h : gs[i]? = fs[i]?) :
    (applyAt E n (i :: rest) gs).2 = (applyAt E n (i :: rest) fs).2 ∧
    (applyAt E n (i :: rest) gs).1[i]? = (applyAt E n (i :: rest) fs).1[i]? := by
  cases hf : fs[i]? with
  | none =>
    rw [applyAt_none E n i rest fs hf, applyAt_none E n i rest gs (h.trans hf)]
    exact ⟨rfl, h⟩
  | some f =>
    have hg : gs[i]? = some f := h.trans hf
    rw [applyAt_cons E n i rest fs f hf, applyAt_cons E n i rest gs f hg]
    have hl := getElem?_lt fs i f hf
    have hl2 := getElem?_lt gs i f hg
    split_ifs
    · exact ⟨rfl, by rw [List.getElem?_set_self hl, List.getElem?_set_self hl2]⟩
    · cases he : embeddedFields f.value with
      | ok sub => exact ⟨rfl, by rw [List.getElem?_set_self hl, List.getElem?_set_self hl2]⟩
      | _ => exact ⟨rfl, h⟩

/-- The walk reaches a field exactly when the binding gets to work, and the
binding is that of `applyNode` at the field reached. -/
theorem applyAt_spec (E : Lib) (n : node) : ∀ (index : List Nat) (fs : List Field),
    (∀ f, fieldAt index fs = some f →
      (applyAt E n index fs).2 = (applyNode E f.exported f.value n).2 ∧
      fieldAt index (applyAt E n index fs).1 =
        some { f with value := (applyNode E f.exported f.value n).1 }) ∧
    (fieldAt index fs = none → ∃ msg, (applyAt E n index fs).2 = .panic msg) := by
  intro index
  induction index with
  | nil =>
    intro fs
    exact ⟨fun f h => (by simp [fieldAt] at h), fun _ => ⟨_, rfl⟩⟩
  | cons i rest ih =>
    intro fs
    cases hf : fs[i]? with
    | none =>
      rw [applyAt_none E n i rest fs hf, fieldAt_none i rest fs hf]
      exact ⟨fun f h => (by cases h), fun _ => ⟨_, rfl⟩⟩
    | some f =>
      have hl := getElem?_lt fs i f hf
      rw [applyAt_cons E n i rest fs f hf, fieldAt_cons i rest fs f hf]
      by_cases hr : rest.isEmpty = true
      · simp only [hr, ↓reduceIte, Option.some.injEq, reduceCtorEq, false_implies, and_true]
        intro g hg
        subst hg
        refine ⟨rfl, ?_⟩
        rw [fieldAt_cons i rest _ _ (List.getElem?_set_self hl)]
        simp only [hr, ↓reduceIte]
      · simp only [hr, Bool.false_eq_true, ↓reduceIte]
        cases he : embeddedFields f.value with
        | ok sub =>
          simp only []
          obtain ⟨ih1, ih2⟩ := ih sub
          refine ⟨fun g hg => ⟨(ih1 g hg).1, ?_⟩, ih2⟩
          rw [fieldAt_cons i rest _ _ (List.getElem?_set_self hl)]
          simp only [hr, Bool.false_eq_true, ↓reduceIte,
            (embeddedFields_withFields f.value sub _ he).1]
          exact (ih1 g hg).2
        | err msg =>
          rcases embeddedFields_cases f.value with ⟨s, h⟩ | ⟨m, h⟩ <;> rw [he] at h <;> cases h
        | panic msg => exact ⟨fun g hg => (by cases hg), fun _ => ⟨msg, rfl⟩⟩
        | diverge =>
          rcases embeddedFields_cases f.value with ⟨s, h⟩ | ⟨m, h⟩ <;> rw [he] at h <;> cases h

theorem fieldAt_single (j : Nat) (fs : List Field) : fieldAt [j] fs = fs[j]? := by
  rw [fieldAt]
  cases fs[j]? <;> rfl

theorem apart_nil_left (b : List Nat) : ¬ Apart [] b := fun h => h.1 (List.nil_prefix)

theorem apart_nil_right (a : List Nat) : ¬ Apart a [] := fun h => h.2 (List.nil_prefix)

theorem apart_cons (i j : Nat) (a b : List Nat) :
    Apart (i :: a) (j :: b) ↔ i ≠ j ∨ Apart a b := by
  unfold Apart
  simp only [List.cons_prefix_cons]
  by_cases h : i = j
  · subst h
    simp
  · have h2 : ¬ j = i := fun e => h e.symm
    simp [h, h2]

theorem apart_symm {a b : List Nat} (h : Apart a b) : Apart b a := ⟨h.2, h.1⟩

theorem apart_ne_nil {a b : List Nat} (h : Apart a b) : a.isEmpty = false ∧ b.isEmpty = false := by
  cases a with
  | nil => exact absurd h (apart_nil_left _)
  | cons i a =>
    cases b with
    | nil => exact absurd h (apart_nil_right _)
    | cons j b => exact ⟨rfl, rfl⟩

/-- Two index sequences that begin at different fields are apart. -/
theorem apart_of_head (a b : List Nat) (i : Nat) (ha : a.head? = some i)
    (hb : b ≠ []) (h : b.head? ≠ some i) : Apart a b := by
  cases a with
  | nil => cases ha
  | cons x a =>
    cases b with
    | nil => exact absurd rfl hb
    | cons y b =>
      simp only [List.head?_cons, Option.some.injEq, ne_eq] at ha h
      subst ha
      exact (apart_cons _ _ _ _).2 (Or.inl (fun e => h e.symm))

/-- A binding leaves every field that lies apart from the one it writes. -/
theorem applyAt_apart (E : Lib) (n : node) : ∀ (a b : List Nat) (fs : List Field),
    Apart a b → fieldAt b (applyAt E n a fs).1 = fieldAt b fs := by
  intro a
  induction a with
  | nil => intro b fs h; exact absurd h (apart_nil_left _)
  | cons i a ih =>
    intro b fs h
    cases b with
    | nil => exact absurd h (apart_nil_right _)
    | cons j b =>
      by_cases hij : i = j
      · subst hij
        have hab : Apart a b := by
          rcases (apart_cons _ _ _ _).1 h with h1 | h1
          · exact absurd rfl h1
          · exact h1
        obtain ⟨ha, hb⟩ := apart_ne_nil hab
        cases hf : fs[i]? with
        | none => rw [applyAt_none E n i a fs hf]
        | some f =>
          have hl := getElem?_lt fs i f hf
          rw [applyAt_cons E n i a fs f hf]
          simp only [ha, Bool.false_eq_true, ↓reduceIte]
          cases he : embeddedFields f.value with
          | ok sub =>
            simp only []
            rw [fieldAt_cons i b _ _ (List.getElem?_set_self hl), fieldAt_cons i b fs f hf]
            simp only [hb, Bool.false_eq_true, ↓reduceIte,
              (embeddedFields_withFields f.value sub _ he).1, he]
            exact ih b sub hab
          | _ => rfl
      · have hfr := applyAt_frame E n (i :: a) fs j (by simpa using hij)
        cases hj : fs[j]? with
        | none =>
          rw [fieldAt_none j b fs hj, fieldAt_none j b _ (hfr.trans hj)]
        | some g =>
          rw [fieldAt_cons j b fs g hj, fieldAt_cons j b _ g (hfr.trans hj)]

theorem applyAt_length (E : Lib) (n : node) (index : List Nat) (fs : List Field) :
    (applyAt E n index fs).1.length = fs.length := by
  have := congrArg List.length (applyAt_shape E n index fs)
  simpa using this

/-- Bindings at fields that lie apart can be done in either order. -/
theorem applyAt_comm (E : Lib) (n1 n2 : node) : ∀ (a b : List Nat) (fs : List Field),
    Apart a b →
    (applyAt E n2 b (applyAt E n1 a fs).1).1 = (applyAt E n1 a (applyAt E n2 b fs).1).1 := by
  intro a
  induction a with
  | nil => intro b fs h; exact absurd h (apart_nil_left _)
  | cons i a ih =>
    intro b fs h
    cases b with
    | nil => exact absurd h (apart_nil_right _)
    | cons j b =>
      by_cases hij : i = j
      · subst hij
        have hab : Apart a b := by
          rcases (apart_cons _ _ _ _).1 h with h1 | h1
          · exact absurd rfl h1
          · exact h1
        obtain ⟨ha, hb⟩ := apart_ne_nil hab
        cases hf : fs[i]? with
        | none =>
          rw [applyAt_none E n1 i a fs hf, applyAt_none E n2 i b fs hf]
          simp only []
          rw [applyAt_none E n1 i a fs hf]
        | some f =>
          have hl := getElem?_lt fs i f hf
          rw [applyAt_cons E n1 i a fs f hf, applyAt_cons E n2 i b fs f hf]
          simp only [ha, hb, Bool.false_eq_true, ↓reduceIte]
          cases he : embeddedFields f.value with
          | ok sub =>
            simp only []
            rw [applyAt_cons E n2 i b _ _ (List.getElem?_set_self hl),
              applyAt_cons E n1 i a _ _ (List.getElem?_set_self hl)]
            simp only [ha, hb, Bool.false_eq_true, ↓reduceIte,
              (embeddedFields_withFields f.value sub _ he).1,
              (embeddedFields_withFields f.value sub _ he).2.2.1, List.set_set, ih b sub hab]
          | _ =>
            simp only []
            rw [applyAt_cons E n1 i a fs f hf, applyAt_cons E n2 i b fs f hf]
            simp only [ha, hb, Bool.false_eq_true, ↓reduceIte, he]
      · apply List.ext_getElem?
        intro k
        have hne1 : (i :: a).head? ≠ some j := by simpa using hij
        have hne2 : (j :: b).head? ≠ some i := by
          simp only [List.head?_cons, ne_eq, Option.some.injEq]
          exact fun e => hij e.symm
        by_cases hki : k = i
        · subst hki
          rw [applyAt_frame E n2 (j :: b) _ k hne2]
          exact ((applyAt_local E n1 k a fs _ (applyAt_frame E n2 (j :: b) fs k hne2)).2).symm
        · by_cases hkj : k = j
          · subst hkj
            rw [applyAt_frame E n1 (i :: a) _ k hne1]
            exact (applyAt_local E n2 k b fs _ (applyAt_frame E n1 (i :: a) fs k hne1)).2
          · have h1 : (i :: a).head? ≠ some k := by
              simp only [List.head?_cons, ne_eq, Option.some.injEq]
              exact fun e => hki e.symm
            have h2 : (j :: b).head? ≠ some k := by
              simp only [List.head?_cons, ne_eq, Option.some.injEq]
              exact fun e => hkj e.symm
            rw [applyAt_frame E n2 _ _ k h2, applyAt_frame E n1 _ _ k h1,
              applyAt_frame E n1 _ _ k h1, applyAt_frame E n2 _ _ k h2]

/-- Whether a binding succeeds is not changed by a binding at a field that
lies apart. -/
theorem applyAt_result_apart (E : Lib) (n1 n2 : node) (a b : List Nat) (fs : List Field)
    (h : Apart a b) :
    (applyAt E n2 b (applyAt E n1 a fs).1).2 = .ok () ↔ (applyAt E n2 b fs).2 = .ok () := by
  have hfa := applyAt_apart E n1 a b fs h
  obtain ⟨s1, s2⟩ := applyAt_spec E n2 b fs
  obtain ⟨t1, t2⟩ := applyAt_spec E n2 b (applyAt E n1 a fs).1
  cases hf : fieldAt b fs with
  | none =>
    obtain ⟨m1, hm1⟩ := s2 hf
    obtain ⟨m2, hm2⟩ := t2 (hfa.trans hf)
    rw [hm1, hm2]
    simp
  | some f => rw [(s1 f hf).1, (t1 f (hfa.trans hf)).1]
/-! ## The loops of `Tag.Fill` -/

theorem fillIndexed_spec (E : Lib) : ∀ (ns : List node) (i : Nat) (fs : List Field),
    (fillIndexed E ns i fs).1.map FieldOf.shape = fs.map FieldOf.shape ∧
    (∀ j, j < i ∨ i + ns.length ≤ j → (fillIndexed E ns i fs).1[j]? = fs[j]?) ∧
    ((fillIndexed E ns i fs).2 = .ok () → ∀ j n, ns[j]? = some n →
      ∃ f, fs[i + j]? = some f ∧ (applyNode E f.exported f.value n).2 = .ok () ∧
        (fillIndexed E ns i fs).1[i + j]? =
          some { f with value := (applyNode E f.exported f.value n).1 }) := by
  intro ns
  induction ns with
  | nil =>
    intro i fs
    simp [fillIndexed]
  | cons n rest ih =>
    intro i fs
    cases hf : fs[i]? with
    | none => simp [fillIndexed, hf]
    | some f =>
      have hlt := getElem?_lt fs i f hf
      have hsh : (fs.set i { f with value := (applyNode E f.exported f.value n).1 }).map
          FieldOf.shape = fs.map FieldOf.shape :=
        shape_set fs i f _ hf (FieldOf.shape_value f _ (applyNode_typeOf E _ _ _))
      have hne : ∀ j, j ≠ i →
          (fs.set i { f with value := (applyNode E f.exported f.value n).1 })[j]? = fs[j]? :=
        fun j hj => List.getElem?_set_ne (Ne.symm hj)
      cases hr : (applyNode E f.exported f.value n).2 with
      | ok u =>
        obtain ⟨ih1, ih2, ih3⟩ := ih (i + 1)
          (fs.set i { f with value := (applyNode E f.exported f.value n).1 })
        have he : fillIndexed E (n :: rest) i fs = fillIndexed E rest (i + 1)
            (fs.set i { f with value := (applyNode E f.exported f.value n).1 }) := by
          simp only [fillIndexed, hf, hr]
        rw [he]
        refine ⟨ih1.trans hsh, ?_, ?_⟩
        · intro j hj
          rw [ih2 j (by simp only [List.length_cons] at hj; omega)]
          exact hne j (by simp only [List.length_cons] at hj; omega)
        · intro hok j m hm
          cases j with
          | zero =>
            simp only [List.getElem?_cons_zero, Option.some.injEq] at hm
            subst hm
            refine ⟨f, hf, hr, ?_⟩
            simp only [Nat.add_zero]
            rw [ih2 i (Or.inl (by omega))]
            exact List.getElem?_set_self (by simpa using hlt)
          | succ j =>
            simp only [List.getElem?_cons_succ] at hm
            obtain ⟨g, hg, hg2, hg3⟩ := ih3 hok j m hm
            rw [hne _ (by omega)] at hg
            have e : i + (j + 1) = i + 1 + j := by omega
            rw [e]
            exact ⟨g, hg, hg2, hg3⟩
      | err msg =>
        have he : fillIndexed E (n :: rest) i fs =
            (fs.set i { f with value := (applyNode E f.exported f.value n).1 }, .err msg) := by
          simp only [fillIndexed, hf, hr]
        rw [he]
        exact ⟨hsh, fun j hj => hne j (by simp only [List.length_cons] at hj; omega),
          fun h => by cases h⟩
      | panic msg =>
        have he : fillIndexed E (n :: rest) i fs =
            (fs.set i { f with value := (applyNode E f.exported f.value n).1 }, .panic msg) := by
          simp only [fillIndexed, hf, hr]
        rw [he]
        exact ⟨hsh, fun j hj => hne j (by simp only [List.length_cons] at hj; omega),
          fun h => by cases h⟩
      | diverge =>
        have he : fillIndexed E (n :: rest) i fs =
            (fs.set i { f with value := (applyNode E f.exported f.value n).1 }, .diverge) := by
          simp only [fillIndexed, hf, hr]
        rw [he]
        exact ⟨hsh, fun j hj => hne j (by simp only [List.length_cons] at hj; omega),
          fun h => by cases h⟩

theorem fillIndexed_ok (E : Lib) : ∀ (ns : List node) (i : Nat) (fs : List Field),
    (∀ j n, ns[j]? = some n → ∃ f, fs[i + j]? = some f ∧ f.exported = true ∧
      Compatible f.value n = true) →
    (fillIndexed E ns i fs).2 = .ok () := by
  intro ns
  induction ns with
  | nil =>
    intro i fs _
    simp [fillIndexed]
  | cons n rest ih =>
    intro i fs h
    obtain ⟨f, hf, hx, hc⟩ := h 0 n (by simp)
    simp only [Nat.add_zero] at hf
    have hr : (applyNode E f.exported f.value n).2 = .ok () := by
      rw [hx]
      exact (applyNode_ok_iff E f.value n).2 hc
    have he : fillIndexed E (n :: rest) i fs = fillIndexed E rest (i + 1)
        (fs.set i { f with value := (applyNode E f.exported f.value n).1 }) := by
      simp only [fillIndexed, hf, hr]
    rw [he]
    apply ih
    intro j m hm
    obtain ⟨g, hg, hg2⟩ := h (j + 1) m (by simpa using hm)
    refine ⟨g, ?_, hg2⟩
    rw [List.getElem?_set_ne (by omega)]
    have e : i + (j + 1) = i + 1 + j := by omega
    rw [← e]
    exact hg

/-- One round of the second loop of `Tag.Fill`, by what the search for the
key returns. -/
theorem fillKeyword_cons (E : Lib) (ty : String) (kv : String × node)
    (rest : List (String × node)) (fs : List Field) :
    (fieldByNameFunc ty fs (fun s => E.toKebabCase s == kv.1) = .ok none ∧
      ((applyNodeZero kv.2 = .ok () ∧
          fillKeyword E ty (kv :: rest) fs = fillKeyword E ty rest fs) ∨
        (applyNodeZero kv.2 ≠ .ok () ∧
          fillKeyword E ty (kv :: rest) fs = (fs, applyNodeZero kv.2)))) ∨
    (∃ index, fieldByNameFunc ty fs (fun s => E.toKebabCase s == kv.1) = .ok (some index) ∧
      (((applyAt E kv.2 index fs).2 = .ok () ∧
          fillKeyword E ty (kv :: rest) fs = fillKeyword E ty rest (applyAt E kv.2 index fs).1) ∨
        ((applyAt E kv.2 index fs).2 ≠ .ok () ∧
          fillKeyword E ty (kv :: rest) fs =
            ((applyAt E kv.2 index fs).1, (applyAt E kv.2 index fs).2)))) := by
  obtain ⟨r, hr⟩ := fieldByNameFunc_total ty fs (fun s => E.toKebabCase s == kv.1)
  cases r with
  | none =>
    left
    refine ⟨hr, ?_⟩
    cases hz : applyNodeZero kv.2 with
    | ok u => exact Or.inl ⟨rfl, by simp only [fillKeyword, hr, hz]⟩
    | err m => exact Or.inr ⟨(fun h => by cases h), by simp only [fillKeyword, hr, hz]⟩
    | panic m => exact Or.inr ⟨(fun h => by cases h), by simp only [fillKeyword, hr, hz]⟩
    | diverge => exact Or.inr ⟨(fun h => by cases h), by simp only [fillKeyword, hr, hz]⟩
  | some index =>
    right
    refine ⟨index, hr, ?_⟩
    cases hz : (applyAt E kv.2 index fs).2 with
    | ok u => exact Or.inl ⟨rfl, by simp only [fillKeyword, hr, hz]⟩
    | err m => exact Or.inr ⟨(fun h => by cases h), by simp only [fillKeyword, hr, hz]⟩
    | panic m => exact Or.inr ⟨(fun h => by cases h), by simp only [fillKeyword, hr, hz]⟩
    | diverge => exact Or.inr ⟨(fun h => by cases h), by simp only [fillKeyword, hr, hz]⟩

theorem fillKeyword_shape (E : Lib) (ty : String) :
    ∀ (kvs : List (String × node)) (fs : List Field),
    (fillKeyword E ty kvs fs).1.map FieldOf.shape = fs.map FieldOf.shape := by
  intro kvs
  induction kvs with
  | nil =>
    intro fs
    simp [fillKeyword]
  | cons kv rest ih =>
    intro fs
    rcases fillKeyword_cons E ty kv rest fs with
      ⟨-, ⟨-, h⟩ | ⟨-, h⟩⟩ | ⟨index, -, ⟨-, h⟩ | ⟨-, h⟩⟩ <;> rw [h]
    · exact ih fs
    · exact (ih _).trans (applyAt_shape E kv.2 index fs)
    · exact applyAt_shape E kv.2 index fs

/-- The second loop changes no field of the struct at which no key is found
and through which no key leads. -/
theorem fillKeyword_untouched (E : Lib) (ty : String) (fs0 : List Field) (j : Nat) :
    ∀ (kvs : List (String × node)) (fs : List Field),
    fs.map FieldOf.shape = fs0.map FieldOf.shape →
    (∀ kv ∈ kvs, ∀ index, fieldByNameFunc ty fs0 (fun s => E.toKebabCase s == kv.1) =
      .ok (some index) → index.head? ≠ some j) →
    (fillKeyword E ty kvs fs).1[j]? = fs[j]? := by
  intro kvs
  induction kvs with
  | nil =>
    intro fs _ _
    simp [fillKeyword]
  | cons kv rest ih =>
    intro fs hs h
    have hrest : ∀ kv1 ∈ rest, ∀ index,
        fieldByNameFunc ty fs0 (fun s => E.toKebabCase s == kv1.1) = .ok (some index) →
        index.head? ≠ some j := fun kv1 hm => h kv1 (List.mem_cons_of_mem _ hm)
    rcases fillKeyword_cons E ty kv rest fs with
      ⟨-, ⟨-, e⟩ | ⟨-, e⟩⟩ | ⟨index, hi, ⟨-, e⟩ | ⟨-, e⟩⟩ <;> rw [e]
    · exact ih fs hs hrest
    · rw [fieldByNameFunc_shape ty fs0 fs hs] at hi
      rw [ih _ ((applyAt_shape E kv.2 index fs).trans hs) hrest]
      exact applyAt_frame E kv.2 index fs j (h kv (List.mem_cons_self _ _) index hi)
    · rw [fieldByNameFunc_shape ty fs0 fs hs] at hi
      exact applyAt_frame E kv.2 index fs j (h kv (List.mem_cons_self _ _) index hi)

/-- The second loop leaves every field that lies apart from the fields the
keys are found at. -/
theorem fillKeyword_apart (E : Lib) (ty : String) (fs0 : List Field) (a : List Nat) :
    ∀ (kvs : List (String × node)) (fs : List Field),
    fs.map FieldOf.shape = fs0.map FieldOf.shape →
    (∀ kv ∈ kvs, ∀ index, fieldByNameFunc ty fs0 (fun s => E.toKebabCase s == kv.1) =
      .ok (some index) → Apart a index) →
    fieldAt a (fillKeyword E ty kvs fs).1 = fieldAt a fs := by
  intro kvs
  induction kvs with
  | nil =>
    intro fs _ _
    simp [fillKeyword]
  | cons kv rest ih =>
    intro fs hs h
    have hrest : ∀ kv1 ∈ rest, ∀ index,
        fieldByNameFunc ty fs0 (fun s => E.toKebabCase s == kv1.1) = .ok (some index) →
        Apart a index := fun kv1 hm => h kv1 (List.mem_cons_of_mem _ hm)
    rcases fillKeyword_cons E ty kv rest fs with
      ⟨-, ⟨-, e⟩ | ⟨-, e⟩⟩ | ⟨index, hi, ⟨-, e⟩ | ⟨-, e⟩⟩ <;> rw [e]
    · exact ih fs hs hrest
    · rw [fieldByNameFunc_shape ty fs0 fs hs] at hi
      rw [ih _ ((applyAt_shape E kv.2 index fs).trans hs) hrest]
      exact applyAt_apart E kv.2 index a fs (apart_symm (h kv (List.mem_cons_self _ _) index hi))
    · rw [fieldByNameFunc_shape ty fs0 fs hs] at hi
      exact applyAt_apart E kv.2 index a fs (apart_symm (h kv (List.mem_cons_self _ _) index hi))

theorem applyAt_ok_or_panic (E : Lib) (n : node) (index : List Nat) (fs : List Field) :
    (applyAt E n index fs).2 = .ok () ∨ ∃ m, (applyAt E n index fs).2 = .panic m := by
  obtain ⟨h1, h2⟩ := applyAt_spec E n index fs
  cases hf : fieldAt index fs with
  | none => exact Or.inr (h2 hf)
  | some f =>
    rw [(h1 f hf).1]
    exact applyNode_ok_or_panic E f.exported f.value n

theorem fillIndexed_ok_or_panic (E : Lib) : ∀ (ns : List node) (i : Nat) (fs : List Field),
    (fillIndexed E ns i fs).2 = .ok () ∨ ∃ m, (fillIndexed E ns i fs).2 = .panic m := by
  intro ns
  induction ns with
  | nil => intro i fs; exact Or.inl rfl
  | cons n rest ih =>
    intro i fs
    cases hf : fs[i]? with
    | none =>
      exact Or.inr ⟨"reflect: Field index out of range", by simp only [fillIndexed, hf]⟩
    | some f =>
      rcases applyNode_ok_or_panic E f.exported f.value n with h | ⟨m, h⟩
      · simp only [fillIndexed, hf, h]
        exact ih _ _
      · exact Or.inr ⟨m, by simp only [fillIndexed, hf, h]⟩

/-- More values than fields: the loop over the positional values panics. -/
theorem fillIndexed_short (E : Lib) : ∀ (ns : List node) (i : Nat) (fs : List Field),
    i ≤ fs.length → fs.length < i + ns.length →
    ∃ m, (fillIndexed E ns i fs).2 = .panic m := by
  intro ns
  induction ns with
  | nil =>
    intro i fs h0 h
    simp only [List.length_nil] at h
    omega
  | cons n rest ih =>
    intro i fs h0 h
    cases hf : fs[i]? with
    | none => exact ⟨"reflect: Field index out of range", by simp only [fillIndexed, hf]⟩
    | some f =>
      rcases applyNode_ok_or_panic E f.exported f.value n with h1 | ⟨m, h1⟩
      · simp only [fillIndexed, hf, h1]
        have hlt := getElem?_lt fs i f hf
        apply ih
        · simp only [List.length_set]
          omega
        · simp only [List.length_set, List.length_cons] at h ⊢
          omega
      · exact ⟨m, by simp only [fillIndexed, hf, h1]⟩

theorem fillKeyword_ok_or_panic (E : Lib) (ty : String) :
    ∀ (kvs : List (String × node)) (fs : List Field),
    (∀ kv ∈ kvs, ∃ m, applyNodeZero kv.2 = .panic m) →
    (fillKeyword E ty kvs fs).2 = .ok () ∨ ∃ m, (fillKeyword E ty kvs fs).2 = .panic m := by
  intro kvs
  induction kvs with
  | nil => intro fs _; exact Or.inl rfl
  | cons kv rest ih =>
    intro fs h
    have hrest : ∀ kv1 ∈ rest, ∃ m, applyNodeZero kv1.2 = .panic m :=
      fun kv1 hm => h kv1 (List.mem_cons_of_mem _ hm)
    obtain ⟨m, hm⟩ := h kv (List.mem_cons_self _ _)
    rcases fillKeyword_cons E ty kv rest fs with
      ⟨-, ⟨-, e⟩ | ⟨-, e⟩⟩ | ⟨index, -, ⟨-, e⟩ | ⟨hn, e⟩⟩ <;> rw [e]
    · exact ih fs hrest
    · exact Or.inr ⟨m, hm⟩
    · exact ih _ hrest
    · rcases applyAt_ok_or_panic E kv.2 index fs with h1 | h1
      · exact absurd h1 hn
      · exact Or.inr h1

/-- A key that the search does not find: the loop over the keyword values
panics. -/
theorem fillKeyword_unmatched (E : Lib) (ty : String) (fs0 : List Field) (k : String) :
    ∀ (kvs : List (String × node)) (fs : List Field),
    fs.map FieldOf.shape = fs0.map FieldOf.shape →
    (∀ kv ∈ kvs, ∃ m, applyNodeZero kv.2 = .panic m) →
    (∃ kv ∈ kvs, kv.1 = k) →
    fieldByNameFunc ty fs0 (fun s => E.toKebabCase s == k) = .ok none →
    ∃ m, (fillKeyword E ty kvs fs).2 = .panic m := by
  intro kvs
  induction kvs with
  | nil =>
    intro fs _ _ h
    obtain ⟨kv, hm, -⟩ := h
    cases hm
  | cons kv rest ih =>
    intro fs hs h hk hnone
    have hrest : ∀ kv1 ∈ rest, ∃ m, applyNodeZero kv1.2 = .panic m :=
      fun kv1 hm => h kv1 (List.mem_cons_of_mem _ hm)
    obtain ⟨m, hm⟩ := h kv (List.mem_cons_self _ _)
    rcases fillKeyword_cons E ty kv rest fs with
      ⟨-, ⟨hz, -⟩ | ⟨-, e⟩⟩ | ⟨index, hi, ⟨-, e⟩ | ⟨hn, e⟩⟩
    · rw [hm] at hz
      cases hz
    · rw [e]
      exact ⟨m, hm⟩
    · rw [e]
      have hne : kv.1 ≠ k := by
        intro e1
        rw [e1, fieldByNameFunc_shape ty fs0 fs hs, hnone] at hi
        cases hi
      have hk1 : ∃ kv1 ∈ rest, kv1.1 = k := by
        obtain ⟨kv1, hm1, e1⟩ := hk
        rcases List.mem_cons.1 hm1 with rfl | hm1
        · exact absurd e1 hne
        · exact ⟨kv1, hm1, e1⟩
      exact ih _ ((applyAt_shape E kv.2 index fs).trans hs) hrest hk1 hnone
    · rw [e]
      rcases applyAt_ok_or_panic E kv.2 index fs with h1 | h1
      · exact absurd h1 hn
      · exact h1

theorem mem_mapRange (E : Lib) (m : List (String × node)) (k : String) (v : node) :
    (k, v) ∈ mapRange E m ↔ mapLookup m k = some v := by
  unfold mapRange
  rw [List.mem_filterMap]
  constructor
  · rintro ⟨k1, _, h⟩
    cases hl : mapLookup m k1 with
    | none => simp [hl] at h
    | some v1 =>
      simp only [hl, Option.map_some', Option.some.injEq, Prod.mk.injEq] at h
      rw [← h.1, ← h.2]
      exact hl
  · intro h
    refine ⟨k, ?_, by simp [h]⟩
    rw [(E.mapOrder_perm _).mem_iff, mem_keys_iff]
    exact ⟨v, h⟩

theorem mapRange_nil (E : Lib) : mapRange E [] = [] := by
  have e : E.mapOrder [] = [] := List.perm_nil.1 (E.mapOrder_perm [])
  simp [mapRange, e]

theorem mapRange_singleton (E : Lib) (k : String) (v : node) :
    mapRange E [(k, v)] = [(k, v)] := by
  unfold mapRange
  have h := E.mapOrder_perm [k]
  simp only [List.map_cons, List.map_nil]
  rw [List.perm_singleton.1 h]
  simp [mapLookup]

/-- The keys of the entries that `range` visits are the keys of the map, each
once when the map holds each once. -/
theorem mapRange_keys (E : Lib) (m : List (String × node)) :
    (∀ k, k ∈ (mapRange E m).map Prod.fst ↔ k ∈ m.map Prod.fst) ∧
    ((m.map Prod.fst).Nodup → ((mapRange E m).map Prod.fst).Nodup) := by
  have hmap : (mapRange E m).map Prod.fst = E.mapOrder (m.map Prod.fst) := by
    unfold mapRange
    have hall : ∀ k ∈ E.mapOrder (m.map Prod.fst), ∃ v, mapLookup m k = some v := by
      intro k hk
      rw [(E.mapOrder_perm _).mem_iff] at hk
      exact (mem_keys_iff m k).1 hk
    generalize E.mapOrder (m.map Prod.fst) = ks at hall
    induction ks with
    | nil => rfl
    | cons k rest ih =>
      obtain ⟨v, hv⟩ := hall k (List.mem_cons_self _ _)
      simp only [List.filterMap_cons, hv, Option.map_some', List.map_cons]
      rw [ih (fun k1 hk1 => hall k1 (List.mem_cons_of_mem _ hk1))]
  rw [hmap]
  exact ⟨fun k => (E.mapOrder_perm _).mem_iff, fun h => (E.mapOrder_perm _).nodup_iff.2 h⟩

theorem fillKeyword_found (E : Lib) (ty : String) (kv : String × node)
    (rest : List (String × node)) (fs : List Field) (index : List Nat)
    (hi : fieldByNameFunc ty fs (fun s => E.toKebabCase s == kv.1) = .ok (some index)) :
    ((fillKeyword E ty (kv :: rest) fs).2 = .ok () ↔
      (applyAt E kv.2 index fs).2 = .ok () ∧
        (fillKeyword E ty rest (applyAt E kv.2 index fs).1).2 = .ok ()) ∧
    ((applyAt E kv.2 index fs).2 = .ok () →
      fillKeyword E ty (kv :: rest) fs = fillKeyword E ty rest (applyAt E kv.2 index fs).1) := by
  cases hz : (applyAt E kv.2 index fs).2 <;> simp [fillKeyword, hi, hz]

theorem fillKeyword_notFound (E : Lib) (ty : String) (kv : String × node)
    (rest : List (String × node)) (fs : List Field)
    (hi : fieldByNameFunc ty fs (fun s => E.toKebabCase s == kv.1) = .ok none) :
    ((fillKeyword E ty (kv :: rest) fs).2 = .ok () ↔
      applyNodeZero kv.2 = .ok () ∧ (fillKeyword E ty rest fs).2 = .ok ()) ∧
    (applyNodeZero kv.2 = .ok () →
      fillKeyword E ty (kv :: rest) fs = fillKeyword E ty rest fs) := by
  cases hz : applyNodeZero kv.2 <;> simp [fillKeyword, hi, hz]

/-- A binding at a field that lies apart from the fields the keys are found
at does not change whether the second loop succeeds. -/
theorem fillKeyword_commute (E : Lib) (ty : String) (fs0 : List Field) (a : List Nat)
    (v : node) : ∀ (kvs : List (String × node)) (fs : List Field),
    fs.map FieldOf.shape = fs0.map FieldOf.shape →
    (∀ kv ∈ kvs, ∀ index, fieldByNameFunc ty fs0 (fun s => E.toKebabCase s == kv.1) =
      .ok (some index) → Apart a index) →
    ((fillKeyword E ty kvs (applyAt E v a fs).1).2 = .ok () ↔
      (fillKeyword E ty kvs fs).2 = .ok ()) := by
  intro kvs
  induction kvs with
  | nil =>
    intro fs _ _
    simp [fillKeyword]
  | cons kv rest ih =>
    intro fs hs h
    have hrest : ∀ kv1 ∈ rest, ∀ index,
        fieldByNameFunc ty fs0 (fun s => E.toKebabCase s == kv1.1) = .ok (some index) →
        Apart a index := fun kv1 hm => h kv1 (List.mem_cons_of_mem _ hm)
    have hs1 : (applyAt E v a fs).1.map FieldOf.shape = fs0.map FieldOf.shape :=
      (applyAt_shape E v a fs).trans hs
    obtain ⟨r, hr⟩ := fieldByNameFunc_total ty fs0 (fun s => E.toKebabCase s == kv.1)
    have hr1 := hr
    have hr2 := hr
    rw [← fieldByNameFunc_shape ty fs0 fs hs] at hr1
    rw [← fieldByNameFunc_shape ty fs0 _ hs1] at hr2
    cases r with
    | none =>
      rw [(fillKeyword_notFound E ty kv rest fs hr1).1,
        (fillKeyword_notFound E ty kv rest _ hr2).1, ih fs hs hrest]
    | some index =>
      have hap := h kv (List.mem_cons_self _ _) index hr
      rw [(fillKeyword_found E ty kv rest fs index hr1).1,
        (fillKeyword_found E ty kv rest _ index hr2).1,
        applyAt_result_apart E v kv.2 a index fs hap, applyAt_comm E v kv.2 a index fs hap,
        ih _ ((applyAt_shape E kv.2 index fs).trans hs) hrest]

/-- The second loop succeeds when every key is found at a field that is
exported and compatible with the value of the key, and the fields of
different keys lie apart. -/
theorem fillKeyword_ok (E : Lib) (ty : String) (fs0 : List Field) :
    ∀ (kvs : List (String × node)) (fs : List Field),
    fs.map FieldOf.shape = fs0.map FieldOf.shape → (kvs.map Prod.fst).Nodup →
    (∀ kv ∈ kvs, ∃ a g, fieldByNameFunc ty fs0 (fun s => E.toKebabCase s == kv.1) =
        .ok (some a) ∧ fieldAt a fs = some g ∧ g.exported = true ∧
        Compatible g.value kv.2 = true ∧
        ∀ kv1 ∈ kvs, kv1.1 ≠ kv.1 → ∀ index,
          fieldByNameFunc ty fs0 (fun s => E.toKebabCase s == kv1.1) = .ok (some index) →
          Apart a index) →
    (fillKeyword E ty kvs fs).2 = .ok () := by
  intro kvs
  induction kvs with
  | nil =>
    intro fs _ _ _
    rfl
  | cons kv rest ih =>
    intro fs hs hnd h
    obtain ⟨a, g, ha, hg, hx, hc, hap⟩ := h kv (List.mem_cons_self _ _)
    have ha1 := ha
    rw [← fieldByNameFunc_shape ty fs0 fs hs] at ha1
    have hok : (applyAt E kv.2 a fs).2 = .ok () := by
      rw [((applyAt_spec E kv.2 a fs).1 g hg).1, hx]
      exact (applyNode_ok_iff E g.value kv.2).2 hc
    rw [(fillKeyword_found E ty kv rest fs a ha1).2 hok]
    simp only [List.map_cons, List.nodup_cons] at hnd
    apply ih _ ((applyAt_shape E kv.2 a fs).trans hs) hnd.2
    intro kv1 hm1
    obtain ⟨a1, g1, ha1, hg1, hx1, hc1, hap1⟩ := h kv1 (List.mem_cons_of_mem _ hm1)
    have hne : kv1.1 ≠ kv.1 := by
      intro e
      apply hnd.1
      rw [← e]
      exact List.mem_map_of_mem _ hm1
    refine ⟨a1, g1, ha1, ?_, hx1, hc1, fun kv2 hm2 => hap1 kv2 (List.mem_cons_of_mem _ hm2)⟩
    rw [applyAt_apart E kv.2 a a1 fs (hap kv1 (List.mem_cons_of_mem _ hm1) hne a1 ha1)]
    exact hg1

/-- After a second loop that succeeds, the field at which a key is found
holds the value of the key, when the fields of the other keys lie apart from
it. -/
theorem fillKeyword_holds (E : Lib) (ty : String) (fs0 : List Field) (k : String) (v : node)
    (a : List Nat)
    (hl : fieldByNameFunc ty fs0 (fun s => E.toKebabCase s == k) = .ok (some a))
    (hz : ∃ m, applyNodeZero v = .panic m) :
    ∀ (kvs : List (String × node)) (fs : List Field),
    fs.map FieldOf.shape = fs0.map FieldOf.shape → (kvs.map Prod.fst).Nodup → (k, v) ∈ kvs →
    (∀ kv ∈ kvs, kv.1 ≠ k → ∀ index,
      fieldByNameFunc ty fs0 (fun s => E.toKebabCase s == kv.1) = .ok (some index) →
      Apart a index) →
    (fillKeyword E ty kvs fs).2 = .ok () →
    ∃ f g, fieldAt a fs = some f ∧ fieldAt a (fillKeyword E ty kvs fs).1 = some g ∧
      g.shape = f.shape ∧ f.exported = true ∧ Compatible f.value v = true ∧
      Holds E g.value v := by
  intro kvs
  induction kvs with
  | nil =>
    intro fs _ _ hm
    cases hm
  | cons kv rest ih =>
    intro fs hs hnd hm hap hok
    simp only [List.map_cons, List.nodup_cons] at hnd
    have hrest : ∀ kv1 ∈ rest, kv1.1 ≠ k → ∀ index,
        fieldByNameFunc ty fs0 (fun s => E.toKebabCase s == kv1.1) = .ok (some index) →
        Apart a index := fun kv1 hm1 => hap kv1 (List.mem_cons_of_mem _ hm1)
    by_cases hk : kv.1 = k
    · have hkv : kv = (k, v) := by
        rcases List.mem_cons.1 hm with e | e
        · exact e.symm
        · exfalso
          apply hnd.1
          rw [hk]
          exact List.mem_map_of_mem Prod.fst e
      subst hkv
      have hl1 := hl
      rw [← fieldByNameFunc_shape ty fs0 fs hs] at hl1
      obtain ⟨hok1, hok2⟩ := (fillKeyword_found E ty (k, v) rest fs a hl1).1.1 hok
      rw [(fillKeyword_found E ty (k, v) rest fs a hl1).2 hok1]
      obtain ⟨s1, s2⟩ := applyAt_spec E v a fs
      cases hf : fieldAt a fs with
      | none =>
        obtain ⟨m, hm1⟩ := s2 hf
        simp only at hok1
        rw [hm1] at hok1
        cases hok1
      | some f =>
        obtain ⟨e1, e2⟩ := s1 f hf
        simp only at hok1
        rw [e1] at hok1
        obtain ⟨hx, hc⟩ := (applyNode_ok_field E f v hz).1 hok1
        refine ⟨f, { f with value := (applyNode E f.exported f.value v).1 }, rfl, ?_,
          FieldOf.shape_value f _ (applyNode_typeOf E _ _ _), hx, hc, ?_⟩
        · rw [fillKeyword_apart E ty fs0 a rest _ ((applyAt_shape E v a fs).trans hs)
            (fun kv1 hm1 index hi => hrest kv1 hm1 (fun e => hnd.1 (by
              have hmem := List.mem_map_of_mem Prod.fst hm1
              rw [e] at hmem
              exact hmem)) index hi)]
          exact e2
        · simp only
          rw [hx] at hok1 ⊢
          exact applyNode_holds E f.value v hok1
    · have hm1 : (k, v) ∈ rest := by
        rcases List.mem_cons.1 hm with e | e
        · exact absurd (congrArg Prod.fst e).symm hk
        · exact e
      obtain ⟨r, hr⟩ := fieldByNameFunc_total ty fs0 (fun s => E.toKebabCase s == kv.1)
      have hr1 := hr
      rw [← fieldByNameFunc_shape ty fs0 fs hs] at hr1
      cases r with
      | none =>
        obtain ⟨hz1, hok2⟩ := (fillKeyword_notFound E ty kv rest fs hr1).1.1 hok
        rw [(fillKeyword_notFound E ty kv rest fs hr1).2 hz1]
        exact ih fs hs hnd.2 hm1 hrest hok2
      | some index =>
        obtain ⟨hok1, hok2⟩ := (fillKeyword_found E ty kv rest fs index hr1).1.1 hok
        rw [(fillKeyword_found E ty kv rest fs index hr1).2 hok1]
        obtain ⟨f, g, hf, hg, hsh, hx, hc, hh⟩ := ih _ ((applyAt_shape E kv.2 index fs).trans hs)
          hnd.2 hm1 hrest hok2
        rw [applyAt_apart E kv.2 index a fs
          (apart_symm (hap kv (List.mem_cons_self _ _) hk index hr))] at hf
        exact ⟨f, g, hf, hg, hsh, hx, hc, hh⟩

theorem filter_key_absent (k : String) : ∀ (kvs : List (String × node)),
    k ∉ kvs.map Prod.fst → kvs.filter (fun kv => kv.1 != k) = kvs := by
  intro kvs h
  rw [List.filter_eq_self]
  intro kv hkv
  simp only [bne_iff_ne, ne_eq]
  intro e
  apply h
  rw [← e]
  exact List.mem_map_of_mem Prod.fst hkv

/-- The second loop succeeds when it does so without the entry of one key
and that key is found at a field that is exported and compatible with its
value and from which the fields of the other keys lie apart. -/
theorem fillKeyword_insert (E : Lib) (ty : String) (fs0 : List Field) (k : String) (v : node)
    (a : List Nat)
    (hl : fieldByNameFunc ty fs0 (fun s => E.toKebabCase s == k) = .ok (some a)) :
    ∀ (kvs : List (String × node)) (fs : List Field),
    fs.map FieldOf.shape = fs0.map FieldOf.shape → (kvs.map Prod.fst).Nodup → (k, v) ∈ kvs →
    (∀ kv ∈ kvs, kv.1 ≠ k → ∀ index,
      fieldByNameFunc ty fs0 (fun s => E.toKebabCase s == kv.1) = .ok (some index) →
      Apart a index) →
    (∃ g, fieldAt a fs = some g ∧ g.exported = true ∧ Compatible g.value v = true) →
    (fillKeyword E ty (kvs.filter (fun kv => kv.1 != k)) fs).2 = .ok () →
    (fillKeyword E ty kvs fs).2 = .ok () := by
  intro kvs
  induction kvs with
  | nil =>
    intro fs _ _ hm
    cases hm
  | cons kv rest ih =>
    intro fs hs hnd hm hap hg hok
    simp only [List.map_cons, List.nodup_cons] at hnd
    have hrest : ∀ kv1 ∈ rest, kv1.1 ≠ k → ∀ index,
        fieldByNameFunc ty fs0 (fun s => E.toKebabCase s == kv1.1) = .ok (some index) →
        Apart a index := fun kv1 hm1 => hap kv1 (List.mem_cons_of_mem _ hm1)
    by_cases hk : kv.1 = k
    · have hkv : kv = (k, v) := by
        rcases List.mem_cons.1 hm with e | e
        · exact e.symm
        · exfalso
          apply hnd.1
          rw [hk]
          exact List.mem_map_of_mem Prod.fst e
      subst hkv
      have hf : List.filter (fun kv => kv.1 != k) ((k, v) :: rest) = rest := by
        rw [List.filter_cons]
        simp only [bne_self_eq_false, Bool.false_eq_true, ↓reduceIte]
        exact filter_key_absent k rest hnd.1
      rw [hf] at hok
      have hl1 := hl
      rw [← fieldByNameFunc_shape ty fs0 fs hs] at hl1
      obtain ⟨g, hg1, hx, hc⟩ := hg
      have hok1 : (applyAt E v a fs).2 = .ok () := by
        rw [((applyAt_spec E v a fs).1 g hg1).1, hx]
        exact (applyNode_ok_iff E g.value v).2 hc
      rw [(fillKeyword_found E ty (k, v) rest fs a hl1).1]
      refine ⟨hok1, ?_⟩
      rw [fillKeyword_commute E ty fs0 a v rest fs hs
        (fun kv1 hm1 index hi => hrest kv1 hm1 (fun e => hnd.1 (by
          have hmem := List.mem_map_of_mem Prod.fst hm1
          rw [e] at hmem
          exact hmem)) index hi)]
      exact hok
    · have hm1 : (k, v) ∈ rest := by
        rcases List.mem_cons.1 hm with e | e
        · exact absurd (congrArg Prod.fst e).symm hk
        · exact e
      have hf : List.filter (fun kv => kv.1 != k) (kv :: rest) =
          kv :: List.filter (fun kv => kv.1 != k) rest := by
        rw [List.filter_cons]
        simp [hk]
      rw [hf] at hok
      obtain ⟨r, hr⟩ := fieldByNameFunc_total ty fs0 (fun s => E.toKebabCase s == kv.1)
      have hr1 := hr
      rw [← fieldByNameFunc_shape ty fs0 fs hs] at hr1
      cases r with
      | none =>
        obtain ⟨hz1, hok2⟩ := (fillKeyword_notFound E ty kv _ fs hr1).1.1 hok
        rw [(fillKeyword_notFound E ty kv rest fs hr1).1]
        exact ⟨hz1, ih fs hs hnd.2 hm1 hrest hg hok2⟩
      | some index =>
        obtain ⟨hok1, hok2⟩ := (fillKeyword_found E ty kv _ fs index hr1).1.1 hok
        rw [(fillKeyword_found E ty kv rest fs index hr1).1]
        refine ⟨hok1, ih _ ((applyAt_shape E kv.2 index fs).trans hs) hnd.2 hm1 hrest ?_ hok2⟩
        rw [applyAt_apart E kv.2 index a fs
          (apart_symm (hap kv (List.mem_cons_self _ _) hk index hr))]
        exact hg
/-! ## Decimal literals in `strconv` and `newNumber` -/

theorem foldl_dec_ge (cs : List Char) : ∀ n : Nat,
    n ≤ cs.foldl (fun n c => 10 * n + (c.toNat - 48)) n := by
  induction cs with
  | nil => intro n; exact le_refl _
  | cons c cs ih =>
    intro n
    simp only [List.foldl_cons]
    exact le_trans (by omega) (ih _)

theorem digitValue_dec {c : Char} (h : isDecDigit c = true) :
    digitValue c = some (c.toNat - 48) ∧ c.toNat - 48 < 10 ∧ (c == '_') = false ∧
      (c == '+') = false ∧ (c == '-') = false := by
  simp only [isDecDigit, Bool.and_eq_true, decide_eq_true_eq] at h
  refine ⟨by simp [digitValue, h.1, h.2], by omega, ?_, ?_, ?_⟩ <;>
    · rw [beq_eq_false_iff_ne]
      intro e
      rw [e] at h
      revert h
      decide

theorem parseUintLoop_dec (us : Bool) : ∀ (cs : List Char) (n : Nat),
    (∀ c ∈ cs, isDecDigit c = true) →
    parseUintLoop 10 cs n us =
      if cs.foldl (fun n c => 10 * n + (c.toNat - 48)) n < 2 ^ 64 then
        .ok (cs.foldl (fun n c => 10 * n + (c.toNat - 48)) n, us)
      else if n < 2 ^ 64 then .error (2 ^ 64 - 1)
      else parseUintLoop 10 cs n us := by
  intro cs
  induction cs with
  | nil =>
    intro n _
    simp only [List.foldl_nil, parseUintLoop]
    split_ifs <;> rfl
  | cons c cs ih =>
    intro n h
    obtain ⟨hd, hlt, hu, -, -⟩ := digitValue_dec (h c (List.mem_cons_self _ _))
    have hrest : ∀ c ∈ cs, isDecDigit c = true := fun c hc => h c (List.mem_cons_of_mem _ hc)
    have hge := foldl_dec_ge cs (10 * n + (c.toNat - 48))
    simp only [List.foldl_cons]
    by_cases hn : n < 2 ^ 64
    · rw [parseUintLoop]
      simp only [hu, Bool.false_eq_true, ↓reduceIte, hd, ge_iff_le]
      rw [if_neg (by omega)]
      by_cases hov : 2 ^ 64 ≤ n * 10 + (c.toNat - 48)
      · rw [if_pos hov, if_neg (by omega), if_pos hn]
      · rw [if_neg hov, Nat.mul_comm n 10, ih _ hrest]
        split_ifs <;> first | rfl | omega
    · rw [if_neg (by omega), if_neg hn]

theorem parseUintLoop_dec_ok (cs : List Char) (h : ∀ c ∈ cs, isDecDigit c = true)
    (hv : decimalValue cs < 2 ^ 64) :
    parseUintLoop 10 cs 0 false = .ok (decimalValue cs, false) := by
  rw [parseUintLoop_dec false cs 0 h]
  unfold decimalValue at hv ⊢
  rw [if_pos hv]

theorem parseUintLoop_dec_overflow (cs : List Char) (h : ∀ c ∈ cs, isDecDigit c = true)
    (hv : 2 ^ 64 ≤ decimalValue cs) :
    parseUintLoop 10 cs 0 false = .error (2 ^ 64 - 1) := by
  rw [parseUintLoop_dec false cs 0 h]
  unfold decimalValue at hv
  rw [if_neg (by omega), if_pos (by omega)]

theorem decimalLiteral_cases {cs : List Char} (h : DecimalLiteral cs) :
    cs = ['0'] ∨ ∃ c rest, cs = c :: rest ∧ (c == '0') = false ∧
      (c == '+') = false ∧ (c == '-') = false := by
  obtain ⟨hne, hd, hz⟩ := h
  cases cs with
  | nil => exact absurd rfl hne
  | cons c rest =>
    by_cases hc : c = '0'
    · left
      exact hz (by simp [hc])
    · right
      obtain ⟨-, -, -, hp, hm⟩ := digitValue_dec (hd c (List.mem_cons_self _ _))
      exact ⟨c, rest, rfl, by simpa using hc, hp, hm⟩

theorem ParseUint_decimal (cs : List Char) (h : DecimalLiteral cs) :
    ParseUint (String.mk cs) =
      if decimalValue cs < 2 ^ 64 then (decimalValue cs, true) else (2 ^ 64 - 1, false) := by
  rcases decimalLiteral_cases h with rfl | ⟨c, rest, rfl, hc, -, -⟩
  · decide
  · simp only [ParseUint, hc, Bool.false_eq_true, ↓reduceIte]
    by_cases hv : decimalValue (c :: rest) < 2 ^ 64
    · rw [parseUintLoop_dec_ok _ h.2.1 hv, if_pos hv]
      simp
    · rw [parseUintLoop_dec_overflow _ h.2.1 (by omega), if_neg hv]

theorem ParseInt_decimal (cs : List Char) (h : DecimalLiteral cs) :
    ParseInt (String.mk cs) =
      if decimalValue cs < 2 ^ 63 then ((decimalValue cs : Int), true)
      else (2 ^ 63 - 1, false) := by
  have hu := ParseUint_decimal cs h
  obtain ⟨c, rest, rfl, hp, hm⟩ : ∃ c rest, cs = c :: rest ∧ (c == '+') = false ∧
      (c == '-') = false := by
    rcases decimalLiteral_cases h with rfl | ⟨c, rest, rfl, -, hp, hm⟩
    · exact ⟨'0', [], rfl, by decide, by decide⟩
    · exact ⟨c, rest, rfl, hp, hm⟩
  by_cases h64 : decimalValue (c :: rest) < 2 ^ 64
  · rw [if_pos h64] at hu
    simp only [ParseInt, hp, hm, Bool.or_self, Bool.false_eq_true, ↓reduceIte, hu,
      Bool.not_true, Bool.false_and, Bool.not_false, Bool.true_and, decide_eq_true_eq, ge_iff_le]
    by_cases h63 : decimalValue (c :: rest) < 2 ^ 63
    · rw [if_neg (by omega), if_pos h63]
    · rw [if_pos (by omega), if_neg h63]
  · rw [if_neg h64] at hu
    have h63 : ¬ decimalValue (c :: rest) < 2 ^ 63 := by omega
    simp only [ParseInt, hp, hm, Bool.or_self, Bool.false_eq_true, ↓reduceIte, hu]
    rw [if_neg h63]
    decide

theorem newNumber_decimal (E : Lib) (pos : Nat) (cs : List Char) (h : DecimalLiteral cs)
    (hv : decimalValue cs < 2 ^ 63) :
    newNumber E pos (String.mk cs) =
      .ok ⟨pos, true, true, true, decimalValue cs, decimalValue cs,
        E.floatOfInt (decimalValue cs), String.mk cs⟩ := by
  have hu := ParseUint_decimal cs h
  have hi := ParseInt_decimal cs h
  rw [if_pos (by omega)] at hu
  rw [if_pos hv] at hi
  have ht : integerTests pos (String.mk cs) =
      ⟨pos, true, true, false, decimalValue cs, decimalValue cs, 0, String.mk cs⟩ := by
    simp only [integerTests, hu, hi, ↓reduceIte]
    split_ifs <;> rfl
  simp only [newNumber, ht, ↓reduceIte, numberChecked, Bool.not_true, Bool.false_and,
    Bool.false_eq_true]

theorem ParseUint_signed (sign : Char) (cs : List Char) (hs : sign = '+' ∨ sign = '-') :
    ParseUint (String.mk (sign :: cs)) = (0, false) := by
  rcases hs with rfl | rfl <;> simp [ParseUint, parseUintLoop, digitValue, lowerByte]

theorem containsAny_decimal (sign cs : List Char)
    (hs : sign = [] ∨ sign = ['+'] ∨ sign = ['-']) (hd : ∀ c ∈ cs, isDecDigit c = true) :
    containsAny (String.mk (sign ++ cs)) ".eEpP" = false := by
  have hcs : ∀ c ∈ cs, (".eEpP".data.contains c) = false := by
    intro c hc
    have := hd c hc
    simp only [isDecDigit, Bool.and_eq_true, decide_eq_true_eq] at this
    rw [Bool.eq_false_iff]
    intro hmem
    simp only [List.contains_eq_any_beq, List.any_eq_true, beq_iff_eq] at hmem
    obtain ⟨x, hx, rfl⟩ := hmem
    revert this
    simp only [String.data, List.mem_cons, List.mem_singleton, List.not_mem_nil, or_false] at hx
    rcases hx with rfl | rfl | rfl | rfl | rfl <;> decide
  simp only [containsAny, List.any_append, Bool.or_eq_false_iff, List.any_eq_false]
  constructor
  · rcases hs with rfl | rfl | rfl <;> simp
  · intro c hc
    have := hcs c hc
    simpa using this

theorem ParseInt_signed (sign : Char) (cs : List Char) (hs : sign = '+' ∨ sign = '-')
    (hd : DecimalLiteral cs)
    (hv : if sign = '-' then 2 ^ 63 < decimalValue cs else 2 ^ 64 ≤ decimalValue cs) :
    (ParseInt (String.mk (sign :: cs))).2 = false := by
  have hu := ParseUint_decimal cs hd
  have p1 : ('+' == '+') = true := by decide
  have p2 : ('+' == '-') = false := by decide
  have e1 : ('-' == '+') = false := by decide
  have e2 : ('-' == '-') = true := by decide
  rcases hs with rfl | rfl
  · rw [if_neg (by decide)] at hv
    rw [if_neg (by omega)] at hu
    simp only [ParseInt, p1, p2, Bool.or_false, ↓reduceIte, hu]
    decide
  · rw [if_pos rfl] at hv
    by_cases h64 : decimalValue cs < 2 ^ 64
    · rw [if_pos h64] at hu
      simp only [ParseInt, e1, e2, Bool.or_true, ↓reduceIte, hu, Bool.not_true, Bool.false_and,
        Bool.false_eq_true, Bool.true_and, decide_eq_true_eq, gt_iff_lt, Bool.not_false,
        ge_iff_le]
      rw [if_pos hv]
    · rw [if_neg h64] at hu
      simp only [ParseInt, e1, e2, Bool.or_true, ↓reduceIte, hu]
      decide

theorem integerTests_overflow (pos : Nat) (sign cs : List Char)
    (hs : sign = [] ∨ sign = ['+'] ∨ sign = ['-']) (hd : DecimalLiteral cs)
    (hv : if sign = ['-'] then 2 ^ 63 < decimalValue cs else 2 ^ 64 ≤ decimalValue cs) :
    integerTests pos (String.mk (sign ++ cs)) =
      ⟨pos, false, false, false, 0, 0, 0, String.mk (sign ++ cs)⟩ := by
  have h : (ParseUint (String.mk (sign ++ cs))).2 = false ∧
      (ParseInt (String.mk (sign ++ cs))).2 = false := by
    rcases hs with rfl | rfl | rfl
    · rw [if_neg (by simp)] at hv
      simp only [List.nil_append]
      rw [ParseUint_decimal cs hd, ParseInt_decimal cs hd, if_neg (by omega), if_neg (by omega)]
      exact ⟨rfl, rfl⟩
    · rw [if_neg (by simp)] at hv
      simp only [List.singleton_append]
      rw [ParseUint_signed '+' cs (Or.inl rfl)]
      exact ⟨rfl, ParseInt_signed '+' cs (Or.inl rfl) hd (by rw [if_neg (by decide)]; exact hv)⟩
    · rw [if_pos rfl] at hv
      simp only [List.singleton_append]
      rw [ParseUint_signed '-' cs (Or.inr rfl)]
      exact ⟨rfl, ParseInt_signed '-' cs (Or.inr rfl) hd (by rw [if_pos rfl]; exact hv)⟩
  simp only [integerTests, h.1, h.2, Bool.false_eq_true, ↓reduceIte]

theorem newNumber_overflow (E : Lib) (pos : Nat) (sign cs : List Char)
    (hs : sign = [] ∨ sign = ['+'] ∨ sign = ['-']) (hd : DecimalLiteral cs)
    (hv : if sign = ['-'] then 2 ^ 63 < decimalValue cs else 2 ^ 64 ≤ decimalValue cs) :
    newNumber E pos (String.mk (sign ++ cs)) =
      .err ((if (E.parseFloat (String.mk (sign ++ cs))).isSome then "integer overflow: "
        else "illegal number syntax: ") ++ quote E (String.mk (sign ++ cs))) := by
  have ht := integerTests_overflow pos sign cs hs hd hv
  have hc := containsAny_decimal sign cs hs hd.2.1
  simp only [newNumber, ht, Bool.false_eq_true, ↓reduceIte]
  cases E.parseFloat (String.mk (sign ++ cs)) with
  | none => simp [numberChecked]
  | some f => simp [hc]

/-! ## The parser agrees with the reference parser -/

theorem getD_drop {α : Type} (L : List α) (k i : Nat) (d : α) :
    (L.drop k).getD i d = L.getD (i + k) d := by
  simp only [List.getD_eq_getElem?_getD, List.getElem?_drop, Nat.add_comm]

theorem tree.Reads.dropped {t t1 : tree} {L : List item} {k : Nat} (h : t.Reads L)
    (hc : t.Consumed t1 k) : t1.Reads (L.drop k) := by
  intro i
  rw [hc.1, h, getD_drop]

theorem tree.Reads.head {t : tree} {L : List item} (h : t.Reads L) :
    t.stream 0 = L.headD zeroItem := by
  rw [h 0]
  cases L <;> rfl

theorem tree.Reads.second {t : tree} {L : List item} (h : t.Reads L) :
    t.stream 1 = L.tail.headD zeroItem := by
  rw [h 1]
  cases L with
  | nil => rfl
  | cons a L => cases L <;> rfl

theorem tree.reads_newTree (items : List item) (r : Option listNode) (a b c : item) :
    (⟨r, items, a, b, c, 0⟩ : tree).Reads items := by
  intro i
  rfl

/-- `next` under `Reads`. -/
theorem tree.next_reads {t : tree} {L : List item} (h : t.peekCount ≤ 2) (hr : t.Reads L) :
    ∃ t1, t.next = .ok (L.headD zeroItem, t1) ∧ t1.Reads L.tail ∧
      t1.peekCount = t.peekCount - 1 ∧ t1.root = t.root ∧ t1.undo.Reads L ∧
      t1.undo.peekCount = t.peekCount + (1 - t.peekCount) ∧ t1.undo.root = t.root := by
  obtain ⟨t1, h1, c1, p1, cu, pu⟩ := tree.next_spec h
  refine ⟨t1, by rw [h1, hr.head], ?_, p1, c1.2, ?_, pu, cu.2⟩
  · have := hr.dropped c1
    rwa [List.drop_one] at this
  · have := hr.dropped cu
    rwa [List.drop_zero] at this

/-- `peek` under `Reads`. -/
theorem tree.peek_reads {t : tree} {L : List item} (h : t.peekCount ≤ 2) (hr : t.Reads L) :
    ∃ t1, t.peek = .ok (L.headD zeroItem, t1) ∧ t1.Reads L ∧
      t1.peekCount = t.peekCount + (1 - t.peekCount) ∧ t1.root = t.root := by
  obtain ⟨t1, h1, c1, p1⟩ := tree.peek_spec h
  refine ⟨t1, by rw [h1, hr.head], ?_, p1, c1.2⟩
  have := hr.dropped c1
  rwa [List.drop_zero] at this

/-- The lookahead `next`, `peek`, `backup2` under `Reads`. -/
theorem tree.lookahead_reads {t : tree} {L : List item} (h : t.peekCount ≤ 2)
    (hr : t.Reads L) :
    ∃ t1 t2, t.next = .ok (L.headD zeroItem, t1) ∧
      t1.peek = .ok (L.tail.headD zeroItem, t2) ∧
      (t2.backup2 (L.headD zeroItem)).Reads L ∧
      (t2.backup2 (L.headD zeroItem)).peekCount = 2 ∧
      (t2.backup2 (L.headD zeroItem)).root = t.root := by
  obtain ⟨t1, t2, h1, h2, c3, p3⟩ := tree.lookahead_spec h
  rw [hr.head, hr.second] at *
  refine ⟨t1, t2, h1, h2, ?_, p3, c3.2⟩
  have := hr.dropped c3
  rwa [List.drop_zero] at this

theorem tree.simpleValue_agrees (E : Lib) {t : tree} {L : List item} (h : t.peekCount ≤ 2)
    (hr : t.Reads L) : Agrees t (t.simpleValue E) (refSimple E L) := by
  obtain ⟨tp, hp, rp, pp, rt⟩ := tree.peek_reads h hr
  obtain ⟨t1, h1, r1, p1, rt1, -⟩ := tree.next_reads (t := tp) (by omega) rp
  have hfin : t1.peekCount ≤ 1 ∧ t1.root = t.root := ⟨by omega, rt1.trans rt⟩
  unfold tree.simpleValue refSimple leafOf
  rw [hp]
  simp only []
  cases hty : (L.headD zeroItem).typ <;>
    simp only [tree.nil, tree.bool, tree.identifier, tree.string, tree.number, h1,
      tree.unexpected, Agrees]
  case itemNil => exact ⟨t1, rfl, r1, hfin⟩
  case itemBool =>
    by_cases hv : ((L.headD zeroItem).val == "true") = true
    · simp only [hv, ↓reduceIte]
      exact ⟨t1, rfl, r1, hfin⟩
    · simp only [hv, Bool.false_eq_true, ↓reduceIte]
      exact ⟨t1, rfl, r1, hfin⟩
  case itemIdentifier => exact ⟨t1, rfl, r1, hfin⟩
  case itemString =>
    split_ifs
    · rfl
    · cases unquote E (String.mk ((L.headD zeroItem).val.data.drop 1).dropLast) with
      | none => rfl
      | some s => exact ⟨t1, rfl, r1, hfin⟩
  case itemNumber =>
    cases newNumber E (L.headD zeroItem).pos (L.headD zeroItem).val with
    | ok n => exact ⟨t1, rfl, r1, hfin⟩
    | err m => rfl
    | panic m => rfl
    | diverge => rfl

theorem refRest_cons (E : Lib) (tok : item) (R : List item) :
    refRest E (tok :: R) =
      if tok.typ == .itemListSeparator then
        match refSimple E R with
        | .ok v =>
          match refRest E v.2 with
          | .ok r => .ok (v.1 :: r.1, r.2)
          | .err m => .err m
          | .panic m => .panic m
          | .diverge => .diverge
        | .err m => .err m
        | .panic m => .panic m
        | .diverge => .diverge
      else .ok ([], tok :: R) := by
  cases R with
  | nil =>
    simp only [refRest, refSimple, List.headD_nil, List.tail_nil]
    split_ifs
    · cases leafOf E zeroItem <;> rfl
    · rfl
  | cons v rest =>
    simp only [refRest, refSimple, List.headD_cons, List.tail_cons]
    split_ifs
    · cases leafOf E v <;> rfl
    · rfl

theorem refSimple_tail (E : Lib) {L : List item} {v : node × List item}
    (h : refSimple E L = .ok v) : v.2 = L.tail ∧ leafOf E (L.headD zeroItem) = .ok v.1 := by
  unfold refSimple at h
  cases hl : leafOf E (L.headD zeroItem) <;> rw [hl] at h <;> simp only at h
  · cases h
    exact ⟨rfl, rfl⟩
  all_goals cases h

theorem tree.sliceLoop_agrees (E : Lib) :
    ∀ (fuel : Nat) (items : List node) (t : tree) (L : List item) (n : Nat), t.peekCount ≤ 1 →
      t.Reads L → (∀ i, n ≤ i → (L.getD i zeroItem).typ = .itemError) → n < fuel →
      match refRest E L with
      | .ok r => ∃ t1, tree.sliceLoop E fuel items t = .ok (items ++ r.1, t1) ∧
          t1.undo.Reads r.2 ∧ t1.undo.peekCount ≤ 1 ∧ t1.root = t.root
      | .err m => tree.sliceLoop E fuel items t = .err m
      | .panic m => tree.sliceLoop E fuel items t = .panic m
      | .diverge => tree.sliceLoop E fuel items t = .diverge := by
  intro fuel
  induction fuel with
  | zero => intro _ _ _ _ _ _ _ h; omega
  | succ fuel ih =>
    intro items t L n hpc hr hb hn
    obtain ⟨t1, h1, r1, p1, rt1, ru, pu, -⟩ := tree.next_reads (t := t) (by omega) hr
    unfold tree.sliceLoop
    rw [h1]
    simp only []
    cases L with
    | nil =>
      have hz : (zeroItem.typ == itemType.itemListSeparator) = false := by decide
      simp only [List.headD_nil, hz, Bool.false_eq_true, ↓reduceIte, refRest, List.append_nil]
      exact ⟨t1, rfl, ru, by omega, rt1⟩
    | cons tok R =>
      simp only [List.headD_cons, List.tail_cons] at r1 ⊢
      rw [refRest_cons]
      by_cases hsep : (tok.typ == .itemListSeparator) = true
      · simp only [hsep, ↓reduceIte]
        have hs := tree.simpleValue_agrees E (t := t1) (by omega) r1
        cases hR : refSimple E R with
        | ok v =>
          rw [hR] at hs
          obtain ⟨t2, h2, r2, p2, rt2⟩ := hs
          rw [h2]
          simp only []
          have hv2 : v.2 = R.tail := (refSimple_tail E hR).1
          have hn1 : 1 ≤ n := by
            by_contra hc
            have := hb 0 (by omega)
            simp only [List.getD_cons_zero] at this
            simp only [beq_iff_eq] at hsep
            rw [hsep] at this
            cases this
          have hb2 : ∀ i, n - 2 ≤ i → (v.2.getD i zeroItem).typ = .itemError := by
            intro i hi
            have := hb (i + 2) (by omega)
            rw [hv2]
            rw [← this]
            cases R with
            | nil => simp
            | cons a R => simp
          have := ih (items ++ [v.1]) t2 v.2 (n - 2) p2 r2 hb2 (by omega)
          cases hrest : refRest E v.2 with
          | ok r =>
            rw [hrest] at this
            obtain ⟨t3, h3, r3, p3, rt3⟩ := this
            simp only []
            exact ⟨t3, by rw [h3, List.append_assoc]; rfl, r3, p3, by rw [rt3, rt2, rt1]⟩
          | err m => rw [hrest] at this; simpa using this
          | panic m => rw [hrest] at this; simpa using this
          | diverge => rw [hrest] at this; simpa using this
        | err m => rw [hR] at hs; simp only [Agrees] at hs; rw [hs]
        | panic m => rw [hR] at hs; simp only [Agrees] at hs; rw [hs]
        | diverge => rw [hR] at hs; simp only [Agrees] at hs; rw [hs]
      · simp only [hsep, Bool.false_eq_true, ↓reduceIte, List.append_nil]
        exact ⟨t1, rfl, ru, by omega, rt1⟩

theorem tree.slice_agrees (E : Lib) {t : tree} {L : List item} (h : t.peekCount ≤ 2)
    (hr : t.Reads L) :
    Agrees t (t.slice E)
      (match refSimple E L with
        | .ok v =>
          match refRest E v.2 with
          | .ok r => .ok (.sliceN v.1.getPosition (v.1 :: r.1), r.2)
          | .err m => .err m
          | .panic m => .panic m
          | .diverge => .diverge
        | .err m => .err m
        | .panic m => .panic m
        | .diverge => .diverge) := by
  have hs := tree.simpleValue_agrees E h hr
  unfold tree.slice
  cases hR : refSimple E L with
  | ok v =>
    rw [hR] at hs
    obtain ⟨t2, h2, r2, p2, rt2⟩ := hs
    rw [h2]
    simp only []
    have hb : ∀ i, t2.lex.length + t2.peekCount ≤ i → (v.2.getD i zeroItem).typ = .itemError := by
      intro i hi
      rw [← r2 i]
      rw [← tree.pending_length (by omega)] at hi
      exact tree.bounded_pending t2 i hi
    have := tree.sliceLoop_agrees E (t2.lex.length + t2.peekCount + 1) [v.1] t2 v.2 _ p2 r2 hb
      (Nat.lt_succ_self _)
    cases hrest : refRest E v.2 with
    | ok r =>
      rw [hrest] at this
      obtain ⟨t3, h3, r3, p3, rt3⟩ := this
      rw [h3]
      exact ⟨t3.undo, rfl, r3, p3, by show t3.root = t.root; rw [rt3, rt2]⟩
    | err m => rw [hrest] at this; simp only [Agrees] at this ⊢; rw [this]
    | panic m => rw [hrest] at this; simp only [Agrees] at this ⊢; rw [this]
    | diverge => rw [hrest] at this; simp only [Agrees] at this ⊢; rw [this]
  | err m => rw [hR] at hs; simp only [Agrees] at hs ⊢; rw [hs]
  | panic m => rw [hR] at hs; simp only [Agrees] at hs ⊢; rw [hs]
  | diverge => rw [hR] at hs; simp only [Agrees] at hs ⊢; rw [hs]

theorem tree.argumentValue_agrees (E : Lib) {t : tree} {L : List item} (h : t.peekCount ≤ 2)
    (hr : t.Reads L) : Agrees t (t.argumentValue E) (refValue E L) := by
  obtain ⟨t1, t2, h1, h2, r3, p3, rt3⟩ := tree.lookahead_reads h hr
  unfold tree.argumentValue refValue
  rw [h1]
  simp only []
  rw [h2]
  simp only []
  have hs := tree.slice_agrees E (t := t2.backup2 (L.headD zeroItem)) (by omega) r3
  have hv := tree.simpleValue_agrees E (t := t2.backup2 (L.headD zeroItem)) (by omega) r3
  split_ifs
  · revert hs
    generalize (t2.backup2 (L.headD zeroItem)).slice E = res
    intro hs
    cases hR : refSimple E L with
    | ok v =>
      rw [hR] at hs
      simp only [] at hs ⊢
      cases hrest : refRest E v.2 with
      | ok r =>
        rw [hrest] at hs
        obtain ⟨t4, h4, r4, p4, rt4⟩ := hs
        exact ⟨t4, h4, r4, p4, rt4.trans rt3⟩
      | err m => rw [hrest] at hs; exact hs
      | panic m => rw [hrest] at hs; exact hs
      | diverge => rw [hrest] at hs; exact hs
    | err m => rw [hR] at hs; exact hs
    | panic m => rw [hR] at hs; exact hs
    | diverge => rw [hR] at hs; exact hs
  · revert hv
    generalize (t2.backup2 (L.headD zeroItem)).simpleValue E = res
    intro hv
    cases hR : refSimple E L with
    | ok v =>
      rw [hR] at hv
      obtain ⟨t4, h4, r4, p4, rt4⟩ := hv
      exact ⟨t4, h4, r4, p4, rt4.trans rt3⟩
    | err m => rw [hR] at hv; exact hv
    | panic m => rw [hR] at hv; exact hv
    | diverge => rw [hR] at hv; exact hv

theorem agrees_root {α : Type} {t t0 : tree} {r : Result (α × tree)}
    {ref : Result (α × List item)} (h : Agrees t r ref) (hroot : t.root = t0.root) :
    Agrees t0 r ref := by
  cases ref with
  | ok v =>
    obtain ⟨t1, h1, r1, p1, rt1⟩ := h
    exact ⟨t1, h1, r1, p1, rt1.trans hroot⟩
  | err m => exact h
  | panic m => exact h
  | diverge => exact h

theorem tree.argument_agrees (E : Lib) {t : tree} {L : List item} (h : t.peekCount ≤ 1)
    (hr : t.Reads L) : Agrees t (t.argument E) (refArgument E L) := by
  obtain ⟨tp, hp, rp, pp, rtp⟩ := tree.peek_reads (t := t) (by omega) hr
  obtain ⟨tq, hq, rq, pq, rtq⟩ := tree.peek_reads (t := tp) (by omega) rp
  have hpq : tq.peekCount = 1 := by omega
  unfold tree.argument refArgument
  rw [hp]
  simp only []
  by_cases hsw : ((L.headD zeroItem).typ == .itemDisable ||
      (L.headD zeroItem).typ == .itemEnable) = true
  · rw [if_pos hsw, if_pos hsw]
    -- the switch
    obtain ⟨t1, h1, r1, p1, rt1, -⟩ := tree.next_reads (t := tp) (by omega) rp
    obtain ⟨t2, h2, r2, p2, rt2⟩ := tree.peek_reads (t := t1) (by omega) r1
    obtain ⟨t3, h3, r3, p3, rt3, -⟩ := tree.next_reads (t := t2) (by omega) r2
    have hroot : t3.root = t.root := by rw [rt3, rt2, rt1, rtp]
    unfold tree.switchArgument tree.switchNode
    rw [h1]
    simp only []
    have hty : (L.headD zeroItem).typ = .itemDisable ∨ (L.headD zeroItem).typ = .itemEnable := by
      simpa using hsw
    by_cases hid : ((L.tail.headD zeroItem).typ != .itemIdentifier) = true
    · rw [if_pos hid]
      rcases hty with hty | hty <;> simp only [hty, h2, hid, ↓reduceIte, h3] <;> rfl
    · rw [if_neg hid]
      rcases hty with hty | hty <;>
        simp only [hty, h2, hid, Bool.false_eq_true, ↓reduceIte, tree.identifier, h3] <;>
        exact ⟨t3, rfl, r3, by omega, hroot⟩
  · rw [if_neg hsw, if_neg hsw, hq]
    simp only []
    by_cases hident : ((L.headD zeroItem).typ == .itemIdentifier) = true
    · rw [if_pos hident]
      obtain ⟨t1, t2, h1, h2, r3, p3, rt3⟩ := tree.lookahead_reads (t := tq) (by omega) rq
      rw [h1]
      simp only []
      rw [h2]
      simp only []
      by_cases hasg : ((L.tail.headD zeroItem).typ == .itemAssign) = true
      · rw [if_pos hasg, if_pos (by rw [hident, hasg]; rfl)]
        obtain ⟨t4, h4, r4, p4, rt4, -⟩ :=
          tree.next_reads (t := t2.backup2 (L.headD zeroItem)) (by omega) r3
        obtain ⟨t5, h5, r5, p5, rt5, -⟩ := tree.next_reads (t := t4) (by omega) r4
        unfold tree.keyword
        simp only [tree.identifier, h4, h5]
        have hv := tree.argumentValue_agrees E (t := t5) (by omega) r5
        have hroot : t5.root = t.root := by rw [rt5, rt4, rt3, rtq, rtp]
        have hv1 := agrees_root hv hroot
        revert hv1
        generalize t5.argumentValue E = res
        generalize refValue E L.tail.tail = ref
        intro hv1
        cases ref with
        | ok v =>
          obtain ⟨t6, e6, r6, p6, rt6⟩ := hv1
          subst e6
          exact ⟨t6, rfl, r6, p6, rt6⟩
        | err m => simp only [Agrees] at hv1; subst hv1; rfl
        | panic m => simp only [Agrees] at hv1; subst hv1; rfl
        | diverge => simp only [Agrees] at hv1; subst hv1; rfl
      · rw [if_neg hasg, if_neg (by rw [hident]; simpa using hasg)]
        have hv := tree.argumentValue_agrees E (t := t2.backup2 (L.headD zeroItem))
          (by omega) r3
        have hroot : (t2.backup2 (L.headD zeroItem)).root = t.root := by rw [rt3, rtq, rtp]
        unfold tree.positional
        have hv1 := agrees_root hv hroot
        revert hv1
        generalize (t2.backup2 (L.headD zeroItem)).argumentValue E = res
        generalize refValue E L = ref
        intro hv1
        cases ref with
        | ok v =>
          obtain ⟨t6, e6, r6, p6, rt6⟩ := hv1
          subst e6
          exact ⟨t6, rfl, r6, p6, rt6⟩
        | err m => simp only [Agrees] at hv1; subst hv1; rfl
        | panic m => simp only [Agrees] at hv1; subst hv1; rfl
        | diverge => simp only [Agrees] at hv1; subst hv1; rfl
    · rw [if_neg hident, if_neg (by simpa using fun h => absurd h (by simpa using hident))]
      have hv := tree.argumentValue_agrees E (t := tq) (by omega) rq
      have hroot : tq.root = t.root := by rw [rtq, rtp]
      unfold tree.positional
      have hv1 := agrees_root hv hroot
      revert hv1
      generalize tq.argumentValue E = res
      generalize refValue E L = ref
      intro hv1
      cases ref with
      | ok v =>
        obtain ⟨t6, e6, r6, p6, rt6⟩ := hv1
        subst e6
        exact ⟨t6, rfl, r6, p6, rt6⟩
      | err m => simp only [Agrees] at hv1; subst hv1; rfl
      | panic m => simp only [Agrees] at hv1; subst hv1; rfl
      | diverge => simp only [Agrees] at hv1; subst hv1; rfl

theorem tree.parseLoop_agrees (E : Lib) :
    ∀ (n : Nat) (t : tree) (L : List item) (pos : Nat) (acc : List argumentNode),
      t.peekCount ≤ 1 → t.Reads L → t.root = some ⟨pos, acc⟩ →
      match refArgs E n L acc with
      | .ok nodes => ∃ t1, tree.parseLoop E n t = .ok t1 ∧ t1.root = some ⟨pos, nodes⟩
      | .err m => tree.parseLoop E n t = .err m
      | .panic m => tree.parseLoop E n t = .panic m
      | .diverge => tree.parseLoop E n t = .diverge := by
  intro n
  induction n with
  | zero =>
    intro t L pos acc _ _ _
    simp only [refArgs, tree.parseLoop]
  | succ n ih =>
    intro t L pos acc hpc hr hroot
    obtain ⟨tp, hp, rp, pp, rtp⟩ := tree.peek_reads (t := t) (by omega) hr
    unfold tree.parseLoop refArgs
    rw [hp]
    simp only []
    by_cases heof : ((L.headD zeroItem).typ == .itemEOF) = true
    · rw [if_pos heof, if_pos heof]
      exact ⟨tp, rfl, rtp.trans hroot⟩
    · rw [if_neg heof, if_neg heof]
      have ha := tree.argument_agrees E (t := tp) (by omega) rp
      cases hA : refArgument E L with
      | ok a =>
        rw [hA] at ha
        obtain ⟨t1, h1, r1, p1, rt1⟩ := ha
        rw [h1]
        have hr1 : t1.root = some ⟨pos, acc⟩ := by rw [rt1, rtp, hroot]
        simp only [tree.appendRoot, hr1]
        have r2 : ({ t1 with root := some ⟨pos, acc ++ [a.1]⟩ } : tree).Reads a.2 := r1
        obtain ⟨t3, h3, r3, p3, rt3, -⟩ := tree.next_reads
          (t := { t1 with root := some ⟨pos, acc ++ [a.1]⟩ }) (by simp only; omega) r2
        rw [h3]
        simp only []
        have p3le : t3.peekCount ≤ 1 := by
          rw [p3]
          simp only
          omega
        have hih := ih t3 a.2.tail pos (acc ++ [a.1]) p3le r3 rt3
        by_cases he2 : ((a.2.headD zeroItem).typ == .itemEOF) = true
        · rw [if_pos he2]
          simp only [beq_iff_eq] at he2
          simp only [he2]
          exact ⟨t3, rfl, rt3⟩
        · rw [if_neg he2]
          have hne : (a.2.headD zeroItem).typ ≠ .itemEOF := by simpa using he2
          revert hih
          generalize tree.parseLoop E n t3 = res
          intro hih
          generalize (a.2.headD zeroItem).typ = ty at hne ⊢
          cases ty <;> first | exact hih | exact absurd rfl hne
      | err m => rw [hA] at ha; simp only [Agrees] at ha; rw [ha]
      | panic m => rw [hA] at ha; simp only [Agrees] at ha; rw [ha]
      | diverge => rw [hA] at ha; simp only [Agrees] at ha; rw [ha]

/-- `Parse` is the reference parser on the items of the scanner: the same
arguments under a root at the offset of the first item, or the same failure. -/
theorem Parse_ref (E : Lib) (inp : String) (items : List item) (h : lex E inp = .ok items) :
    match refParse E items with
    | .ok nodes => ∃ t, Parse E inp = .ok t ∧
        t.root = some ⟨(items.headD zeroItem).pos, nodes⟩
    | .err m => Parse E inp = .err m
    | .panic m => Parse E inp = .panic m
    | .diverge => Parse E inp = .diverge := by
  have hr : (⟨none, items, zeroItem, zeroItem, zeroItem, 0⟩ : tree).Reads items :=
    tree.reads_newTree items none _ _ _
  obtain ⟨tp, hp, rp, pp, rtp⟩ := tree.peek_reads
    (t := ⟨none, items, zeroItem, zeroItem, zeroItem, 0⟩) (by simp) hr
  have := tree.parseLoop_agrees E (items.length + 2)
    { tp with root := some ⟨(items.headD zeroItem).pos, []⟩ } items
    (items.headD zeroItem).pos [] (by simp only; simp only at pp; omega) rp rfl
  simp only [Parse, tree.startParse, newTree, h, tree.parse, hp]
  exact this

/-! ## The values of a parsed tag -/

/-- A parse that succeeds is a success of the reference parser on the items
of the scanner. -/
theorem Parse_ok_ref (E : Lib) (inp : String) (t : tree) (h : Parse E inp = .ok t) :
    ∃ items nodes, lex E inp = .ok items ∧ refParse E items = .ok nodes ∧
      t.root = some ⟨(items.headD zeroItem).pos, nodes⟩ := by
  obtain ⟨items, hl, -⟩ := lex_scanned E inp
  have := Parse_ref E inp items hl
  cases hr : refParse E items with
  | ok nodes =>
    rw [hr] at this
    obtain ⟨t1, h1, h2⟩ := this
    rw [h] at h1
    cases h1
    exact ⟨items, nodes, hl, hr, h2⟩
  | err m => rw [hr] at this; simp only at this; rw [h] at this; cases this
  | panic m => rw [hr] at this; simp only at this; rw [h] at this; cases this
  | diverge => rw [hr] at this; simp only at this; rw [h] at this; cases this

theorem numberChecked_flag (E : Lib) (n n1 : numberNode) (h : numberChecked E n = .ok n1) :
    n1 = n ∧ (n.IsInt || n.IsUint || n.IsFloat) = true := by
  unfold numberChecked at h
  split_ifs at h with hc
  cases h
  refine ⟨rfl, ?_⟩
  revert hc
  cases n.IsInt <;> cases n.IsUint <;> cases n.IsFloat <;> simp

theorem newNumber_flag (E : Lib) (pos : Nat) (text : String) (n : numberNode)
    (h : newNumber E pos text = .ok n) : (n.IsInt || n.IsUint || n.IsFloat) = true := by
  unfold newNumber at h
  simp only [] at h
  split_ifs at h
  · obtain ⟨rfl, hf⟩ := numberChecked_flag E _ _ h
    exact hf
  · obtain ⟨rfl, hf⟩ := numberChecked_flag E _ _ h
    exact hf
  · split at h
    · cases h
    · obtain ⟨rfl, hf⟩ := numberChecked_flag E _ _ h
      exact hf
  · split at h
    · obtain ⟨rfl, hf⟩ := numberChecked_flag E _ _ h
      exact hf
    · obtain ⟨rfl, hf⟩ := numberChecked_flag E _ _ h
      exact hf

theorem leafOf_zero (E : Lib) (tok : item) (n : node) (h : leafOf E tok = .ok n) :
    ∃ m, applyNodeZero n = .panic m := by
  unfold leafOf at h
  split at h
  · cases h; exact ⟨_, rfl⟩
  · cases h; exact ⟨_, rfl⟩
  · cases h; exact ⟨_, rfl⟩
  · split_ifs at h
    split at h
    · cases h
    · cases h; exact ⟨_, rfl⟩
  · split at h
    · rename_i nv hn
      cases h
      have hf := newNumber_flag E _ _ _ hn
      simp only [applyNodeZero]
      revert hf
      cases nv.IsInt <;> cases nv.IsUint <;> cases nv.IsFloat <;> simp
    all_goals cases h
  · cases h

theorem refValue_zero (E : Lib) (L : List item) (v : node × List item)
    (h : refValue E L = .ok v) : ∃ m, applyNodeZero v.1 = .panic m := by
  unfold refValue at h
  split_ifs at h
  · cases hs : refSimple E L with
    | ok s =>
      rw [hs] at h
      simp only [] at h
      cases hr : refRest E s.2 with
      | ok r =>
        rw [hr] at h
        cases h
        exact ⟨_, rfl⟩
      | err m => rw [hr] at h; cases h
      | panic m => rw [hr] at h; cases h
      | diverge => rw [hr] at h; cases h
    | err m => rw [hs] at h; cases h
    | panic m => rw [hs] at h; cases h
    | diverge => rw [hs] at h; cases h
  · exact leafOf_zero E _ _ (refSimple_tail E h).2

theorem refArgument_zero (E : Lib) (L : List item) (a : argumentNode × List item)
    (h : refArgument E L = .ok a) : ∃ m, applyNodeZero a.1.value = .panic m := by
  unfold refArgument at h
  split_ifs at h
  · cases h
    exact ⟨_, rfl⟩
  · cases hv : refValue E L.tail.tail with
    | ok v =>
      rw [hv] at h
      cases h
      exact refValue_zero E _ _ hv
    | err m => rw [hv] at h; cases h
    | panic m => rw [hv] at h; cases h
    | diverge => rw [hv] at h; cases h
  · cases hv : refValue E L with
    | ok v =>
      rw [hv] at h
      cases h
      exact refValue_zero E _ _ hv
    | err m => rw [hv] at h; cases h
    | panic m => rw [hv] at h; cases h
    | diverge => rw [hv] at h; cases h

/-- What holds of every argument the reference reads holds of every argument
of its result. -/
theorem refArgs_all (E : Lib) (P : argumentNode → Prop)
    (hP : ∀ L a, refArgument E L = .ok a → P a.1) :
    ∀ (n : Nat) (L : List item) (acc nodes : List argumentNode),
      refArgs E n L acc = .ok nodes → (∀ a ∈ acc, P a) → ∀ a ∈ nodes, P a := by
  intro n
  induction n with
  | zero =>
    intro L acc nodes h
    cases h
  | succ n ih =>
    intro L acc nodes h hacc
    unfold refArgs at h
    split_ifs at h
    · cases h
      exact hacc
    · cases ha : refArgument E L with
      | ok a =>
        rw [ha] at h
        simp only [] at h
        have hacc1 : ∀ x ∈ acc ++ [a.1], P x := by
          intro x hx
          rcases List.mem_append.1 hx with hx | hx
          · exact hacc x hx
          · simp only [List.mem_singleton] at hx
            rw [hx]
            exact hP L a ha
        split_ifs at h
        · cases h
          exact hacc1
        · exact ih _ _ _ h hacc1
      | err m => rw [ha] at h; cases h
      | panic m => rw [ha] at h; cases h
      | diverge => rw [ha] at h; cases h

/-- Binding any value of a parsed tag to the zero `reflect.Value` panics. -/
theorem Parse_values_zero (E : Lib) (inp : String) (t : tree) (root : listNode)
    (h : Parse E inp = .ok t) (hr : t.root = some root) :
    ∀ a ∈ root.nodes, ∃ m, applyNodeZero a.value = .panic m := by
  obtain ⟨items, nodes, -, h2, h3⟩ := Parse_ok_ref E inp t h
  rw [hr] at h3
  cases h3
  exact refArgs_all E (fun a => ∃ m, applyNodeZero a.value = .panic m)
    (fun L a ha => refArgument_zero E L a ha) _ _ _ _ h2 (fun a ha => by cases ha)

theorem lastNamed_mem (nodes : List argumentNode) (k : String) (v : node)
    (h : lastNamed nodes k = some v) : ∃ a ∈ nodes, a.value = v := by
  unfold lastNamed at h
  cases hf : nodes.reverse.find? (fun a => a.ident.map identifierNode.String == some k) with
  | none => rw [hf] at h; cases h
  | some a =>
    rw [hf] at h
    simp only [Option.map_some', Option.some.injEq] at h
    exact ⟨a, by simpa using List.mem_of_find?_eq_some hf, h⟩

/-- The values of the view of a tag are values of arguments of its root. -/
theorem parseValue_keyword_mem (E : Lib) (inp : String) (p : parsed)
    (h : parseValue E inp = .ok p) (k : String) (v : node)
    (hk : mapLookup p.keyword k = some v) :
    ∃ m, applyNodeZero v = .panic m := by
  unfold parseValue at h
  cases hP : Parse E inp with
  | ok t =>
    rw [hP] at h
    simp only [] at h
    cases hr : t.root with
    | none => rw [hr] at h; cases h
    | some root =>
      rw [hr] at h
      simp only [] at h
      obtain ⟨-, h2, -, -⟩ := parseValueLoop_ok root.nodes ⟨[], []⟩ p h
      have := h2 k
      rw [hk] at this
      simp only [mapLookup, Option.or_none] at this
      obtain ⟨a, ha, rfl⟩ := lastNamed_mem root.nodes k v this.symm
      exact Parse_values_zero E inp t root hP hr a ha
  | err m => rw [hP] at h; cases h
  | panic m => rw [hP] at h; cases h
  | diverge => rw [hP] at h; cases h

/-- The keys of the view of a tag are pairwise different. -/
theorem parseValue_nodup (E : Lib) (inp : String) (p : parsed)
    (h : parseValue E inp = .ok p) : (p.keyword.map Prod.fst).Nodup := by
  unfold parseValue at h
  cases hP : Parse E inp with
  | ok t =>
    rw [hP] at h
    simp only [] at h
    cases hr : t.root with
    | none => rw [hr] at h; cases h
    | some root =>
      rw [hr] at h
      simp only [] at h
      exact (parseValueLoop_ok root.nodes ⟨[], []⟩ p h).2.2.2 List.nodup_nil
  | err m => rw [hP] at h; cases h
  | panic m => rw [hP] at h; cases h
  | diverge => rw [hP] at h; cases h

/-- The entries that the second loop of `Tag.Fill` visits: every key of the
view once, with its value, none of them a Number without a flag. -/
theorem parseValue_range (E : Lib) (inp : String) (p : parsed)
    (h : parseValue E inp = .ok p) :
    ((mapRange E p.keyword).map Prod.fst).Nodup ∧
    (∀ k v, (k, v) ∈ mapRange E p.keyword ↔ mapLookup p.keyword k = some v) ∧
    (∀ kv ∈ mapRange E p.keyword, kv.1 ∈ p.keyword.map Prod.fst) ∧
    (∀ kv ∈ mapRange E p.keyword, ∃ m, applyNodeZero kv.2 = .panic m) :=
  ⟨(mapRange_keys E p.keyword).2 (parseValue_nodup E inp p h),
    fun k v => mem_mapRange E p.keyword k v,
    fun kv hkv => (mem_keys_iff p.keyword kv.1).2
      ⟨kv.2, (mem_mapRange E p.keyword kv.1 kv.2).1 hkv⟩,
    fun kv hkv => parseValue_keyword_mem E inp p h kv.1 kv.2
      ((mem_mapRange E p.keyword kv.1 kv.2).1 hkv)⟩

/-- `Tag.Fill` on a pointer to a struct, for a tag other than "-" that
parses: the two loops one after the other. -/
theorem Fill_loops (E : Lib) (tag : Tag) (ty : String) (fs : List Field) (p : parsed)
    (hd : tag.Value ≠ "-") (hp : parseValue E tag.Value = .ok p) :
    ((fillIndexed E p.indexed 0 fs).2 = .ok () →
      Tag.Fill E tag (.structPointer ty fs) =
        (.structPointer ty
            (fillKeyword E ty (mapRange E p.keyword) (fillIndexed E p.indexed 0 fs).1).1,
          (fillKeyword E ty (mapRange E p.keyword) (fillIndexed E p.indexed 0 fs).1).2)) ∧
    ((fillIndexed E p.indexed 0 fs).2 ≠ .ok () →
      Tag.Fill E tag (.structPointer ty fs) =
        (.structPointer ty (fillIndexed E p.indexed 0 fs).1,
          (fillIndexed E p.indexed 0 fs).2)) := by
  have hd1 : (tag.Value == "-") = false := by simpa using hd
  cases hr : (fillIndexed E p.indexed 0 fs).2 <;>
    simp [Tag.Fill, hd1, hp, hr]

/-! # The scanner reads a token the same wherever it stands -/

theorem lexer.At.cur_lt {l : lexer} {v : List Char} {pre suf : List Char} {s p : Nat} (h : l.At pre v suf s p)
    (hp : p < v.length) : l.input[l.pos]? = v[p]? := by
  rw [h.input, h.pos, List.getElem?_append_right (by omega)]
  simp only [Nat.add_sub_cancel_left]
  rw [List.getElem?_append_left hp]

theorem lexer.At.cur_end {l : lexer} {v : List Char} {pre suf : List Char} {s p : Nat} (h : l.At pre v suf s p)
    (hp : p = v.length) :
    l.input[l.pos]? = none ∨ ∃ c, l.input[l.pos]? = some c ∧ isSep c = true := by
  have hs := h.sep
  have : l.input[l.pos]? = suf.head? := by
    rw [h.input, h.pos, List.getElem?_append_right (by omega)]
    simp only [Nat.add_sub_cancel_left]
    rw [hp, List.getElem?_append_right (le_refl _)]
    simp only [Nat.sub_self]
    cases suf <;> simp
  rw [this]
  cases hh : suf.head? with
  | none => exact Or.inl rfl
  | some c => exact Or.inr ⟨c, rfl, hs c hh⟩

/-- A blind test gives on the rune under the cursor what it gives on the text. -/
theorem lexer.At.blind {l : lexer} {v : List Char} {pre suf : List Char} {s p : Nat} (h : l.At pre v suf s p)
    {f : Option Char → Bool} (hf : Blind f) : f (l.input[l.pos]?) = f (v[p]?) := by
  by_cases hp : p < v.length
  · rw [h.cur_lt hp]
  · have hpe : p = v.length := by have := h.ple; omega
    have hv : v[p]? = none := List.getElem?_eq_none_iff.mpr (by omega)
    rw [hv]
    rcases h.cur_end hpe with h1 | ⟨c, h1, h2⟩
    · rw [h1]
    · rw [h1]
      exact hf c h2

theorem lexer.At.next_lt {l : lexer} {v : List Char} {pre suf : List Char} {s p : Nat} (h : l.At pre v suf s p)
    (hp : p < v.length) :
    l.next.1 = v[p]? ∧ l.next.2.At pre v suf s (p + 1) ∧ l.next.2.items = l.items := by
  have hc := h.cur_lt hp
  obtain ⟨c, hv⟩ : ∃ c, v[p]? = some c := ⟨v[p], List.getElem?_eq_getElem hp⟩
  rw [hv] at hc
  rw [lexer.next_some hc, hv]
  refine ⟨rfl, ⟨h.input, h.sep, ?_, h.start, ?_, ?_, ?_⟩, rfl⟩
  · simp only [h.pos]; omega
  · have := h.sle; omega
  · omega
  · have := (lexer.adv_next h.inv).inv
    rwa [lexer.next_some hc] at this

theorem lexer.At.peek {l : lexer} {v : List Char} {pre suf : List Char} {s p : Nat} (h : l.At pre v suf s p) :
    l.peek.1 = l.input[l.pos]? ∧ l.peek.2.At pre v suf s p ∧ l.peek.2.items = l.items := by
  have ha := lexer.adv_peek h.inv
  refine ⟨lexer.peek_fst l, ⟨?_, h.sep, ?_, ?_, h.sle, h.ple, ha.inv⟩, ha.items⟩
  · rw [ha.input]
    exact h.input
  · rw [lexer.peek_pos h.inv]
    exact h.pos
  · rw [ha.start]
    exact h.start

theorem blind_containsRune (valid : String) (h : ∀ c ∈ valid.data, isSep c = false) :
    Blind (containsRune valid) := by
  intro c hc
  show valid.data.contains c = false
  rw [Bool.eq_false_iff]
  intro hm
  have := h c (by simpa using hm)
  rw [hc] at this
  cases this

theorem containsRune_none (valid : String) : containsRune valid none = false := rfl

/-- `accept` on the text: the rune under the cursor is taken when it is in
the set. -/
theorem lexer.At.accept {l : lexer} {v : List Char} {pre suf : List Char} {s p : Nat} (h : l.At pre v suf s p)
    {valid : String} (hb : Blind (containsRune valid)) :
    (l.accept valid).1 = containsRune valid v[p]? ∧
    (l.accept valid).2.At pre v suf s (if containsRune valid v[p]? then p + 1 else p) ∧
    (l.accept valid).2.items = l.items := by
  have hcr : containsRune valid l.next.1 = containsRune valid v[p]? := by
    rw [lexer.next_fst]
    exact h.blind hb
  simp only [lexer.accept, hcr]
  by_cases hc : containsRune valid v[p]? = true
  · have hp : p < v.length := by
      by_contra hn
      rw [List.getElem?_eq_none_iff.mpr (by omega)] at hc
      cases hc
    obtain ⟨-, h2, h3⟩ := h.next_lt hp
    simp only [hc, ↓reduceIte]
    exact ⟨trivial, h2, h3⟩
  · have hc1 : containsRune valid v[p]? = false := by simpa using hc
    obtain ⟨-, h2, h3⟩ := h.peek
    simp only [hc1, Bool.false_eq_true, ↓reduceIte]
    exact ⟨trivial, h2, h3⟩

/-- `acceptRun` on the text: the cursor moves to a place in the text that
the text alone determines. -/
theorem acceptRun_local (valid : String) (hb : Blind (containsRune valid)) (v : List Char) :
    ∀ (k p : Nat), v.length - p ≤ k → p ≤ v.length → ∃ p1, p ≤ p1 ∧ p1 ≤ v.length ∧
      ((∀ i, p ≤ i → i < v.length → containsRune valid v[i]? = true) → p1 = v.length) ∧
      ∀ (l : lexer) (pre suf : List Char) (s n : Nat), l.At pre v suf s p →
        l.input.length - l.pos < n →
        ∃ l1, lexer.acceptRunLoop valid n l = .ok l1 ∧ l1.At pre v suf s p1 ∧
          l1.items = l.items := by
  intro k
  induction k with
  | zero =>
    intro p hk hp
    have hpe : p = v.length := by omega
    refine ⟨p, le_refl _, hp, fun _ => hpe, fun l pre suf s n h hn => ?_⟩
    obtain ⟨m, rfl⟩ : ∃ m, n = m + 1 := ⟨n - 1, by omega⟩
    have hcr : containsRune valid l.next.1 = false := by
      rw [lexer.next_fst, h.blind hb, List.getElem?_eq_none_iff.mpr (by omega)]
      rfl
    obtain ⟨-, h2, h3⟩ := h.peek
    simp only [lexer.acceptRunLoop, hcr, Bool.false_eq_true, ↓reduceIte]
    exact ⟨_, rfl, h2, h3⟩
  | succ k ih =>
    intro p hk hp
    by_cases hc : containsRune valid v[p]? = true
    · have hlt : p < v.length := by
        by_contra hn
        rw [List.getElem?_eq_none_iff.mpr (by omega)] at hc
        cases hc
      obtain ⟨p1, h1, h2, hall, h3⟩ := ih (p + 1) (by omega) (by omega)
      refine ⟨p1, by omega, h2, fun ha => hall (fun i hi1 hi2 => ha i (by omega) hi2),
        fun l pre suf s n h hn => ?_⟩
      obtain ⟨m, rfl⟩ : ∃ m, n = m + 1 := ⟨n - 1, by omega⟩
      obtain ⟨e1, e2, e3⟩ := h.next_lt hlt
      have hcr : containsRune valid l.next.1 = true := by rw [e1]; exact hc
      simp only [lexer.acceptRunLoop, hcr, ↓reduceIte]
      have hadv := lexer.adv_next h.inv
      have hpos : l.next.2.pos = l.pos + 1 := by rw [e2.pos, h.pos]; omega
      have hlen : l.pos < l.input.length := by
        have hcur := h.cur_lt hlt
        rw [List.getElem?_eq_getElem hlt] at hcur
        exact lexer.lt_of_get hcur
      obtain ⟨l1, g1, g2, g3⟩ := h3 l.next.2 pre suf s m e2 (by rw [hadv.input, hpos]; omega)
      exact ⟨l1, g1, g2, g3.trans e3⟩
    · have hc1 : containsRune valid v[p]? = false := by simpa using hc
      refine ⟨p, le_refl _, hp, fun ha => ?_, fun l pre suf s n h hn => ?_⟩
      · by_cases hlt : p < v.length
        · exact absurd (ha p (le_refl _) hlt) hc
        · omega
      obtain ⟨m, rfl⟩ : ∃ m, n = m + 1 := ⟨n - 1, by omega⟩
      have hcr : containsRune valid l.next.1 = false := by
        rw [lexer.next_fst, h.blind hb]
        exact hc1
      obtain ⟨-, h2, h3⟩ := h.peek
      simp only [lexer.acceptRunLoop, hcr, Bool.false_eq_true, ↓reduceIte]
      exact ⟨_, rfl, h2, h3⟩

theorem lexer.At.acceptIf {l : lexer} {v : List Char} {pre suf : List Char} {s p : Nat} (h : l.At pre v suf s p)
    {valid : String} (hb : Blind (containsRune valid)) (b : Bool) :
    (if b = true then l.accept valid else (false, l)).1 = (b && containsRune valid v[p]?) ∧
    (if b = true then l.accept valid else (false, l)).2.At pre v suf s
      (if (b && containsRune valid v[p]?) = true then p + 1 else p) ∧
    (if b = true then l.accept valid else (false, l)).2.items = l.items := by
  cases b with
  | false => exact ⟨rfl, h, rfl⟩
  | true =>
    simp only [↓reduceIte, Bool.true_and]
    exact h.accept hb

theorem blind_sets :
    Blind (containsRune "+-") ∧ Blind (containsRune "0") ∧ Blind (containsRune "xX") ∧
    Blind (containsRune "oO") ∧ Blind (containsRune "bB") ∧ Blind (containsRune ".") ∧
    Blind (containsRune "eE") ∧ Blind (containsRune "pP") ∧
    Blind (containsRune "0123456789_") ∧ Blind (containsRune "0123456789abcdefABCDEF_") ∧
    Blind (containsRune "01234567_") ∧ Blind (containsRune "01_") := by
  refine ⟨?_, ?_, ?_, ?_, ?_, ?_, ?_, ?_, ?_, ?_, ?_, ?_⟩ <;>
    exact blind_containsRune _ (by decide)

theorem accept_step_le (valid : String) (v : List Char) (q : Nat) (b : Bool)
    (hq : q ≤ v.length) :
    q ≤ (if (b && containsRune valid v[q]?) = true then q + 1 else q) ∧
      (if (b && containsRune valid v[q]?) = true then q + 1 else q) ≤ v.length := by
  split_ifs with h
  · refine ⟨by omega, ?_⟩
    by_contra hn
    rw [List.getElem?_eq_none_iff.mpr (by omega)] at h
    simp [containsRune] at h
  · exact ⟨le_refl _, hq⟩

/-- `scanBase` on the text: the digits chosen and the place reached are
determined by the text alone. -/
theorem scanBase_local (v : List Char) (p : Nat) (hp : p ≤ v.length) :
    ∃ (digits : String) (p1 : Nat), p ≤ p1 ∧ p1 ≤ v.length ∧ Blind (containsRune digits) ∧
      (digits.length == 10 + 1) = (digits == "0123456789_") ∧
      (digits.length == 16 + 6 + 1) = (digits == "0123456789abcdefABCDEF_") ∧
      (containsRune "0" v[p]? = false → digits = "0123456789_" ∧ p1 = p) ∧
      ∀ (l : lexer) (pre suf : List Char) (s : Nat), l.At pre v suf s p →
        l.scanBase.1 = digits ∧ l.scanBase.2.At pre v suf s p1 ∧ l.scanBase.2.items = l.items := by
  obtain ⟨-, b0, bx, bo, bb, -, -, -, d10, d16, d8, d2⟩ := blind_sets
  obtain ⟨q1, hq1⟩ : ∃ q1, q1 = (if (true && containsRune "0" v[p]?) = true then p + 1 else p) :=
    ⟨_, rfl⟩
  have e1 := accept_step_le "0" v p true hp
  rw [← hq1] at e1
  obtain ⟨zb, hzb⟩ : ∃ zb, zb = containsRune "0" v[p]? := ⟨_, rfl⟩
  obtain ⟨xb, hxb⟩ : ∃ xb, xb = (zb && containsRune "xX" v[q1]?) := ⟨_, rfl⟩
  obtain ⟨q2, hq2⟩ : ∃ q2, q2 = (if (zb && containsRune "xX" v[q1]?) = true then q1 + 1
    else q1) := ⟨_, rfl⟩
  have e2 := accept_step_le "xX" v q1 zb e1.2
  rw [← hq2] at e2
  obtain ⟨ob, hob⟩ : ∃ ob, ob = ((zb && !xb) && containsRune "oO" v[q2]?) := ⟨_, rfl⟩
  obtain ⟨q3, hq3⟩ : ∃ q3, q3 = (if ((zb && !xb) && containsRune "oO" v[q2]?) = true
    then q2 + 1 else q2) := ⟨_, rfl⟩
  have e3 := accept_step_le "oO" v q2 (zb && !xb) e2.2
  rw [← hq3] at e3
  obtain ⟨cb, hcb⟩ : ∃ cb, cb = ((zb && !xb && !ob) && containsRune "bB" v[q3]?) := ⟨_, rfl⟩
  obtain ⟨q4, hq4⟩ : ∃ q4, q4 = (if ((zb && !xb && !ob) && containsRune "bB" v[q3]?) = true
    then q3 + 1 else q3) := ⟨_, rfl⟩
  have e4 := accept_step_le "bB" v q3 (zb && !xb && !ob) e3.2
  rw [← hq4] at e4
  refine ⟨if xb = true then "0123456789abcdefABCDEF_" else if ob = true then "01234567_"
    else if cb = true then "01_" else "0123456789_", q4, by omega, e4.2, ?_, ?_, ?_, ?_,
    fun l pre suf s h => ?_⟩
  · split_ifs <;> assumption
  · split_ifs <;> decide
  · split_ifs <;> decide
  · intro hz
    rw [hz] at hzb
    subst hzb
    simp only [Bool.false_and] at hxb
    subst hxb
    simp only [Bool.false_and] at hob
    subst hob
    simp only [Bool.false_and] at hcb
    subst hcb
    simp only [hz, Bool.and_false, Bool.false_and, Bool.false_eq_true, ↓reduceIte, Bool.not_false,
      Bool.and_self] at hq1 hq2 hq3 hq4
    refine ⟨by simp, ?_⟩
    omega
  · obtain ⟨z1, z2, z3⟩ := h.accept b0
    simp only [Bool.true_and] at hq1
    rw [← hzb] at z1
    rw [← hq1] at z2
    simp only [lexer.scanBase]
    generalize l.accept "0" = z at z1 z2 z3 ⊢
    obtain ⟨zb1, zl⟩ := z
    simp only at z1 z2 z3 ⊢
    subst z1
    obtain ⟨x1, x2, x3⟩ := z2.acceptIf bx zb1
    rw [← hxb] at x1
    rw [← hq2] at x2
    generalize (if zb1 = true then zl.accept "xX" else (false, zl)) = x at x1 x2 x3 ⊢
    obtain ⟨xb1, xl⟩ := x
    simp only at x1 x2 x3 ⊢
    subst x1
    obtain ⟨o1, o2, o3⟩ := x2.acceptIf bo (zb1 && !xb1)
    rw [← hob] at o1
    rw [← hq3] at o2
    generalize (if (zb1 && !xb1) = true then xl.accept "oO" else (false, xl)) = o at o1 o2 o3 ⊢
    obtain ⟨ob1, ol⟩ := o
    simp only at o1 o2 o3 ⊢
    subst o1
    obtain ⟨c1, c2, c3⟩ := o2.acceptIf bb (zb1 && !xb1 && !ob1)
    rw [← hcb] at c1
    rw [← hq4] at c2
    generalize (if (zb1 && !xb1 && !ob1) = true then ol.accept "bB" else (false, ol)) = c
      at c1 c2 c3 ⊢
    obtain ⟨cb1, cl⟩ := c
    simp only at c1 c2 c3 ⊢
    subst c1
    exact ⟨rfl, c2, by rw [c3, o3, x3, z3]⟩

/-- `scanFraction` on the text. -/
theorem scanFraction_local (digits : String) (hb : Blind (containsRune digits)) (v : List Char)
    (p : Nat) (hp : p ≤ v.length) :
    ∃ p1, p ≤ p1 ∧ p1 ≤ v.length ∧
      ∀ (l : lexer) (pre suf : List Char) (s : Nat), l.At pre v suf s p →
        ∃ l1, l.scanFraction digits = .ok l1 ∧ l1.At pre v suf s p1 ∧ l1.items = l.items := by
  obtain ⟨-, -, -, -, -, bdot, -⟩ := blind_sets
  by_cases hc : containsRune "." v[p]? = true
  · have hlt : p < v.length := by
      by_contra hn
      rw [List.getElem?_eq_none_iff.mpr (by omega)] at hc
      cases hc
    obtain ⟨p1, h1, h2, -, h3⟩ := acceptRun_local digits hb v (v.length - (p + 1)) (p + 1)
      (le_refl _) (by omega)
    refine ⟨p1, by omega, h2, fun l pre suf s h => ?_⟩
    obtain ⟨a1, a2, a3⟩ := h.accept bdot
    rw [hc] at a1
    simp only [hc, ↓reduceIte] at a2
    obtain ⟨l1, g1, g2, g3⟩ := h3 (l.accept ".").2 pre suf s ((l.accept ".").2.input.length + 1)
      a2 (by omega)
    refine ⟨l1, ?_, g2, g3.trans a3⟩
    simp only [lexer.scanFraction, a1, ↓reduceIte, lexer.acceptRun]
    exact g1
  · have hc1 : containsRune "." v[p]? = false := by simpa using hc
    refine ⟨p, le_refl _, hp, fun l pre suf s h => ?_⟩
    obtain ⟨a1, a2, a3⟩ := h.accept bdot
    rw [hc1] at a1
    simp only [hc1, Bool.false_eq_true, ↓reduceIte] at a2
    refine ⟨(l.accept ".").2, ?_, a2, a3⟩
    simp only [lexer.scanFraction, a1, Bool.false_eq_true, ↓reduceIte]

/-- `scanExponent` on the text. -/
theorem scanExponent_local (cond : Bool) (marks : String) (hb : Blind (containsRune marks))
    (v : List Char) (p : Nat) (hp : p ≤ v.length) :
    ∃ p1, p ≤ p1 ∧ p1 ≤ v.length ∧
      ∀ (l : lexer) (pre suf : List Char) (s : Nat), l.At pre v suf s p →
        ∃ l1, l.scanExponent cond marks = .ok l1 ∧ l1.At pre v suf s p1 ∧ l1.items = l.items := by
  obtain ⟨bsign, -, -, -, -, -, -, -, d10, -⟩ := blind_sets
  by_cases hc : (cond && containsRune marks v[p]?) = true
  · have hq := accept_step_le marks v p cond hp
    simp only [hc, ↓reduceIte] at hq
    have hq2 := accept_step_le "+-" v (p + 1) true hq.2
    obtain ⟨p1, h1, h2, -, h3⟩ := acceptRun_local "0123456789_" d10 v
      (v.length - (if (true && containsRune "+-" v[p + 1]?) = true then p + 1 + 1 else p + 1))
      (if (true && containsRune "+-" v[p + 1]?) = true then p + 1 + 1 else p + 1)
      (le_refl _) hq2.2
    refine ⟨p1, by omega, h2, fun l pre suf s h => ?_⟩
    obtain ⟨a1, a2, a3⟩ := h.acceptIf hb cond
    rw [hc] at a1
    simp only [hc, ↓reduceIte] at a2
    simp only [lexer.scanExponent]
    generalize (if cond = true then l.accept marks else (false, l)) = e at a1 a2 a3 ⊢
    obtain ⟨c1, c2, c3⟩ := a2.accept bsign
    simp only [Bool.true_and] at h3
    obtain ⟨l1, g1, g2, g3⟩ := h3 (e.2.accept "+-").2 pre suf s ((e.2.accept "+-").2.input.length + 1)
      c2 (by omega)
    refine ⟨l1, ?_, g2, by rw [g3, c3, a3]⟩
    simp only [a1, ↓reduceIte, lexer.acceptRun]
    exact g1
  · have hc1 : (cond && containsRune marks v[p]?) = false := by simpa using hc
    refine ⟨p, le_refl _, hp, fun l pre suf s h => ?_⟩
    obtain ⟨a1, a2, a3⟩ := h.acceptIf hb cond
    rw [hc1] at a1
    simp only [hc1, Bool.false_eq_true, ↓reduceIte] at a2
    refine ⟨_, ?_, a2, a3⟩
    simp only [lexer.scanExponent, a1, Bool.false_eq_true, ↓reduceIte]

/-- `scanNumber` on the text: the scan always reports success, and the place
it reaches is determined by the text alone. -/
theorem scanNumber_local (v : List Char) (p : Nat) (hp : p ≤ v.length) :
    ∃ p1, p ≤ p1 ∧ p1 ≤ v.length ∧
      (∀ p0, p0 = (if containsRune "+-" v[p]? = true then p + 1 else p) →
        containsRune "0" v[p0]? = false →
        (∀ i, p0 ≤ i → i < v.length → containsRune "0123456789_" v[i]? = true) →
        p1 = v.length) ∧
      ∀ (l : lexer) (pre suf : List Char) (s : Nat), l.At pre v suf s p →
        ∃ l1, l.scanNumber = .ok (true, l1) ∧ l1.At pre v suf s p1 ∧ l1.items = l.items := by
  obtain ⟨bsign, -, -, -, -, -, be, bp, -⟩ := blind_sets
  have hq := accept_step_le "+-" v p true hp
  simp only [Bool.true_and] at hq
  obtain ⟨digits, p1, b1, b2, bd, -, -, hdec, hbase⟩ := scanBase_local v _ hq.2
  obtain ⟨p2, c1, c2, hfull, hrun⟩ := acceptRun_local digits bd v (v.length - p1) p1
    (le_refl _) b2
  obtain ⟨p3, d1, d2, hfrac⟩ := scanFraction_local digits bd v p2 c2
  generalize hk1 : (digits.length == 10 + 1) = k1
  generalize hk2 : (digits.length == 16 + 6 + 1) = k2
  obtain ⟨p4, e1, e2, hexp⟩ := scanExponent_local k1 "eE" be v p3 d2
  obtain ⟨p5, f1, f2, hexq⟩ := scanExponent_local k2 "pP" bp v p4 e2
  refine ⟨p5, by omega, f2, ?_, fun l pre suf s h => ?_⟩
  · intro p0 hp0 hz hd
    subst hp0
    obtain ⟨rfl, rfl⟩ := hdec hz
    have := hfull hd
    omega
  obtain ⟨-, s2, s3⟩ := h.accept bsign
  obtain ⟨t1, t2, t3⟩ := hbase _ pre suf s s2
  unfold lexer.scanNumber
  simp only []
  generalize (l.accept "+-").2.scanBase = pre at t1 t2 t3 ⊢
  obtain ⟨pd, pl⟩ := pre
  simp only at t1 t2 t3 ⊢
  subst t1
  obtain ⟨l1, u1, u2, u3⟩ := hrun _ pre suf s (pl.input.length + 1) t2 (by omega)
  obtain ⟨l2, w1, w2, w3⟩ := hfrac l1 pre suf s u2
  obtain ⟨l3, x1, x2, x3⟩ := hexp l2 pre suf s w2
  obtain ⟨l4, y1, y2, y3⟩ := hexq l3 pre suf s x2
  refine ⟨l4, ?_, y2, by rw [y3, x3, w3, u3, t3, s3]⟩
  rw [lexer.acceptRun, u1]
  simp only []
  rw [w1]
  simp only []
  rw [hk1, x1]
  simp only []
  rw [hk2, y1]

/-- The text of the token under way. -/
theorem lexer.At.text {l : lexer} {pre v suf : List Char} {s p : Nat} (h : l.At pre v suf s p) :
    slice l.input l.start l.pos = String.mk ((v.drop s).take (p - s)) := by
  have h1 := h.sle
  have h2 := h.ple
  simp only [slice, h.input, h.start, h.pos]
  congr 1
  rw [List.drop_append_eq_append_drop, List.drop_of_length_le (by omega)]
  simp only [List.nil_append, Nat.add_sub_cancel_left]
  rw [List.drop_append_of_le_length (by omega), List.take_append_of_le_length]
  · congr 1
    omega
  · simp only [List.length_drop]
    omega

theorem blind_terminates : Blind terminates := by
  intro c hc
  simp only [isSep, Bool.or_eq_true, beq_iff_eq] at hc
  rcases hc with (rfl | rfl) | rfl <;> rfl

/-- `atTerminator` on the text. -/
theorem lexer.At.atTerminator {l : lexer} {pre v suf : List Char} {s p : Nat}
    (h : l.At pre v suf s p) :
    l.atTerminator.1 = terminates v[p]? ∧ l.atTerminator.2.At pre v suf s p ∧
      l.atTerminator.2.items = l.items := by
  obtain ⟨h1, h2, h3⟩ := h.peek
  have hb := h.blind blind_terminates
  rw [← h1] at hb
  simp only [lexer.atTerminator]
  rw [← hb]
  simp only [terminates]
  cases hs : isSpace l.peek.1
  · simp only [Bool.false_eq_true, ↓reduceIte, Bool.false_or]
    split_ifs with h4
    · exact ⟨h4.symm, h2, h3⟩
    · refine ⟨?_, h2, h3⟩
      simp only [Bool.not_eq_true] at h4
      exact h4.symm
  · simp only [↓reduceIte, Bool.true_or]
    exact ⟨trivial, h2, h3⟩

/-- `emit` on the text: the token under way is sent and a new one starts. -/
theorem lexer.At.emit {l : lexer} {pre v suf : List Char} {s p : Nat} (h : l.At pre v suf s p)
    (ty : itemType) :
    (l.emit ty).At pre v suf p p ∧
      (l.emit ty).items = l.items ++
        [⟨ty, byteOffset (pre ++ (v ++ suf)) (pre.length + s),
          String.mk ((v.drop s).take (p - s))⟩] := by
  refine ⟨⟨h.input, h.sep, h.pos, h.pos, le_refl _, h.ple, h.inv⟩, ?_⟩
  simp only [lexer.emit]
  rw [h.text, h.input, h.start]

/-- `lexNumber` on the text: whether a number token is sent, and where it
ends, is determined by the text alone. -/
theorem lexNumber_local (E : Lib) (v : List Char) :
    ∃ (p1 : Nat) (good : Bool), p1 ≤ v.length ∧
      (∀ p0, p0 = (if containsRune "+-" v[0]? = true then 0 + 1 else 0) →
        containsRune "0" v[p0]? = false →
        (∀ i, p0 ≤ i → i < v.length → containsRune "0123456789_" v[i]? = true) →
        p1 = v.length ∧ good = true) ∧
      ∀ (l : lexer) (pre suf : List Char), l.At pre v suf 0 0 →
        ∃ r, lexNumber E l = .ok r ∧ (good = false → r.1 = none) ∧
          (good = true → r.1 = some .lexInArgument ∧ r.2.At pre v suf p1 p1 ∧
            r.2.items = l.items ++
              [⟨.itemNumber, byteOffset (pre ++ (v ++ suf)) pre.length,
                String.mk (v.take p1)⟩]) := by
  obtain ⟨p1, -, hp1, hdec, hscan⟩ := scanNumber_local v 0 (Nat.zero_le _)
  refine ⟨p1, terminates v[p1]?, hp1, ?_, fun l pre suf h => ?_⟩
  · intro p0 hp0 hz hd
    have := hdec p0 hp0 hz hd
    subst this
    refine ⟨rfl, ?_⟩
    rw [List.getElem?_eq_none_iff.mpr (le_refl _)]
    rfl
  obtain ⟨l1, h1, h2, h3⟩ := hscan l pre suf 0 h
  obtain ⟨t1, t2, t3⟩ := h2.atTerminator
  unfold lexNumber
  rw [h1]
  simp only [Bool.not_true, Bool.false_eq_true, ↓reduceIte]
  generalize l1.atTerminator = tm at t1 t2 t3 ⊢
  rw [← t1]
  cases htm : tm.1 with
  | false =>
    simp only [Bool.not_false, ↓reduceIte]
    exact ⟨_, rfl, fun _ => rfl, fun hc => by cases hc⟩
  | true =>
    simp only [Bool.not_true, Bool.false_eq_true, ↓reduceIte]
    refine ⟨_, rfl, ?_, fun _ => ⟨rfl, ?_⟩⟩
    · intro hc
      cases hc
    obtain ⟨e1, e2⟩ := t2.emit .itemNumber
    refine ⟨e1, ?_⟩
    rw [e2, t3, h3]
    simp

theorem blind_isIdentRune (E : Lib) : Blind (isIdentRune E) := by
  intro c hc
  simp only [isSep, Bool.or_eq_true, beq_iff_eq] at hc
  rcases hc with (rfl | rfl) | rfl <;> rfl

/-- The loop of `lexIdentifier` on the text. -/
theorem lexIdentifierLoop_local (E : Lib) (v : List Char) :
    ∀ (k p : Nat), v.length - p ≤ k → p ≤ v.length → ∃ (p1 : Nat) (good : Bool),
      p ≤ p1 ∧ p1 ≤ v.length ∧
      ((∀ i, p ≤ i → i < v.length → isIdentRune E v[i]? = true) →
        p1 = v.length ∧ good = true) ∧
      ∀ (l : lexer) (pre suf : List Char) (n : Nat), l.At pre v suf 0 p →
        l.input.length - l.pos < n →
        ∃ r, lexIdentifierLoop E n l = .ok r ∧ (good = false → r.1 = none) ∧
          (good = true → r.1 = some .lexInArgument ∧ r.2.At pre v suf p1 p1 ∧
            r.2.items = l.items ++
              [⟨wordType (String.mk (v.take p1)), byteOffset (pre ++ (v ++ suf)) pre.length,
                String.mk (v.take p1)⟩]) := by
  have stop : ∀ p, p ≤ v.length → isIdentRune E v[p]? = false →
      ∀ (l : lexer) (pre suf : List Char) (n : Nat), l.At pre v suf 0 p →
        l.input.length - l.pos < n →
        ∃ r, lexIdentifierLoop E n l = .ok r ∧ (terminates v[p]? = false → r.1 = none) ∧
          (terminates v[p]? = true → r.1 = some .lexInArgument ∧ r.2.At pre v suf p p ∧
            r.2.items = l.items ++
              [⟨wordType (String.mk (v.take p)), byteOffset (pre ++ (v ++ suf)) pre.length,
                String.mk (v.take p)⟩]) := by
    intro p hp hc l pre suf n h hn
    obtain ⟨m, rfl⟩ : ∃ m, n = m + 1 := ⟨n - 1, by omega⟩
    have hcr : (l.next.1 == some '-' || isAlphaNumeric E l.next.1) = false := by
      rw [lexer.next_fst]
      have := h.blind (blind_isIdentRune E)
      simp only [isIdentRune] at this hc
      rw [this]
      exact hc
    obtain ⟨-, h2, h3⟩ := h.peek
    simp only [lexer.peek] at h2 h3
    obtain ⟨t1, t2, t3⟩ := h2.atTerminator
    have hw := h2.text
    simp only [List.drop_zero, Nat.sub_zero] at hw
    simp only [lexIdentifierLoop, hcr, Bool.false_eq_true, ↓reduceIte]
    rw [hw]
    generalize l.next.2.undo.atTerminator = tm at t1 t2 t3 ⊢
    rw [← t1]
    cases htm : tm.1 with
    | false =>
      simp only [Bool.not_false, ↓reduceIte]
      refine ⟨_, rfl, fun _ => rfl, ?_⟩
      intro hc
      cases hc
    | true =>
      simp only [Bool.not_true, Bool.false_eq_true, ↓reduceIte]
      have key : ∀ ty, (tm.2.emit ty).At pre v suf p p ∧ (tm.2.emit ty).items = l.items ++
          [⟨ty, byteOffset (pre ++ (v ++ suf)) pre.length, String.mk (v.take p)⟩] := by
        intro ty
        obtain ⟨e1, e2⟩ := t2.emit ty
        refine ⟨e1, ?_⟩
        rw [e2, t3, h3]
        simp
      simp only [wordType]
      split_ifs
      all_goals
        refine ⟨_, rfl, ?_, fun _ => ⟨rfl, key _⟩⟩
        intro hc
        cases hc
  intro k
  induction k with
  | zero =>
    intro p hk hp
    have hnone : v[p]? = none := List.getElem?_eq_none_iff.mpr (by omega)
    refine ⟨p, terminates v[p]?, le_refl _, hp, fun _ => ⟨by omega, by rw [hnone]; rfl⟩,
      stop p hp ?_⟩
    rw [hnone]
    rfl
  | succ k ih =>
    intro p hk hp
    by_cases hc : isIdentRune E v[p]? = true
    · have hlt : p < v.length := by
        by_contra hn
        rw [List.getElem?_eq_none_iff.mpr (by omega)] at hc
        cases hc
      obtain ⟨p1, good, h1, h2, hall, h3⟩ := ih (p + 1) (by omega) (by omega)
      refine ⟨p1, good, by omega, h2, fun ha => hall (fun i hi1 hi2 => ha i (by omega) hi2),
        fun l pre suf n h hn => ?_⟩
      obtain ⟨m, rfl⟩ : ∃ m, n = m + 1 := ⟨n - 1, by omega⟩
      obtain ⟨e1, e2, e3⟩ := h.next_lt hlt
      have hcr : (l.next.1 == some '-' || isAlphaNumeric E l.next.1) = true := by
        rw [e1]
        exact hc
      simp only [lexIdentifierLoop, hcr, ↓reduceIte]
      have hadv := lexer.adv_next h.inv
      have hpos : l.next.2.pos = l.pos + 1 := by rw [e2.pos, h.pos]; omega
      have hlen : l.pos < l.input.length := by
        have hcur := h.cur_lt hlt
        rw [List.getElem?_eq_getElem hlt] at hcur
        exact lexer.lt_of_get hcur
      obtain ⟨r, g1, g2, g3⟩ := h3 l.next.2 pre suf m e2 (by rw [hadv.input, hpos]; omega)
      refine ⟨r, g1, g2, fun hg => ?_⟩
      obtain ⟨g4, g5, g6⟩ := g3 hg
      exact ⟨g4, g5, by rw [g6, e3]⟩
    · have hc1 : isIdentRune E v[p]? = false := by simpa using hc
      refine ⟨p, terminates v[p]?, le_refl _, hp, fun ha => ?_, stop p hp hc1⟩
      by_cases hlt : p < v.length
      · exact absurd (ha p (le_refl _) hlt) hc
      · have hnone : v[p]? = none := List.getElem?_eq_none_iff.mpr (by omega)
        exact ⟨by omega, by rw [hnone]; rfl⟩

theorem lexQuoteLoop_escape (q : Option Char) (m : Nat) (l : lexer) {d : Char}
    (h1 : l.next.1 = some backslash) (h2 : l.next.2.next.1 = some d) :
    lexQuoteLoop q (m + 1) l = lexQuoteLoop q m l.next.2.next.2 := by
  simp [lexQuoteLoop, h1, h2]

theorem lexQuoteLoop_escape_end (q : Option Char) (m : Nat) (l : lexer)
    (h1 : l.next.1 = some backslash) (h2 : l.next.2.next.1 = none) :
    lexQuoteLoop q (m + 1) l = .ok (l.next.2.next.2.errorf "unterminated quoted string") := by
  simp [lexQuoteLoop, h1, h2]

theorem lexQuoteLoop_end (q : Option Char) (m : Nat) (l : lexer) (h1 : l.next.1 = none) :
    lexQuoteLoop q (m + 1) l = .ok (l.next.2.errorf "unterminated quoted string") := by
  have : (none == some backslash) = false := rfl
  simp [lexQuoteLoop, h1, this]

theorem lexQuoteLoop_close (q : Option Char) (m : Nat) (l : lexer) {c : Char}
    (h1 : l.next.1 = some c) (h2 : c ≠ backslash) (h3 : q = some c) :
    lexQuoteLoop q (m + 1) l = .ok (some .lexInArgument, l.next.2.emit .itemString) := by
  simp [lexQuoteLoop, h1, h2, h3]

theorem lexQuoteLoop_plain (q : Option Char) (m : Nat) (l : lexer) {c : Char}
    (h1 : l.next.1 = some c) (h2 : c ≠ backslash) (h3 : q ≠ some c) :
    lexQuoteLoop q (m + 1) l = lexQuoteLoop q m l.next.2 := by
  have : (some c == q) = false := by
    rw [beq_eq_false_iff_ne]
    exact fun h => h3 h.symm
  simp [lexQuoteLoop, h1, h2, this]

/-- A successful run of the loop of `lexQuote` does not move the cursor back. -/
theorem lexQuoteLoop_pos (q : Option Char) :
    ∀ (n : Nat) (l : lexer) (r : Option stateFn × lexer), l.Inv →
      lexQuoteLoop q n l = .ok r → l.pos ≤ r.2.pos ∧ (r.1 = some .lexInArgument → l.pos < r.2.pos) := by
  intro n
  induction n with
  | zero => intro l r _ h; cases h
  | succ m ih =>
    intro l r hi h
    have ha := lexer.adv_next hi
    have hb := lexer.adv_next ha.inv
    cases h1 : l.input[l.pos]? with
    | none =>
      rw [lexQuoteLoop_end q m l (by rw [lexer.next_fst, h1])] at h
      cases h
      exact ⟨ha.pos, fun h => by cases h⟩
    | some c =>
      have hn1 : l.next.1 = some c := by rw [lexer.next_fst, h1]
      have hp : l.next.2.pos = l.pos + 1 := by rw [lexer.next_some h1]
      by_cases hc : c = backslash
      · subst hc
        cases h2 : l.next.2.next.1 with
        | none =>
          rw [lexQuoteLoop_escape_end q m l hn1 h2] at h
          cases h
          exact ⟨le_trans ha.pos hb.pos, fun h => by cases h⟩
        | some d =>
          rw [lexQuoteLoop_escape q m l hn1 h2] at h
          have := ih _ r hb.inv h
          have := hb.pos
          exact ⟨by omega, fun _ => by omega⟩
      · by_cases hq : q = some c
        · rw [lexQuoteLoop_close q m l hn1 hc hq] at h
          cases h
          exact ⟨by show l.pos ≤ l.next.2.pos; omega, fun _ => by show l.pos < l.next.2.pos; omega⟩
        · rw [lexQuoteLoop_plain q m l hn1 hc hq] at h
          have := ih _ r ha.inv h
          exact ⟨by omega, fun _ => by omega⟩

/-- The loop of `lexQuote` reads nothing beyond the closing quote: a string
token that ends with the text is sent in every place where the text stands. -/
theorem lexQuoteLoop_local (q : Option Char) (v : List Char) :
    ∀ (n : Nat) (l : lexer) (pre suf : List Char) (p : Nat) (r : Option stateFn × lexer),
      l.At pre v suf 0 p → lexQuoteLoop q n l = .ok r → r.1 = some .lexInArgument →
      r.2.pos = pre.length + v.length →
      ∀ (l1 : lexer) (pre1 suf1 : List Char) (n1 : Nat), l1.At pre1 v suf1 0 p →
        l1.input.length - l1.pos < n1 →
        ∃ r1, lexQuoteLoop q n1 l1 = .ok r1 ∧ r1.1 = some .lexInArgument ∧
          r1.2.At pre1 v suf1 v.length v.length ∧
          r1.2.items = l1.items ++
            [⟨.itemString, byteOffset (pre1 ++ (v ++ suf1)) pre1.length, String.mk v⟩] := by
  intro n
  induction n with
  | zero => intro l pre suf p r _ h; cases h
  | succ m ih =>
    intro l pre suf p r h hr hr1 hpos l1 pre1 suf1 n1 g gn
    obtain ⟨m1, rfl⟩ : ∃ m1, n1 = m1 + 1 := ⟨n1 - 1, by omega⟩
    have ha := lexer.adv_next h.inv
    have hb := lexer.adv_next ha.inv
    by_cases hp : p < v.length
    · obtain ⟨e1, e2, e3⟩ := h.next_lt hp
      obtain ⟨f1, f2, f3⟩ := g.next_lt hp
      have ga := lexer.adv_next g.inv
      have gpos : l1.next.2.pos = l1.pos + 1 := by rw [f2.pos, g.pos]; omega
      have glen : l1.pos < l1.input.length := by
        have hcur := g.cur_lt hp
        rw [List.getElem?_eq_getElem hp] at hcur
        exact lexer.lt_of_get hcur
      rw [List.getElem?_eq_getElem hp] at e1 f1
      by_cases hc : v[p] = backslash
      · rw [hc] at e1 f1
        by_cases hp2 : p + 1 < v.length
        · obtain ⟨e4, e5, e6⟩ := e2.next_lt hp2
          obtain ⟨f4, f5, f6⟩ := f2.next_lt hp2
          rw [List.getElem?_eq_getElem hp2] at e4 f4
          rw [lexQuoteLoop_escape q m l e1 e4] at hr
          rw [lexQuoteLoop_escape q m1 l1 f1 f4]
          have gb := lexer.adv_next ga.inv
          have gpos2 : l1.next.2.next.2.pos = l1.pos + 2 := by rw [f5.pos, g.pos]; omega
          obtain ⟨r1, k1, k2, k3, k4⟩ := ih _ pre suf (p + 1 + 1) r e5 hr hr1 hpos _ pre1 suf1 m1 f5
            (by rw [gb.input, ga.input, gpos2]; omega)
          exact ⟨r1, k1, k2, k3, by rw [k4, f6, f3]⟩
        · exfalso
          cases h2 : l.next.2.next.1 with
          | none =>
            rw [lexQuoteLoop_escape_end q m l e1 h2] at hr
            cases hr
            cases hr1
          | some d =>
            rw [lexQuoteLoop_escape q m l e1 h2] at hr
            have := (lexQuoteLoop_pos q m _ r hb.inv hr).1
            have hlt : l.next.2.pos < l.next.2.next.2.pos := by
              rw [lexer.next_fst] at h2
              rw [lexer.next_some h2]
              exact Nat.lt_succ_self _
            have := e2.pos
            omega
      · by_cases hq : q = some v[p]
        · rw [lexQuoteLoop_close q m l e1 hc hq] at hr
          cases hr
          have hpe : p + 1 = v.length := by
            have : l.next.2.pos = pre.length + v.length := hpos
            rw [e2.pos] at this
            omega
          rw [lexQuoteLoop_close q m1 l1 f1 hc hq]
          obtain ⟨k1, k2⟩ := f2.emit .itemString
          rw [hpe] at k1
          refine ⟨_, rfl, rfl, k1, ?_⟩
          rw [k2, f3, hpe]
          simp
        · rw [lexQuoteLoop_plain q m l e1 hc hq] at hr
          rw [lexQuoteLoop_plain q m1 l1 f1 hc hq]
          obtain ⟨r1, k1, k2, k3, k4⟩ := ih _ pre suf (p + 1) r e2 hr hr1 hpos _ pre1 suf1 m1 f2
            (by rw [ga.input, gpos]; omega)
          exact ⟨r1, k1, k2, k3, by rw [k4, f3]⟩
    · exfalso
      have hpe : p = v.length := by have := h.ple; omega
      have := (lexQuoteLoop_pos q (m + 1) l r h.inv hr).2 hr1
      have := h.pos
      omega

theorem valueState_not_switch (E : Lib) {c : Char} {s1 : stateFn}
    (h : valueState E c = some s1) : c ≠ '~' ∧ c ≠ '!' := by
  constructor <;>
  · rintro rfl
    revert h
    simp [valueState, isLetter, isNumeric, doubleQuote, singleQuote]

theorem valueState_not_sep (E : Lib) {c : Char} (h : isSep c = true) : valueState E c = none := by
  simp only [isSep, Bool.or_eq_true, beq_iff_eq] at h
  rcases h with (rfl | rfl) | rfl <;>
    simp [valueState, isLetter, isNumeric, doubleQuote, singleQuote]

theorem lexValue_state (E : Lib) {l : lexer} {c : Char} {s1 : stateFn} (hi : l.Inv)
    (h : l.input[l.pos]? = some c) (hs : valueState E c = some s1) :
    lexValue E l = (some s1, l) := by
  have hn := lexer.next_some h
  have hu := lexer.undo_next_some hi h
  simp only [lexValue]
  rw [hn] at hu ⊢
  simp only [beq_iff_eq, Bool.or_eq_true, reduceCtorEq, ↓reduceIte, Option.some.injEq]
  simp only [valueState, Bool.or_eq_true, beq_iff_eq] at hs
  split_ifs at hs ⊢ <;> simp_all

theorem lexValue_none (E : Lib) {l : lexer} {c : Char}
    (h : l.input[l.pos]? = some c) (hs : valueState E c = none) :
    (lexValue E l).1 = none := by
  have hn := lexer.next_some h
  simp only [lexValue]
  rw [hn]
  simp only [beq_iff_eq, Bool.or_eq_true, reduceCtorEq, ↓reduceIte, Option.some.injEq]
  simp only [valueState, Bool.or_eq_true, beq_iff_eq] at hs
  split_ifs at hs ⊢
  simp_all [lexer.errorf]

theorem lexValue_end (E : Lib) {l : lexer} (h : l.input[l.pos]? = none) :
    (lexValue E l).1 = none := by
  have hn := lexer.next_none h
  simp only [lexValue]
  rw [hn]
  simp [lexer.errorf]

theorem lexArgumentStart_state (E : Lib) {l : lexer} {c : Char} {s1 : stateFn} (hi : l.Inv)
    (h : l.input[l.pos]? = some c) (hs : valueState E c = some s1) :
    lexArgumentStart E l = (some s1, l) := by
  have hn := lexer.next_some h
  have hu := lexer.undo_next_some hi h
  obtain ⟨n1, n2⟩ := valueState_not_switch E hs
  simp only [lexArgumentStart]
  rw [hn] at hu ⊢
  simp only [beq_iff_eq, Bool.or_eq_true, reduceCtorEq, ↓reduceIte, Option.some.injEq, n1, n2,
    or_self]
  simp only [valueState, Bool.or_eq_true, beq_iff_eq] at hs
  split_ifs at hs ⊢ <;> simp_all

/-- `lexArgumentStart` on a switch mark that a letter follows. -/
theorem lexArgumentStart_switch (E : Lib) {l : lexer} {c : Char} (hi : l.Inv)
    (h : l.input[l.pos]? = some c) (hc : c = '~' ∨ c = '!')
    (hl : isLetter E l.input[l.pos + 1]? = true) :
    lexArgumentStart E l = (some .lexIdentifier,
      ({ l with pos := l.pos + 1 } : lexer).emit
        (if c = '!' then .itemDisable else .itemEnable)) := by
  have hn := lexer.next_some h
  have ha := lexer.adv_next hi
  rw [hn] at ha
  obtain ⟨d, hd⟩ : ∃ d, l.input[l.pos + 1]? = some d := by
    cases hh : l.input[l.pos + 1]? with
    | none => rw [hh] at hl; cases hl
    | some d => exact ⟨d, rfl⟩
  have hpk : ({ l with pos := l.pos + 1 } : lexer).peek =
      (some d, ({ l with pos := l.pos + 1 } : lexer)) := by
    have h2 : ({ l with pos := l.pos + 1 } : lexer).input[
        ({ l with pos := l.pos + 1 } : lexer).pos]? = some d := hd
    have h3 := lexer.undo_next_some ha.inv h2
    have h4 := lexer.peek_fst ({ l with pos := l.pos + 1 } : lexer)
    rw [h2] at h4
    exact Prod.ext h4 h3
  rw [hd] at hl
  simp only [lexArgumentStart]
  rw [hn]
  simp only [beq_iff_eq, Bool.or_eq_true, reduceCtorEq, ↓reduceIte, Option.some.injEq, hc, hpk,
    hl, Bool.not_true, Bool.false_eq_true]
  split_ifs <;> rfl

/-- `lexArgumentStart` on a switch mark that no letter follows. -/
theorem lexArgumentStart_switch_bad (E : Lib) {l : lexer} {c : Char}
    (h : l.input[l.pos]? = some c) (hc : c = '~' ∨ c = '!')
    (hl : isLetter E l.input[l.pos + 1]? = false) :
    (lexArgumentStart E l).1 = none := by
  have hn := lexer.next_some h
  have h4 := lexer.peek_fst ({ l with pos := l.pos + 1 } : lexer)
  simp only [lexArgumentStart]
  rw [hn]
  simp only [beq_iff_eq, Bool.or_eq_true, reduceCtorEq, ↓reduceIte, Option.some.injEq, hc, h4,
    hl, Bool.not_false, lexer.errorf]

/-- `lexArgumentStart` on a rune that opens neither a value nor a switch. -/
theorem lexArgumentStart_none (E : Lib) {l : lexer} {c : Char}
    (h : l.input[l.pos]? = some c) (hc : ¬ (c = '~' ∨ c = '!')) (hs : valueState E c = none) :
    (lexArgumentStart E l).1 = none := by
  have hn := lexer.next_some h
  simp only [lexArgumentStart]
  rw [hn]
  simp only [beq_iff_eq, Bool.or_eq_true, reduceCtorEq, ↓reduceIte, Option.some.injEq, hc]
  simp only [valueState, Bool.or_eq_true, beq_iff_eq] at hs
  split_ifs at hs ⊢
  simp_all [lexer.errorf]

/-- Where `lexArgumentStart` goes on without a value under the cursor, it has
sent a switch mark. -/
theorem lexArgumentStart_other (E : Lib) {l : lexer} {c : Char} {s1 : stateFn} {l1 : lexer}
    (hi : l.Inv) (h : l.input[l.pos]? = some c) (hs : valueState E c = none)
    (h1 : lexArgumentStart E l = (some s1, l1)) : l1.items ≠ l.items := by
  by_cases hc : c = '~' ∨ c = '!'
  · cases hl : isLetter E l.input[l.pos + 1]? with
    | false =>
      have := lexArgumentStart_switch_bad E h hc hl
      rw [h1] at this
      cases this
    | true =>
      have := lexArgumentStart_switch E hi h hc hl
      rw [h1] at this
      cases this
      simp [lexer.emit]
  · have := lexArgumentStart_none E h hc hs
    rw [h1] at this
    cases this

theorem lexArgumentStart_end (E : Lib) {l : lexer} (h : l.input[l.pos]? = none) :
    (lexArgumentStart E l).1 = none := by
  have hn := lexer.next_none h
  simp only [lexArgumentStart]
  rw [hn]
  simp

/-- A word token that ends with the text is sent wherever the text stands. -/
theorem lexIdentifier_two (E : Lib) {v : List Char} {l : lexer} {pre suf : List Char}
    {l2 : lexer} (h : l.At pre v suf 0 0)
    (hr : lexIdentifier E l = .ok (some .lexInArgument, l2))
    (hp : l2.pos = pre.length + v.length) :
    ∀ (l1 : lexer) (pre1 suf1 : List Char), l1.At pre1 v suf1 0 0 →
      ∃ l3, lexIdentifier E l1 = .ok (some .lexInArgument, l3) ∧
        l1.Sent l3 pre1 v suf1 (wordType (String.mk v)) := by
  obtain ⟨p1, good, -, hp1, -, hall⟩ := lexIdentifierLoop_local E v v.length 0 (by omega)
    (Nat.zero_le _)
  obtain ⟨r, e1, e2, e3⟩ := hall l pre suf (l.input.length + 1) h (by omega)
  have e0 : lexIdentifier E l = lexIdentifierLoop E (l.input.length + 1) l := rfl
  rw [e0, e1] at hr
  cases hr
  cases good with
  | false => cases e2 rfl
  | true =>
    obtain ⟨-, e4, -⟩ := e3 rfl
    have : p1 = v.length := by
      have := e4.pos
      simp only at this
      omega
    subst this
    intro l1 pre1 suf1 g
    obtain ⟨r1, f1, -, f3⟩ := hall l1 pre1 suf1 (l1.input.length + 1) g (by omega)
    obtain ⟨f4, f5, f6⟩ := f3 rfl
    obtain ⟨s1, l3⟩ := r1
    simp only at f4 f5 f6
    subst f4
    rw [List.take_length] at f6
    exact ⟨l3, f1, f5, f6⟩

/-- A number token that ends with the text is sent wherever the text stands. -/
theorem lexNumber_two (E : Lib) {v : List Char} {l : lexer} {pre suf : List Char}
    {l2 : lexer} (h : l.At pre v suf 0 0)
    (hr : lexNumber E l = .ok (some .lexInArgument, l2))
    (hp : l2.pos = pre.length + v.length) :
    ∀ (l1 : lexer) (pre1 suf1 : List Char), l1.At pre1 v suf1 0 0 →
      ∃ l3, lexNumber E l1 = .ok (some .lexInArgument, l3) ∧
        l1.Sent l3 pre1 v suf1 .itemNumber := by
  obtain ⟨p1, good, hp1, -, hall⟩ := lexNumber_local E v
  obtain ⟨r, e1, e2, e3⟩ := hall l pre suf h
  rw [e1] at hr
  cases hr
  cases good with
  | false => cases e2 rfl
  | true =>
    obtain ⟨-, e4, -⟩ := e3 rfl
    have : p1 = v.length := by
      have := e4.pos
      simp only at this
      omega
    subst this
    intro l1 pre1 suf1 g
    obtain ⟨r1, f1, -, f3⟩ := hall l1 pre1 suf1 g
    obtain ⟨f4, f5, f6⟩ := f3 rfl
    obtain ⟨s1, l3⟩ := r1
    simp only at f4 f5 f6
    subst f4
    rw [List.take_length] at f6
    exact ⟨l3, f1, f5, f6⟩

/-- A string token that ends with the text is sent wherever the text stands. -/
theorem lexQuote_two {v : List Char} {l : lexer} {pre suf : List Char}
    {l2 : lexer} (h : l.At pre v suf 0 0) (hv : 0 < v.length)
    (hr : lexQuote l = .ok (some .lexInArgument, l2))
    (hp : l2.pos = pre.length + v.length) :
    ∀ (l1 : lexer) (pre1 suf1 : List Char), l1.At pre1 v suf1 0 0 →
      ∃ l3, lexQuote l1 = .ok (some .lexInArgument, l3) ∧
        l1.Sent l3 pre1 v suf1 .itemString := by
  obtain ⟨e1, e2, e3⟩ := h.next_lt hv
  intro l1 pre1 suf1 g
  obtain ⟨f1, f2, f3⟩ := g.next_lt hv
  have ga := lexer.adv_next g.inv
  have glen : l1.pos < l1.input.length := by
    have hcur := g.cur_lt hv
    rw [List.getElem?_eq_getElem hv] at hcur
    exact lexer.lt_of_get hcur
  have gpos : l1.next.2.pos = l1.pos + 1 := by
    have := f2.pos
    have := g.pos
    omega
  simp only [lexQuote] at hr ⊢
  rw [e1] at hr
  rw [f1]
  obtain ⟨r1, k1, k2, k3, k4⟩ := lexQuoteLoop_local v[0]? v _ _ pre suf 1 _ e2 hr rfl hp
    l1.next.2 pre1 suf1 (l1.input.length + 1) f2 (by rw [ga.input, gpos]; omega)
  obtain ⟨s1, l3⟩ := r1
  simp only at k2 k3 k4
  subst k2
  exact ⟨l3, k1, k3, by rw [k4, f3]⟩

theorem wordType_isValue (w : String) : (wordType w).isValue = true := by
  simp only [wordType]
  split_ifs <;> rfl

theorem wordType_ne (w : String) : wordType w ≠ .itemNumber ∧ wordType w ≠ .itemString := by
  simp only [wordType]
  split_ifs <;> exact ⟨by simp, by simp⟩

/-- From one successful reading of a value to all: when the scanner, in a
state that expects a value, has read the text `v` as one token, the text is
that token wherever it stands. -/
theorem Local_of_run (E : Lib) {v : List Char} {l : lexer} {pre suf : List Char}
    {s s1 : stateFn} {l1 l2 : lexer} (h : l.At pre v suf 0 0)
    (hs : s = .lexArgumentStart ∨ s = .lexValue)
    (h1 : callState E s l = .ok (some s1, l1)) (hi : l1.items = l.items)
    (h2 : callState E s1 l1 = .ok (some .lexInArgument, l2))
    (hp : l2.pos = pre.length + v.length) :
    ∃ ty, Local E v ty ∧ l.Sent l2 pre v suf ty := by
  have hdisp : ∀ (l : lexer) (c : Char) (t : stateFn), l.Inv → l.input[l.pos]? = some c →
      valueState E c = some t → callState E s l = .ok (some t, l) := by
    intro l c t hi hc ht
    rcases hs with rfl | rfl
    · simp only [callState, lexArgumentStart_state E hi hc ht]
    · simp only [callState, lexValue_state E hi hc ht]
  by_cases hv : 0 < v.length
  · have hcur := h.cur_lt hv
    rw [List.getElem?_eq_getElem hv, h.pos] at hcur
    have hcur1 : ∀ (l1 : lexer) (pre1 suf1 : List Char), l1.At pre1 v suf1 0 0 →
        l1.input[l1.pos]? = some v[0] := by
      intro l1 pre1 suf1 g
      have := g.cur_lt hv
      rwa [List.getElem?_eq_getElem hv] at this
    have hne : v ≠ [] := by
      intro h0
      rw [h0] at hv
      cases hv
    have hhead : v.head? = some v[0] := by
      cases v with
      | nil => cases hv
      | cons c w => rfl
    cases hst : valueState E v[0] with
    | none =>
      exfalso
      rcases hs with rfl | rfl
      · simp only [callState, Result.ok.injEq] at h1
        exact lexArgumentStart_other E h.inv (hcur1 l pre suf h) hst h1 hi
      · simp only [callState, Result.ok.injEq] at h1
        have := lexValue_none E (hcur1 l pre suf h) hst
        rw [h1] at this
        cases this
    | some t =>
      have e1 := hdisp l v[0] t h.inv (hcur1 l pre suf h) hst
      rw [e1] at h1
      cases h1
      have hcases : (isLetter E (some v[0]) = true ∧ s1 = .lexIdentifier) ∨
          (isLetter E (some v[0]) = false ∧ (s1 = .lexNumber ∨ s1 = .lexQuote)) := by
        simp only [valueState] at hst
        split_ifs at hst with c1 c2 c3
        · cases hst; exact Or.inl ⟨c1, rfl⟩
        · cases hst; exact Or.inr ⟨by simpa using c1, Or.inl rfl⟩
        · cases hst; exact Or.inr ⟨by simpa using c1, Or.inr rfl⟩
      rcases hcases with ⟨hl, rfl⟩ | ⟨hl, rfl | rfl⟩
      · have key := lexIdentifier_two E h h2 hp
        obtain ⟨l3, k1, k2⟩ := key l pre suf h
        simp only [callState] at h2
        rw [k1] at h2
        cases h2
        refine ⟨_, ⟨hne, wordType_isValue _, fun _ _ => by rw [hhead]; exact hl, fun _ => rfl, ?_,
          fun _ => key⟩, k2⟩
        intro l1 pre1 suf1 s2 g hs2
        obtain ⟨l4, k3, k4⟩ := key l1 pre1 suf1 g
        refine ⟨.lexIdentifier, l4, ?_, k3, k4⟩
        rcases hs2 with rfl | rfl
        · simp only [callState, lexArgumentStart_state E g.inv (hcur1 _ _ _ g) hst]
        · simp only [callState, lexValue_state E g.inv (hcur1 _ _ _ g) hst]
      · have key := lexNumber_two E h h2 hp
        obtain ⟨l3, k1, k2⟩ := key l pre suf h
        simp only [callState] at h2
        rw [k1] at h2
        cases h2
        refine ⟨.itemNumber, ⟨hne, rfl, fun hn => absurd rfl hn, ?_, ?_, ?_⟩, k2⟩
        · intro hc
          rw [hhead, hl] at hc
          cases hc
        · intro l1 pre1 suf1 s2 g hs2
          obtain ⟨l4, k3, k4⟩ := key l1 pre1 suf1 g
          refine ⟨.lexNumber, l4, ?_, k3, k4⟩
          rcases hs2 with rfl | rfl
          · simp only [callState, lexArgumentStart_state E g.inv (hcur1 _ _ _ g) hst]
          · simp only [callState, lexValue_state E g.inv (hcur1 _ _ _ g) hst]
        · intro hc
          rw [hhead, hl] at hc
          cases hc
      · have key := lexQuote_two h hv h2 hp
        obtain ⟨l3, k1, k2⟩ := key l pre suf h
        simp only [callState] at h2
        rw [k1] at h2
        cases h2
        refine ⟨.itemString, ⟨hne, rfl, fun _ hn => absurd rfl hn, ?_, ?_, ?_⟩, k2⟩
        · intro hc
          rw [hhead, hl] at hc
          cases hc
        · intro l1 pre1 suf1 s2 g hs2
          obtain ⟨l4, k3, k4⟩ := key l1 pre1 suf1 g
          refine ⟨.lexQuote, l4, ?_, k3, k4⟩
          rcases hs2 with rfl | rfl
          · simp only [callState, lexArgumentStart_state E g.inv (hcur1 _ _ _ g) hst]
          · simp only [callState, lexValue_state E g.inv (hcur1 _ _ _ g) hst]
        · intro hc
          rw [hhead, hl] at hc
          cases hc
  · exfalso
    have hv0 : v.length = 0 := by omega
    rcases h.cur_end (by omega) with hn | ⟨c, hc, hsep⟩
    · rcases hs with rfl | rfl
      · simp only [callState, Result.ok.injEq] at h1
        have := lexArgumentStart_end E hn
        rw [h1] at this
        cases this
      · simp only [callState, Result.ok.injEq] at h1
        have := lexValue_end E hn
        rw [h1] at this
        cases this
    · have hst := valueState_not_sep E hsep
      rcases hs with rfl | rfl
      · simp only [callState, Result.ok.injEq] at h1
        exact lexArgumentStart_other E h.inv hc hst h1 hi
      · simp only [callState, Result.ok.injEq] at h1
        have := lexValue_none E hc hst
        rw [h1] at this
        cases this


/-! # The items of a scan as a sequence of tokens -/

theorem byteOffset_add (input : List Char) (n k : Nat) :
    byteOffset input (n + k) = byteOffset input n + utf8Len ((input.drop n).take k) := by
  simp only [byteOffset, utf8Len]
  rw [List.take_add, List.map_append, List.sum_append]

theorem drop_cons_of_get {input : List Char} {n : Nat} {c : Char} (h : input[n]? = some c) :
    input.drop n = c :: input.drop (n + 1) := by
  have hlt : n < input.length := by
    by_contra hc
    rw [List.getElem?_eq_none_iff.mpr (not_lt.mp hc)] at h
    cases h
  rw [List.getElem?_eq_getElem hlt] at h
  cases h
  exact List.drop_eq_getElem_cons hlt

theorem byteOffset_succ {input : List Char} {n : Nat} {c : Char} (h : input[n]? = some c) :
    byteOffset input (n + 1) = byteOffset input n + utf8Len [c] := by
  rw [byteOffset_add, drop_cons_of_get h]
  rfl

/-- What `lexInArgument` does on a separator. -/
theorem lexInArgument_sep (E : Lib) {l : lexer} {c : Char} (h : l.input[l.pos]? = some c)
    (hc : isSep c = true) :
    lexInArgument E l = (some (sepState c),
      ({ l with pos := l.pos + 1 } : lexer).emit (sepType c)) := by
  have hn := lexer.next_some h
  simp only [lexInArgument]
  rw [hn]
  simp only [isSep, Bool.or_eq_true, beq_iff_eq] at hc
  rcases hc with (rfl | rfl) | rfl <;> rfl

/-- What `lexInArgument` does on a rune that is no separator. -/
theorem lexInArgument_bad (E : Lib) {l : lexer} {c : Char} (h : l.input[l.pos]? = some c)
    (hc : isSep c = false) :
    ∃ msg, lexInArgument E l = (({ l with pos := l.pos + 1 } : lexer).errorf msg) := by
  have hn := lexer.next_some h
  simp only [lexInArgument]
  rw [hn]
  simp only [isSep, Bool.or_eq_false_iff, beq_eq_false_iff_ne, ne_eq] at hc
  obtain ⟨⟨c1, c2⟩, c3⟩ := hc
  simp only [beq_iff_eq, reduceCtorEq, ↓reduceIte, Option.some.injEq, c1, c2, c3]
  exact ⟨_, rfl⟩

/-- What `lexInArgument` and `lexArgumentStart` do at the end of input. -/
theorem lex_end (E : Lib) {l : lexer} (h : l.input[l.pos]? = none) :
    lexInArgument E l = (none, ({ l with atEOF := true } : lexer).emit .itemEOF) ∧
    lexArgumentStart E l = (none, ({ l with atEOF := true } : lexer).emit .itemEOF) := by
  have hn := lexer.next_none h
  simp only [lexInArgument, lexArgumentStart]
  rw [hn]
  simp

theorem valueState_token (E : Lib) {c : Char} {t : stateFn} (h : valueState E c = some t) :
    t = .lexIdentifier ∨ t = .lexNumber ∨ t = .lexQuote := by
  simp only [valueState] at h
  split_ifs at h <;> cases h <;> simp

theorem last_typ {front front1 : List item} {a b : item} (h : front ++ [a] = front1 ++ [b]) :
    a = b := by
  have := congrArg List.getLast? h
  simpa using this

theorem slice_self (input : List Char) (p : Nat) : slice input p p = "" := by
  simp [slice]

theorem slice_one {input : List Char} {p : Nat} {c : Char} (h : input[p]? = some c) :
    slice input p (p + 1) = String.mk [c] := by
  simp only [slice, Nat.add_sub_cancel_left]
  rw [drop_cons_of_get h]
  rfl

/-- In the state `lexInArgument` a sequence of tokens opens with a separator. -/
theorem Lexed.head_sep {E : Lib} {rest : List Char} {toks : List (itemType × List Char)}
    (h : Lexed E .lexInArgument rest toks) : ∀ c, rest.head? = some c → isSep c = true := by
  cases h
  case stop => intro c hc; cases hc
  case sep h1 h2 =>
    intro d hd
    cases hd
    exact h1
  case value =>
    rcases ‹stateFn.lexInArgument = stateFn.lexArgumentStart ∨ _› with hs | hs <;> cases hs

theorem lexer.runLoop_some (E : Lib) {s s1 : stateFn} {l l1 : lexer} (m : Nat)
    (h : callState E s l = .ok (some s1, l1)) :
    lexer.runLoop E (m + 1) s l = lexer.runLoop E m s1 l1 := by
  simp only [lexer.runLoop, h]

theorem lexer.runLoop_none (E : Lib) {s : stateFn} {l l1 : lexer} (m : Nat)
    (h : callState E s l = .ok (none, l1)) :
    lexer.runLoop E (m + 1) s l = .ok l1 := by
  simp only [lexer.runLoop, h]

/-- The stretch of the input from the cursor to a later place, as a text
under the cursor. -/
theorem lexer.at_span {l : lexer} {q : Nat} (hi : l.Inv) (hs : l.start = l.pos)
    (h1 : l.pos ≤ q) (h2 : q ≤ l.input.length)
    (hsep : ∀ c, (l.input.drop q).head? = some c → isSep c = true) :
    l.At (l.input.take l.pos) ((l.input.drop l.pos).take (q - l.pos)) (l.input.drop q) 0 0 ∧
      ((l.input.drop l.pos).take (q - l.pos)).length = q - l.pos ∧
      l.input.drop l.pos = (l.input.drop l.pos).take (q - l.pos) ++ l.input.drop q := by
  have hlen : (l.input.take l.pos).length = l.pos := by
    rw [List.length_take]
    omega
  have hsplit : l.input.drop l.pos = (l.input.drop l.pos).take (q - l.pos) ++ l.input.drop q := by
    have := (List.take_append_drop (q - l.pos) (l.input.drop l.pos)).symm
    rw [List.drop_drop] at this
    have e : l.pos + (q - l.pos) = q := by omega
    rw [e] at this
    exact this
  refine ⟨⟨?_, hsep, by rw [hlen]; rfl, by rw [hlen, hs]; rfl, le_refl _, Nat.zero_le _, hi⟩,
    ?_, hsplit⟩
  · rw [← hsplit, List.take_append_drop]
  · rw [List.length_take, List.length_drop]
    omega

theorem errorStep_errorf {l l1 : lexer} (h : l1.items = l.items) (msg : String) :
    ErrorStep l (l1.errorf msg) :=
  ⟨rfl, ⟨.itemError, byteOffset l1.input l1.start, msg⟩, by simp [lexer.errorf, h], rfl⟩

theorem lexValue_error (E : Lib) {l : lexer}
    (h : l.input[l.pos]? = none ∨ ∃ c, l.input[l.pos]? = some c ∧ valueState E c = none) :
    ErrorStep l (lexValue E l) := by
  rcases h with h | ⟨c, h, hs⟩
  · have hn := lexer.next_none h
    simp only [lexValue]
    rw [hn]
    simp only [beq_self_eq_true, ↓reduceIte]
    exact errorStep_errorf rfl _
  · have hn := lexer.next_some h
    simp only [lexValue]
    rw [hn]
    simp only [beq_iff_eq, Bool.or_eq_true, reduceCtorEq, ↓reduceIte, Option.some.injEq]
    simp only [valueState, Bool.or_eq_true, beq_iff_eq] at hs
    split_ifs at hs ⊢
    exact errorStep_errorf rfl _

theorem lexInArgument_error (E : Lib) {l : lexer} {c : Char} (h : l.input[l.pos]? = some c)
    (hc : isSep c = false) : ErrorStep l (lexInArgument E l) := by
  obtain ⟨msg, hm⟩ := lexInArgument_bad E h hc
  rw [hm]
  exact errorStep_errorf rfl _

theorem lexArgumentStart_error (E : Lib) {l : lexer} {c : Char} (hi : l.Inv)
    (h : l.input[l.pos]? = some c) (hs : valueState E c = none)
    (hc : ¬ ((c = '~' ∨ c = '!') ∧ isLetter E l.input[l.pos + 1]? = true)) :
    ErrorStep l (lexArgumentStart E l) := by
  have hn := lexer.next_some h
  have ha := lexer.adv_next hi
  rw [hn] at ha
  by_cases hm : c = '~' ∨ c = '!'
  · have hl : isLetter E l.input[l.pos + 1]? = false := by
      cases hh : isLetter E l.input[l.pos + 1]? with
      | false => rfl
      | true => exact absurd ⟨hm, hh⟩ hc
    have h4 := lexer.peek_fst ({ l with pos := l.pos + 1 } : lexer)
    have h5 := (lexer.adv_peek ha.inv).items
    simp only [lexArgumentStart]
    rw [hn]
    simp only [beq_iff_eq, Bool.or_eq_true, reduceCtorEq, ↓reduceIte, Option.some.injEq, hm, h4,
      hl, Bool.not_false]
    exact errorStep_errorf h5 _
  · simp only [lexArgumentStart]
    rw [hn]
    simp only [beq_iff_eq, Bool.or_eq_true, reduceCtorEq, ↓reduceIte, Option.some.injEq, hm]
    simp only [valueState, Bool.or_eq_true, beq_iff_eq] at hs
    split_ifs at hs ⊢
    exact errorStep_errorf rfl _

/-- The items of a scan that ends with an end-of-input token do not end
with an error token. -/
theorem not_error_last {items front : List item} {it last : item}
    (h : items ++ [it] = front ++ [last]) (h1 : last.typ = .itemEOF) (h2 : it.typ = .itemError) :
    False := by
  have := last_typ h
  subst this
  rw [h1] at h2
  cases h2

/-- Every scan that ends with the end-of-input token is a sequence of tokens
each of which the scanner reads the same wherever it stands; the items are
these tokens at their byte offsets. -/
theorem lexer.runLoop_lexed (E : Lib) :
    ∀ (n m : Nat), m ≤ n → ∀ (s : stateFn) (l l1 : lexer), l.Inv → l.start = l.pos →
      s = .lexArgumentStart ∨ s = .lexInArgument ∨ s = .lexValue →
      lexer.runLoop E m s l = .ok l1 →
      (∃ front last, l1.items = front ++ [last] ∧ last.typ = .itemEOF) →
      ∃ toks, Lexed E s (l.input.drop l.pos) toks ∧
        l1.items = l.items ++ tokensAt (byteOffset l.input l.pos) toks := by
  intro n
  induction n with
  | zero =>
    intro m hm s l l1 _ _ _ h
    obtain rfl : m = 0 := by omega
    cases h
  | succ n ih =>
    intro m hm s l l1 hi hst hs hrun hlast
    obtain ⟨front, last, hl1, hl2⟩ := hlast
    obtain ⟨m, rfl⟩ : ∃ k, m = k + 1 := by
      cases m with
      | zero => cases hrun
      | succ k => exact ⟨k, rfl⟩
    -- the end of input
    have hend : l.input[l.pos]? = none → (s = .lexArgumentStart ∨ s = .lexInArgument) →
        ∃ toks, Lexed E s (l.input.drop l.pos) toks ∧
          l1.items = l.items ++ tokensAt (byteOffset l.input l.pos) toks := by
      intro hcur hs2
      obtain ⟨e1, e2⟩ := lex_end E hcur
      have hcs : callState E s l = .ok (none, ({ l with atEOF := true } : lexer).emit .itemEOF) := by
        rcases hs2 with rfl | rfl
        · simp only [callState, e2]
        · simp only [callState, e1]
      rw [lexer.runLoop_none E m hcs] at hrun
      cases hrun
      have hd : l.input.drop l.pos = [] :=
        List.drop_eq_nil_iff.mpr (List.getElem?_eq_none_iff.mp hcur)
      refine ⟨[], ?_, ?_⟩
      · rw [hd]
        exact Lexed.stop s hs2
      · simp only [lexer.emit, tokensAt, hst, slice_self]
    -- a value
    have hvalue : ∀ (l0 : lexer) (c : Char) (t : stateFn) (s0 : stateFn), l0.Inv →
        l0.start = l0.pos → l0.input[l0.pos]? = some c → valueState E c = some t →
        (s0 = .lexArgumentStart ∨ s0 = .lexValue) →
        ∀ k, k ≤ n → lexer.runLoop E k t l0 = .ok l1 →
        ∃ v ty toks, Local E v ty ∧ Lexed E .lexInArgument
            (l0.input.drop (l0.pos + v.length)) toks ∧
          l0.input.drop l0.pos = v ++ l0.input.drop (l0.pos + v.length) ∧
          l1.items = l0.items ++ tokensAt (byteOffset l0.input l0.pos) ((ty, v) :: toks) := by
      intro l0 c t s0 hi0 hst0 hcur ht hs0 k hk hrun0
      obtain ⟨k, rfl⟩ : ∃ j, k = j + 1 := by
        cases k with
        | zero => cases hrun0
        | succ j => exact ⟨j, rfl⟩
      obtain ⟨r, hr1, hr2, hr3, hr4, hr5⟩ := token_loopOK E hi0 (valueState_token E ht)
      obtain ⟨r1, r2⟩ := r
      cases r1 with
      | none =>
        exfalso
        rw [lexer.runLoop_none E k hr1] at hrun0
        cases hrun0
        obtain ⟨it, g1, g2⟩ := hr5
        simp only at g1
        rw [g1] at hl1
        exact not_error_last hl1 hl2 g2
      | some s1 =>
        obtain ⟨rfl, g0, it, g1, -, -⟩ := hr5
        simp only at hr2 hr3 hr4 g0 g1
        rw [lexer.runLoop_some E k hr1] at hrun0
        obtain ⟨toks, t1, t2⟩ := ih k (by omega) .lexInArgument r2 l1 hr3 g0
          (Or.inr (Or.inl rfl)) hrun0 ⟨front, last, hl1, hl2⟩
        rw [hr2] at t1 t2
        obtain ⟨a1, a2, a3⟩ := lexer.at_span hi0 hst0 hr4 (hr2 ▸ hr3.2) t1.head_sep
        have hdisp : callState E s0 l0 = .ok (some t, l0) := by
          rcases hs0 with rfl | rfl
          · simp only [callState, lexArgumentStart_state E hi0 hcur ht]
          · simp only [callState, lexValue_state E hi0 hcur ht]
        have hpos : r2.pos = (l0.input.take l0.pos).length +
            ((l0.input.drop l0.pos).take (r2.pos - l0.pos)).length := by
          rw [a2, List.length_take]
          have := hi0.2
          omega
        obtain ⟨ty, b1, b2⟩ := Local_of_run E a1 hs0 hdisp rfl hr1 hpos
        have hq : l0.pos + ((l0.input.drop l0.pos).take (r2.pos - l0.pos)).length = r2.pos := by
          rw [a2]
          omega
        refine ⟨_, ty, toks, b1, ?_, ?_, ?_⟩
        · rw [hq]
          exact t1
        · rw [hq]
          exact a3
        · rw [t2, b2.items]
          simp only [tokensAt, List.append_assoc, List.singleton_append]
          have e1 : l0.input.take l0.pos ++ ((l0.input.drop l0.pos).take (r2.pos - l0.pos) ++
              l0.input.drop r2.pos) = l0.input := by
            rw [← a3, List.take_append_drop]
          have e2 : (l0.input.take l0.pos).length = l0.pos := by
            rw [List.length_take]
            have := hi0.2
            omega
          rw [e1, e2]
          congr 3
          rw [← byteOffset_add]
          congr 1
          omega
    -- a call that ends the scan with an error
    have herr : ∀ r, callState E s l = .ok r → ErrorStep l r → False := by
      intro r hr he
      obtain ⟨r1, r2⟩ := r
      obtain ⟨e1, it, e2, e3⟩ := he
      simp only at e1 e2
      subst e1
      rw [lexer.runLoop_none E m hr] at hrun
      cases hrun
      rw [e2] at hl1
      exact not_error_last hl1 hl2 e3
    cases hcur : l.input[l.pos]? with
    | none =>
      rcases hs with rfl | rfl | rfl
      · exact hend hcur (Or.inl rfl)
      · exact hend hcur (Or.inr rfl)
      · exact (herr _ rfl (lexValue_error E (Or.inl hcur))).elim
    | some c =>
      have hlt := lexer.lt_of_get hcur
      have hnext : ∀ ty, (({ l with pos := l.pos + 1 } : lexer).emit ty).Inv ∧
          (({ l with pos := l.pos + 1 } : lexer).emit ty).start =
            (({ l with pos := l.pos + 1 } : lexer).emit ty).pos ∧
          (({ l with pos := l.pos + 1 } : lexer).emit ty).items =
            l.items ++ [⟨ty, byteOffset l.input l.pos, String.mk [c]⟩] := by
        intro ty
        have ha := lexer.adv_next hi
        rw [lexer.next_some hcur] at ha
        refine ⟨ha.inv, rfl, ?_⟩
        simp only [lexer.emit, hst, slice_one hcur]
      have hval : ∀ t, valueState E c = some t → (s = .lexArgumentStart ∨ s = .lexValue) →
          ∃ toks, Lexed E s (l.input.drop l.pos) toks ∧
            l1.items = l.items ++ tokensAt (byteOffset l.input l.pos) toks := by
        intro t ht hs2
        have hdisp : callState E s l = .ok (some t, l) := by
          rcases hs2 with rfl | rfl
          · simp only [callState, lexArgumentStart_state E hi hcur ht]
          · simp only [callState, lexValue_state E hi hcur ht]
        rw [lexer.runLoop_some E m hdisp] at hrun
        obtain ⟨v, ty, toks, b1, b2, b3, b4⟩ := hvalue l c t s hi hst hcur ht hs2 m (by omega) hrun
        refine ⟨(ty, v) :: toks, ?_, b4⟩
        rw [b3]
        exact Lexed.value s v ty _ toks hs2 b1 b2
      rcases hs with rfl | rfl | rfl
      · cases ht : valueState E c with
        | some t => exact hval t ht (Or.inl rfl)
        | none =>
          by_cases hc : (c = '~' ∨ c = '!') ∧ isLetter E l.input[l.pos + 1]? = true
          · obtain ⟨hm, hl⟩ := hc
            have hsw := lexArgumentStart_switch E hi hcur hm hl
            have hcs : callState E .lexArgumentStart l = .ok (some .lexIdentifier,
                ({ l with pos := l.pos + 1 } : lexer).emit (markType c)) := by
              simp only [callState, hsw, markType, beq_iff_eq]
            rw [lexer.runLoop_some E m hcs] at hrun
            obtain ⟨n1, n2, n3⟩ := hnext (markType c)
            obtain ⟨d, hd⟩ : ∃ d, l.input[l.pos + 1]? = some d := by
              cases hh : l.input[l.pos + 1]? with
              | none => rw [hh] at hl; cases hl
              | some d => exact ⟨d, rfl⟩
            rw [hd] at hl
            have hvs : valueState E d = some .lexIdentifier := by
              simp only [valueState, hl, ↓reduceIte]
            obtain ⟨v, ty, toks, b1, b2, b3, b4⟩ := hvalue _ d .lexIdentifier .lexValue n1 n2 hd
              hvs (Or.inr rfl) m (by omega) hrun
            have hv : v.head? = some d := by
              have e := drop_cons_of_get hd
              have b3a : List.drop (l.pos + 1) l.input =
                  v ++ List.drop (l.pos + 1 + v.length) l.input := b3
              rw [e] at b3a
              cases v with
              | nil => exact absurd rfl b1.nonempty
              | cons x w =>
                simp only [List.cons_append, List.cons.injEq] at b3a
                rw [b3a.1]
                rfl
            refine ⟨(markType c, [c]) :: (ty, v) :: toks, ?_, ?_⟩
            · rw [drop_cons_of_get hcur]
              have b3a : List.drop (l.pos + 1) l.input =
                  v ++ List.drop (l.pos + 1 + v.length) l.input := b3
              rw [b3a]
              exact Lexed.switch c v ty _ toks hm b1 (by rw [hv]; exact hl) b2
            · rw [b4, n3]
              simp only [tokensAt, List.append_assoc, List.singleton_append, List.cons_append,
                List.nil_append]
              have e : byteOffset l.input (l.pos + 1) = byteOffset l.input l.pos + utf8Len [c] :=
                byteOffset_succ hcur
              have e1 : byteOffset (({ l with pos := l.pos + 1 } : lexer).emit (markType c)).input
                  (({ l with pos := l.pos + 1 } : lexer).emit (markType c)).pos =
                  byteOffset l.input (l.pos + 1) := rfl
              rw [e1, e]
          · exact (herr _ rfl (lexArgumentStart_error E hi hcur ht hc)).elim
      · cases hsep : isSep c with
        | false => exact (herr _ rfl (lexInArgument_error E hcur hsep)).elim
        | true =>
          have hcs : callState E .lexInArgument l = .ok (some (sepState c),
              ({ l with pos := l.pos + 1 } : lexer).emit (sepType c)) := by
            simp only [callState, lexInArgument_sep E hcur hsep]
          rw [lexer.runLoop_some E m hcs] at hrun
          obtain ⟨n1, n2, n3⟩ := hnext (sepType c)
          have hss : sepState c = .lexArgumentStart ∨ sepState c = .lexInArgument ∨
              sepState c = .lexValue := by
            simp only [sepState]
            split_ifs
            · exact Or.inl rfl
            · exact Or.inr (Or.inr rfl)
          obtain ⟨toks, t1, t2⟩ := ih m (by omega) (sepState c) _ l1 n1 n2 hss hrun
            ⟨front, last, hl1, hl2⟩
          refine ⟨(sepType c, [c]) :: toks, ?_, ?_⟩
          · rw [drop_cons_of_get hcur]
            exact Lexed.sep c _ toks hsep t1
          · rw [t2, n3]
            simp only [tokensAt, List.append_assoc, List.singleton_append]
            have e : byteOffset l.input (l.pos + 1) = byteOffset l.input l.pos + utf8Len [c] :=
              byteOffset_succ hcur
            have e1 : byteOffset (({ l with pos := l.pos + 1 } : lexer).emit (sepType c)).input
                (({ l with pos := l.pos + 1 } : lexer).emit (sepType c)).pos =
                byteOffset l.input (l.pos + 1) := rfl
            rw [e1, e]
      · cases ht : valueState E c with
        | some t => exact hval t ht (Or.inr rfl)
        | none => exact (herr _ rfl (lexValue_error E (Or.inr ⟨c, hcur, ht⟩))).elim

/-- A text under the cursor, from what is left of the input. -/
theorem lexer.at_text {l : lexer} {v rest : List Char} (hi : l.Inv) (hs : l.start = l.pos)
    (h : l.input.drop l.pos = v ++ rest) (hsep : ∀ c, rest.head? = some c → isSep c = true) :
    l.At (l.input.take l.pos) v rest 0 0 := by
  have hlen : (l.input.take l.pos).length = l.pos := by
    rw [List.length_take]
    have := hi.2
    omega
  refine ⟨?_, hsep, by rw [hlen]; rfl, by rw [hlen, hs]; rfl, le_refl _, Nat.zero_le _, hi⟩
  rw [← h, List.take_append_drop]

theorem get_of_drop {input : List Char} {n : Nat} {c : Char} {rest : List Char}
    (h : input.drop n = c :: rest) : input[n]? = some c ∧ input.drop (n + 1) = rest := by
  have hlt : n < input.length := by
    by_contra hc
    rw [List.drop_of_length_le (not_lt.mp hc)] at h
    cases h
  rw [List.drop_eq_getElem_cons hlt] at h
  cases h
  exact ⟨List.getElem?_eq_getElem hlt, rfl⟩

theorem tokensAt_zero_ne_nil (b : Nat) (toks : List (itemType × List Char)) :
    tokensAt b toks ≠ [] := by
  cases toks <;> simp [tokensAt]

/-- A sequence of tokens is read as it stands: the scanner, entered in the
state of the sequence with the text under the cursor, sends these tokens at
their byte offsets and the end-of-input token. -/
theorem Lexed.run {E : Lib} {s : stateFn} {text : List Char}
    {toks : List (itemType × List Char)} (h : Lexed E s text toks) :
    ∀ (l : lexer) (n : Nat), l.Inv → l.start = l.pos → l.input.drop l.pos = text →
      potential s l ≤ n →
      ∃ l1, lexer.runLoop E n s l = .ok l1 ∧
        l1.items = l.items ++ tokensAt (byteOffset l.input l.pos) toks := by
  induction h with
  | stop s hs =>
    intro l n hi hst htext hn
    have hcur : l.input[l.pos]? = none :=
      List.getElem?_eq_none_iff.mpr (List.drop_eq_nil_iff.mp htext)
    obtain ⟨e1, e2⟩ := lex_end E hcur
    have hcs : callState E s l = .ok (none, ({ l with atEOF := true } : lexer).emit .itemEOF) := by
      rcases hs with rfl | rfl
      · simp only [callState, e2]
      · simp only [callState, e1]
    obtain ⟨m, rfl⟩ : ∃ m, n = m + 1 := by
      refine ⟨n - 1, ?_⟩
      have : 1 ≤ potential s l := by
        simp only [potential]
        rcases hs with rfl | rfl <;> simp
      omega
    refine ⟨_, lexer.runLoop_none E m hcs, ?_⟩
    simp only [lexer.emit, tokensAt, hst, slice_self]
  | sep c rest toks hsep _ ih =>
    intro l n hi hst htext hn
    obtain ⟨hcur, hrest⟩ := get_of_drop htext
    have hlt := lexer.lt_of_get hcur
    have hcs : callState E .lexInArgument l = .ok (some (sepState c),
        ({ l with pos := l.pos + 1 } : lexer).emit (sepType c)) := by
      simp only [callState, lexInArgument_sep E hcur hsep]
    have ha := lexer.adv_next hi
    rw [lexer.next_some hcur] at ha
    obtain ⟨m, rfl⟩ : ∃ m, n = m + 1 := by
      refine ⟨n - 1, ?_⟩
      simp only [potential] at hn
      omega
    obtain ⟨l1, g1, g2⟩ := ih (({ l with pos := l.pos + 1 } : lexer).emit (sepType c)) m ha.inv
      rfl hrest (by
        have hp : potential (sepState c)
            (({ l with pos := l.pos + 1 } : lexer).emit (sepType c)) =
            2 * (l.input.length - (l.pos + 1)) + 2 := by
          simp only [potential, sepState, lexer.emit]
          split_ifs <;> rfl
        rw [hp]
        simp only [potential] at hn
        omega)
    refine ⟨l1, by rw [lexer.runLoop_some E m hcs]; exact g1, ?_⟩
    rw [g2]
    simp only [lexer.emit, tokensAt, List.append_assoc, List.singleton_append, hst,
      slice_one hcur, byteOffset_succ hcur]
  | value s v ty rest toks hs hloc hrest ih =>
    intro l n hi hst htext hn
    have hat := lexer.at_text hi hst htext hrest.head_sep
    obtain ⟨s1, l2, c1, c2, c3⟩ := hloc.enter l _ _ s hat hs
    have hlen : (l.input.take l.pos).length = l.pos := by
      rw [List.length_take]
      have := hi.2
      omega
    have hinput : l2.input = l.input := by
      rw [c3.stands.input, ← htext, List.take_append_drop]
    have hpos : l2.pos = l.pos + v.length := by rw [c3.stands.pos, hlen]
    have hvlen : 0 < v.length := List.length_pos.mpr hloc.nonempty
    have hle : l.pos + v.length ≤ l.input.length := by
      have := c3.stands.inv.2
      rw [hinput, hpos] at this
      exact this
    obtain ⟨m, rfl⟩ : ∃ m, n = m + 2 := by
      refine ⟨n - 2, ?_⟩
      simp only [potential] at hn
      rcases hs with rfl | rfl <;> simp only at hn <;> omega
    obtain ⟨l1, g1, g2⟩ := ih l2 m c3.stands.inv (by rw [c3.stands.start, c3.stands.pos])
      (by
        rw [hinput, hpos, ← List.drop_drop, htext]
        simp)
      (by
        simp only [potential] at hn ⊢
        rw [hinput, hpos]
        rcases hs with rfl | rfl <;> simp only at hn <;> omega)
    refine ⟨l1, by rw [lexer.runLoop_some E (m + 1) c1, lexer.runLoop_some E m c2]; exact g1, ?_⟩
    rw [g2, c3.items, hinput, hpos]
    simp only [tokensAt, List.append_assoc, List.singleton_append]
    have e1 : l.input.take l.pos ++ (v ++ rest) = l.input := by
      rw [← htext, List.take_append_drop]
    rw [e1, hlen, byteOffset_add, htext]
    simp
  | switch c v ty rest toks hm hloc hletter hrest ih =>
    intro l n hi hst htext hn
    obtain ⟨hcur, hrest1⟩ := get_of_drop htext
    have hlt := lexer.lt_of_get hcur
    have ha := lexer.adv_next hi
    rw [lexer.next_some hcur] at ha
    have hvlen : 0 < v.length := List.length_pos.mpr hloc.nonempty
    obtain ⟨d, w, rfl⟩ : ∃ d w, v = d :: w := by
      cases v with
      | nil => cases hvlen
      | cons d w => exact ⟨d, w, rfl⟩
    have hd : l.input[l.pos + 1]? = some d := (get_of_drop hrest1).1
    have hsw := lexArgumentStart_switch E hi hcur hm (by rw [hd]; exact hletter)
    have hcs : callState E .lexArgumentStart l = .ok (some .lexIdentifier,
        ({ l with pos := l.pos + 1 } : lexer).emit (markType c)) := by
      simp only [callState, hsw, markType, beq_iff_eq]
    have hat := lexer.at_text (l := ({ l with pos := l.pos + 1 } : lexer).emit (markType c))
      ha.inv rfl hrest1 hrest.head_sep
    obtain ⟨l2, c2, c3⟩ := hloc.ident hletter _ _ _ hat
    have hlen : (l.input.take (l.pos + 1)).length = l.pos + 1 := by
      rw [List.length_take]
      omega
    have hinput : l2.input = l.input := by
      rw [c3.stands.input]
      show l.input.take (l.pos + 1) ++ (d :: w ++ rest) = l.input
      rw [← hrest1, List.take_append_drop]
    have hpos : l2.pos = l.pos + 1 + (d :: w).length := by
      rw [c3.stands.pos]
      show (l.input.take (l.pos + 1)).length + (d :: w).length = _
      rw [hlen]
    have hle : l.pos + 1 + (d :: w).length ≤ l.input.length := by
      have := c3.stands.inv.2
      rw [hinput, hpos] at this
      exact this
    obtain ⟨m, rfl⟩ : ∃ m, n = m + 2 := by
      refine ⟨n - 2, ?_⟩
      simp only [potential] at hn
      omega
    obtain ⟨l1, g1, g2⟩ := ih l2 m c3.stands.inv (by rw [c3.stands.start, c3.stands.pos])
      (by
        rw [hinput, hpos, ← List.drop_drop, hrest1]
        simp)
      (by
        simp only [potential] at hn ⊢
        rw [hinput, hpos]
        simp only [List.length_cons] at hle ⊢
        omega)
    have c2a : callState E .lexIdentifier
        (({ l with pos := l.pos + 1 } : lexer).emit (markType c)) =
        .ok (some .lexInArgument, l2) := c2
    refine ⟨l1, by rw [lexer.runLoop_some E (m + 1) hcs, lexer.runLoop_some E m c2a]; exact g1, ?_⟩
    have hb : byteOffset l.input (l.pos + 1 + (d :: w).length) =
        byteOffset l.input l.pos + utf8Len [c] + utf8Len (d :: w) := by
      rw [byteOffset_add, hrest1, byteOffset_succ hcur]
      simp
    have e1 : l.input.take (l.pos + 1) ++ (d :: w ++ rest) = l.input := by
      rw [← hrest1, List.take_append_drop]
    rw [g2, c3.items, hinput, hpos, hb]
    have e4 : (({ l with pos := l.pos + 1 } : lexer).emit (markType c)).input = l.input := rfl
    have e5 : (({ l with pos := l.pos + 1 } : lexer).emit (markType c)).pos = l.pos + 1 := rfl
    have e6 : (({ l with pos := l.pos + 1 } : lexer).emit (markType c)).items =
        l.items ++ [⟨markType c, byteOffset l.input l.pos, String.mk [c]⟩] := by
      simp only [lexer.emit, hst, slice_one hcur]
    rw [e4, e5, e6, e1, hlen, byteOffset_succ hcur]
    simp only [tokensAt, List.append_assoc, List.singleton_append, List.cons_append,
      List.nil_append]

/-- The items of a text that is a sequence of tokens. -/
theorem lex_of_lexed (E : Lib) (inp : String) (toks : List (itemType × List Char))
    (h : Lexed E .lexArgumentStart inp.data toks) : lex E inp = .ok (tokensAt 0 toks) := by
  obtain ⟨l1, g1, g2⟩ := h.run ⟨inp.data, 0, 0, false, []⟩ (2 * inp.data.length + 2)
    ⟨fun h => Bool.noConfusion h, Nat.zero_le _⟩ rfl rfl (by simp [potential])
  simp only [lex, lexer.run, g1, g2]
  simp [byteOffset]

/-- The items of a scan that ends with the end-of-input token are a sequence
of tokens, each read the same wherever it stands. -/
theorem lexed_of_lex (E : Lib) (inp : String) (items : List item) (h : lex E inp = .ok items)
    (he : ∃ i ∈ items, i.typ = .itemEOF) :
    ∃ toks, Lexed E .lexArgumentStart inp.data toks ∧ items = tokensAt 0 toks := by
  obtain ⟨its, h1, front, last, h2, h3, h4⟩ := lex_scanned E inp
  rw [h] at h1
  cases h1
  simp only [List.nil_append] at h2
  have hlast : last.typ = .itemEOF := by
    obtain ⟨i, hi, hty⟩ := he
    rw [h2] at hi
    rcases List.mem_append.mp hi with hi | hi
    · exact absurd hty (h4 i hi).1
    · simp only [List.mem_singleton] at hi
      rw [← hi]
      exact hty
  cases hr : lexer.run E ⟨inp.data, 0, 0, false, []⟩ with
  | ok l1 =>
    have hit : l1.items = items := by
      simp only [lex, hr] at h
      cases h
      rfl
    obtain ⟨toks, t1, t2⟩ := lexer.runLoop_lexed E _ _ (le_refl _) .lexArgumentStart
      ⟨inp.data, 0, 0, false, []⟩ l1 ⟨fun h => Bool.noConfusion h, Nat.zero_le _⟩ rfl (Or.inl rfl)
      hr ⟨front, last, by rw [hit, h2], hlast⟩
    refine ⟨toks, t1, ?_⟩
    rw [← hit, t2]
    simp [byteOffset]
  | err m => simp only [lex, hr] at h; cases h
  | panic m => simp only [lex, hr] at h; cases h
  | diverge => simp only [lex, hr] at h; cases h


/-! # Literals as tokens, and what the parser makes of them -/

/-- The scanner alone on a text. -/
theorem lexer.at_alone (v : List Char) :
    (⟨v, 0, 0, false, []⟩ : lexer).At [] v [] 0 0 :=
  ⟨by simp, fun c hc => Option.noConfusion hc, rfl, rfl, le_refl _, Nat.zero_le _,
    ⟨fun h => Bool.noConfusion h, Nat.zero_le _⟩⟩

theorem wordType_identifier {x : String} (h1 : x ≠ "true") (h2 : x ≠ "false") (h3 : x ≠ "nil") :
    wordType x = .itemIdentifier := by
  simp [wordType, h1, h2, h3]

/-- An identifier is an identifier token wherever it stands. -/
theorem identifier_local (E : Lib) (x : String) (h : IsIdentifier E x) :
    Local E x.data .itemIdentifier := by
  obtain ⟨⟨c, w, hx, hc, hw⟩, n1, n2, n3⟩ := h
  obtain ⟨p1, good, -, -, hfull, hall⟩ := lexIdentifierLoop_local E x.data x.data.length 0
    (by omega) (Nat.zero_le _)
  have hrunes : ∀ i, 0 ≤ i → i < x.data.length → isIdentRune E x.data[i]? = true := by
    intro i _ hi
    rw [List.getElem?_eq_getElem hi]
    have hm : x.data[i] ∈ x.data := List.getElem_mem _
    generalize x.data[i] = d at hm ⊢
    rw [hx] at hm
    rcases List.mem_cons.mp hm with e | e
    · rw [e]
      simp [isIdentRune, isAlphaNumeric, hc]
    · have := hw _ e
      simp only [Bool.or_eq_true, beq_iff_eq] at this
      simp only [isIdentRune, isAlphaNumeric, Bool.or_eq_true, beq_iff_eq, Option.some.injEq]
      tauto
  obtain ⟨rfl, rfl⟩ := hfull hrunes
  have hat := lexer.at_alone x.data
  obtain ⟨r, e1, -, e3⟩ := hall _ [] [] (x.data.length + 1) hat (by simp)
  obtain ⟨e4, e5, e6⟩ := e3 rfl
  obtain ⟨r1, r2⟩ := r
  simp only at e4 e5 e6
  subst e4
  have hcur : (⟨x.data, 0, 0, false, []⟩ : lexer).input[(⟨x.data, 0, 0, false, []⟩ : lexer).pos]?
      = some c := by
    simp [hx]
  have hvs : valueState E c = some .lexIdentifier := by simp [valueState, hc]
  have h1 : callState E .lexValue ⟨x.data, 0, 0, false, []⟩ =
      .ok (some .lexIdentifier, ⟨x.data, 0, 0, false, []⟩) := by
    simp only [callState, lexValue_state E hat.inv hcur hvs]
  obtain ⟨ty, t1, t2⟩ := Local_of_run E hat (Or.inr rfl) h1 rfl e1 (by rw [e5.pos])
  have hty := t1.word (by rw [hx]; exact hc)
  have hxx : String.mk x.data = x := rfl
  rw [hxx, wordType_identifier n1 n2 n3] at hty
  rw [hty] at t1
  exact t1

/-- The items of a switch: the mark, the identifier, and the end of input. -/
theorem lex_switch (E : Lib) (c : Char) (x : String) (hc : c = '~' ∨ c = '!')
    (h : IsIdentifier E x) :
    lex E (String.mk [c] ++ x) = .ok [⟨markType c, 0, String.mk [c]⟩,
      ⟨.itemIdentifier, utf8Len [c], x⟩,
      ⟨.itemEOF, utf8Len [c] + utf8Len x.data, ""⟩] := by
  have hl := identifier_local E x h
  obtain ⟨⟨d, w, hx, hd, -⟩, -⟩ := h
  have hlex : Lexed E .lexArgumentStart (String.mk [c] ++ x).data
      [(markType c, [c]), (.itemIdentifier, x.data)] := by
    have := Lexed.switch c x.data .itemIdentifier [] [] hc hl (by rw [hx]; exact hd)
      (Lexed.stop .lexInArgument (Or.inr rfl))
    simpa using this
  rw [lex_of_lexed E _ _ hlex]
  simp [tokensAt]

/-- A switch: `Parse` on a mark and an identifier. -/
theorem Parse_switch (E : Lib) (c : Char) (x : String) (hc : c = '~' ∨ c = '!')
    (h : IsIdentifier E x) :
    ∃ t, Parse E (String.mk [c] ++ x) = .ok t ∧
      t.root = some ⟨0, [⟨0, some ⟨1, x⟩, .switchN ⟨0, ⟨1, x⟩, ⟨0, c == '~'⟩⟩⟩]⟩ := by
  have hl := lex_switch E c x hc h
  have hp := Parse_ref E _ _ hl
  have hu : utf8Len [c] = 1 := by
    rcases hc with rfl | rfl <;> rfl
  have hr : refParse E [⟨markType c, 0, String.mk [c]⟩, ⟨.itemIdentifier, utf8Len [c], x⟩,
      ⟨.itemEOF, utf8Len [c] + utf8Len x.data, ""⟩] =
      .ok [⟨0, some ⟨1, x⟩, .switchN ⟨0, ⟨1, x⟩, ⟨0, c == '~'⟩⟩⟩] := by
    rw [hu]
    rcases hc with rfl | rfl <;>
      simp [refParse, refArgs, refArgument, markType]
  rw [hr] at hp
  exact hp

theorem isDecDigit_facts {c : Char} (h : isDecDigit c = true) :
    containsRune "+-" (some c) = false ∧ containsRune "0123456789_" (some c) = true ∧
      (∀ E : Lib, valueState E c = some .lexNumber) := by
  simp only [isDecDigit, Bool.and_eq_true, decide_eq_true_eq] at h
  refine ⟨?_, containsRune_digits h.1 h.2, fun E => ?_⟩
  · simp only [containsRune, List.contains_eq_any_beq, List.any_cons, List.any_nil,
      Bool.or_false, Bool.or_eq_false_iff, beq_eq_false_iff_ne, ne_eq]
    constructor <;>
    · rintro rfl
      revert h
      decide
  · have h1 : c.toNat < 128 := by omega
    have h2 : isLetter E (some c) = false := by
      simp only [isLetter, h1, ↓reduceIte, Bool.or_eq_false_iff, Bool.and_eq_false_iff,
        decide_eq_false_iff_not]
      omega
    have h3 : isNumeric (some c) = true := by
      simp only [isNumeric, Bool.or_eq_true, beq_iff_eq, Bool.and_eq_true, decide_eq_true_eq]
      exact Or.inr h
    simp [valueState, h2, h3]

/-- A run of decimal digits that does not open with `0`, with or without a
sign before it, is a number token wherever it stands. -/
theorem number_local (E : Lib) (sign cs : List Char)
    (hs : sign = [] ∨ sign = ['+'] ∨ sign = ['-']) (hne : cs ≠ [])
    (hdig : ∀ c ∈ cs, isDecDigit c = true) (hnz : cs.head? ≠ some '0') :
    Local E (sign ++ cs) .itemNumber := by
  obtain ⟨c, w, rfl⟩ : ∃ c w, cs = c :: w := by
    cases cs with
    | nil => exact absurd rfl hne
    | cons c w => exact ⟨c, w, rfl⟩
  have hc0 : c ≠ '0' := fun h => hnz (by rw [h]; rfl)
  have hz : containsRune "0" (some c) = false := by
    simp only [containsRune, List.contains_eq_any_beq, List.any_cons, List.any_nil,
      Bool.or_false, beq_eq_false_iff_ne, ne_eq]
    exact hc0
  obtain ⟨p1, good, -, hfull, hall⟩ := lexNumber_local E (sign ++ c :: w)
  have hat := lexer.at_alone (sign ++ c :: w)
  have hget : ∀ i, i < (c :: w).length → ∃ d, (c :: w)[i]? = some d ∧ isDecDigit d = true := by
    intro i hi
    exact ⟨_, List.getElem?_eq_getElem hi, hdig _ (List.getElem_mem _)⟩
  have key : p1 = (sign ++ c :: w).length ∧ good = true ∧
      ∃ d, (sign ++ c :: w)[0]? = some d ∧ valueState E d = some .lexNumber := by
    rcases hs with rfl | rfl | rfl
    · have e := hfull 0 (by
        simp only [List.nil_append, List.getElem?_cons_zero, (isDecDigit_facts
          (hdig c (List.mem_cons_self _ _))).1, Bool.false_eq_true, ↓reduceIte])
        (by simpa using hz) (by
        intro i _ hi
        obtain ⟨d, h1, h2⟩ := hget i (by simpa using hi)
        simp only [List.nil_append, h1]
        exact (isDecDigit_facts h2).2.1)
      exact ⟨e.1, e.2, c, by simp, (isDecDigit_facts (hdig c (List.mem_cons_self _ _))).2.2 E⟩
    · have e := hfull 1 (by simp [containsRune]) (by simpa using hz) (by
        intro i hi1 hi
        obtain ⟨j, rfl⟩ : ∃ j, i = j + 1 := ⟨i - 1, by omega⟩
        obtain ⟨d, h1, h2⟩ := hget j (by simpa using hi)
        simp only [List.singleton_append, List.getElem?_cons_succ, h1]
        exact (isDecDigit_facts h2).2.1)
      exact ⟨e.1, e.2, '+', by simp, by simp [valueState, isLetter, isNumeric]⟩
    · have e := hfull 1 (by simp [containsRune]) (by simpa using hz) (by
        intro i hi1 hi
        obtain ⟨j, rfl⟩ : ∃ j, i = j + 1 := ⟨i - 1, by omega⟩
        obtain ⟨d, h1, h2⟩ := hget j (by simpa using hi)
        simp only [List.singleton_append, List.getElem?_cons_succ, h1]
        exact (isDecDigit_facts h2).2.1)
      exact ⟨e.1, e.2, '-', by simp, by simp [valueState, isLetter, isNumeric]⟩
  obtain ⟨rfl, rfl, d, hd, hvs⟩ := key
  obtain ⟨r, e1, -, e3⟩ := hall _ [] [] hat
  obtain ⟨e4, e5, e6⟩ := e3 rfl
  obtain ⟨r1, r2⟩ := r
  simp only at e4 e5 e6
  subst e4
  have h1 : callState E .lexValue ⟨sign ++ c :: w, 0, 0, false, []⟩ =
      .ok (some .lexNumber, ⟨sign ++ c :: w, 0, 0, false, []⟩) := by
    simp only [callState, lexValue_state E hat.inv hd hvs]
  obtain ⟨ty, t1, t2⟩ := Local_of_run E hat (Or.inr rfl) h1 rfl e1 (by rw [e5.pos])
  have hty : ty = .itemNumber := by
    have := t2.items
    rw [e6] at this
    simp only [List.nil_append, List.cons.injEq, item.mk.injEq, and_true] at this
    exact this.1.symm
  rw [hty] at t1
  exact t1

/-- The items of a single value token. -/
theorem lex_value (E : Lib) (v : List Char) (ty : itemType) (h : Local E v ty) :
    lex E (String.mk v) = .ok [⟨ty, 0, String.mk v⟩, ⟨.itemEOF, utf8Len v, ""⟩] := by
  have hlex : Lexed E .lexArgumentStart (String.mk v).data [(ty, v)] := by
    have := Lexed.value .lexArgumentStart v ty [] [] (Or.inl rfl) h
      (Lexed.stop .lexInArgument (Or.inr rfl))
    simpa using this
  rw [lex_of_lexed E _ _ hlex]
  simp [tokensAt]

/-- A number literal that `newNumber` refuses ends the parse in a panic. -/
theorem Parse_number_err (E : Lib) (v : List Char) (m : String)
    (h : Local E v .itemNumber) (he : newNumber E 0 (String.mk v) = .err m) :
    Parse E (String.mk v) = .panic m := by
  have hl := lex_value E v _ h
  have hp := Parse_ref E _ _ hl
  have hr : refParse E [⟨.itemNumber, 0, String.mk v⟩, ⟨.itemEOF, utf8Len v, ""⟩] =
      .panic m := by
    simp [refParse, refArgs, refArgument, refValue, refSimple, leafOf, he]
  rw [hr] at hp
  exact hp


/-! # Rendering and parsing again -/

theorem node.stripAll_eq_map (vs : List node) : node.stripAll vs = vs.map node.strip := by
  induction vs with
  | nil => rfl
  | cons v vs ih => simp [node.stripAll, ih]

theorem integerTests_pos (p q : Nat) (text : String) :
    integerTests q text = { integerTests p text with pos := q } := by
  simp only [integerTests]
  split_ifs <;> rfl

theorem floatTests_pos (E : Lib) (n : numberNode) (q f : Nat) :
    floatTests E { n with pos := q } f = { floatTests E n f with pos := q } := by
  simp only [floatTests]
  split_ifs <;> rfl

theorem numberChecked_pos (E : Lib) (n n1 : numberNode) (q : Nat)
    (h : numberChecked E n = .ok n1) :
    numberChecked E { n with pos := q } = .ok { n1 with pos := q } := by
  unfold numberChecked at h ⊢
  split_ifs at h with hc
  cases h
  simp only at hc ⊢
  rw [if_neg hc]

/-- The position of a Number is the one given; nothing else depends on it. -/
theorem newNumber_pos (E : Lib) (p q : Nat) (text : String) (n : numberNode)
    (h : newNumber E p text = .ok n) : newNumber E q text = .ok { n with pos := q } := by
  unfold newNumber at h ⊢
  simp only [] at h ⊢
  rw [integerTests_pos p q text]
  simp only []
  split_ifs at h ⊢
  · exact numberChecked_pos E _ _ q h
  · exact numberChecked_pos E _ _ q h
  · split at h
    · cases h
    · exact numberChecked_pos E _ _ q h
  · split at h
    · rename_i f _
      have := numberChecked_pos E _ _ q h
      have e := floatTests_pos E (integerTests p text) q f
      simp only at e this
      rw [e]
      exact this
    · exact numberChecked_pos E _ _ q h

theorem numberChecked_text (E : Lib) (n n1 : numberNode) (h : numberChecked E n = .ok n1) :
    n1.Text = n.Text := by
  unfold numberChecked at h
  split_ifs at h
  cases h
  rfl

theorem integerTests_text (p : Nat) (text : String) : (integerTests p text).Text = text := by
  simp only [integerTests]
  split_ifs <;> rfl

theorem floatTests_text (E : Lib) (n : numberNode) (f : Nat) :
    (floatTests E n f).Text = n.Text := by
  simp only [floatTests]
  split_ifs <;> rfl

/-- The text of a Number is the text it was made from. -/
theorem newNumber_text (E : Lib) (p : Nat) (text : String) (n : numberNode)
    (h : newNumber E p text = .ok n) : n.Text = text := by
  unfold newNumber at h
  simp only [] at h
  split_ifs at h
  · rw [numberChecked_text E _ _ h]
    exact integerTests_text p text
  · rw [numberChecked_text E _ _ h]
    exact integerTests_text p text
  · split at h
    · cases h
    · rw [numberChecked_text E _ _ h]
      exact integerTests_text p text
  · split at h
    · rw [numberChecked_text E _ _ h, floatTests_text]
      exact integerTests_text p text
    · rw [numberChecked_text E _ _ h]
      exact integerTests_text p text

/-- The node of a token depends on the position of the token only in its
byte offset. -/
theorem leafOf_same (E : Lib) {a b : item} {n : node} (hs : a.Same b)
    (h : leafOf E a = .ok n) : ∃ n1, leafOf E b = .ok n1 ∧ n1.strip = n.strip := by
  obtain ⟨ty, pa, va⟩ := a
  obtain ⟨tb, pb, vb⟩ := b
  obtain ⟨h1, h2⟩ := hs
  simp only at h1 h2
  subst h1 h2
  unfold leafOf at h ⊢
  cases ty <;> simp only at h ⊢
  · cases h
  · cases h
  · cases h
    exact ⟨_, rfl, rfl⟩
  · cases h
    exact ⟨_, rfl, rfl⟩
  · cases hn : newNumber E pa va with
    | ok m =>
      rw [hn] at h
      cases h
      rw [newNumber_pos E pa pb va m hn]
      exact ⟨_, rfl, rfl⟩
    | err m => rw [hn] at h; cases h
    | panic m => rw [hn] at h; cases h
    | diverge => rw [hn] at h; cases h
  · split_ifs at h ⊢
    cases hu : unquote E (String.mk (va.data.drop 1).dropLast) with
    | none => rw [hu] at h; cases h
    | some s =>
      rw [hu] at h
      cases h
      exact ⟨_, rfl, rfl⟩
  · cases h
    exact ⟨_, rfl, rfl⟩
  all_goals cases h

theorem wordType_nil {w : String} (h : wordType w = .itemNil) : w = "nil" := by
  simp only [wordType] at h
  split_ifs at h with h1 h2
  simpa using h2

theorem wordType_bool {w : String} (h : wordType w = .itemBool) : w = "true" ∨ w = "false" := by
  simp only [wordType] at h
  split_ifs at h with h1 h2
  simpa using h1

theorem Local.nil_text {E : Lib} {v : List Char} (h : Local E v .itemNil) : v = "nil".data := by
  have := h.word (h.letter (by simp) (by simp))
  have := wordType_nil this.symm
  exact congrArg String.data this

theorem Local.bool_text {E : Lib} {v : List Char} (h : Local E v .itemBool) :
    v = "true".data ∨ v = "false".data := by
  have := h.word (h.letter (by simp) (by simp))
  rcases wordType_bool this.symm with e | e
  · exact Or.inl (congrArg String.data e)
  · exact Or.inr (congrArg String.data e)

/-- The node of a value token that the scanner sent is a simple value node
that came from a token. -/
theorem leafOf_ok (E : Lib) {tok : item} {n : node} (hl : Local E tok.val.data tok.typ)
    (h : leafOf E tok = .ok n) : LeafOK E n ∧ leafTok n = (tok.typ, tok.val.data) := by
  have hagain : ∀ (n0 : node), leafTok n0 = (tok.typ, tok.val.data) → n0.isLeaf = true →
      leafOf E tok = .ok n0 → LeafOK E n0 ∧ leafTok n0 = (tok.typ, tok.val.data) := by
    intro n0 ht hleaf h0
    refine ⟨⟨hleaf, by rw [ht]; exact hl, fun b => ?_⟩, ht⟩
    rw [ht]
    exact leafOf_same E (a := tok) (b := ⟨tok.typ, b, String.mk tok.val.data⟩) ⟨rfl, rfl⟩ h0
  obtain ⟨ty, p, va⟩ := tok
  simp only at hl hagain
  unfold leafOf at h
  cases ty <;> simp only at h
  · cases h
  · cases h
  · cases h
    refine hagain _ ?_ rfl rfl
    rw [hl.nil_text]
    rfl
  · cases h
    refine hagain _ ?_ rfl rfl
    have hv : va = String.mk va.data := rfl
    rcases hl.bool_text with e | e <;> rw [hv, e] <;> rfl
  · cases hn : newNumber E p va with
    | ok m =>
      rw [hn] at h
      cases h
      refine hagain _ ?_ rfl (by simp only [leafOf, hn])
      simp only [leafTok, newNumber_text E p va m hn]
    | err m => rw [hn] at h; cases h
    | panic m => rw [hn] at h; cases h
    | diverge => rw [hn] at h; cases h
  · split_ifs at h with hlen
    cases hu : unquote E (String.mk (va.data.drop 1).dropLast) with
    | none => rw [hu] at h; cases h
    | some s =>
      rw [hu] at h
      cases h
      exact hagain _ rfl rfl (by simp only [leafOf, hlen, ↓reduceIte, hu])
  · cases h
    exact hagain _ rfl rfl rfl
  all_goals cases h

theorem leafOf_value (E : Lib) {tok : item} {n : node} (h : leafOf E tok = .ok n) :
    tok.typ.isValue = true := by
  unfold leafOf at h
  split at h <;> simp_all [itemType.isValue]

theorem AllLocal.suffix {E : Lib} {L R : List item} (h : AllLocal E L) (hs : R <:+ L) :
    AllLocal E R :=
  fun tok ht => h tok (hs.subset ht)

theorem headD_mem_of_value {L : List item} (h : (L.headD zeroItem).typ.isValue = true) :
    L.headD zeroItem ∈ L := by
  cases L with
  | nil => cases h
  | cons a L => exact List.mem_cons_self _ _

theorem refSimple_ok (E : Lib) {L : List item} {v : node × List item} (hl : AllLocal E L)
    (h : refSimple E L = .ok v) :
    LeafOK E v.1 ∧ leafTok v.1 = ((L.headD zeroItem).typ, (L.headD zeroItem).val.data) ∧
      v.2 = L.tail := by
  unfold refSimple at h
  cases hs : leafOf E (L.headD zeroItem) with
  | ok n =>
    rw [hs] at h
    cases h
    have hv := leafOf_value E hs
    have := leafOf_ok E (hl _ (headD_mem_of_value hv) hv) hs
    exact ⟨this.1, this.2, rfl⟩
  | err m => rw [hs] at h; cases h
  | panic m => rw [hs] at h; cases h
  | diverge => rw [hs] at h; cases h

theorem refRest_ok (E : Lib) :
    ∀ (k : Nat) (L : List item), L.length ≤ k → ∀ (r : List node × List item), AllLocal E L →
      refRest E L = .ok r → (∀ n ∈ r.1, LeafOK E n) ∧ r.2 <:+ L := by
  intro k
  induction k with
  | zero =>
    intro L hk r _ h
    obtain rfl : L = [] := List.length_eq_zero.mp (by omega)
    simp only [refRest] at h
    cases h
    exact ⟨fun n hn => absurd hn (List.not_mem_nil n), List.suffix_refl _⟩
  | succ k ih =>
    intro L hk r hl h
    match L, hk, hl, h with
    | [], _, _, h =>
      simp only [refRest] at h
      cases h
      exact ⟨fun n hn => absurd hn (List.not_mem_nil n), List.suffix_refl _⟩
    | [tok], _, _, h =>
      simp only [refRest] at h
      split_ifs at h
      · have hz : leafOf E zeroItem = .panic ("unexpected " ++ zeroItem.String E) := rfl
        rw [hz] at h
        cases h
      · cases h
        exact ⟨fun n hn => absurd hn (List.not_mem_nil n), List.suffix_refl _⟩
    | tok :: v :: rest, hk, hl, h =>
      simp only [refRest] at h
      split_ifs at h
      · cases hs : leafOf E v with
        | ok n =>
          rw [hs] at h
          simp only [] at h
          cases hr : refRest E rest with
          | ok r1 =>
            rw [hr] at h
            cases h
            have hrest : AllLocal E rest := hl.suffix ⟨[tok, v], rfl⟩
            obtain ⟨i1, i2⟩ := ih rest (by simp only [List.length_cons] at hk; omega) r1 hrest hr
            have hv := leafOf_value E hs
            have hn := (leafOf_ok E (hl v (by simp) hv) hs).1
            refine ⟨?_, ?_⟩
            · intro x hx
              rcases List.mem_cons.mp hx with rfl | hx
              · exact hn
              · exact i1 x hx
            · exact i2.trans ⟨[tok, v], rfl⟩
          | err m => rw [hr] at h; cases h
          | panic m => rw [hr] at h; cases h
          | diverge => rw [hr] at h; cases h
        | err m => rw [hs] at h; cases h
        | panic m => rw [hs] at h; cases h
        | diverge => rw [hs] at h; cases h
      · cases h
        exact ⟨fun n hn => absurd hn (List.not_mem_nil n), List.suffix_refl _⟩

theorem refRest_nonempty (E : Lib) {L : List item} {r : List node × List item}
    (h : refRest E L = .ok r) (hs : (L.headD zeroItem).typ = .itemListSeparator) :
    ∃ n ns, r.1 = n :: ns := by
  match L, h, hs with
  | [], _, hs => cases hs
  | [tok], h, hs =>
    simp only [List.headD_cons] at hs
    simp only [refRest, hs, beq_self_eq_true, ↓reduceIte] at h
    have hz : leafOf E zeroItem = .panic ("unexpected " ++ zeroItem.String E) := rfl
    rw [hz] at h
    cases h
  | tok :: v :: rest, h, hs =>
    simp only [List.headD_cons] at hs
    simp only [refRest, hs, beq_self_eq_true, ↓reduceIte] at h
    cases hl : leafOf E v with
    | ok n =>
      rw [hl] at h
      simp only [] at h
      cases hr : refRest E rest with
      | ok r1 =>
        rw [hr] at h
        cases h
        exact ⟨_, _, rfl⟩
      | err m => rw [hr] at h; cases h
      | panic m => rw [hr] at h; cases h
      | diverge => rw [hr] at h; cases h
    | err m => rw [hl] at h; cases h
    | panic m => rw [hl] at h; cases h
    | diverge => rw [hl] at h; cases h

theorem refValue_ok (E : Lib) {L : List item} {v : node × List item} (hl : AllLocal E L)
    (h : refValue E L = .ok v) : ValueOK E v.1 ∧ v.2 <:+ L := by
  unfold refValue at h
  split_ifs at h with hsep
  · cases hs : refSimple E L with
    | ok s =>
      rw [hs] at h
      simp only [] at h
      obtain ⟨s1, -, s3⟩ := refSimple_ok E hl hs
      cases hr : refRest E s.2 with
      | ok r =>
        rw [hr] at h
        cases h
        have hl2 : AllLocal E s.2 := by
          rw [s3]
          exact hl.suffix (List.tail_suffix L)
        obtain ⟨r1, r2⟩ := refRest_ok E _ _ (le_refl _) r hl2 hr
        obtain ⟨n, ns, hn⟩ := refRest_nonempty E hr (by rw [s3]; simpa using hsep)
        refine ⟨Or.inr ⟨_, s.1, n, ns, by rw [hn], ?_⟩, ?_⟩
        · intro x hx
          rcases List.mem_cons.mp hx with rfl | hx
          · exact s1
          · exact r1 x (by rw [hn]; exact hx)
        · rw [s3] at r2
          exact r2.trans (List.tail_suffix L)
      | err m => rw [hr] at h; cases h
      | panic m => rw [hr] at h; cases h
      | diverge => rw [hr] at h; cases h
    | err m => rw [hs] at h; cases h
    | panic m => rw [hs] at h; cases h
    | diverge => rw [hs] at h; cases h
  · obtain ⟨s1, -, s3⟩ := refSimple_ok E hl h
    exact ⟨Or.inl s1, by rw [s3]; exact List.tail_suffix L⟩

theorem headD_mem {L : List item} (h : (L.headD zeroItem).typ ≠ .itemError) :
    L.headD zeroItem ∈ L := by
  cases L with
  | nil => exact absurd rfl h
  | cons a L => exact List.mem_cons_self _ _

theorem refArgument_ok (E : Lib) {L : List item} {a : argumentNode × List item}
    (hl : AllLocal E L) (h : refArgument E L = .ok a) : ArgOK E a.1 ∧ a.2 <:+ L := by
  unfold refArgument at h
  split_ifs at h with h1 h2 h3
  · cases h
    simp only [bne_iff_ne, ne_eq, Decidable.not_not] at h2
    have hm : L.tail.headD zeroItem ∈ L :=
      (List.tail_suffix L).subset (headD_mem (by rw [h2]; simp))
    have := hl _ hm (by rw [h2]; rfl)
    rw [h2] at this
    exact ⟨Or.inl ⟨_, rfl, rfl, this⟩, (List.tail_suffix _).trans (List.tail_suffix L)⟩
  · simp only [Bool.and_eq_true, beq_iff_eq] at h3
    cases hv : refValue E L.tail.tail with
    | ok v =>
      rw [hv] at h
      cases h
      have hl2 : AllLocal E L.tail.tail :=
        hl.suffix ((List.tail_suffix _).trans (List.tail_suffix L))
      obtain ⟨v1, v2⟩ := refValue_ok E hl2 hv
      have hm : L.headD zeroItem ∈ L := headD_mem (by rw [h3.1]; simp)
      have := hl _ hm (by rw [h3.1]; rfl)
      rw [h3.1] at this
      refine ⟨Or.inr ⟨v1, ?_⟩, v2.trans ((List.tail_suffix _).trans (List.tail_suffix L))⟩
      intro ident hi
      cases hi
      exact this
    | err m => rw [hv] at h; cases h
    | panic m => rw [hv] at h; cases h
    | diverge => rw [hv] at h; cases h
  · cases hv : refValue E L with
    | ok v =>
      rw [hv] at h
      cases h
      obtain ⟨v1, v2⟩ := refValue_ok E hl hv
      exact ⟨Or.inr ⟨v1, fun ident hi => by cases hi⟩, v2⟩
    | err m => rw [hv] at h; cases h
    | panic m => rw [hv] at h; cases h
    | diverge => rw [hv] at h; cases h

theorem refArgs_ok (E : Lib) :
    ∀ (n : Nat) (L : List item) (acc nodes : List argumentNode), AllLocal E L →
      refArgs E n L acc = .ok nodes → (∀ a ∈ acc, ArgOK E a) → ∀ a ∈ nodes, ArgOK E a := by
  intro n
  induction n with
  | zero =>
    intro L acc nodes _ h
    cases h
  | succ n ih =>
    intro L acc nodes hl h hacc
    unfold refArgs at h
    split_ifs at h
    · cases h
      exact hacc
    · cases ha : refArgument E L with
      | ok a =>
        rw [ha] at h
        simp only [] at h
        obtain ⟨a1, a2⟩ := refArgument_ok E hl ha
        have hacc1 : ∀ x ∈ acc ++ [a.1], ArgOK E x := by
          intro x hx
          rcases List.mem_append.1 hx with hx | hx
          · exact hacc x hx
          · simp only [List.mem_singleton] at hx
            rw [hx]
            exact a1
        split_ifs at h
        · cases h
          exact hacc1
        · exact ih _ _ _ (hl.suffix ((List.tail_suffix _).trans a2)) h hacc1
      | err m => rw [ha] at h; cases h
      | panic m => rw [ha] at h; cases h
      | diverge => rw [ha] at h; cases h

theorem sepType_not_value (c : Char) : (sepType c).isValue = false := by
  simp only [sepType]
  split_ifs <;> rfl

theorem markType_not_value (c : Char) : (markType c).isValue = false := by
  simp only [markType]
  split_ifs <;> rfl

/-- Every value token of a sequence of tokens is a token wherever it stands. -/
theorem Lexed.allLocal {E : Lib} {s : stateFn} {text : List Char}
    {toks : List (itemType × List Char)} (h : Lexed E s text toks) :
    ∀ b, AllLocal E (tokensAt b toks) := by
  induction h with
  | stop s hs =>
    intro b tok ht hv
    simp only [tokensAt, List.mem_singleton] at ht
    subst ht
    cases hv
  | sep c rest toks hsep _ ih =>
    intro b tok ht hv
    simp only [tokensAt, List.mem_cons] at ht
    rcases ht with rfl | ht
    · rw [sepType_not_value] at hv
      cases hv
    · exact ih _ tok ht hv
  | value s v ty rest toks hs hloc _ ih =>
    intro b tok ht hv
    simp only [tokensAt, List.mem_cons] at ht
    rcases ht with rfl | ht
    · exact hloc
    · exact ih _ tok ht hv
  | switch c v ty rest toks hm hloc _ _ ih =>
    intro b tok ht hv
    simp only [tokensAt, List.mem_cons] at ht
    rcases ht with rfl | rfl | ht
    · rw [markType_not_value] at hv
      cases hv
    · exact hloc
    · exact ih _ tok ht hv

/-- A parse that succeeds: the items of the scanner are a sequence of tokens
each read the same wherever it stands, and the arguments of the root are
what the reference parser makes of them, each come from tokens. -/
theorem Parse_ok_args (E : Lib) (inp : String) (t : tree) (h : Parse E inp = .ok t) :
    ∃ toks nodes, Lexed E .lexArgumentStart inp.data toks ∧
      lex E inp = .ok (tokensAt 0 toks) ∧ refParse E (tokensAt 0 toks) = .ok nodes ∧
      t.root = some ⟨0, nodes⟩ ∧ ∀ a ∈ nodes, ArgOK E a := by
  obtain ⟨items, nodes, h1, h2, h3⟩ := Parse_ok_ref E inp t h
  have hs := Parse_spec E inp
  rw [h] at hs
  obtain ⟨⟨its, e1, e2⟩, -⟩ := hs
  rw [h1] at e1
  cases e1
  obtain ⟨toks, t1, t2⟩ := lexed_of_lex E inp items h1 e2
  subst t2
  refine ⟨toks, nodes, t1, h1, h2, ?_, ?_⟩
  · rw [h3]
    cases toks <;> rfl
  · exact refArgs_ok E _ _ _ _ (t1.allLocal 0) h2 (fun a ha => by cases ha)

theorem refRest_stop (E : Lib) (L : List item)
    (h : (L.headD zeroItem).typ ≠ .itemListSeparator) : refRest E L = .ok ([], L) := by
  match L, h with
  | [], _ => rfl
  | [tok], h =>
    simp only [List.headD_cons] at h
    simp [refRest, h]
  | tok :: v :: rest, h =>
    simp only [List.headD_cons] at h
    simp [refRest, h]

theorem LeafOK.typ_facts {E : Lib} {n : node} (h : LeafOK E n) :
    (leafTok n).1 ≠ .itemDisable ∧ (leafTok n).1 ≠ .itemEnable ∧ (leafTok n).1 ≠ .itemEOF ∧
      (leafTok n).1 ≠ .itemListSeparator := by
  have := h.loc.kind
  revert this
  cases (leafTok n).1 <;> simp [itemType.isValue]

/-- The reference on the rendered values of a Slice after the first. -/
theorem refRest_canon (E : Lib) (R : List (itemType × List Char))
    (hR : ∀ b, ((tokensAt b R).headD zeroItem).typ ≠ .itemListSeparator) :
    ∀ (vs : List node) (b : Nat), (∀ v ∈ vs, LeafOK E v) →
      ∃ ns b1, refRest E (tokensAt b (restToks vs ++ R)) = .ok (ns, tokensAt b1 R) ∧
        ns.map node.strip = vs.map node.strip := by
  intro vs
  induction vs with
  | nil =>
    intro b _
    exact ⟨[], b, refRest_stop E _ (hR b), rfl⟩
  | cons v vs ih =>
    intro b hv
    obtain ⟨n1, e1, e2⟩ := (hv v (List.mem_cons_self _ _)).again (b + utf8Len [';'])
    obtain ⟨ns, b1, e3, e4⟩ := ih (b + utf8Len [';'] + utf8Len (leafTok v).2)
      (fun x hx => hv x (List.mem_cons_of_mem _ hx))
    refine ⟨n1 :: ns, b1, ?_, by simp [e2, e4]⟩
    have e5 : tokensAt b (restToks (v :: vs) ++ R) =
        ⟨.itemListSeparator, b, String.mk [';']⟩ ::
          ⟨(leafTok v).1, b + utf8Len [';'], String.mk (leafTok v).2⟩ ::
            tokensAt (b + utf8Len [';'] + utf8Len (leafTok v).2) (restToks vs ++ R) := rfl
    rw [e5]
    simp only [refRest, beq_self_eq_true, ↓reduceIte, e1, e3]

/-- The reference on a rendered value. -/
theorem refValue_canon (E : Lib) (R : List (itemType × List Char))
    (hR : ∀ b, ((tokensAt b R).headD zeroItem).typ ≠ .itemListSeparator)
    (n : node) (b : Nat) (h : ValueOK E n) :
    ∃ n1 b1, refValue E (tokensAt b (valueToks n ++ R)) = .ok (n1, tokensAt b1 R) ∧
      n1.strip = n.strip := by
  rcases h with h | ⟨p, v1, v2, vs, rfl, hv⟩
  · obtain ⟨n1, e1, e2⟩ := h.again b
    have hvt : valueToks n = [leafTok n] := by
      have := h.leaf
      cases n <;> first | rfl | cases this
    refine ⟨n1, b + utf8Len (leafTok n).2, ?_, e2⟩
    have hsec := hR (b + utf8Len (leafTok n).2)
    simp only [hvt, List.singleton_append, tokensAt, refValue, List.tail_cons, beq_iff_eq, hsec,
      ↓reduceIte, refSimple, List.headD_cons, e1]
  · obtain ⟨n1, e1, e2⟩ := (hv v1 (List.mem_cons_self _ _)).again b
    obtain ⟨ns, b1, e3, e4⟩ := refRest_canon E R hR (v2 :: vs) (b + utf8Len (leafTok v1).2)
      (fun x hx => hv x (List.mem_cons_of_mem _ hx))
    refine ⟨.sliceN n1.getPosition (n1 :: ns), b1, ?_, ?_⟩
    · have e5 : tokensAt b (valueToks (.sliceN p (v1 :: v2 :: vs)) ++ R) =
          ⟨(leafTok v1).1, b, String.mk (leafTok v1).2⟩ ::
            tokensAt (b + utf8Len (leafTok v1).2) (restToks (v2 :: vs) ++ R) := rfl
      have e6 : ((tokensAt (b + utf8Len (leafTok v1).2) (restToks (v2 :: vs) ++ R)).headD
          zeroItem).typ = .itemListSeparator := rfl
      rw [e5]
      simp only [refValue, List.tail_cons, e6, beq_self_eq_true, ↓reduceIte, refSimple,
        List.headD_cons, e1, e3]
    · simp only [node.strip, node.stripAll_eq_map, List.map_cons, e2]
      simp only [List.map_cons] at e4
      rw [e4]

theorem valueToks_head {E : Lib} {n : node} (h : ValueOK E n) :
    ∃ m rest, LeafOK E m ∧ valueToks n = leafTok m :: rest ∧
      (rest = [] ∨ ∃ r, rest = (.itemListSeparator, [';']) :: r) := by
  rcases h with h | ⟨p, v1, v2, vs, rfl, hv⟩
  · have hvt : valueToks n = [leafTok n] := by
      have := h.leaf
      cases n <;> first | rfl | cases this
    exact ⟨n, [], h, hvt, Or.inl rfl⟩
  · exact ⟨v1, _, hv v1 (List.mem_cons_self _ _), rfl, Or.inr ⟨_, rfl⟩⟩

theorem ValueOK.not_switch {E : Lib} {n : node} (h : ValueOK E n) (sw : switchNode) :
    n ≠ .switchN sw := by
  rintro rfl
  rcases h with h | ⟨p, v1, v2, vs, h, -⟩
  · cases h.leaf
  · cases h

theorem argToks_some {E : Lib} {a : argumentNode} {ident : identifierNode}
    (h : ValueOK E a.value) (hi : a.ident = some ident) :
    argToks a = (.itemIdentifier, ident.value.data) :: (.itemAssign, ['=']) ::
      valueToks a.value := by
  obtain ⟨p, i, v⟩ := a
  simp only at h hi
  subst hi
  cases v with
  | switchN sw => exact absurd rfl (h.not_switch sw)
  | _ => rfl

theorem argToks_none {E : Lib} {a : argumentNode} (h : ValueOK E a.value)
    (hi : a.ident = none) : argToks a = valueToks a.value := by
  obtain ⟨p, i, v⟩ := a
  simp only at h hi
  subst hi
  cases v with
  | switchN sw => exact absurd rfl (h.not_switch sw)
  | _ => rfl

/-- The reference on a rendered argument. -/
theorem refArgument_canon (E : Lib) (R : List (itemType × List Char))
    (hR : ∀ b, ((tokensAt b R).headD zeroItem).typ ≠ .itemListSeparator)
    (hR2 : ∀ b, ((tokensAt b R).headD zeroItem).typ ≠ .itemAssign)
    (a : argumentNode) (b : Nat) (h : ArgOK E a) :
    ∃ a1 b1, refArgument E (tokensAt b (argToks a ++ R)) = .ok (a1, tokensAt b1 R) ∧
      a1.strip = a.strip := by
  rcases h with ⟨sw, h1, h2, h3⟩ | ⟨h1, h2⟩
  · obtain ⟨p, i, v⟩ := a
    simp only at h1 h2
    subst h1
    obtain ⟨c, hc⟩ : ∃ c, c = (if sw.value.value = true then '~' else '!') := ⟨_, rfl⟩
    have hm : (markType c == .itemDisable || markType c == .itemEnable) = true ∧
        (markType c == .itemEnable) = sw.value.value := by
      rw [hc]
      cases sw.value.value <;> exact ⟨rfl, rfl⟩
    have e5 : tokensAt b (argToks ⟨p, i, .switchN sw⟩ ++ R) =
        ⟨markType c, b, String.mk [c]⟩ ::
          ⟨.itemIdentifier, b + utf8Len [c], String.mk sw.ident.value.data⟩ ::
            tokensAt (b + utf8Len [c] + utf8Len sw.ident.value.data) R := by
      rw [hc]
      rfl
    refine ⟨⟨b, some ⟨b + utf8Len [c], sw.ident.value⟩,
      .switchN ⟨b, ⟨b + utf8Len [c], sw.ident.value⟩, ⟨b, markType c == .itemEnable⟩⟩⟩,
      b + utf8Len [c] + utf8Len sw.ident.value.data, ?_, ?_⟩
    · rw [e5]
      simp only [refArgument, List.headD_cons, List.tail_cons, hm.1, ↓reduceIte, bne_self_eq_false,
        Bool.false_eq_true]
    · simp only [argumentNode.strip, node.strip, identifierNode.strip, hm.2, Option.map_some',
        h2]
  · obtain ⟨m, rest, hm, hvt, hrest⟩ := valueToks_head h1
    obtain ⟨t1, t2, t3, t4⟩ := hm.typ_facts
    cases hi : a.ident with
    | some ident =>
      have hl := h2 ident hi
      obtain ⟨n1, b1, e1, e2⟩ := refValue_canon E R hR a.value
        (b + utf8Len ident.value.data + utf8Len ['=']) h1
      have e5 : tokensAt b (argToks a ++ R) =
          ⟨.itemIdentifier, b, String.mk ident.value.data⟩ ::
            ⟨.itemAssign, b + utf8Len ident.value.data, String.mk ['=']⟩ ::
              tokensAt (b + utf8Len ident.value.data + utf8Len ['=']) (valueToks a.value ++ R) := by
        rw [argToks_some h1 hi]
        rfl
      refine ⟨⟨b, some ⟨b, ident.value⟩, n1⟩, b1, ?_, ?_⟩
      · rw [e5]
        simp only [refArgument, List.headD_cons, List.tail_cons, beq_self_eq_true, Bool.and_self,
          ↓reduceIte, e1]
        simp
      · simp only [argumentNode.strip, hi, Option.map_some', identifierNode.strip, e2]
    | none =>
      obtain ⟨n1, b1, e1, e2⟩ := refValue_canon E R hR a.value b h1
      have e5 : tokensAt b (argToks a ++ R) =
          ⟨(leafTok m).1, b, String.mk (leafTok m).2⟩ ::
            tokensAt (b + utf8Len (leafTok m).2) (rest ++ R) := by
        rw [argToks_none h1 hi, hvt]
        rfl
      have e6 : ((tokensAt (b + utf8Len (leafTok m).2) (rest ++ R)).headD zeroItem).typ ≠
          .itemAssign := by
        rcases hrest with rfl | ⟨r, rfl⟩
        · exact hR2 _
        · simp [tokensAt]
      have e7 : tokensAt b (valueToks a.value ++ R) = tokensAt b (argToks a ++ R) := by
        rw [argToks_none h1 hi]
      refine ⟨⟨n1.getPosition, none, n1⟩, b1, ?_, ?_⟩
      · rw [e7] at e1
        rw [e5] at e1 ⊢
        simp only [refArgument, List.headD_cons, List.tail_cons, beq_iff_eq, t1, t2, or_self,
          ↓reduceIte, Bool.and_eq_true, e6, and_false, e1, Bool.or_eq_true]
      · simp only [argumentNode.strip, hi, Option.map_none', e2]

theorem argToks_head {E : Lib} {a : argumentNode} (h : ArgOK E a) :
    ∃ tk rest, argToks a = tk :: rest ∧ tk.1 ≠ .itemEOF := by
  rcases h with ⟨sw, h1, -, -⟩ | ⟨h1, -⟩
  · obtain ⟨p, i, v⟩ := a
    simp only at h1
    subst h1
    refine ⟨_, _, rfl, ?_⟩
    simp only [markType]
    split_ifs <;> simp
  · obtain ⟨m, rest, hm, hvt, -⟩ := valueToks_head h1
    cases hi : a.ident with
    | some ident => exact ⟨_, _, argToks_some h1 hi, by simp⟩
    | none =>
      rw [argToks_none h1 hi, hvt]
      exact ⟨_, _, rfl, hm.typ_facts.2.2.1⟩

theorem moreToks_head (as : List argumentNode) (b : Nat) :
    ((tokensAt b (moreToks as)).headD zeroItem).typ ≠ .itemListSeparator ∧
      ((tokensAt b (moreToks as)).headD zeroItem).typ ≠ .itemAssign := by
  cases as <;> simp [moreToks, tokensAt]

/-- The reference on the rendered arguments of a list. -/
theorem refArgs_canon (E : Lib) :
    ∀ (nodes : List argumentNode) (b : Nat) (acc : List argumentNode) (n : Nat),
      (∀ a ∈ nodes, ArgOK E a) → nodes.length < n →
      ∃ nodes1, refArgs E n (tokensAt b (listToks nodes)) acc = .ok (acc ++ nodes1) ∧
        nodes1.map argumentNode.strip = nodes.map argumentNode.strip := by
  intro nodes
  induction nodes with
  | nil =>
    intro b acc n _ hn
    obtain ⟨k, rfl⟩ : ∃ k, n = k + 1 := ⟨n - 1, by simp at hn; omega⟩
    exact ⟨[], by simp [refArgs, listToks, tokensAt], rfl⟩
  | cons a as ih =>
    intro b acc n hok hn
    obtain ⟨k, rfl⟩ : ∃ k, n = k + 1 := ⟨n - 1, by simp at hn; omega⟩
    obtain ⟨tk, rest, e1, e2⟩ := argToks_head (hok a (List.mem_cons_self _ _))
    obtain ⟨a1, b1, e3, e4⟩ := refArgument_canon E (moreToks as)
      (fun b => (moreToks_head as b).1) (fun b => (moreToks_head as b).2) a b
      (hok a (List.mem_cons_self _ _))
    have e5 : ((tokensAt b (listToks (a :: as))).headD zeroItem).typ ≠ .itemEOF := by
      simp only [listToks, e1, List.cons_append, tokensAt, List.headD_cons]
      exact e2
    have e6 : tokensAt b (listToks (a :: as)) = tokensAt b (argToks a ++ moreToks as) := rfl
    cases as with
    | nil =>
      refine ⟨[a1], ?_, by simp [e4]⟩
      unfold refArgs
      rw [if_neg (by simpa using e5), e6, e3]
      simp [moreToks, tokensAt]
    | cons a2 as2 =>
      obtain ⟨nodes1, e7, e8⟩ := ih (b1 + utf8Len [',']) (acc ++ [a1]) k
        (fun x hx => hok x (List.mem_cons_of_mem _ hx)) (by simp at hn ⊢; omega)
      refine ⟨a1 :: nodes1, ?_, by simp [e4, e8]⟩
      unfold refArgs
      rw [if_neg (by simpa using e5), e6, e3]
      have e9 : tokensAt b1 (moreToks (a2 :: as2)) =
          ⟨.itemArgumentSeparator, b1, String.mk [',']⟩ ::
            tokensAt (b1 + utf8Len [',']) (listToks (a2 :: as2)) := rfl
      simp only [e9, List.headD_cons, List.tail_cons, e7]
      simp

theorem LeafOK.string {E : Lib} {n : node} (h : LeafOK E n) :
    n.String.data = (leafTok n).2 := by
  have := h.leaf
  cases n <;> first | rfl | cases this

theorem Lexed.sepList {E : Lib} {rest : List Char} {toks : List (itemType × List Char)}
    (h : Lexed E .lexValue rest toks) :
    Lexed E .lexInArgument (';' :: rest) ((.itemListSeparator, [';']) :: toks) :=
  Lexed.sep ';' rest toks rfl h

theorem Lexed.sepAssign {E : Lib} {rest : List Char} {toks : List (itemType × List Char)}
    (h : Lexed E .lexValue rest toks) :
    Lexed E .lexInArgument ('=' :: rest) ((.itemAssign, ['=']) :: toks) :=
  Lexed.sep '=' rest toks rfl h

theorem Lexed.sepArg {E : Lib} {rest : List Char} {toks : List (itemType × List Char)}
    (h : Lexed E .lexArgumentStart rest toks) :
    Lexed E .lexInArgument (',' :: rest) ((.itemArgumentSeparator, [',']) :: toks) :=
  Lexed.sep ',' rest toks rfl h

/-- The rendered values of a Slice after the first, as a sequence of tokens. -/
theorem Lexed.rest {E : Lib} {R : List Char} {toksR : List (itemType × List Char)}
    (hR : Lexed E .lexInArgument R toksR) :
    ∀ vs : List node, (∀ v ∈ vs, LeafOK E v) →
      Lexed E .lexInArgument ((node.writeRest vs).data ++ R) (restToks vs ++ toksR) := by
  intro vs
  induction vs with
  | nil =>
    intro _
    exact hR
  | cons v vs ih =>
    intro hv
    have h1 := hv v (List.mem_cons_self _ _)
    have h2 := ih (fun x hx => hv x (List.mem_cons_of_mem _ hx))
    have h3 := Lexed.value .lexValue (leafTok v).2 (leafTok v).1 _ _ (Or.inr rfl) h1.loc h2
    have h4 := h3.sepList
    have e : (node.writeRest (v :: vs)).data ++ R =
        ';' :: ((leafTok v).2 ++ ((node.writeRest vs).data ++ R)) := by
      simp only [node.writeRest, String.data_append, ← h1.string]
      simp
    rw [e]
    exact h4

/-- A rendered value as a sequence of tokens. -/
theorem Lexed.ofValue {E : Lib} {R : List Char} {toksR : List (itemType × List Char)}
    (hR : Lexed E .lexInArgument R toksR) {n : node} (h : ValueOK E n) {s : stateFn}
    (hs : s = .lexArgumentStart ∨ s = .lexValue) :
    Lexed E s (n.String.data ++ R) (valueToks n ++ toksR) := by
  rcases h with h | ⟨p, v1, v2, vs, rfl, hv⟩
  · have hvt : valueToks n = [leafTok n] := by
      have := h.leaf
      cases n <;> first | rfl | cases this
    rw [hvt, h.string]
    exact Lexed.value s _ _ _ _ hs h.loc hR
  · have h1 := hv v1 (List.mem_cons_self _ _)
    have h2 := hR.rest (v2 :: vs) (fun x hx => hv x (List.mem_cons_of_mem _ hx))
    have h3 := Lexed.value s (leafTok v1).2 (leafTok v1).1 _ _ hs h1.loc h2
    have e : (node.String (.sliceN p (v1 :: v2 :: vs))).data ++ R =
        (leafTok v1).2 ++ ((node.writeRest (v2 :: vs)).data ++ R) := by
      simp only [node.String, String.data_append, ← h1.string]
      simp
    rw [e]
    exact h3

/-- A rendered argument as a sequence of tokens. -/
theorem Lexed.ofArg {E : Lib} {R : List Char} {toksR : List (itemType × List Char)}
    (hR : Lexed E .lexInArgument R toksR) {a : argumentNode} (h : ArgOK E a) :
    Lexed E .lexArgumentStart (a.String.data ++ R) (argToks a ++ toksR) := by
  rcases h with ⟨sw, h1, h2, h3⟩ | ⟨h1, h2⟩
  · obtain ⟨p, i, v⟩ := a
    simp only at h1 h2
    subst h1
    obtain ⟨id, rfl⟩ : ∃ id, i = some id := by
      cases i with
      | none => cases h2
      | some id => exact ⟨id, rfl⟩
    have hl := h3.letter (by simp) (by simp)
    cases hb : sw.value.value with
    | false =>
      have := Lexed.switch '!' _ _ _ _ (Or.inr rfl) h3 hl hR
      have e : (argumentNode.String ⟨p, some id, .switchN sw⟩).data ++ R =
          '!' :: (sw.ident.value.data ++ R) := by
        simp [argumentNode.String, node.getType, node.String, switchNode.String, hb,
          identifierNode.String]
      rw [e]
      simpa [argToks, hb] using this
    | true =>
      have := Lexed.switch '~' _ _ _ _ (Or.inl rfl) h3 hl hR
      have e : (argumentNode.String ⟨p, some id, .switchN sw⟩).data ++ R =
          '~' :: (sw.ident.value.data ++ R) := by
        simp [argumentNode.String, node.getType, node.String, switchNode.String, hb,
          identifierNode.String]
      rw [e]
      simpa [argToks, hb] using this
  · cases hi : a.ident with
    | some ident =>
      have hl := h2 ident hi
      have h3 := (Lexed.ofValue hR h1 (s := .lexValue) (Or.inr rfl)).sepAssign
      have h4 := Lexed.value .lexArgumentStart _ _ _ _ (Or.inl rfl) hl h3
      have hty : (a.value.getType != .nodeSwitch) = true := by
        cases hv : a.value with
        | switchN sw => exact absurd hv (h1.not_switch sw)
        | _ => rfl
      have e : a.String.data ++ R = ident.value.data ++ ('=' :: (a.value.String.data ++ R)) := by
        simp [argumentNode.String, hi, hty, identifierNode.String]
      rw [e, argToks_some h1 hi]
      exact h4
    | none =>
      have e : a.String.data ++ R = a.value.String.data ++ R := by
        simp [argumentNode.String, hi]
      rw [e, argToks_none h1 hi]
      exact Lexed.ofValue hR h1 (Or.inl rfl)

/-- The rendered arguments after the first as a sequence of tokens. -/
theorem Lexed.more {E : Lib} :
    ∀ as : List argumentNode, (∀ a ∈ as, ArgOK E a) →
      Lexed E .lexInArgument (moreString as).data (moreToks as) := by
  intro as
  induction as with
  | nil =>
    intro _
    exact Lexed.stop _ (Or.inr rfl)
  | cons a as ih =>
    intro h
    have h1 := ih (fun x hx => h x (List.mem_cons_of_mem _ hx))
    have h2 := (Lexed.ofArg h1 (h a (List.mem_cons_self _ _))).sepArg
    have e : (moreString (a :: as)).data = ',' :: (a.String.data ++ (moreString as).data) := by
      simp [moreString]
    rw [e]
    exact h2

theorem foldl_moreString (as : List argumentNode) :
    ∀ init : String, as.foldl (fun sb c => sb ++ "," ++ c.String) init =
      init ++ moreString as := by
  induction as with
  | nil =>
    intro init
    simp [moreString]
  | cons a as ih =>
    intro init
    simp only [List.foldl_cons]
    rw [ih]
    simp only [moreString, String.append_assoc]

theorem tokensAt_length (toks : List (itemType × List Char)) :
    ∀ b, (tokensAt b toks).length = toks.length + 1 := by
  induction toks with
  | nil => intro b; rfl
  | cons tk r ih =>
    intro b
    simp only [tokensAt, List.length_cons, ih]

theorem moreToks_length (as : List argumentNode) : as.length ≤ (moreToks as).length := by
  induction as with
  | nil => exact le_refl _
  | cons a as ih =>
    simp only [moreToks, List.length_cons, List.length_append]
    omega

theorem listToks_length (nodes : List argumentNode) :
    nodes.length ≤ (listToks nodes).length + 1 := by
  cases nodes with
  | nil => exact Nat.zero_le _
  | cons a as =>
    have := moreToks_length as
    simp only [listToks, List.length_cons, List.length_append]
    omega

/-- The rendered text of a list of arguments as a sequence of tokens. -/
theorem Lexed.ofList {E : Lib} (p : Nat) (nodes : List argumentNode)
    (h : ∀ a ∈ nodes, ArgOK E a) :
    Lexed E .lexArgumentStart (listNode.String ⟨p, nodes⟩).data (listToks nodes) := by
  cases nodes with
  | nil => exact Lexed.stop _ (Or.inl rfl)
  | cons a as =>
    have h1 := Lexed.more as (fun x hx => h x (List.mem_cons_of_mem _ hx))
    have h2 := Lexed.ofArg h1 (h a (List.mem_cons_self _ _))
    have e : (listNode.String ⟨p, a :: as⟩).data = a.String.data ++ (moreString as).data := by
      simp only [listNode.String, foldl_moreString, String.data_append]
    rw [e]
    exact h2

/-- Arguments that came from tokens are parsed back from their rendered
text, byte offsets aside. -/
theorem Parse_render (E : Lib) (p : Nat) (nodes : List argumentNode)
    (h : ∀ a ∈ nodes, ArgOK E a) :
    ∃ t nodes1, Parse E (listNode.String ⟨p, nodes⟩) = .ok t ∧ t.root = some ⟨0, nodes1⟩ ∧
      nodes1.map argumentNode.strip = nodes.map argumentNode.strip := by
  have hl := lex_of_lexed E _ _ (Lexed.ofList p nodes h)
  have hp := Parse_ref E _ _ hl
  obtain ⟨nodes1, e1, e2⟩ := refArgs_canon E nodes 0 [] ((tokensAt 0 (listToks nodes)).length + 2)
    h (by
      have := listToks_length nodes
      rw [tokensAt_length]
      omega)
  have e3 : refParse E (tokensAt 0 (listToks nodes)) = .ok nodes1 := by
    simpa [refParse] using e1
  rw [e3] at hp
  obtain ⟨t, h1, h2⟩ := hp
  refine ⟨t, nodes1, h1, ?_, e2⟩
  rw [h2]
  cases hh : listToks nodes <;> rfl


/-! # Simple value literals and Slices -/

theorem tokensAt_two {b : Nat} {toks : List (itemType × List Char)} {tok eof : item}
    (h : tokensAt b toks = [tok, eof]) :
    ∃ ty w, toks = [(ty, w)] ∧ tok = ⟨ty, b, String.mk w⟩ := by
  match toks, h with
  | [], h => simp [tokensAt] at h
  | [tk], h =>
    simp only [tokensAt, List.cons.injEq, and_true] at h
    exact ⟨tk.1, tk.2, rfl, h.1.symm⟩
  | tk :: tk2 :: r, h =>
    have := congrArg List.length h
    simp [tokensAt, tokensAt_length] at this

/-- A text that is one token is a value token wherever it stands. -/
theorem Lexed.single {E : Lib} {text : List Char} {ty : itemType} {w : List Char}
    (h : Lexed E .lexArgumentStart text [(ty, w)]) : Local E w ty ∧ text = w := by
  cases h
  case value rest hs hloc hrest =>
    cases hrest
    exact ⟨hloc, by simp⟩

/-- A simple value literal: its node came from a token, and renders to the
literal. -/
theorem SimpleLiteral.leaf {E : Lib} {v : String} {n : node} (h : SimpleLiteral E v n) :
    LeafOK E n ∧ n.String = v := by
  obtain ⟨⟨tok, eof, h1, h2⟩, t, h3, h4⟩ := h
  obtain ⟨toks, nodes, g1, g2, g3, g4, -⟩ := Parse_ok_args E v t h3
  rw [h4] at g4
  cases g4
  rw [h1] at g2
  have g5 : tokensAt 0 toks = [tok, eof] := by
    simp only [Result.ok.injEq] at g2
    exact g2.symm
  obtain ⟨ty, w, rfl, rfl⟩ := tokensAt_two g5
  obtain ⟨hloc, htext⟩ := g1.single
  have hty := hloc.kind
  have hleaf : leafOf E ⟨ty, 0, String.mk w⟩ = .ok n := by
    simp only [tokensAt] at g3
    cases hl : leafOf E ⟨ty, 0, String.mk w⟩ with
    | ok n1 =>
      revert g3
      cases ty <;> simp_all [refParse, refArgs, refArgument, refValue, refSimple,
        itemType.isValue]
    | err m =>
      revert g3
      cases ty <;> simp_all [refParse, refArgs, refArgument, refValue, refSimple,
        itemType.isValue]
    | panic m =>
      revert g3
      cases ty <;> simp_all [refParse, refArgs, refArgument, refValue, refSimple,
        itemType.isValue]
    | diverge =>
      revert g3
      cases ty <;> simp_all [refParse, refArgs, refArgument, refValue, refSimple,
        itemType.isValue]
  obtain ⟨k1, k2⟩ := @leafOf_ok E ⟨ty, 0, String.mk w⟩ n hloc hleaf
  refine ⟨k1, ?_⟩
  have := k1.string
  rw [k2] at this
  simp only at this
  rw [← htext] at this
  exact String.ext this

theorem intercalate_go (ns : List node) :
    ∀ acc : String, String.intercalate.go acc ";" (ns.map node.String) =
      acc ++ node.writeRest ns := by
  induction ns with
  | nil =>
    intro acc
    simp [String.intercalate.go, node.writeRest]
  | cons n ns ih =>
    intro acc
    simp only [List.map_cons, String.intercalate.go, ih, node.writeRest, String.append_assoc]

/-- The text of a Slice is the texts of its values with `;` between them. -/
theorem slice_string (p : Nat) (n : node) (ns : List node) :
    node.String (.sliceN p (n :: ns)) = String.intercalate ";" ((n :: ns).map node.String) := by
  simp only [node.String, List.map_cons, String.intercalate, intercalate_go]

theorem strip_slice {m : node} {ns : List node} (h : m.strip = .sliceN 0 (node.stripAll ns)) :
    ∃ r values, m = .sliceN r values ∧ values.map node.strip = ns.map node.strip := by
  cases m with
  | sliceN r values =>
    simp only [node.strip, node.sliceN.injEq, true_and] at h
    rw [node.stripAll_eq_map, node.stripAll_eq_map] at h
    exact ⟨r, values, rfl, h⟩
  | _ => simp [node.strip] at h

/-- Simple value literals with `;` between them: one argument without an
identifier, holding a Slice of their nodes. -/
theorem Parse_literals (E : Lib) (lits : List (String × node)) (hn : 2 ≤ lits.length)
    (h : ∀ l ∈ lits, SimpleLiteral E l.1 l.2) :
    ∃ t p q r values, Parse E (String.intercalate ";" (lits.map Prod.fst)) = .ok t ∧
      t.root = some ⟨p, [⟨q, none, .sliceN r values⟩]⟩ ∧
      values.map node.strip = lits.map (fun l => l.2.strip) := by
  obtain ⟨l1, l2, ls, rfl⟩ : ∃ l1 l2 ls, lits = l1 :: l2 :: ls := by
    match lits, hn with
    | l1 :: l2 :: ls, _ => exact ⟨l1, l2, ls, rfl⟩
  have hleaf : ∀ l ∈ l1 :: l2 :: ls, LeafOK E l.2 ∧ l.2.String = l.1 :=
    fun l hl => (h l hl).leaf
  have hok : ArgOK E ⟨0, none, .sliceN 0 ((l1 :: l2 :: ls).map Prod.snd)⟩ := by
    refine Or.inr ⟨Or.inr ⟨0, l1.2, l2.2, ls.map Prod.snd, rfl, ?_⟩, fun ident hi => by cases hi⟩
    intro v hv
    have hv1 : v ∈ (l1 :: l2 :: ls).map Prod.snd := hv
    obtain ⟨l, hl, rfl⟩ := List.mem_map.mp hv1
    exact (hleaf l hl).1
  obtain ⟨t, nodes1, e1, e2, e3⟩ := Parse_render E 0
    [⟨0, none, .sliceN 0 ((l1 :: l2 :: ls).map Prod.snd)⟩] (by
      intro a ha
      simp only [List.mem_singleton] at ha
      rw [ha]
      exact hok)
  have etext : listNode.String ⟨0, [⟨0, none, .sliceN 0 ((l1 :: l2 :: ls).map Prod.snd)⟩]⟩ =
      String.intercalate ";" ((l1 :: l2 :: ls).map Prod.fst) := by
    have e4 : listNode.String ⟨0, [⟨0, none, .sliceN 0 ((l1 :: l2 :: ls).map Prod.snd)⟩]⟩ =
        node.String (.sliceN 0 (l1.2 :: (l2 :: ls).map Prod.snd)) := rfl
    rw [e4, slice_string]
    congr 1
    have : ∀ l ∈ l1 :: l2 :: ls, node.String l.2 = l.1 := fun l hl => (hleaf l hl).2
    rw [← List.map_cons Prod.snd, List.map_map]
    exact List.map_congr_left this
  rw [etext] at e1
  obtain ⟨a1, rfl⟩ : ∃ a1, nodes1 = [a1] := by
    have := congrArg List.length e3
    simp only [List.length_map, List.length_singleton] at this
    exact List.length_eq_one.mp this
  simp only [List.map_cons, List.map_nil, List.cons.injEq, and_true] at e3
  obtain ⟨q, i, m⟩ := a1
  simp only [argumentNode.strip, argumentNode.mk.injEq, true_and, Option.map_eq_none',
    Option.map_none'] at e3
  obtain ⟨rfl, e5⟩ := e3
  obtain ⟨r, values, rfl, e6⟩ := strip_slice e5
  refine ⟨t, 0, q, r, values, e1, e2, ?_⟩
  rw [e6]
  simp


/-! # Keyword arguments -/

theorem same_headD {L L2 : List item} (h : List.Forall₂ item.Same L L2) :
    (L.headD zeroItem).Same (L2.headD zeroItem) := by
  cases h with
  | nil => exact ⟨rfl, rfl⟩
  | cons h1 _ => exact h1

theorem same_tail {L L2 : List item} (h : List.Forall₂ item.Same L L2) :
    List.Forall₂ item.Same L.tail L2.tail := by
  cases h with
  | nil => exact List.Forall₂.nil
  | cons _ h2 => exact h2

theorem tokensAt_same (toks : List (itemType × List Char)) :
    ∀ b b2, List.Forall₂ item.Same (tokensAt b toks) (tokensAt b2 toks) := by
  induction toks with
  | nil =>
    intro b b2
    exact List.Forall₂.cons ⟨rfl, rfl⟩ List.Forall₂.nil
  | cons tk r ih =>
    intro b b2
    exact List.Forall₂.cons ⟨rfl, rfl⟩ (ih _ _)

theorem refSimple_same (E : Lib) {L L2 : List item} {v : node × List item}
    (hs : List.Forall₂ item.Same L L2) (h : refSimple E L = .ok v) :
    ∃ v2, refSimple E L2 = .ok v2 ∧ v2.1.strip = v.1.strip ∧
      List.Forall₂ item.Same v.2 v2.2 := by
  unfold refSimple at h ⊢
  cases hl : leafOf E (L.headD zeroItem) with
  | ok n =>
    rw [hl] at h
    cases h
    obtain ⟨n2, e1, e2⟩ := leafOf_same E (same_headD hs) hl
    rw [e1]
    exact ⟨_, rfl, e2, same_tail hs⟩
  | err m => rw [hl] at h; cases h
  | panic m => rw [hl] at h; cases h
  | diverge => rw [hl] at h; cases h

theorem refRest_same (E : Lib) :
    ∀ (k : Nat) (L L2 : List item), L.length ≤ k → List.Forall₂ item.Same L L2 →
      ∀ r, refRest E L = .ok r →
      ∃ r2, refRest E L2 = .ok r2 ∧ r2.1.map node.strip = r.1.map node.strip ∧
        List.Forall₂ item.Same r.2 r2.2 := by
  intro k
  induction k with
  | zero =>
    intro L L2 hk hs r h
    obtain rfl : L = [] := List.length_eq_zero.mp (by omega)
    cases hs
    simp only [refRest] at h ⊢
    cases h
    exact ⟨_, rfl, rfl, List.Forall₂.nil⟩
  | succ k ih =>
    intro L L2 hk hs r h
    match L, L2, hs, hk, h with
    | [], _, .nil, _, h =>
      simp only [refRest] at h ⊢
      cases h
      exact ⟨_, rfl, rfl, List.Forall₂.nil⟩
    | [tok], _, .cons h1 .nil, _, h =>
      simp only [refRest] at h ⊢
      rw [← h1.1]
      split_ifs at h ⊢
      · have hz : leafOf E zeroItem = .panic ("unexpected " ++ zeroItem.String E) := rfl
        rw [hz] at h
        cases h
      · cases h
        exact ⟨_, rfl, rfl, List.Forall₂.cons h1 List.Forall₂.nil⟩
    | tok :: v :: rest, _, .cons h1 (.cons h2 h3), hk, h =>
      simp only [refRest] at h ⊢
      rw [← h1.1]
      split_ifs at h ⊢
      · cases hl : leafOf E v with
        | ok n =>
          rw [hl] at h
          simp only [] at h
          obtain ⟨n2, e1, e2⟩ := leafOf_same E h2 hl
          rw [e1]
          simp only []
          cases hr : refRest E rest with
          | ok r1 =>
            rw [hr] at h
            cases h
            obtain ⟨r2, f1, f2, f3⟩ := ih rest _
              (by simp only [List.length_cons] at hk; omega) h3 r1 hr
            rw [f1]
            exact ⟨_, rfl, by simp [e2, f2], f3⟩
          | err m => rw [hr] at h; cases h
          | panic m => rw [hr] at h; cases h
          | diverge => rw [hr] at h; cases h
        | err m => rw [hl] at h; cases h
        | panic m => rw [hl] at h; cases h
        | diverge => rw [hl] at h; cases h
      · cases h
        exact ⟨_, rfl, rfl, List.Forall₂.cons h1 (List.Forall₂.cons h2 h3)⟩

/-- The reference reads the same value from items with the same kinds and
texts, byte offsets aside. -/
theorem refValue_same (E : Lib) {L L2 : List item} {v : node × List item}
    (hs : List.Forall₂ item.Same L L2) (h : refValue E L = .ok v) :
    ∃ v2, refValue E L2 = .ok v2 ∧ v2.1.strip = v.1.strip ∧
      List.Forall₂ item.Same v.2 v2.2 := by
  unfold refValue at h ⊢
  rw [← (same_headD (same_tail hs)).1]
  split_ifs at h ⊢
  · cases hv : refSimple E L with
    | ok s =>
      rw [hv] at h
      simp only [] at h
      obtain ⟨s2, e1, e2, e3⟩ := refSimple_same E hs hv
      rw [e1]
      simp only []
      cases hr : refRest E s.2 with
      | ok r =>
        rw [hr] at h
        cases h
        obtain ⟨r2, f1, f2, f3⟩ := refRest_same E _ _ _ (le_refl _) e3 r hr
        rw [f1]
        refine ⟨_, rfl, ?_, f3⟩
        simp only [node.strip, node.stripAll_eq_map, List.map_cons, e2, f2]
      | err m => rw [hr] at h; cases h
      | panic m => rw [hr] at h; cases h
      | diverge => rw [hr] at h; cases h
    | err m => rw [hv] at h; cases h
    | panic m => rw [hv] at h; cases h
    | diverge => rw [hv] at h; cases h
  · exact refSimple_same E hs h

/-- The reference only adds arguments; it adds none only at the end of input. -/
theorem refArgs_append (E : Lib) :
    ∀ (n : Nat) (L : List item) (acc nodes : List argumentNode),
      refArgs E n L acc = .ok nodes →
      ∃ more, nodes = acc ++ more ∧ (more = [] → (L.headD zeroItem).typ = .itemEOF) := by
  intro n
  induction n with
  | zero =>
    intro L acc nodes h
    cases h
  | succ n ih =>
    intro L acc nodes h
    unfold refArgs at h
    split_ifs at h with h1
    · cases h
      exact ⟨[], by simp, fun _ => by simpa using h1⟩
    · cases ha : refArgument E L with
      | ok a =>
        rw [ha] at h
        simp only [] at h
        split_ifs at h
        · cases h
          exact ⟨[a.1], rfl, fun hc => by cases hc⟩
        · obtain ⟨more, e1, -⟩ := ih _ _ _ h
          exact ⟨a.1 :: more, by rw [e1]; simp, fun hc => by cases hc⟩
      | err m => rw [ha] at h; cases h
      | panic m => rw [ha] at h; cases h
      | diverge => rw [ha] at h; cases h

/-- A reference parse with one argument that has no identifier: the
argument is a value read from the head of the items, and the end of input
stands behind it, or behind the one item after it. -/
theorem refParse_single (E : Lib) {L : List item} {q : Nat} {n : node}
    (h : refParse E L = .ok [⟨q, none, n⟩]) :
    (L.headD zeroItem).typ ≠ .itemDisable ∧ (L.headD zeroItem).typ ≠ .itemEnable ∧
      (L.headD zeroItem).typ ≠ .itemEOF ∧
      ∃ R, refValue E L = .ok (n, R) ∧
        ((R.headD zeroItem).typ = .itemEOF ∨ (R.tail.headD zeroItem).typ = .itemEOF) := by
  unfold refParse at h
  unfold refArgs at h
  split_ifs at h with h1
  · cases h
  simp only [beq_iff_eq] at h1
  cases ha : refArgument E L with
  | ok a =>
    rw [ha] at h
    simp only [List.nil_append] at h
    have hcont : a.1 = ⟨q, none, n⟩ ∧
        ((a.2.headD zeroItem).typ = .itemEOF ∨ (a.2.tail.headD zeroItem).typ = .itemEOF) := by
      split_ifs at h with h2
      · simp only [Result.ok.injEq, List.cons.injEq, and_true] at h
        exact ⟨h, Or.inl (by simpa using h2)⟩
      · obtain ⟨more, e1, e2⟩ := refArgs_append E _ _ _ _ h
        have hm : more = [] := by
          have := congrArg List.length e1
          simp only [List.length_singleton, List.length_append] at this
          exact List.length_eq_zero.mp (by omega)
        subst hm
        simp only [List.append_nil, List.cons.injEq, and_true] at e1
        exact ⟨e1.symm, Or.inr (e2 rfl)⟩
    obtain ⟨e1, e2⟩ := hcont
    unfold refArgument at ha
    split_ifs at ha with c1 c2 c3
    · cases ha
      cases e1
    · cases hv : refValue E L.tail.tail with
      | ok v =>
        rw [hv] at ha
        cases ha
        cases e1
      | err m => rw [hv] at ha; cases ha
      | panic m => rw [hv] at ha; cases ha
      | diverge => rw [hv] at ha; cases ha
    · simp only [Bool.or_eq_true, beq_iff_eq, not_or] at c1
      cases hv : refValue E L with
      | ok v =>
        rw [hv] at ha
        cases ha
        simp only [argumentNode.mk.injEq, true_and] at e1
        obtain ⟨v1, v2⟩ := v
        simp only at e1 e2
        obtain ⟨-, rfl⟩ := e1
        exact ⟨c1.1, c1.2, h1, v2, rfl, e2⟩
      | err m => rw [hv] at ha; cases ha
      | panic m => rw [hv] at ha; cases ha
      | diverge => rw [hv] at ha; cases ha
  | err m => rw [ha] at h; cases h
  | panic m => rw [ha] at h; cases h
  | diverge => rw [ha] at h; cases h

/-- A sequence of tokens that opens with a value can follow a `=`. -/
theorem Lexed.asValue {E : Lib} {text : List Char} {toks : List (itemType × List Char)}
    (h : Lexed E .lexArgumentStart text toks)
    (h1 : ((tokensAt 0 toks).headD zeroItem).typ ≠ .itemDisable)
    (h2 : ((tokensAt 0 toks).headD zeroItem).typ ≠ .itemEnable)
    (h3 : ((tokensAt 0 toks).headD zeroItem).typ ≠ .itemEOF) :
    Lexed E .lexValue text toks := by
  cases h
  case stop => exact absurd rfl h3
  case value =>
    exact Lexed.value _ _ _ _ _ (Or.inr rfl) ‹Local E _ _› ‹Lexed E .lexInArgument _ _›
  case switch =>
    exfalso
    rcases ‹_ = '~' ∨ _ = '!'› with rfl | rfl
    · exact h2 rfl
    · exact h1 rfl

/-- An identifier, `=`, and a value that `Parse` accepts alone: one argument
with the identifier and the value, byte offsets aside. -/
theorem Parse_keyword (E : Lib) (k v : String) (t : tree) (p q : Nat) (n : node)
    (hk : IsIdentifier E k) (h : Parse E v = .ok t)
    (hr : t.root = some ⟨p, [⟨q, none, n⟩]⟩) :
    ∃ t1 n1, Parse E (k ++ "=" ++ v) = .ok t1 ∧
      t1.root = some ⟨0, [⟨0, some ⟨0, k⟩, n1⟩]⟩ ∧ n1.strip = n.strip := by
  obtain ⟨toks, nodes, g1, -, g3, g4, -⟩ := Parse_ok_args E v t h
  rw [hr] at g4
  cases g4
  obtain ⟨c1, c2, c3, R, e1, e2⟩ := refParse_single E g3
  have hlv := g1.asValue c1 c2 c3
  have hlex : Lexed E .lexArgumentStart (k ++ "=" ++ v).data
      ((.itemIdentifier, k.data) :: (.itemAssign, ['=']) :: toks) := by
    have := Lexed.value .lexArgumentStart k.data .itemIdentifier _ _ (Or.inl rfl)
      (identifier_local E k hk) hlv.sepAssign
    simpa using this
  have hl := lex_of_lexed E _ _ hlex
  have hp := Parse_ref E _ _ hl
  obtain ⟨v2, f1, f2, f3⟩ := refValue_same E
    (tokensAt_same toks 0 (0 + utf8Len k.data + utf8Len ['='])) e1
  have f4 := (same_headD f3).1
  have f5 := (same_headD (same_tail f3)).1
  simp only at f4 f5
  have hrp : refParse E (tokensAt 0 ((.itemIdentifier, k.data) :: (.itemAssign, ['=']) :: toks))
      = .ok [⟨0, some ⟨0, k⟩, v2.1⟩] := by
    have e5 : tokensAt 0 ((.itemIdentifier, k.data) :: (.itemAssign, ['=']) :: toks) =
        ⟨.itemIdentifier, 0, k⟩ :: ⟨.itemAssign, 0 + utf8Len k.data, String.mk ['=']⟩ ::
          tokensAt (0 + utf8Len k.data + utf8Len ['=']) toks := rfl
    rw [e5]
    have harg : refArgument E (⟨.itemIdentifier, 0, k⟩ ::
        ⟨.itemAssign, 0 + utf8Len k.data, String.mk ['=']⟩ ::
          tokensAt (0 + utf8Len k.data + utf8Len ['=']) toks) =
        .ok (⟨0, some ⟨0, k⟩, v2.1⟩, v2.2) := by
      have f1a := f1
      simp only [Nat.zero_add] at f1a
      simp [refArgument, f1a]
    simp only [refParse, List.length_cons]
    unfold refArgs
    rw [if_neg (by simp), harg]
    simp only [List.nil_append]
    rcases e2 with e2 | e2
    · rw [f4] at e2
      rw [if_pos (by simpa using e2)]
    · rw [f5] at e2
      split_ifs
      · rfl
      · unfold refArgs
        rw [if_pos (by simpa using e2)]
  rw [hrp] at hp
  obtain ⟨t1, h1, h2⟩ := hp
  exact ⟨t1, v2.1, h1, h2, f2⟩

/-- An identifier alone: one argument without an identifier, whose value is
the Identifier. -/
theorem Parse_identifier (E : Lib) (k : String) (hk : IsIdentifier E k) :
    ∃ t, Parse E k = .ok t ∧ t.root = some ⟨0, [⟨0, none, .identifierN ⟨0, k⟩⟩]⟩ := by
  have hl := lex_value E k.data _ (identifier_local E k hk)
  have hp := Parse_ref E _ _ hl
  have hr : refParse E [⟨.itemIdentifier, 0, String.mk k.data⟩, ⟨.itemEOF, utf8Len k.data, ""⟩] =
      .ok [⟨0, none, .identifierN ⟨0, k⟩⟩] := by
    simp [refParse, refArgs, refArgument, refValue, refSimple, leafOf, node.getPosition]
  rw [hr] at hp
  exact hp

/-! ## The texts and the offsets of a sequence of tokens -/

theorem utf8ByteSize_mk (v : List Char) : (String.mk v).utf8ByteSize = utf8Len v := by
  show String.utf8ByteSize.go v = utf8Len v
  induction v with
  | nil => rfl
  | cons c cs ih =>
    simp only [String.utf8ByteSize.go, ih, utf8Len, List.map_cons, List.sum_cons]
    omega

theorem utf8Len_append (a b : List Char) : utf8Len (a ++ b) = utf8Len a + utf8Len b := by
  simp [utf8Len]

/-- The text that a sequence of tokens is read from is the texts of the
tokens one after the other. -/
theorem Lexed.flat {E : Lib} {s : stateFn} {text : List Char}
    {toks : List (itemType × List Char)} (h : Lexed E s text toks) :
    text = (toks.map Prod.snd).flatten := by
  induction h with
  | stop s _ => rfl
  | sep c rest toks _ _ ih => simp [← ih]
  | value s v ty rest toks _ _ _ ih => simp [← ih]
  | switch c v ty rest toks _ _ _ _ ih => simp [← ih]

theorem tokensAt_vals (toks : List (itemType × List Char)) (b : Nat) :
    ((tokensAt b toks).map (fun t => t.val.data)).flatten = (toks.map Prod.snd).flatten := by
  induction toks generalizing b with
  | nil => rfl
  | cons tk r ih => simp [tokensAt, ih]

theorem tokensAt_pos (toks : List (itemType × List Char)) :
    ∀ (b i : Nat) (tok : item), (tokensAt b toks)[i]? = some tok →
      tok.pos = b + (((tokensAt b toks).take i).map (fun t => t.val.utf8ByteSize)).sum := by
  induction toks with
  | nil =>
    intro b i tok h
    cases i with
    | zero =>
      simp only [tokensAt, List.getElem?_cons_zero, Option.some.injEq] at h
      subst h
      simp
    | succ i => simp [tokensAt] at h
  | cons tk r ih =>
    intro b i tok h
    cases i with
    | zero =>
      simp only [tokensAt, List.getElem?_cons_zero, Option.some.injEq] at h
      subst h
      simp
    | succ i =>
      simp only [tokensAt, List.getElem?_cons_succ] at h
      have := ih _ _ _ h
      rw [this]
      simp only [tokensAt, List.take_succ_cons, List.map_cons, List.sum_cons, utf8ByteSize_mk]
      omega

theorem tokensAt_last (toks : List (itemType × List Char)) (b : Nat) :
    ∃ front, tokensAt b toks =
      front ++ [⟨.itemEOF, b + utf8Len (toks.map Prod.snd).flatten, ""⟩] := by
  induction toks generalizing b with
  | nil => exact ⟨[], by simp [tokensAt, utf8Len]⟩
  | cons tk r ih =>
    obtain ⟨front, hf⟩ := ih (b + utf8Len tk.2)
    refine ⟨⟨tk.1, b, String.mk tk.2⟩ :: front, ?_⟩
    simp only [tokensAt, hf, List.cons_append, List.map_cons, List.flatten_cons, utf8Len_append,
      Nat.add_assoc]

theorem tokensAt_sorted (toks : List (itemType × List Char)) (b : Nat) :
    (∀ t ∈ tokensAt b toks, b ≤ t.pos) ∧
      (tokensAt b toks).Pairwise (fun x y => x.pos ≤ y.pos) := by
  induction toks generalizing b with
  | nil => simp [tokensAt]
  | cons tk r ih =>
    obtain ⟨h1, h2⟩ := ih (b + utf8Len tk.2)
    constructor
    · intro t ht
      simp only [tokensAt, List.mem_cons] at ht
      rcases ht with rfl | ht
      · exact le_refl _
      · have := h1 t ht
        omega
    · simp only [tokensAt, List.pairwise_cons]
      refine ⟨fun t ht => ?_, h2⟩
      have := h1 t ht
      show b ≤ t.pos
      omega
/-! ## Slices in a parsed tree -/

theorem leafOf_isLeaf (E : Lib) {tok : item} {n : node} (h : leafOf E tok = .ok n) :
    n.isLeaf = true := by
  unfold leafOf at h
  split at h
  · cases h; rfl
  · cases h; rfl
  · cases h; rfl
  · split at h
    · cases h
    · split at h
      · cases h
      · cases h; rfl
  · split at h
    · cases h; rfl
    all_goals cases h
  · cases h

theorem node.wideSlices_leaf {n : node} (h : n.isLeaf = true) : n.wideSlices = true := by
  cases n <;> simp_all [node.isLeaf, node.wideSlices]

theorem node.wideSlicesAll_leaves (vs : List node) (h : ∀ v ∈ vs, v.isLeaf = true) :
    node.wideSlicesAll vs = true := by
  induction vs with
  | nil => rfl
  | cons v vs ih =>
    simp only [node.wideSlicesAll, Bool.and_eq_true]
    exact ⟨node.wideSlices_leaf (h v (List.mem_cons_self _ _)),
      ih (fun w hw => h w (List.mem_cons_of_mem _ hw))⟩

theorem ArgOK.wide {E : Lib} {a : argumentNode} (h : ArgOK E a) :
    a.value.wideSlices = true := by
  rcases h with ⟨sw, hsw, -⟩ | ⟨hv, -⟩
  · rw [hsw]
    rfl
  · rcases hv with hl | ⟨p, v1, v2, vs, e, hl⟩
    · exact node.wideSlices_leaf hl.leaf
    · rw [e]
      simp only [node.wideSlices, Bool.and_eq_true, decide_eq_true_eq, List.length_cons]
      exact ⟨by omega, node.wideSlicesAll_leaves _ (fun v hv => (hl v hv).leaf)⟩

theorem tokensAt_typ (toks : List (itemType × List Char)) (b : Nat) :
    (tokensAt b toks).map item.typ = toks.map Prod.fst ++ [.itemEOF] := by
  induction toks generalizing b with
  | nil => rfl
  | cons tk r ih => simp [tokensAt, ih]

/-- In a sequence of tokens every `;` is followed by a value. -/
theorem Lexed.listSep_value {E : Lib} {s : stateFn} {text : List Char}
    {toks : List (itemType × List Char)} (h : Lexed E s text toks) :
    (s = .lexValue → ∃ tk, toks[0]? = some tk ∧ tk.1.isValue = true) ∧
    ∀ i, (toks.map Prod.fst)[i]? = some .itemListSeparator →
      ∃ ty, (toks.map Prod.fst)[i + 1]? = some ty ∧ ty.isValue = true := by
  induction h with
  | stop s hs =>
    refine ⟨fun e => ?_, fun i hi => ?_⟩
    · subst e
      rcases hs with hs | hs <;> cases hs
    · simp at hi
  | sep c rest toks hc _ ih =>
    refine ⟨fun e => stateFn.noConfusion e, fun i hi => ?_⟩
    cases i with
    | zero =>
      simp only [List.map_cons, List.getElem?_cons_zero, Option.some.injEq] at hi
      have hs : sepState c = .lexValue := by
        simp only [sepType] at hi
        simp only [sepState]
        split_ifs at hi ⊢
        rfl
      obtain ⟨tk, h1, h2⟩ := ih.1 hs
      refine ⟨tk.1, ?_, h2⟩
      simp only [List.map_cons, zero_add, List.getElem?_cons_succ, List.getElem?_map, h1,
        Option.map_some']
    | succ i =>
      simp only [List.map_cons, List.getElem?_cons_succ] at hi ⊢
      exact ih.2 i hi
  | value s v ty rest toks hs hl _ ih =>
    refine ⟨fun _ => ⟨(ty, v), List.getElem?_cons_zero, hl.kind⟩, fun i hi => ?_⟩
    cases i with
    | zero =>
      simp only [List.map_cons, List.getElem?_cons_zero, Option.some.injEq] at hi
      have := hl.kind
      rw [hi] at this
      cases this
    | succ i =>
      simp only [List.map_cons, List.getElem?_cons_succ] at hi ⊢
      exact ih.2 i hi
  | switch c v ty rest toks hc hl _ _ ih =>
    refine ⟨fun e => stateFn.noConfusion e, fun i hi => ?_⟩
    cases i with
    | zero =>
      simp only [List.map_cons, List.getElem?_cons_zero, Option.some.injEq, markType] at hi
      split_ifs at hi
    | succ i =>
      cases i with
      | zero =>
        simp only [List.map_cons, List.getElem?_cons_zero, List.getElem?_cons_succ, zero_add,
          Option.some.injEq] at hi
        have := hl.kind
        rw [hi] at this
        cases this
      | succ i =>
        simp only [List.map_cons, List.getElem?_cons_succ] at hi ⊢
        exact ih.2 i hi

/-- Entered before a token that is not followed by `;`, `argumentValue` returns
a simple value, never a Slice. -/
theorem tree.argumentValue_simple (E : Lib) {t : tree} {L : List item} (h : t.peekCount ≤ 2)
    (hr : t.Reads L) (hs : (L.tail.headD zeroItem).typ ≠ .itemListSeparator)
    {n : node} {t1 : tree} (hv : t.argumentValue E = .ok (n, t1)) : n.isLeaf = true := by
  have ha := tree.argumentValue_agrees E h hr
  have hb : ((L.tail.headD zeroItem).typ == .itemListSeparator) = false := by simpa using hs
  simp only [refValue, hb, Bool.false_eq_true, ↓reduceIte, refSimple] at ha
  cases hl : leafOf E (L.headD zeroItem) with
  | ok m =>
    rw [hl] at ha
    simp only [Agrees] at ha
    obtain ⟨t2, e, -⟩ := ha
    rw [hv] at e
    cases e
    exact leafOf_isLeaf E hl
  | err m => rw [hl] at ha; simp only [Agrees] at ha; rw [hv] at ha; cases ha
  | panic m => rw [hl] at ha; simp only [Agrees] at ha; rw [hv] at ha; cases ha
  | diverge => rw [hl] at ha; simp only [Agrees] at ha; rw [hv] at ha; cases ha
/-! ## White space stands in no word and in no number -/

theorem lexer.dense_refl {l : lexer} (h : l.Inv) : l.Dense l :=
  ⟨lexer.Adv.refl h, fun _ h1 h2 => absurd h1 (not_le.mpr h2)⟩

theorem lexer.dense_of_adv {l l1 : lexer} (h : l.Adv l1) (hp : l1.pos = l.pos) : l.Dense l1 :=
  ⟨h, fun i h1 h2 => by omega⟩

theorem lexer.Dense.andThen {a b c : lexer} (h1 : a.Dense b) (h2 : b.Dense c) : a.Dense c := by
  refine ⟨h1.1.trans h2.1, fun i hi hj => ?_⟩
  by_cases hb : i < b.pos
  · exact h1.2 i hi hb
  · have := h2.2 i (not_lt.mp hb) hj
    rwa [h1.1.input] at this

theorem lexer.dense_next {l : lexer} (hi : l.Inv) (h : isSpace l.input[l.pos]? = false) :
    l.Dense l.next.2 := by
  refine ⟨lexer.adv_next hi, fun i h1 h2 => ?_⟩
  cases hc : l.input[l.pos]? with
  | none =>
    rw [lexer.next_none hc] at h2
    simp only at h2
    omega
  | some c =>
    rw [lexer.next_some hc] at h2
    simp only at h2
    have : i = l.pos := by omega
    rw [this]
    exact h

theorem lexer.dense_undo_next {l : lexer} (hi : l.Inv) : l.Dense l.next.2.undo := by
  have hu := lexer.adv_peek hi
  have hp := lexer.peek_pos hi
  simp only [lexer.peek] at hu hp
  exact lexer.dense_of_adv hu hp

theorem containsRune_noSpace {valid : String} (hv : NoSpace valid) {r : Option Char}
    (h : containsRune valid r = true) : isSpace r = false := by
  cases r with
  | none => rfl
  | some c =>
    simp only [containsRune, List.contains_iff_exists_mem_beq, beq_iff_eq] at h
    obtain ⟨d, hd, e⟩ := h
    subst e
    exact hv c hd

theorem lexer.dense_accept {l : lexer} (hi : l.Inv) {valid : String} (hv : NoSpace valid) :
    l.Dense (l.accept valid).2 := by
  simp only [lexer.accept]
  split_ifs with h
  · rw [lexer.next_fst] at h
    exact lexer.dense_next hi (containsRune_noSpace hv h)
  · exact lexer.dense_undo_next hi

theorem lexer.dense_acceptRunLoop {valid : String} (hv : NoSpace valid) :
    ∀ (n : Nat) (l l1 : lexer), l.Inv → lexer.acceptRunLoop valid n l = .ok l1 →
      l.Dense l1 := by
  intro n
  induction n with
  | zero => intro l l1 _ h; cases h
  | succ n ih =>
    intro l l1 hi h
    simp only [lexer.acceptRunLoop] at h
    split_ifs at h with h1
    · rw [lexer.next_fst] at h1
      have hd := lexer.dense_next hi (containsRune_noSpace hv h1)
      exact hd.andThen (ih _ _ hd.1.inv h)
    · cases h
      exact lexer.dense_undo_next hi

theorem lexer.dense_acceptRun {l l1 : lexer} (hi : l.Inv) {valid : String} (hv : NoSpace valid)
    (h : l.acceptRun valid = .ok l1) : l.Dense l1 :=
  lexer.dense_acceptRunLoop hv _ l l1 hi h

theorem noSpace_sets :
    NoSpace "+-" ∧ NoSpace "0" ∧ NoSpace "xX" ∧ NoSpace "oO" ∧ NoSpace "bB" ∧ NoSpace "." ∧
    NoSpace "eE" ∧ NoSpace "pP" ∧ NoSpace "0123456789_" ∧ NoSpace "01_" ∧ NoSpace "01234567_" ∧
    NoSpace "0123456789abcdefABCDEF_" := by
  simp only [NoSpace]
  decide

theorem lexer.dense_scanBase {l : lexer} (hi : l.Inv) :
    l.Dense l.scanBase.2 ∧ NoSpace l.scanBase.1 := by
  obtain ⟨-, h0, hx, ho, hb, -, -, -, d10, d2, d8, d16⟩ := noSpace_sets
  have hz := lexer.dense_accept hi h0
  simp only [lexer.scanBase]
  generalize l.accept "0" = z at hz ⊢
  obtain ⟨zb, zl⟩ := z
  simp only at hz
  cases zb with
  | false =>
    simp only [Bool.false_eq_true, ↓reduceIte, Bool.false_and]
    exact ⟨hz, d10⟩
  | true =>
    have h1 := lexer.dense_accept hz.1.inv hx
    simp only [↓reduceIte, Bool.true_and]
    generalize zl.accept "xX" = x at h1 ⊢
    obtain ⟨xb, xl⟩ := x
    simp only at h1
    cases xb with
    | true =>
      simp only [Bool.not_true, Bool.false_eq_true, ↓reduceIte, Bool.false_and]
      exact ⟨hz.andThen h1, d16⟩
    | false =>
      have h2 := lexer.dense_accept h1.1.inv ho
      simp only [Bool.not_false, ↓reduceIte, Bool.false_eq_true, Bool.true_and]
      generalize xl.accept "oO" = o at h2 ⊢
      obtain ⟨ob, ol⟩ := o
      simp only at h2
      cases ob with
      | true =>
        simp only [Bool.not_true, Bool.false_eq_true, ↓reduceIte]
        exact ⟨(hz.andThen h1).andThen h2, d8⟩
      | false =>
        have h3 := lexer.dense_accept h2.1.inv hb
        simp only [Bool.not_false, ↓reduceIte, Bool.false_eq_true]
        refine ⟨((hz.andThen h1).andThen h2).andThen h3, ?_⟩
        split_ifs
        · exact d2
        · exact d10

theorem lexer.dense_scanFraction {l l1 : lexer} (hi : l.Inv) {digits : String}
    (hv : NoSpace digits) (h : l.scanFraction digits = .ok l1) : l.Dense l1 := by
  have hd := lexer.dense_accept hi noSpace_sets.2.2.2.2.2.1
  simp only [lexer.scanFraction] at h
  split_ifs at h
  · exact hd.andThen (lexer.dense_acceptRun hd.1.inv hv h)
  · cases h
    exact hd

theorem lexer.dense_scanExponent {l l1 : lexer} (hi : l.Inv) (cond : Bool) {marks : String}
    (hv : NoSpace marks) (h : l.scanExponent cond marks = .ok l1) : l.Dense l1 := by
  simp only [lexer.scanExponent] at h
  cases cond with
  | false =>
    simp only [Bool.false_eq_true, ↓reduceIte] at h
    cases h
    exact lexer.dense_refl hi
  | true =>
    have hd := lexer.dense_accept hi hv
    simp only [↓reduceIte] at h
    split_ifs at h
    · have hs := lexer.dense_accept hd.1.inv noSpace_sets.1
      exact (hd.andThen hs).andThen
        (lexer.dense_acceptRun hs.1.inv noSpace_sets.2.2.2.2.2.2.2.2.1 h)
    · cases h
      exact hd

theorem lexer.dense_scanNumber {l : lexer} {r : Bool × lexer} (hi : l.Inv)
    (h : l.scanNumber = .ok r) : l.Dense r.2 := by
  have hs := lexer.dense_accept hi noSpace_sets.1
  obtain ⟨hb, hdig⟩ := lexer.dense_scanBase hs.1.inv
  unfold lexer.scanNumber at h
  simp only [] at h
  generalize (l.accept "+-").2.scanBase = pre at h hb hdig
  obtain ⟨pd, pl⟩ := pre
  simp only at h hb hdig
  cases h1 : pl.acceptRun pd with
  | ok l1 =>
    have d1 := lexer.dense_acceptRun hb.1.inv hdig h1
    rw [h1] at h
    simp only [] at h
    cases h2 : l1.scanFraction pd with
    | ok l2 =>
      have d2 := lexer.dense_scanFraction d1.1.inv hdig h2
      rw [h2] at h
      simp only [] at h
      cases h3 : l2.scanExponent (pd.length == 10 + 1) "eE" with
      | ok l3 =>
        have d3 := lexer.dense_scanExponent d2.1.inv _ noSpace_sets.2.2.2.2.2.2.1 h3
        rw [h3] at h
        simp only [] at h
        cases h4 : l3.scanExponent (pd.length == 16 + 6 + 1) "pP" with
        | ok l4 =>
          have d4 := lexer.dense_scanExponent d3.1.inv _ noSpace_sets.2.2.2.2.2.2.2.1 h4
          rw [h4] at h
          simp only [Result.ok.injEq] at h
          subst h
          exact (((((hs.andThen hb).andThen d1).andThen d2).andThen d3).andThen d4)
        | err m => rw [h4] at h; cases h
        | panic m => rw [h4] at h; cases h
        | diverge => rw [h4] at h; cases h
      | err m => rw [h3] at h; cases h
      | panic m => rw [h3] at h; cases h
      | diverge => rw [h3] at h; cases h
    | err m => rw [h2] at h; cases h
    | panic m => rw [h2] at h; cases h
    | diverge => rw [h2] at h; cases h
  | err m => rw [h1] at h; cases h
  | panic m => rw [h1] at h; cases h
  | diverge => rw [h1] at h; cases h

theorem isIdentRune_noSpace (E : Lib) {r : Option Char} (h : isIdentRune E r = true) :
    isSpace r = false := by
  cases hs : isSpace r with
  | false => rfl
  | true =>
    exfalso
    simp only [isSpace, Bool.or_eq_true, beq_iff_eq] at hs
    rcases hs with ((rfl | rfl) | rfl) | rfl <;>
      simp [isIdentRune, isAlphaNumeric, isLetter, isDigit] at h

theorem dense_lexIdentifierLoop (E : Lib) :
    ∀ (n : Nat) (l : lexer) (r : Option stateFn × lexer), l.Inv →
      lexIdentifierLoop E n l = .ok r → ∃ l1, l.Dense l1 ∧ r.2.pos = l1.pos := by
  intro n
  induction n with
  | zero => intro l r _ h; cases h
  | succ n ih =>
    intro l r hi h
    have hu := lexer.dense_undo_next hi
    have ht := lexer.atTerminator_pos hu.1.inv
    simp only [lexIdentifierLoop] at h
    split_ifs at h with h1 h2 h3 h4
    · rw [lexer.next_fst] at h1
      have hd := lexer.dense_next hi (isIdentRune_noSpace E h1)
      obtain ⟨l1, d1, e1⟩ := ih _ _ hd.1.inv h
      exact ⟨l1, hd.andThen d1, e1⟩
    all_goals
      cases h
      exact ⟨_, hu, ht⟩

theorem dense_lexNumber (E : Lib) {l : lexer} {r : Option stateFn × lexer} (hi : l.Inv)
    (h : lexNumber E l = .ok r) : ∃ l1, l.Dense l1 ∧ r.2.pos = l1.pos := by
  obtain ⟨l1, h1, -, -⟩ := lexer.scanNumber_ok hi
  have hd := lexer.dense_scanNumber hi h1
  have ht := lexer.atTerminator_pos hd.1.inv
  have hp := lexer.peek_pos (lexer.adv_atTerminator hd.1.inv).inv
  unfold lexNumber at h
  rw [h1] at h
  simp only [Bool.not_true, Bool.false_eq_true, ↓reduceIte] at h hd ht hp
  generalize l1.atTerminator = tm at h ht hp
  cases htm : tm.1 with
  | false =>
    simp only [htm, Bool.not_false, ↓reduceIte, Result.ok.injEq] at h
    subst h
    exact ⟨_, hd, hp.trans ht⟩
  | true =>
    simp only [htm, Bool.not_true, Bool.false_eq_true, ↓reduceIte, Result.ok.injEq] at h
    subst h
    exact ⟨_, hd, ht⟩

theorem lexer.next_items (l : lexer) : l.next.2.items = l.items := by
  simp only [lexer.next]
  split <;> rfl

theorem lexQuoteLoop_string (q : Option Char) :
    ∀ (n : Nat) (l l2 : lexer) (s : stateFn), lexQuoteLoop q n l = .ok (some s, l2) →
      ∃ it, l2.items = l.items ++ [it] ∧ it.typ = .itemString := by
  intro n
  induction n with
  | zero => intro l l2 s h; cases h
  | succ n ih =>
    intro l l2 s h
    simp only [lexQuoteLoop] at h
    split_ifs at h
    · obtain ⟨it, e1, e2⟩ := ih _ _ _ h
      exact ⟨it, by rw [e1, lexer.next_items, lexer.next_items], e2⟩
    · cases h
    · cases h
    · cases h
      refine ⟨⟨.itemString, byteOffset l.next.2.input l.next.2.start,
        slice l.next.2.input l.next.2.start l.next.2.pos⟩, ?_, rfl⟩
      simp only [lexer.emit, lexer.next_items]
    · obtain ⟨it, e1, e2⟩ := ih _ _ _ h
      exact ⟨it, by rw [e1, lexer.next_items], e2⟩

theorem lexQuote_string {l l2 : lexer} {s : stateFn} (h : lexQuote l = .ok (some s, l2)) :
    ∃ it, l2.items = l.items ++ [it] ∧ it.typ = .itemString := by
  obtain ⟨it, e1, e2⟩ := lexQuoteLoop_string _ _ _ _ _ h
  exact ⟨it, by rw [e1, lexer.next_items], e2⟩

/-- A value token that is no string holds no white space. -/
theorem Local.dense {E : Lib} {v : List Char} {ty : itemType} (h : Local E v ty)
    (hty : ty ≠ .itemString) : ∀ c ∈ v, isSpace (some c) = false := by
  have hat := lexer.at_alone v
  have hinv := hat.inv
  obtain ⟨s1, l2, e1, e2, hsent⟩ := h.enter _ [] [] .lexValue hat (Or.inr rfl)
  have hpos : l2.pos = v.length := by
    have := hsent.stands.pos
    simpa using this
  have hdense : ∀ l1 : lexer, (⟨v, 0, 0, false, []⟩ : lexer).Dense l1 → l2.pos = l1.pos →
      ∀ c ∈ v, isSpace (some c) = false := by
    intro l1 hd hp c hc
    obtain ⟨i, hi, rfl⟩ := List.mem_iff_getElem.mp hc
    have := hd.2 i (Nat.zero_le _) (by rw [← hp, hpos]; exact hi)
    simp only at this
    rwa [List.getElem?_eq_getElem hi] at this
  cases v with
  | nil => exact absurd rfl h.nonempty
  | cons c w =>
    have hc : (⟨c :: w, 0, 0, false, []⟩ : lexer).input[(⟨c :: w, 0, 0, false, []⟩ : lexer).pos]? =
        some c := List.getElem?_cons_zero
    simp only [callState, Result.ok.injEq] at e1
    cases hs : valueState E c with
    | none =>
      have := lexValue_none E hc hs
      rw [e1] at this
      cases this
    | some t =>
      have := lexValue_state E hinv hc hs
      rw [e1] at this
      simp only [Prod.mk.injEq, Option.some.injEq, and_true] at this
      subst this
      rcases valueState_token E hs with rfl | rfl | rfl
      · simp only [callState, lexIdentifier] at e2
        obtain ⟨l1, d1, p1⟩ := dense_lexIdentifierLoop E _ _ _ hinv e2
        exact hdense l1 d1 p1
      · simp only [callState] at e2
        obtain ⟨l1, d1, p1⟩ := dense_lexNumber E hinv e2
        exact hdense l1 d1 p1
      · simp only [callState] at e2
        obtain ⟨it, i1, i2⟩ := lexQuote_string e2
        have := hsent.items
        rw [i1] at this
        simp only [List.nil_append, List.cons.injEq, and_true] at this
        rw [this] at i2
        exact absurd i2 hty

theorem utf8Len_take_lt {v : List Char} {j : Nat} (h : j < v.length) :
    utf8Len (v.take j) < utf8Len v := by
  have e : v = v.take j ++ v.drop j := (List.take_append_drop j v).symm
  have hd : 0 < utf8Len (v.drop j) := by
    cases hv : v.drop j with
    | nil =>
      have := congrArg List.length hv
      simp only [List.length_drop, List.length_nil] at this
      omega
    | cons c w =>
      simp only [utf8Len, List.map_cons, List.sum_cons]
      have := Char.utf8Size_pos c
      omega
  have := utf8Len_append (v.take j) (v.drop j)
  rw [← e] at this
  omega

theorem isSep_noSpace {c : Char} (h : isSep c = true) : isSpace (some c) = false := by
  simp only [isSep, Bool.or_eq_true, beq_iff_eq] at h
  rcases h with (rfl | rfl) | rfl <;> rfl

/-- In a sequence of tokens every white space stands inside a string token. -/
theorem Lexed.spaces {E : Lib} {s : stateFn} {text : List Char}
    {toks : List (itemType × List Char)} (h : Lexed E s text toks) :
    ∀ (b j : Nat) (c : Char), text[j]? = some c → isSpace (some c) = true →
      ∃ tok ∈ tokensAt b toks, tok.typ = .itemString ∧ tok.pos ≤ b + utf8Len (text.take j) ∧
        b + utf8Len (text.take j) < tok.pos + tok.val.utf8ByteSize := by
  have hvalue : ∀ (v rest : List Char) (ty : itemType) (toks : List (itemType × List Char)),
      Local E v ty →
      (∀ (b j : Nat) (c : Char), rest[j]? = some c → isSpace (some c) = true →
        ∃ tok ∈ tokensAt b toks, tok.typ = .itemString ∧ tok.pos ≤ b + utf8Len (rest.take j) ∧
          b + utf8Len (rest.take j) < tok.pos + tok.val.utf8ByteSize) →
      ∀ (b j : Nat) (c : Char), (v ++ rest)[j]? = some c → isSpace (some c) = true →
        ∃ tok ∈ tokensAt b ((ty, v) :: toks), tok.typ = .itemString ∧
          tok.pos ≤ b + utf8Len ((v ++ rest).take j) ∧
          b + utf8Len ((v ++ rest).take j) < tok.pos + tok.val.utf8ByteSize := by
    intro v rest ty toks hl ih b j c hj hc
    by_cases hlt : j < v.length
    · rw [List.getElem?_append_left hlt] at hj
      have hmem : c ∈ v := List.getElem?_mem hj
      have hty : ty = .itemString := by
        by_contra hne
        have := hl.dense hne c hmem
        rw [hc] at this
        cases this
      refine ⟨⟨ty, b, String.mk v⟩, by simp [tokensAt], hty, ?_, ?_⟩
      · exact Nat.le_add_right _ _
      · have e : (v ++ rest).take j = v.take j := by
          rw [List.take_append_of_le_length (le_of_lt hlt)]
        rw [e, utf8ByteSize_mk]
        have := utf8Len_take_lt hlt
        show b + utf8Len (v.take j) < b + utf8Len v
        omega
    · have hge : v.length ≤ j := not_lt.mp hlt
      rw [List.getElem?_append_right hge] at hj
      obtain ⟨tok, h1, h2, h3, h4⟩ := ih (b + utf8Len v) (j - v.length) c hj hc
      have e : (v ++ rest).take j = v ++ rest.take (j - v.length) := by
        rw [List.take_append_eq_append_take, List.take_of_length_le hge]
      refine ⟨tok, by simp [tokensAt, h1], h2, ?_, ?_⟩
      · rw [e, utf8Len_append]
        omega
      · rw [e, utf8Len_append]
        omega
  induction h with
  | stop s _ =>
    intro b j c hj
    simp at hj
  | sep c rest toks hc _ ih =>
    intro b j d hj hd
    cases j with
    | zero =>
      simp only [List.getElem?_cons_zero, Option.some.injEq] at hj
      subst hj
      rw [isSep_noSpace hc] at hd
      cases hd
    | succ j =>
      simp only [List.getElem?_cons_succ] at hj
      obtain ⟨tok, h1, h2, h3, h4⟩ := ih (b + utf8Len [c]) j d hj hd
      have e : utf8Len ((c :: rest).take (j + 1)) = utf8Len [c] + utf8Len (rest.take j) := by
        rw [List.take_succ_cons]
        exact utf8Len_append [c] _
      refine ⟨tok, by simp [tokensAt, h1], h2, ?_, ?_⟩
      · rw [e]
        omega
      · rw [e]
        omega
  | value s v ty rest toks _ hl _ ih => exact hvalue v rest ty toks hl ih
  | switch c v ty rest toks hc hl hlet _ ih =>
    intro b j d hj hd
    cases j with
    | zero =>
      simp only [List.getElem?_cons_zero, Option.some.injEq] at hj
      subst hj
      rcases hc with rfl | rfl <;> cases hd
    | succ j =>
      simp only [List.getElem?_cons_succ] at hj
      obtain ⟨tok, h1, h2, h3, h4⟩ := hvalue v rest ty toks hl ih (b + utf8Len [c]) j d hj hd
      have e : utf8Len ((c :: (v ++ rest)).take (j + 1)) =
          utf8Len [c] + utf8Len ((v ++ rest).take j) := by
        rw [List.take_succ_cons]
        exact utf8Len_append [c] _
      refine ⟨tok, ?_, h2, ?_, ?_⟩
      · simp only [tokensAt, List.mem_cons] at h1 ⊢
        exact Or.inr h1
      · rw [e]
        omega
      · rw [e]
        omega
/-! ## A quote that is not closed ends the scan -/

theorem trailingBackslashes_snoc (xs : List Char) (c : Char) :
    trailingBackslashes (xs ++ [c]) =
      if c == backslash then trailingBackslashes xs + 1 else 0 := by
  simp only [trailingBackslashes, List.reverse_append, List.reverse_cons, List.reverse_nil,
    List.nil_append, List.singleton_append, List.takeWhile_cons]
  split_ifs <;> simp

theorem take_succ_of_get {input : List Char} {k : Nat} {c : Char} (h : input[k]? = some c) :
    input.take (k + 1) = input.take k ++ [c] := by
  rw [List.take_succ, h]
  rfl

/-- The loop of `lexQuote` on a text without a closing quote: it reads to the
end of input and sends the error token. -/
theorem lexQuoteLoop_unclosed (q : Char) :
    ∀ (n : Nat) (l : lexer) (b : Nat), l.Inv → b ≤ l.pos →
      Unclosed q (l.input.drop b) →
      trailingBackslashes ((l.input.drop b).take (l.pos - b)) % 2 = 0 →
      l.input.length - l.pos < n →
      ∃ l1, lexQuoteLoop (some q) n l = .ok (none, l1) ∧
        l1.items = l.items ++
          [⟨.itemError, byteOffset l.input l.start, "unterminated quoted string"⟩] := by
  intro n
  induction n with
  | zero => intro l b _ _ _ _ h; omega
  | succ m ih =>
    intro l b hi hb hun htb hn
    have ha := lexer.adv_next hi
    have hb2 := lexer.adv_next ha.inv
    cases h1 : l.input[l.pos]? with
    | none =>
      rw [lexQuoteLoop_end (some q) m l (by rw [lexer.next_fst, h1])]
      refine ⟨_, rfl, ?_⟩
      simp only [ha.items, ha.input, ha.start]
    | some c =>
      have hn1 : l.next.1 = some c := by rw [lexer.next_fst, h1]
      have hnx := lexer.next_some h1
      have hp : l.next.2.pos = l.pos + 1 := by rw [hnx]
      have hlt := lexer.lt_of_get h1
      have hk : (l.input.drop b)[l.pos - b]? = some c := by
        rw [List.getElem?_drop]
        have : b + (l.pos - b) = l.pos := by omega
        rw [this, h1]
      have htake := take_succ_of_get hk
      by_cases hc : c = backslash
      · subst hc
        cases h2 : l.next.2.input[l.next.2.pos]? with
        | none =>
          rw [lexQuoteLoop_escape_end (some q) m l hn1 (by rw [lexer.next_fst, h2])]
          refine ⟨_, rfl, ?_⟩
          simp only [hb2.items, hb2.input, hb2.start, ha.items, ha.input, ha.start]
        | some d =>
          rw [lexQuoteLoop_escape (some q) m l hn1 (by rw [lexer.next_fst, h2])]
          have hp2 : l.next.2.next.2.pos = l.pos + 2 := by
            rw [lexer.next_some h2, hp]
          have hlt2 := lexer.lt_of_get h2
          rw [ha.input, hp] at hlt2
          have hk2 : (l.input.drop b)[l.pos - b + 1]? = some d := by
            rw [List.getElem?_drop]
            have : b + (l.pos - b + 1) = l.pos + 1 := by omega
            rw [this]
            rw [ha.input, hp] at h2
            exact h2
          have htake2 := take_succ_of_get hk2
          obtain ⟨l1, e1, e2⟩ := ih l.next.2.next.2 b hb2.inv (by rw [hp2]; omega)
            (by rw [hb2.input, ha.input]; exact hun)
            (by
              rw [hb2.input, ha.input, hp2]
              have : l.pos + 2 - b = l.pos - b + 1 + 1 := by omega
              rw [this, htake2, htake, trailingBackslashes_snoc, trailingBackslashes_snoc]
              simp only [beq_self_eq_true, ↓reduceIte]
              split_ifs
              · omega
              · rfl)
            (by rw [hb2.input, ha.input, hp2]; omega)
          refine ⟨l1, e1, ?_⟩
          rw [e2, hb2.items, hb2.input, hb2.start, ha.items, ha.input, ha.start]
      · by_cases hqc : some q = some c
        · exfalso
          cases hqc
          have hlen : l.pos - b < (l.input.drop b).length := by
            rw [List.length_drop]
            omega
          have := hun (l.pos - b) hlen hk
          simp only [Escaped, beq_iff_eq] at this
          omega
        · rw [lexQuoteLoop_plain (some q) m l hn1 hc hqc]
          obtain ⟨l1, e1, e2⟩ := ih l.next.2 b ha.inv (by rw [hp]; omega)
            (by rw [ha.input]; exact hun)
            (by
              rw [ha.input, hp]
              have : l.pos + 1 - b = l.pos - b + 1 := by omega
              rw [this, htake, trailingBackslashes_snoc]
              have : (c == backslash) = false := by simpa using hc
              simp only [this, Bool.false_eq_true, ↓reduceIte, Nat.zero_mod])
            (by rw [ha.input, hp]; omega)
          refine ⟨l1, e1, ?_⟩
          rw [e2, ha.items, ha.input, ha.start]

/-- Entered on a quote that nothing closes, `lexQuote` ends the scan with the
error token for a string that is not terminated. -/
theorem lexQuote_unclosed {l : lexer} {q : Char} (hi : l.Inv) (h : l.input[l.pos]? = some q)
    (hun : Unclosed q (l.input.drop (l.pos + 1))) :
    ∃ l1, lexQuote l = .ok (none, l1) ∧
      l1.items = l.items ++
        [⟨.itemError, byteOffset l.input l.start, "unterminated quoted string"⟩] := by
  have ha := lexer.adv_next hi
  have hnx := lexer.next_some h
  have hp : l.next.2.pos = l.pos + 1 := by rw [hnx]
  have hn1 : l.next.1 = some q := by rw [hnx]
  obtain ⟨l1, e1, e2⟩ := lexQuoteLoop_unclosed q (l.input.length + 1) l.next.2 (l.pos + 1) ha.inv
    (by rw [hp]) (by rw [ha.input]; exact hun)
    (by rw [hp, Nat.sub_self]; rfl) (by rw [ha.input]; omega)
  refine ⟨l1, ?_, ?_⟩
  · simp only [lexQuote, hn1]
    exact e1
  · rw [e2, ha.items, ha.input, ha.start]

/-- The scanner after `n` calls of a state function: the run goes on from
there. -/
theorem lexer.runSteps_spec (E : Lib) :
    ∀ (n : Nat) (s : stateFn) (l : lexer) (s1 : stateFn) (l1 : lexer), l.Inv → Ready E s l →
      lexer.runSteps E n s l = .ok (some s1, l1) →
      l1.input = l.input ∧ l1.Inv ∧ Ready E s1 l1 ∧ potential s1 l1 + n ≤ potential s l ∧
        ∀ m, lexer.runLoop E (m + n) s l = lexer.runLoop E m s1 l1 := by
  intro n
  induction n with
  | zero =>
    intro s l s1 l1 hi hr h
    simp only [lexer.runSteps, Result.ok.injEq, Prod.mk.injEq, Option.some.injEq] at h
    obtain ⟨rfl, rfl⟩ := h
    exact ⟨rfl, hi, hr, le_refl _, fun _ => rfl⟩
  | succ n ih =>
    intro s l s1 l1 hi hr h
    obtain ⟨r, h1, h2, h3, h4⟩ := callState_ok E s hi hr
    obtain ⟨r1, r2⟩ := r
    simp only [lexer.runSteps, h1] at h
    cases r1 with
    | none => cases h
    | some s2 =>
      simp only at h
      obtain ⟨g1, g2, -⟩ := h4
      obtain ⟨k1, k2, k3, k4, k5⟩ := ih s2 r2 s1 l1 h3 g1 h
      simp only at g2 h2
      refine ⟨k1.trans h2, k2, k3, by omega, fun m => ?_⟩
      rw [← Nat.add_assoc, lexer.runLoop_some E (m + n) h1]
      exact k5 m
/-! ## The tokens of a scan in their order -/

theorem sends_behind_none {s : stateFn} {a : Option itemType} {s1 : stateFn}
    (hb : s.behind a = true) (hs : s.sends (some s1) none = true) : s1.behind a = true := by
  cases s <;> cases s1 <;> simp only [stateFn.sends, Bool.false_eq_true] at hs <;>
    cases a <;> simp_all [stateFn.behind, itemType.opens]
  all_goals rename_i t; cases t <;> simp_all [itemType.isSeparator]

theorem sends_mayFollow {s : stateFn} {a : Option itemType} {nx : Option stateFn}
    {ty : itemType} (hb : s.behind a = true) (hs : s.sends nx (some ty) = true) :
    mayFollow a ty = true := by
  rcases nx with _ | (_ | _ | _ | _ | _ | _) <;> cases s <;>
    simp only [stateFn.sends, Bool.false_eq_true] at hs <;>
    rcases a with _ | (_ | _ | _ | _ | _ | _ | _ | _ | _ | _ | _ | _) <;>
    simp only [stateFn.behind, itemType.opens, itemType.isSeparator, itemType.isMark,
      itemType.isValue, Bool.false_eq_true, Bool.or_false, Bool.or_true, beq_iff_eq,
      Bool.or_eq_true, reduceCtorEq, or_self] at hb <;>
    cases ty <;> first | rfl | (exact absurd hs (by decide))

theorem sends_behind_some {s : stateFn} {s1 : stateFn}
    {ty : itemType} (hs : s.sends (some s1) (some ty) = true) : s1.behind (some ty) = true := by
  cases s <;> cases s1 <;> simp only [stateFn.sends, Bool.false_eq_true] at hs <;>
    cases ty <;> first | rfl | (exact absurd hs (by decide))

theorem lexer.undo_items (l : lexer) : l.undo.items = l.items := by
  simp only [lexer.undo]
  split <;> rfl

theorem lexer.peek_items (l : lexer) : l.peek.2.items = l.items := by
  simp only [lexer.peek, lexer.undo_items, lexer.next_items]

theorem lexer.atTerminator_items (l : lexer) : l.atTerminator.2.items = l.items := by
  simp only [lexer.atTerminator]
  split_ifs <;> exact lexer.peek_items l

theorem transits_errorf {s : stateFn} {l l1 : lexer} (h : l1.items = l.items) (msg : String)
    (hs : s.sends none (some .itemError) = true) : Transits s l (l1.errorf msg) :=
  Or.inr ⟨⟨.itemError, byteOffset l1.input l1.start, msg⟩, by simp [lexer.errorf, h], hs⟩

theorem transits_emit {s : stateFn} {l l1 : lexer} (h : l1.items = l.items) (t : itemType)
    (nx : Option stateFn) (hs : s.sends nx (some t) = true) : Transits s l (nx, l1.emit t) :=
  Or.inr ⟨⟨t, byteOffset l1.input l1.start, slice l1.input l1.start l1.pos⟩,
    by simp [lexer.emit, h], hs⟩

theorem lexArgumentStart_transits (E : Lib) (l : lexer) :
    Transits .lexArgumentStart l (lexArgumentStart E l) := by
  have h1 := lexer.next_items l
  have h2 : l.next.2.peek.2.items = l.items := (lexer.peek_items _).trans h1
  have h3 : l.next.2.undo.items = l.items := (lexer.undo_items _).trans h1
  simp only [lexArgumentStart]
  split_ifs
  · exact transits_emit h1 _ _ rfl
  · exact transits_errorf h2 _ rfl
  · exact transits_emit h2 _ _ rfl
  · exact transits_emit h2 _ _ rfl
  · exact Or.inl ⟨h3, rfl⟩
  · exact Or.inl ⟨h3, rfl⟩
  · exact Or.inl ⟨h3, rfl⟩
  · exact transits_errorf h1 _ rfl

theorem lexInArgument_transits (E : Lib) (l : lexer) :
    Transits .lexInArgument l (lexInArgument E l) := by
  have h1 := lexer.next_items l
  simp only [lexInArgument]
  split_ifs
  · exact transits_emit h1 _ _ rfl
  · exact transits_emit h1 _ _ rfl
  · exact transits_emit h1 _ _ rfl
  · exact transits_emit h1 _ _ rfl
  · exact transits_errorf h1 _ rfl

theorem lexValue_transits (E : Lib) (l : lexer) : Transits .lexValue l (lexValue E l) := by
  have h1 := lexer.next_items l
  have h3 : l.next.2.undo.items = l.items := (lexer.undo_items _).trans h1
  simp only [lexValue]
  split_ifs
  · exact transits_errorf h1 _ rfl
  · exact Or.inl ⟨h3, rfl⟩
  · exact Or.inl ⟨h3, rfl⟩
  · exact Or.inl ⟨h3, rfl⟩
  · exact transits_errorf h1 _ rfl

theorem lexIdentifierLoop_transits (E : Lib) :
    ∀ (n : Nat) (l : lexer) (r : Option stateFn × lexer), lexIdentifierLoop E n l = .ok r →
      Transits .lexIdentifier l r := by
  intro n
  induction n with
  | zero => intro l r h; cases h
  | succ n ih =>
    intro l r h
    have h1 := lexer.next_items l
    have h3 : l.next.2.undo.atTerminator.2.items = l.items :=
      (lexer.atTerminator_items _).trans ((lexer.undo_items _).trans h1)
    simp only [lexIdentifierLoop] at h
    split_ifs at h
    · have := ih _ _ h
      simp only [Transits, h1] at this ⊢
      exact this
    · cases h
      exact transits_errorf h3 _ rfl
    · cases h
      exact transits_emit h3 _ _ rfl
    · cases h
      exact transits_emit h3 _ _ rfl
    · cases h
      exact transits_emit h3 _ _ rfl

theorem lexQuoteLoop_transits (q : Option Char) :
    ∀ (n : Nat) (l : lexer) (r : Option stateFn × lexer), lexQuoteLoop q n l = .ok r →
      Transits .lexQuote l r := by
  intro n
  induction n with
  | zero => intro l r h; cases h
  | succ n ih =>
    intro l r h
    have h1 := lexer.next_items l
    have h2 : l.next.2.next.2.items = l.items := (lexer.next_items _).trans h1
    simp only [lexQuoteLoop] at h
    split_ifs at h
    · have := ih _ _ h
      simp only [Transits, h2] at this ⊢
      exact this
    · cases h
      exact transits_errorf h2 _ rfl
    · cases h
      exact transits_errorf h1 _ rfl
    · cases h
      exact transits_emit h1 _ _ rfl
    · have := ih _ _ h
      simp only [Transits, h1] at this ⊢
      exact this

theorem lexNumber_transits (E : Lib) {l : lexer} {r : Option stateFn × lexer} (hi : l.Inv)
    (h : lexNumber E l = .ok r) : Transits .lexNumber l r := by
  obtain ⟨l1, h1, a1, -⟩ := lexer.scanNumber_ok hi
  have h2 : l1.atTerminator.2.items = l.items := (lexer.atTerminator_items _).trans a1.items
  have h3 : l1.atTerminator.2.peek.2.items = l.items := (lexer.peek_items _).trans h2
  unfold lexNumber at h
  rw [h1] at h
  simp only [Bool.not_true, Bool.false_eq_true, ↓reduceIte] at h
  generalize l1.atTerminator = tm at h h2 h3
  cases htm : tm.1 with
  | false =>
    simp only [htm, Bool.not_false, ↓reduceIte, Result.ok.injEq] at h
    subst h
    exact transits_errorf h3 _ rfl
  | true =>
    simp only [htm, Bool.not_true, Bool.false_eq_true, ↓reduceIte, Result.ok.injEq] at h
    subst h
    exact transits_emit h2 _ _ rfl

/-- Every call of a state function follows the table of `stateFn.sends`. -/
theorem callState_transits (E : Lib) {s : stateFn} {l : lexer} {r : Option stateFn × lexer}
    (hi : l.Inv) (h : callState E s l = .ok r) : Transits s l r := by
  cases s with
  | lexArgumentStart => cases h; exact lexArgumentStart_transits E l
  | lexInArgument => cases h; exact lexInArgument_transits E l
  | lexValue => cases h; exact lexValue_transits E l
  | lexIdentifier => exact lexIdentifierLoop_transits E _ _ _ h
  | lexQuote =>
    have := lexQuoteLoop_transits _ _ _ _ h
    simp only [Transits, lexer.next_items] at this ⊢
    exact this
  | lexNumber => exact lexNumber_transits E hi h

theorem lastKind_snoc (a : Option itemType) (xs : List item) (t : item) :
    lastKind a (xs ++ [t]) = some t.typ := by
  simp [lastKind]

theorem chained_snoc (a : Option itemType) (xs : List item) (t : item) :
    chained a (xs ++ [t]) = (chained a xs && mayFollow (lastKind a xs) t.typ) := by
  induction xs generalizing a with
  | nil => simp [chained, lastKind]
  | cons x xs ih =>
    have hl : lastKind a (x :: xs) = lastKind (some x.typ) xs := by
      cases xs with
      | nil => rfl
      | cons y ys =>
        simp only [lastKind, List.getLast?_cons_cons]
        cases hg : (y :: ys).getLast? with
        | none => simp [List.getLast?_eq_none_iff] at hg
        | some z => rfl
    have hc : chained a (x :: xs ++ [t]) = (mayFollow a x.typ && chained (some x.typ) (xs ++ [t])) :=
      rfl
    rw [hc, ih, hl]
    simp only [chained, Bool.and_assoc]

/-- The tokens of a scan stand in the order that the state functions allow. -/
theorem lexer.runLoop_chained (E : Lib) :
    ∀ (n : Nat) (s : stateFn) (l l1 : lexer), l.Inv → Ready E s l →
      s.behind (lastKind none l.items) = true → chained none l.items = true →
      lexer.runLoop E n s l = .ok l1 → chained none l1.items = true := by
  intro n
  induction n with
  | zero => intro s l l1 _ _ _ _ h; cases h
  | succ n ih =>
    intro s l l1 hi hr hb hc h
    obtain ⟨r, h1, h2, h3, h4⟩ := callState_ok E s hi hr
    have ht := callState_transits E hi h1
    obtain ⟨r1, r2⟩ := r
    simp only [lexer.runLoop, h1] at h
    cases r1 with
    | none =>
      simp only [Result.ok.injEq] at h
      subst h
      rcases ht with ⟨-, e2⟩ | ⟨it, e1, e2⟩
      · cases s <;> cases e2
      · simp only at e1 e2
        rw [e1, chained_snoc, hc, sends_mayFollow hb e2]
        rfl
    | some s1 =>
      simp only at h
      obtain ⟨g1, -, -⟩ := h4
      rcases ht with ⟨e1, e2⟩ | ⟨it, e1, e2⟩
      · simp only at e1 e2
        exact ih s1 r2 l1 h3 g1 (by rw [e1]; exact sends_behind_none hb e2) (by rw [e1]; exact hc) h
      · simp only at e1 e2
        refine ih s1 r2 l1 h3 g1 ?_ ?_ h
        · rw [e1, lastKind_snoc]
          exact sends_behind_some e2
        · rw [e1, chained_snoc, hc, sends_mayFollow hb e2]
          rfl

theorem lex_chained (E : Lib) (inp : String) (items : List item) (h : lex E inp = .ok items) :
    chained none items = true := by
  cases hr : lexer.run E ⟨inp.data, 0, 0, false, []⟩ with
  | ok l1 =>
    simp only [lex, hr, Result.ok.injEq] at h
    subst h
    exact lexer.runLoop_chained E _ .lexArgumentStart ⟨inp.data, 0, 0, false, []⟩ l1
      ⟨fun h => Bool.noConfusion h, Nat.zero_le _⟩ trivial rfl rfl hr
  | err m => simp only [lex, hr] at h; cases h
  | panic m => simp only [lex, hr] at h; cases h
  | diverge => simp only [lex, hr] at h; cases h
/-! ## The parser on a scan that ends with an error token -/

theorem leafOf_error (E : Lib) {e : item} (h : e.typ = .itemError) :
    leafOf E e = .panic ("unexpected " ++ e.val) := by
  simp only [leafOf, h, item.String]
  rfl

theorem ErrForm.toArg {E : Lib} {e : item} {b : Bool} {L : List item} (h : ErrForm E e b L) :
    ErrForm E e true L := by
  cases h with
  | stop => exact .stop true
  | value _ v sep R n h1 h2 h3 => exact .value true v sep R n h1 h2 h3
  | mark c h1 => exact .mark c h1
  | switch c w sep R h1 h2 h3 h4 => exact .switch c w sep R h1 h2 h3 h4

/-- The rest of a Slice on such a list: the failure at the error token, or
the values up to a separator other than `;`. -/
theorem refRest_errForm (E : Lib) {e : item} (he : e.typ = .itemError) :
    ∀ (b : Bool) (R : List item), ErrForm E e b R → b = false →
      ∀ sep : item, sep.typ = .itemListSeparator →
        refRest E (sep :: R) = .panic ("unexpected " ++ e.val) ∨
        ∃ ns sep1 R1, refRest E (sep :: R) = .ok (ns, sep1 :: R1) ∧
          sep1.typ.isSeparator = true ∧
          ErrForm E e (sep1.typ == .itemArgumentSeparator) R1 ∧ R1.length + 2 ≤ R.length := by
  intro b R h
  induction h with
  | stop _ =>
    intro _ sep hs
    left
    simp only [refRest, hs, beq_self_eq_true, ↓reduceIte, leafOf_error E he]
  | value _ v sep1 R n h1 h2 h3 ih =>
    intro _ sep hs
    by_cases hl : sep1.typ = .itemListSeparator
    · have hf : (sep1.typ == .itemArgumentSeparator) = false := by rw [hl]; rfl
      rcases ih hf sep1 hl with hp | ⟨ns, sep2, R2, e1, e2, e3, e4⟩
      · left
        simp only [refRest, hs, beq_self_eq_true, ↓reduceIte, h1, hp]
      · right
        refine ⟨n :: ns, sep2, R2, ?_, e2, e3, ?_⟩
        · simp only [refRest, hs, beq_self_eq_true, ↓reduceIte, h1, e1]
        · simp only [List.length_cons]
          omega
    · right
      refine ⟨[n], sep1, R, ?_, h2, h3, ?_⟩
      · have := refRest_stop E (sep1 :: R) hl
        simp only [refRest, hs, beq_self_eq_true, ↓reduceIte, h1, this]
      · simp only [List.length_cons]
        omega
  | mark c _ => intro hb; cases hb
  | switch c w sep R _ _ _ _ _ => intro hb; cases hb

theorem isSeparator_ne_eof {t : itemType} (h : t.isSeparator = true) : t ≠ .itemEOF := by
  intro e
  rw [e] at h
  cases h

theorem isValue_facts {t : itemType} (h : t.isValue = true) :
    t.isMark = false ∧ t ≠ .itemEOF ∧ t ≠ .itemError := by
  cases t <;> simp_all [itemType.isValue, itemType.isMark]

theorem isMark_facts {t : itemType} (h : t.isMark = true) :
    t ≠ .itemEOF ∧ t ≠ .itemError ∧ t ≠ .itemIdentifier := by
  cases t <;> simp_all [itemType.isMark]

theorem isSeparator_facts {t : itemType} (h : t.isSeparator = true) :
    t ≠ .itemEOF ∧ t ≠ .itemEnable ∧ t ≠ .itemDisable ∧ t ≠ .itemIdentifier := by
  cases t <;> simp_all [itemType.isSeparator]

/-- `argumentValue` on such a list that opens with no switch mark: the
failure at the error token, or a value up to a separator. -/
theorem refValue_errForm (E : Lib) {e : item} (he : e.typ = .itemError) {b : Bool}
    {L : List item} (h : ErrForm E e b L)
    (hm : (L.headD zeroItem).typ.isMark = false) :
    refValue E L = .panic ("unexpected " ++ e.val) ∨
    ∃ n sep1 R1, refValue E L = .ok (n, sep1 :: R1) ∧ sep1.typ.isSeparator = true ∧
      ErrForm E e (sep1.typ == .itemArgumentSeparator) R1 ∧ R1.length + 2 ≤ L.length := by
  cases h with
  | stop =>
    left
    have h2 : ((([e] : List item).tail.headD zeroItem).typ == .itemListSeparator) = false := rfl
    simp only [refValue, h2, Bool.false_eq_true, ↓reduceIte, refSimple, List.headD_cons,
      leafOf_error E he]
  | value _ v sep R n h1 h2 h3 =>
    by_cases hl : sep.typ = .itemListSeparator
    · have hf : (sep.typ == .itemArgumentSeparator) = false := by rw [hl]; rfl
      have hc : (sep.typ == .itemListSeparator) = true := by simp [hl]
      rw [hf] at h3
      rcases refRest_errForm E he false R h3 rfl sep hl with hp | ⟨ns, sep2, R2, e1, e2, e3, e4⟩
      · left
        simp only [refValue, hc, ↓reduceIte, refSimple, List.headD_cons, h1, List.tail_cons, hp]
      · right
        refine ⟨.sliceN n.getPosition (n :: ns), sep2, R2, ?_, e2, e3, ?_⟩
        · simp only [refValue, hc, ↓reduceIte, refSimple, List.headD_cons, h1, List.tail_cons, e1]
        · simp only [List.length_cons]
          omega
    · right
      have hc : (sep.typ == .itemListSeparator) = false := by simpa using hl
      refine ⟨n, sep, R, ?_, h2, h3, ?_⟩
      · simp only [refValue, hc, Bool.false_eq_true, ↓reduceIte, refSimple, List.headD_cons, h1,
          List.tail_cons]
      · simp only [List.length_cons]
        omega
  | mark c h1 =>
    simp only [List.headD_cons] at hm
    rw [h1] at hm
    cases hm
  | switch c w sep R h1 _ _ _ =>
    simp only [List.headD_cons] at hm
    rw [h1] at hm
    cases hm

theorem isMark_iff {t : itemType} :
    t.isMark = (t == .itemDisable || t == .itemEnable) := by
  cases t <;> rfl

/-- `argument` on such a list: the failure at the error token, or an
argument up to a separator. -/
theorem refArgument_errForm (E : Lib) {e : item} (he : e.typ = .itemError) {b : Bool}
    {L : List item} (h : ErrForm E e b L) :
    refArgument E L = .panic ("unexpected " ++ e.val) ∨
    ∃ a sep1 R1, refArgument E L = .ok (a, sep1 :: R1) ∧ sep1.typ.isSeparator = true ∧
      ErrForm E e (sep1.typ == .itemArgumentSeparator) R1 ∧ R1.length + 2 ≤ L.length := by
  cases hmk : (L.headD zeroItem).typ.isMark with
  | true =>
    have hmk2 := hmk
    rw [isMark_iff] at hmk2
    cases h with
    | stop =>
      simp only [List.headD_cons, he] at hmk
      cases hmk
    | value _ v sep R n h1 h2 h3 =>
      simp only [List.headD_cons, (isValue_facts (leafOf_value E h1)).1] at hmk
      cases hmk
    | mark c h1 =>
      left
      simp only [List.headD_cons] at hmk2
      have h2 : (itemType.itemError != itemType.itemIdentifier) = true := rfl
      have h3 : (itemType.itemError == itemType.itemEOF) = false := rfl
      simp only [refArgument, List.headD_cons, List.tail_cons, hmk2, he, ↓reduceIte, h2, h3,
        item.String, beq_self_eq_true, Bool.false_eq_true]
    | switch c w sep R h1 h2 h3 h4 =>
      right
      simp only [List.headD_cons] at hmk2
      have h5 : (w.typ != .itemIdentifier) = false := by simp [h2]
      obtain ⟨a, ha⟩ : ∃ a, refArgument E (c :: w :: sep :: R) = .ok (a, sep :: R) := by
        simp only [refArgument, List.headD_cons, List.tail_cons, hmk2, ↓reduceIte, h5,
          Bool.false_eq_true, Result.ok.injEq, Prod.mk.injEq, and_true, exists_eq']
      refine ⟨a, sep, R, ha, h3, h4, ?_⟩
      simp only [List.length_cons]
      omega
  | false =>
    have hmk2 := hmk
    rw [isMark_iff] at hmk2
    by_cases hk : ((L.headD zeroItem).typ == .itemIdentifier &&
        (L.tail.headD zeroItem).typ == .itemAssign) = true
    · cases h with
      | stop =>
        simp only [List.headD_cons, he, Bool.and_eq_true, beq_iff_eq, reduceCtorEq,
          false_and] at hk
      | value _ v sep R n h1 h2 h3 =>
        have hs : sep.typ = .itemAssign := by
          simp only [List.headD_cons, List.tail_cons, Bool.and_eq_true, beq_iff_eq] at hk
          exact hk.2
        have hf : (sep.typ == .itemArgumentSeparator) = false := by rw [hs]; rfl
        rw [hf] at h3
        have hm1 : (R.headD zeroItem).typ.isMark = false := by
          cases h3 <;> first | (simp only [List.headD_cons, he]; rfl) | skip
          rename_i v1 sep1 R1 n1 g1 g2 g3
          simp only [List.headD_cons]
          exact (isValue_facts (leafOf_value E g1)).1
        simp only [List.headD_cons, List.tail_cons] at hmk2 hk
        rcases refValue_errForm E he h3 hm1 with hp | ⟨n1, sep2, R2, e1, e2, e3, e4⟩
        · left
          simp only [refArgument, List.headD_cons, List.tail_cons, hmk2, Bool.false_eq_true,
            ↓reduceIte, hk, hp]
        · right
          obtain ⟨a, ha⟩ : ∃ a, refArgument E (v :: sep :: R) = .ok (a, sep2 :: R2) := by
            simp only [refArgument, List.headD_cons, List.tail_cons, hmk2, Bool.false_eq_true,
              ↓reduceIte, hk, e1, Result.ok.injEq, Prod.mk.injEq, and_true, exists_eq']
          refine ⟨a, sep2, R2, ha, e2, e3, ?_⟩
          simp only [List.length_cons]
          omega
      | mark c h1 =>
        simp only [List.headD_cons, h1] at hmk
        cases hmk
      | switch c w sep R h1 _ _ _ =>
        simp only [List.headD_cons, h1] at hmk
        cases hmk
    · rcases refValue_errForm E he h hmk with hp | ⟨n1, sep2, R2, e1, e2, e3, e4⟩
      · left
        simp only [refArgument, hmk2, Bool.false_eq_true, ↓reduceIte, hk, hp]
      · right
        obtain ⟨a, ha⟩ : ∃ a, refArgument E L = .ok (a, sep2 :: R2) := by
          simp only [refArgument, hmk2, Bool.false_eq_true, ↓reduceIte, hk, e1,
            Result.ok.injEq, Prod.mk.injEq, and_true, exists_eq']
        exact ⟨a, sep2, R2, ha, e2, e3, e4⟩

/-- The loop of `parse` on such a list ends with the failure at the error
token. -/
theorem refArgs_errForm (E : Lib) {e : item} (he : e.typ = .itemError) :
    ∀ (fuel : Nat) (L : List item) (acc : List argumentNode), ErrForm E e true L →
      L.length ≤ fuel → refArgs E fuel L acc = .panic ("unexpected " ++ e.val) := by
  intro fuel
  induction fuel with
  | zero =>
    intro L acc h hl
    cases h <;> simp at hl
  | succ fuel ih =>
    intro L acc h hl
    have hne : ((L.headD zeroItem).typ == .itemEOF) = false := by
      cases h with
      | stop => simp [he]
      | value _ v sep R n h1 h2 h3 =>
        simpa using (isValue_facts (leafOf_value E h1)).2.1
      | mark c h1 => simpa using (isMark_facts h1).1
      | switch c w sep R h1 _ _ _ => simpa using (isMark_facts h1).1
    rcases refArgument_errForm E he h with hp | ⟨a, sep1, R1, e1, e2, e3, e4⟩
    · simp only [refArgs, hne, Bool.false_eq_true, ↓reduceIte, hp]
    · have hs : ((((a, sep1 :: R1) : argumentNode × List item).2.headD zeroItem).typ ==
          .itemEOF) = false := by
        simp only [List.headD_cons]
        simpa using isSeparator_ne_eof e2
      simp only [refArgs, hne, Bool.false_eq_true, ↓reduceIte, e1, hs, List.tail_cons]
      exact ih R1 _ e3.toArg (by omega)

/-! ## From the order of the tokens to the form the parser reads -/

theorem leafOf_word (E : Lib) {tok : item} (h : tok.typ.isWord = true) :
    ∃ n, leafOf E tok = .ok n := by
  cases hv : tok.typ <;> rw [hv] at h <;> cases h
  · exact ⟨.nilN ⟨tok.pos⟩, by simp only [leafOf, hv]⟩
  · exact ⟨.boolN ⟨tok.pos, tok.val == "true"⟩, by simp only [leafOf, hv]⟩
  · exact ⟨.identifierN ⟨tok.pos, tok.val⟩, by simp only [leafOf, hv]⟩

theorem isValue_cases {t : itemType} (h : t.isValue = true) :
    t.isWord = true ∨ t = .itemNumber ∨ t = .itemString := by
  cases t <;> simp_all [itemType.isValue, itemType.isWord]

theorem isWord_isValue {t : itemType} (h : t.isWord = true) : t.isValue = true := by
  cases t <;> simp_all [itemType.isValue, itemType.isWord]

theorem mayFollow_start {a : Option itemType} {b : itemType}
    (ha : a = none ∨ ∃ t, a = some t ∧ t.isSeparator = true) (h : mayFollow a b = true)
    (h1 : b ≠ .itemEOF) (h2 : b ≠ .itemError) :
    b.isValue = true ∨ (b.isMark = true ∧ argFlag a = true) := by
  rcases ha with rfl | ⟨t, rfl, ht⟩
  · cases b <;> simp_all [mayFollow, itemType.isValue, itemType.isMark, argFlag]
  · cases t <;> simp only [itemType.isSeparator, Bool.false_eq_true] at ht <;>
      cases b <;> simp_all [mayFollow, itemType.isValue, itemType.isMark, argFlag]

theorem mayFollow_value {b c : itemType} (hb : b.isValue = true)
    (h : mayFollow (some b) c = true) (h1 : c ≠ .itemEOF) (h2 : c ≠ .itemError) :
    c.isSeparator = true := by
  cases b <;> simp only [itemType.isValue, Bool.false_eq_true] at hb <;>
    cases c <;> simp_all [mayFollow, itemType.isSeparator]

theorem mayFollow_mark {b c : itemType} (hb : b.isMark = true)
    (h : mayFollow (some b) c = true) (h2 : c ≠ .itemError) : c.isWord = true := by
  cases b <;> simp only [itemType.isMark, Bool.false_eq_true] at hb <;>
    cases c <;> simp_all [mayFollow, itemType.isWord]

theorem opens_not_value {t : itemType} (h : t.opens = true) : t.isValue = false := by
  cases t <;> simp_all [itemType.opens, itemType.isSeparator, itemType.isMark, itemType.isValue]

theorem getLast?_cons_cons_cons {α : Type} (x y z : α) (R : List α) :
    (x :: y :: z :: R).getLast? = (z :: R).getLast? := by
  rw [List.getLast?_cons_cons, List.getLast?_cons_cons]

/-- The items of a scan before an error token that stands where a value is
expected, when the parser rejects none of them, have the form that the
parser reads up to the error token. -/
theorem errForm_of_chained (E : Lib) (e : item) :
    ∀ (k : Nat) (L : List item) (a : Option itemType), L.length ≤ k →
      (a = none ∨ ∃ t, a = some t ∧ t.isSeparator = true) →
      chained a (L ++ [e]) = true →
      (∀ tok ∈ L, tok.typ ≠ .itemEOF ∧ tok.typ ≠ .itemError) →
      (∀ prev ∈ L.getLast?, prev.typ.opens = true) →
      (∀ tok ∈ L, tok.typ = .itemNumber ∨ tok.typ = .itemString → ∃ n, leafOf E tok = .ok n) →
      (∀ (i : Nat) (mark tok : item), L[i]? = some mark → mark.typ.isMark = true →
        L[i + 1]? = some tok → tok.typ = .itemIdentifier) →
      ErrForm E e (argFlag a) (L ++ [e]) := by
  intro k
  induction k using Nat.strong_induction_on with
  | _ k ih =>
    intro L a hk ha hch c0 c1 c2 c3
    have hleaf : ∀ tok ∈ L, tok.typ.isValue = true → ∃ n, leafOf E tok = .ok n := by
      intro tok ht hv
      rcases isValue_cases hv with hw | hn | hs
      · exact leafOf_word E hw
      · exact c2 tok ht (Or.inl hn)
      · exact c2 tok ht (Or.inr hs)
    match L, hk, hch, c0, c1, c2, c3, hleaf with
    | [], _, _, _, _, _, _, _ => exact .stop _
    | [x], _, hch, c0, c1, _, _, _ =>
      simp only [List.singleton_append, chained, Bool.and_eq_true] at hch
      have hx := c0 x (List.mem_singleton_self x)
      have ho := c1 x rfl
      rcases mayFollow_start ha hch.1 hx.1 hx.2 with hv | ⟨hm, hf⟩
      · rw [opens_not_value ho] at hv
        cases hv
      · rw [hf]
        exact .mark x hm
    | x :: y :: R, hk, hch, c0, c1, c2, c3, hleaf =>
      simp only [List.cons_append, chained, Bool.and_eq_true] at hch
      obtain ⟨hax, hxy, hrest⟩ := hch
      have hx := c0 x (List.mem_cons_self _ _)
      have hy := c0 y (List.mem_cons_of_mem _ (List.mem_cons_self _ _))
      simp only [List.length_cons] at hk
      rcases mayFollow_start ha hax hx.1 hx.2 with hv | ⟨hm, hf⟩
      · have hsep := mayFollow_value hv hxy hy.1 hy.2
        obtain ⟨n, hn⟩ := hleaf x (List.mem_cons_self _ _) hv
        refine .value _ x y (R ++ [e]) n hn hsep ?_
        refine ih (k - 1) (by omega) R (some y.typ) (by omega) (Or.inr ⟨_, rfl, hsep⟩) hrest
          (fun tok ht => c0 tok (List.mem_cons_of_mem _ (List.mem_cons_of_mem _ ht))) ?_
          (fun tok ht => c2 tok (List.mem_cons_of_mem _ (List.mem_cons_of_mem _ ht))) ?_
        · intro prev hp
          cases R with
          | nil => cases hp
          | cons z R1 =>
            apply c1 prev
            rw [getLast?_cons_cons_cons]
            exact hp
        · intro i mark tok h1 h2 h3
          exact c3 (i + 2) mark tok (by simpa using h1) h2 (by simpa using h3)
      · have hw := mayFollow_mark hm hxy hy.2
        have hid : y.typ = .itemIdentifier :=
          c3 0 x y List.getElem?_cons_zero hm (by simp)
        match R, hk, hrest, c0, c1, c2, c3 with
        | [], _, _, _, c1, _, _ =>
          have := c1 y (by simp)
          rw [hid] at this
          cases this
        | z :: R1, hk, hrest, c0, c1, c2, c3 =>
          simp only [List.cons_append, chained, Bool.and_eq_true] at hrest
          have hz := c0 z (List.mem_cons_of_mem _ (List.mem_cons_of_mem _ (List.mem_cons_self _ _)))
          have hsep := mayFollow_value (isWord_isValue hw) hrest.1 hz.1 hz.2
          simp only [List.length_cons] at hk
          rw [hf]
          refine .switch x y z (R1 ++ [e]) hm hid hsep ?_
          refine ih (k - 1) (by omega) R1 (some z.typ) (by omega) (Or.inr ⟨_, rfl, hsep⟩) hrest.2
            (fun tok ht => c0 tok (List.mem_cons_of_mem _ (List.mem_cons_of_mem _
              (List.mem_cons_of_mem _ ht)))) ?_
            (fun tok ht => c2 tok (List.mem_cons_of_mem _ (List.mem_cons_of_mem _
              (List.mem_cons_of_mem _ ht)))) ?_
          · intro prev hp
            cases R1 with
            | nil => cases hp
            | cons u R2 =>
              apply c1 prev
              rw [getLast?_cons_cons_cons, List.getLast?_cons_cons]
              exact hp
          · intro i mark tok h1 h2 h3
            exact c3 (i + 3) mark tok (by simpa using h1) h2 (by simpa using h3)

/-- An error token right behind a value is lost: the loop of `parse` drops
the token behind an argument whatever it is, and the failure names the zero
item that the closed channel yields next. -/
theorem Parse_error_behind_value :
    lex asciiLib "foo @" = .ok [⟨.itemIdentifier, 0, "foo"⟩,
      ⟨.itemError, 3, "bad character U+0020 ' '"⟩] ∧
    Parse asciiLib "foo @" = .panic "unexpected " := by
  refine ⟨?_, ?_⟩ <;> decide!

/-! # The claims -/

set_option maxRecDepth 100000

/-! ## C1: round trip -/

/-- C1 (the code departs from the claim): rendering the root of a successful
parse does not always give back the input.  `Parse` accepts "nil=1" and
"foo," and renders the roots as "nil,1" and "foo": after an argument the loop
of `tree.parse` drops a token that is neither `,` nor the end of input, and it
accepts the end of input after a `,`. -/
theorem C1_round_trip_broken :
    (Parse asciiLib "nil=1").map (fun t => t.root.map listNode.String) = .ok (some "nil,1") ∧
    (Parse asciiLib "foo,").map (fun t => t.root.map listNode.String) = .ok (some "foo") ∧
    (Parse asciiLib "~foo;bar").map (fun t => t.root.map listNode.String) =
      .ok (some "~foo,bar") := by
  refine ⟨?_, ?_, ?_⟩ <;> decide!


/-! ## C2: positional values -/

/-- C2 (amended): for a tag other than "-" whose view holds `k` positional
values, with or without keys beside them, and a struct in which field `i`,
for every `i < k`, is exported and compatible with value `i`.  The first loop
of `Fill` succeeds, leaving the fields `fs0`, and `Fill` ends as its second
loop does on them, leaving the fields `fs1` with the names and types they
had.  Field `i < k` holds the value `i` (for a String its unquoted text, for a
Number the integer reduced to the width of the field) unless a key of the tag
is found at that field or at a field promoted through it; a field from index
`k` on at which no key is found either is unchanged.  `Fill` succeeds when
the view has no key, and when every key is found at a field that, as the
positional values leave it, is exported and compatible with the value of the
key, the fields of different keys lying apart. -/
theorem C2_fill_positional (E : Lib) (tag : Tag) (ty : String) (fs : List Field) (p : parsed)
    (hd : tag.Value ≠ "-") (hp : parseValue E tag.Value = .ok p)
    (hc : ∀ (i : Nat) (n : node), p.indexed[i]? = some n →
      ∃ f : Field, fs[i]? = some f ∧ f.exported = true ∧ Compatible f.value n = true) :
    ∃ fs0 fs1 r,
      fillIndexed E p.indexed 0 fs = (fs0, .ok ()) ∧
      fillKeyword E ty (mapRange E p.keyword) fs0 = (fs1, r) ∧
      Tag.Fill E tag (.structPointer ty fs) = (.structPointer ty fs1, r) ∧
      fs1.map FieldOf.shape = fs.map FieldOf.shape ∧
      (∀ (i : Nat) (n : node), p.indexed[i]? = some n →
        (∀ k ∈ p.keyword.map Prod.fst, ∀ index,
          fieldByNameFunc ty fs (fun s => E.toKebabCase s == k) = .ok (some index) →
          index.head? ≠ some i) →
        ∃ g : Field, fs1[i]? = some g ∧ Holds E g.value n) ∧
      (∀ i : Nat, p.indexed.length ≤ i →
        (∀ k ∈ p.keyword.map Prod.fst, ∀ index,
          fieldByNameFunc ty fs (fun s => E.toKebabCase s == k) = .ok (some index) →
          index.head? ≠ some i) →
        fs1[i]? = fs[i]?) ∧
      (p.keyword = [] → fs1 = fs0 ∧ r = .ok ()) ∧
      ((∀ k v, mapLookup p.keyword k = some v →
          ∃ (a : List Nat) (g : Field),
            fieldByNameFunc ty fs (fun s => E.toKebabCase s == k) = .ok (some a) ∧
            fieldAt a fs0 = some g ∧ g.exported = true ∧ Compatible g.value v = true ∧
            ∀ k1 ∈ p.keyword.map Prod.fst, k1 ≠ k → ∀ a1,
              fieldByNameFunc ty fs (fun s => E.toKebabCase s == k1) = .ok (some a1) →
              Apart a a1) →
        r = .ok ()) := by
  obtain ⟨hnd, hmem, hkeys, -⟩ := parseValue_range E tag.Value p hp
  have hok : (fillIndexed E p.indexed 0 fs).2 = .ok () :=
    fillIndexed_ok E p.indexed 0 fs (fun j n hn => by
      obtain ⟨f, hf, hx⟩ := hc j n hn
      exact ⟨f, by simpa using hf, hx⟩)
  obtain ⟨hsh, hfr, hval⟩ := fillIndexed_spec E p.indexed 0 fs
  have hun : ∀ i, (∀ k ∈ p.keyword.map Prod.fst, ∀ index,
      fieldByNameFunc ty fs (fun s => E.toKebabCase s == k) = .ok (some index) →
      index.head? ≠ some i) →
      (fillKeyword E ty (mapRange E p.keyword) (fillIndexed E p.indexed 0 fs).1).1[i]? =
        (fillIndexed E p.indexed 0 fs).1[i]? :=
    fun i h => fillKeyword_untouched E ty fs i _ _ hsh
      (fun kv hkv index hi => h kv.1 (hkeys kv hkv) index hi)
  refine ⟨(fillIndexed E p.indexed 0 fs).1,
    (fillKeyword E ty (mapRange E p.keyword) (fillIndexed E p.indexed 0 fs).1).1,
    (fillKeyword E ty (mapRange E p.keyword) (fillIndexed E p.indexed 0 fs).1).2,
    by rw [← hok], rfl, (Fill_loops E tag ty fs p hd hp).1 hok,
    (fillKeyword_shape E ty _ _).trans hsh, fun i n hn hno => ?_, fun i hi hno => ?_,
    fun he => ?_, fun hK => ?_⟩
  · obtain ⟨f, hf, hr, hg⟩ := hval hok i n hn
    simp only [Nat.zero_add] at hf hg
    obtain ⟨f1, hf1, hx, -⟩ := hc i n hn
    rw [hf] at hf1
    cases hf1
    refine ⟨_, (hun i hno).trans hg, ?_⟩
    simp only
    rw [hx] at hr ⊢
    exact applyNode_holds E f.value n hr
  · rw [hun i hno]
    exact hfr i (Or.inr (by omega))
  · rw [he, mapRange_nil]
    exact ⟨rfl, rfl⟩
  · apply fillKeyword_ok E ty fs (mapRange E p.keyword) _ hsh hnd
    intro kv hkv
    obtain ⟨a, g, ha, hg, hx, hcv, hap⟩ := hK kv.1 kv.2 ((hmem kv.1 kv.2).1 hkv)
    exact ⟨a, g, ha, hg, hx, hcv, fun kv1 hkv1 hne => hap kv1.1 (hkeys kv1 hkv1) hne⟩

/-- C2 at the tag of the test, "12,true,name,~switch", on the struct of the
test: `Fill` succeeds and the three values land in the first three fields;
the key `switch` is found at the fourth. -/
theorem C2_fill_positional_witness :
    (∃ fs1, Tag.Fill asciiLib ⟨"test", "12,true,name,~switch"⟩
        (.structPointer "TestStruct" TestStruct) = (.structPointer "TestStruct" fs1, .ok ()) ∧
      fs1.map FieldOf.shape = TestStruct.map FieldOf.shape ∧
      (∀ (i : Nat) (n : node),
        [node.numberN ⟨0, true, true, true, 12, 12, 4622945017495814144, "12"⟩, .boolN ⟨3, true⟩,
          .identifierN ⟨8, "name"⟩][i]? = some n →
        ∃ g : Field, fs1[i]? = some g ∧ Holds asciiLib g.value n) ∧
      fs1[4]? = TestStruct[4]?) ∧
    Tag.Fill asciiLib ⟨"test", "12,true,name,~switch"⟩ (.structPointer "TestStruct" TestStruct) =
      (.structPointer "TestStruct"
        [⟨"NumField", true, .int 64 12, false⟩, ⟨"BoolField", true, .bool true, false⟩,
          ⟨"StringField", true, .string "name", false⟩,
          ⟨"Switch", true, .pointer .bool (some (.bool true)), false⟩,
          ⟨"Slice", true, .slice .string none, false⟩], .ok ()) := by
  have hp : parseValue asciiLib "12,true,name,~switch" = .ok
      ⟨[.numberN ⟨0, true, true, true, 12, 12, 4622945017495814144, "12"⟩, .boolN ⟨3, true⟩,
        .identifierN ⟨8, "name"⟩], [("switch", .switchN ⟨13, ⟨14, "switch"⟩, ⟨13, true⟩⟩)]⟩ := by
    decide!
  have hl : fieldByNameFunc "TestStruct" TestStruct (fun s => kebab s == "switch") =
      .ok (some [3]) := by decide!
  have h0 : fillIndexed asciiLib
      [.numberN ⟨0, true, true, true, 12, 12, 4622945017495814144, "12"⟩, .boolN ⟨3, true⟩,
        .identifierN ⟨8, "name"⟩] 0 TestStruct =
      ([⟨"NumField", true, .int 64 12, false⟩, ⟨"BoolField", true, .bool true, false⟩,
        ⟨"StringField", true, .string "name", false⟩, ⟨"Switch", true, .pointer .bool none, false⟩,
        ⟨"Slice", true, .slice .string none, false⟩], .ok ()) := by decide!
  obtain ⟨fs0, fs1, r, h1, -, h3, h4, h5, h6, -, h8⟩ :=
    C2_fill_positional asciiLib ⟨"test", "12,true,name,~switch"⟩ "TestStruct" TestStruct
      ⟨[.numberN ⟨0, true, true, true, 12, 12, 4622945017495814144, "12"⟩, .boolN ⟨3, true⟩,
        .identifierN ⟨8, "name"⟩], [("switch", .switchN ⟨13, ⟨14, "switch"⟩, ⟨13, true⟩⟩)]⟩
      (by decide) hp (by
        intro i n h
        match i, h with
        | 0, h =>
          simp only [List.getElem?_cons_zero, Option.some.injEq] at h
          subst h
          exact ⟨_, rfl, rfl, rfl⟩
        | 1, h =>
          simp only [List.getElem?_cons_succ, List.getElem?_cons_zero, Option.some.injEq] at h
          subst h
          exact ⟨_, rfl, rfl, rfl⟩
        | 2, h =>
          simp only [List.getElem?_cons_succ, List.getElem?_cons_zero, Option.some.injEq] at h
          subst h
          exact ⟨_, rfl, rfl, rfl⟩
        | i + 3, h => simp at h)
  rw [h0] at h1
  simp only [Prod.mk.injEq, and_true] at h1
  subst h1
  have hno : ∀ j, j ≠ 3 → ∀ k ∈ [("switch", node.switchN ⟨13, ⟨14, "switch"⟩, ⟨13, true⟩⟩)].map
      Prod.fst, ∀ index,
      fieldByNameFunc "TestStruct" TestStruct (fun s => asciiLib.toKebabCase s == k) =
        .ok (some index) → index.head? ≠ some j := by
    intro j hj k hk index hi
    simp only [List.map_cons, List.map_nil, List.mem_singleton] at hk
    subst hk
    have e : fieldByNameFunc "TestStruct" TestStruct (fun s => asciiLib.toKebabCase s == "switch") =
        .ok (some [3]) := hl
    rw [e] at hi
    simp only [Result.ok.injEq, Option.some.injEq] at hi
    subst hi
    simp only [List.head?_cons, ne_eq, Option.some.injEq]
    exact fun e => hj e.symm
  have hr : r = .ok () := by
    apply h8
    intro k v hkv
    have hk : k = "switch" ∧ v = .switchN ⟨13, ⟨14, "switch"⟩, ⟨13, true⟩⟩ := by
      simp only [mapLookup, beq_iff_eq] at hkv
      split_ifs at hkv with hc
      · exact ⟨hc.symm, (Option.some.inj hkv).symm⟩
    obtain ⟨rfl, rfl⟩ := hk
    refine ⟨[3], ⟨"Switch", true, .pointer .bool none, false⟩, hl, rfl, rfl, rfl, ?_⟩
    intro k1 hk1 hne
    simp only [List.map_cons, List.map_nil, List.mem_singleton] at hk1
    exact absurd hk1 hne
  subst hr
  refine ⟨⟨fs1, h3, h4, fun i n hn => ?_, ?_⟩, by decide!⟩
  · refine h5 i n hn (hno i ?_)
    intro e
    subst e
    simp at hn
  · exact h6 4 (by decide) (hno 4 (by decide))

/-- C2 as stated fails: the Number 300 bound to a signed integer field of 8
bits leaves 44 in the field, and a value bound to a field that is not exported
makes `Fill` panic.  Beside positional values, as in the tag of the claim, a
key can name the field of a positional value, which then holds the value of
the key, and a key that no field matches makes `Fill` panic. -/
theorem C2_counterexample :
    parseValue asciiLib "300" =
      .ok ⟨[.numberN ⟨0, true, true, true, 300, 300, 4643985272004935680, "300"⟩], []⟩ ∧
    Tag.Fill asciiLib ⟨"test", "300"⟩ (.structPointer "T" [⟨"N", true, .int 8 0, false⟩]) =
      (.structPointer "T" [⟨"N", true, .int 8 44, false⟩], .ok ()) ∧
    parseValue asciiLib "true" = .ok ⟨[.boolN ⟨0, true⟩], []⟩ ∧
    Tag.Fill asciiLib ⟨"test", "true"⟩
        (.structPointer "T" [⟨"flag", false, .bool false, false⟩]) =
      (.structPointer "T" [⟨"flag", false, .bool false, false⟩],
        .panic "reflect: reflect.Value.SetBool using value obtained using unexported field") ∧
    Tag.Fill asciiLib ⟨"test", "12,num-field=5"⟩ (.structPointer "TestStruct" TestStruct) =
      (.structPointer "TestStruct"
        [⟨"NumField", true, .int 64 5, false⟩, ⟨"BoolField", true, .bool false, false⟩,
          ⟨"StringField", true, .string "", false⟩, ⟨"Switch", true, .pointer .bool none, false⟩,
          ⟨"Slice", true, .slice .string none, false⟩], .ok ()) ∧
    Tag.Fill asciiLib ⟨"test", "12,nope=1"⟩ (.structPointer "TestStruct" TestStruct) =
      (.structPointer "TestStruct"
        [⟨"NumField", true, .int 64 12, false⟩, ⟨"BoolField", true, .bool false, false⟩,
          ⟨"StringField", true, .string "", false⟩, ⟨"Switch", true, .pointer .bool none, false⟩,
          ⟨"Slice", true, .slice .string none, false⟩],
        .panic "reflect: call of reflect.Value.SetInt on zero Value") := by
  refine ⟨?_, ?_, ?_, ?_, ?_, ?_⟩ <;> decide!


/-! ## C3: keyword arguments -/

/-- C3 (amended): for a tag other than "-" whose view maps the key `k` to the
value `v`, the value of the last argument named `k`.  A key that is the
kebab-case name of exactly one field of the struct is found at that field;
in general `FieldByNameFunc` finds a key at an index sequence, which leads to
a promoted field when it is longer than one index.  When the fields at which
the other keys are found lie apart from that field: whenever `Fill` succeeds,
the field holds the value of `v`, with the name and type it had; and `Fill`
does succeed when the field, as the positional values leave it, is exported
and compatible with `v` and the other arguments of the tag bind, which is to
say that both loops succeed with the entry of `k` left out. -/
theorem C3_fill_keyword (E : Lib) (tag : Tag) (ty : String) (fs : List Field) (p : parsed)
    (k : String) (v : node) (hd : tag.Value ≠ "-") (hp : parseValue E tag.Value = .ok p)
    (hk : mapLookup p.keyword k = some v) :
    (∀ (j : Nat) (f : Field), fs[j]? = some f →
      (∀ i g, fs[i]? = some g → (E.toKebabCase g.name = k ↔ i = j)) →
      fieldByNameFunc ty fs (fun s => E.toKebabCase s == k) = .ok (some [j])) ∧
    ∀ index, fieldByNameFunc ty fs (fun s => E.toKebabCase s == k) = .ok (some index) →
      (∀ k1 ∈ p.keyword.map Prod.fst, k1 ≠ k → ∀ index1,
        fieldByNameFunc ty fs (fun s => E.toKebabCase s == k1) = .ok (some index1) →
        Apart index index1) →
      (∀ fs1, Tag.Fill E tag (.structPointer ty fs) = (.structPointer ty fs1, .ok ()) →
        ∃ f g, fieldAt index (fillIndexed E p.indexed 0 fs).1 = some f ∧
          fieldAt index fs1 = some g ∧ g.shape = f.shape ∧ Holds E g.value v) ∧
      (∀ g, fieldAt index (fillIndexed E p.indexed 0 fs).1 = some g → g.exported = true →
        Compatible g.value v = true → (fillWithout E ty p k fs).2 = .ok () →
        ∃ fs1, Tag.Fill E tag (.structPointer ty fs) = (.structPointer ty fs1, .ok ())) := by
  obtain ⟨hnd, hmem, hkeys, hzero⟩ := parseValue_range E tag.Value p hp
  obtain ⟨hl1, hl2⟩ := Fill_loops E tag ty fs p hd hp
  obtain ⟨hsh, -, -⟩ := fillIndexed_spec E p.indexed 0 fs
  refine ⟨fun j f hf hu => fieldByNameFunc_unique ty fs _ j f hf
    (fun i g hg => by simpa using hu i g hg), fun index hi hap => ?_⟩
  have hap1 : ∀ kv ∈ mapRange E p.keyword, kv.1 ≠ k → ∀ index1,
      fieldByNameFunc ty fs (fun s => E.toKebabCase s == kv.1) = .ok (some index1) →
      Apart index index1 := fun kv hkv hne => hap kv.1 (hkeys kv hkv) hne
  constructor
  · intro fs1 hfill
    by_cases hok : (fillIndexed E p.indexed 0 fs).2 = .ok ()
    · rw [hl1 hok] at hfill
      simp only [Prod.mk.injEq, Model.structPointer.injEq, true_and] at hfill
      obtain ⟨f, g, hf, hg, hs, -, -, hh⟩ := fillKeyword_holds E ty fs k v index hi
        (parseValue_keyword_mem E tag.Value p hp k v hk) (mapRange E p.keyword) _ hsh hnd
        ((hmem k v).2 hk) hap1 hfill.2
      rw [hfill.1] at hg
      exact ⟨f, g, hf, hg, hs, hh⟩
    · rw [hl2 hok] at hfill
      simp only [Prod.mk.injEq] at hfill
      exact absurd hfill.2 hok
  · intro g hg hx hc hw
    unfold fillWithout at hw
    by_cases hok : (fillIndexed E p.indexed 0 fs).2 = .ok ()
    · rw [hok] at hw
      simp only [] at hw
      refine ⟨(fillKeyword E ty (mapRange E p.keyword) (fillIndexed E p.indexed 0 fs).1).1, ?_⟩
      rw [hl1 hok, fillKeyword_insert E ty fs k v index hi (mapRange E p.keyword) _ hsh hnd
        ((hmem k v).2 hk) hap1 ⟨g, hg, hx, hc⟩ hw]
    · cases hr : (fillIndexed E p.indexed 0 fs).2 with
      | ok u => exact absurd hr hok
      | err m => rw [hr] at hw; cases hw
      | panic m => rw [hr] at hw; cases hw
      | diverge => rw [hr] at hw; cases hw

/-- C3 at the tag "string-field='hello world'" on the struct of the test:
the key is found at the third field, `Fill` succeeds, and afterwards that
field holds the text; and at the tag "12,true,name,~switch" of the test,
whose key is found at the fourth field, the three positional values being
bound beside it: `Fill` succeeds and the field `Switch` points to true. -/
theorem C3_fill_keyword_witness :
    fieldByNameFunc "TestStruct" TestStruct (fun s => kebab s == "string-field") =
      .ok (some [2]) ∧
    (∃ fs1, Tag.Fill asciiLib ⟨"test", "string-field='hello world'"⟩
        (.structPointer "TestStruct" TestStruct) = (.structPointer "TestStruct" fs1, .ok ()) ∧
      ∃ g : Field, fs1[2]? = some g ∧ g.shape = ⟨"StringField", true, .string, false⟩ ∧
        Holds asciiLib g.value (.stringN ⟨13, "'hello world'", "hello world"⟩)) ∧
    (∃ fs1, Tag.Fill asciiLib ⟨"test", "12,true,name,~switch"⟩
        (.structPointer "TestStruct" TestStruct) = (.structPointer "TestStruct" fs1, .ok ()) ∧
      ∃ g : Field, fs1[3]? = some g ∧
        Holds asciiLib g.value (.switchN ⟨13, ⟨14, "switch"⟩, ⟨13, true⟩⟩)) ∧
    Tag.Fill asciiLib ⟨"test", "string-field='hello world'"⟩
        (.structPointer "TestStruct" TestStruct) =
      (.structPointer "TestStruct"
        [⟨"NumField", true, .int 64 0, false⟩, ⟨"BoolField", true, .bool false, false⟩,
          ⟨"StringField", true, .string "hello world", false⟩,
          ⟨"Switch", true, .pointer .bool none, false⟩,
          ⟨"Slice", true, .slice .string none, false⟩], .ok ()) := by
  have hp : parseValue asciiLib "string-field='hello world'" = .ok
      ⟨[], [("string-field", .stringN ⟨13, "'hello world'", "hello world"⟩)]⟩ := by decide!
  obtain ⟨h1, h2⟩ := C3_fill_keyword asciiLib ⟨"test", "string-field='hello world'"⟩
    "TestStruct" TestStruct ⟨[], [("string-field", .stringN ⟨13, "'hello world'", "hello world"⟩)]⟩
    "string-field" (.stringN ⟨13, "'hello world'", "hello world"⟩) (by decide) hp (by decide!)
  have hu : ∀ (i : Nat) (g : Field), TestStruct[i]? = some g →
      (kebab g.name = "string-field" ↔ i = 2) := by
    intro i g h
    match i, h with
    | 0, h =>
      simp only [TestStruct, List.getElem?_cons_zero, Option.some.injEq] at h
      subst h
      decide!
    | 1, h =>
      simp only [TestStruct, List.getElem?_cons_succ, List.getElem?_cons_zero,
        Option.some.injEq] at h
      subst h
      decide!
    | 2, h =>
      simp only [TestStruct, List.getElem?_cons_succ, List.getElem?_cons_zero,
        Option.some.injEq] at h
      subst h
      decide!
    | 3, h =>
      simp only [TestStruct, List.getElem?_cons_succ, List.getElem?_cons_zero,
        Option.some.injEq] at h
      subst h
      decide!
    | 4, h =>
      simp only [TestStruct, List.getElem?_cons_succ, List.getElem?_cons_zero,
        Option.some.injEq] at h
      subst h
      decide!
    | i + 5, h => simp [TestStruct] at h
  have hi := h1 2 ⟨"StringField", true, .string "", false⟩ rfl hu
  obtain ⟨h3, h4⟩ := h2 [2] hi (fun k1 hk1 hne => by
    simp only [List.map_cons, List.map_nil, List.mem_singleton] at hk1
    exact absurd hk1 hne)
  obtain ⟨fs1, hf⟩ := h4 ⟨"StringField", true, .string "", false⟩ rfl rfl rfl (by decide!)
  obtain ⟨f, g, hf0, hg, hs, hh⟩ := h3 fs1 hf
  have hf1 : f = ⟨"StringField", true, .string "", false⟩ := by
    have : fieldAt [2] (fillIndexed asciiLib [] 0 TestStruct).1 =
        some ⟨"StringField", true, .string "", false⟩ := rfl
    rw [this] at hf0
    exact (Option.some.inj hf0).symm
  rw [fieldAt_single] at hg
  have hp2 : parseValue asciiLib "12,true,name,~switch" = .ok
      ⟨[.numberN ⟨0, true, true, true, 12, 12, 4622945017495814144, "12"⟩, .boolN ⟨3, true⟩,
        .identifierN ⟨8, "name"⟩], [("switch", .switchN ⟨13, ⟨14, "switch"⟩, ⟨13, true⟩⟩)]⟩ := by
    decide!
  obtain ⟨-, k2⟩ := C3_fill_keyword asciiLib ⟨"test", "12,true,name,~switch"⟩ "TestStruct"
    TestStruct ⟨[.numberN ⟨0, true, true, true, 12, 12, 4622945017495814144, "12"⟩,
      .boolN ⟨3, true⟩, .identifierN ⟨8, "name"⟩],
      [("switch", .switchN ⟨13, ⟨14, "switch"⟩, ⟨13, true⟩⟩)]⟩
    "switch" (.switchN ⟨13, ⟨14, "switch"⟩, ⟨13, true⟩⟩) (by decide) hp2 (by decide!)
  obtain ⟨k3, k4⟩ := k2 [3] (by decide!) (fun k1 hk1 hne => by
    simp only [List.map_cons, List.map_nil, List.mem_singleton] at hk1
    exact absurd hk1 hne)
  obtain ⟨fs2, hf2⟩ := k4 ⟨"Switch", true, .pointer .bool none, false⟩ (by decide!) rfl rfl
    (by decide!)
  obtain ⟨f2, g2, -, hg2, -, hh2⟩ := k3 fs2 hf2
  rw [fieldAt_single] at hg2
  exact ⟨hi, ⟨fs1, hf, g, hg, by rw [hs, hf1]; rfl, hh⟩, ⟨fs2, hf2, g2, hg2, hh2⟩, by decide!⟩

/-- C3 as stated fails: beside the argument `string-field='x'` a key that no
field matches makes `Fill` panic; of two arguments with the name
`string-field` the field holds the value of the last one, not of the first;
and of the keys `inner` and `flag`, found at an embedded field and at a field
promoted through it, the one bound first loses what it was given to the
other, in whichever order the map is visited. -/
theorem C3_counterexample :
    Tag.Fill asciiLib ⟨"test", "string-field='x',nope=1"⟩
        (.structPointer "TestStruct" TestStruct) =
      (.structPointer "TestStruct"
        [⟨"NumField", true, .int 64 0, false⟩, ⟨"BoolField", true, .bool false, false⟩,
          ⟨"StringField", true, .string "x", false⟩, ⟨"Switch", true, .pointer .bool none, false⟩,
          ⟨"Slice", true, .slice .string none, false⟩],
        .panic "reflect: call of reflect.Value.SetInt on zero Value") ∧
    Tag.Fill asciiLib ⟨"test", "string-field=a,string-field=b"⟩
        (.structPointer "TestStruct" TestStruct) =
      (.structPointer "TestStruct"
        [⟨"NumField", true, .int 64 0, false⟩, ⟨"BoolField", true, .bool false, false⟩,
          ⟨"StringField", true, .string "b", false⟩, ⟨"Switch", true, .pointer .bool none, false⟩,
          ⟨"Slice", true, .slice .string none, false⟩], .ok ()) ∧
    parseValue asciiLib "inner=nil,flag=true" =
      .ok ⟨[], [("inner", .nilN ⟨6⟩), ("flag", .boolN ⟨15, true⟩)]⟩ ∧
    fillKeyword asciiLib "Outer" [("inner", .nilN ⟨6⟩), ("flag", .boolN ⟨15, true⟩)]
        [⟨"Inner", true, .struct "Inner" [⟨"Flag", true, .bool false, false⟩], true⟩] =
      ([⟨"Inner", true, .struct "Inner" [⟨"Flag", true, .bool true, false⟩], true⟩], .ok ()) ∧
    fillKeyword asciiLib "Outer" [("flag", .boolN ⟨15, true⟩), ("inner", .nilN ⟨6⟩)]
        [⟨"Inner", true, .struct "Inner" [⟨"Flag", true, .bool false, false⟩], true⟩] =
      ([⟨"Inner", true, .struct "Inner" [⟨"Flag", true, .bool false, false⟩], true⟩],
        .ok ()) := by
  refine ⟨?_, ?_, ?_, ?_, ?_⟩ <;> decide!


/-! ## C4: positional argument after keyword -/

/-- C4: for every input that `Parse` accepts, `parseValue` returns
`ErrPositionalAfterKeyword` exactly when some argument without an identifier
stands after an argument that carries one, and returns a view otherwise; in
particular it fails so on "foo=1,2" and succeeds on "2,foo=1". -/
theorem C4_positional_after_keyword (E : Lib) (inp : String) (t : tree)
    (h : Parse E inp = .ok t) :
    (∃ root, t.root = some root ∧
      (parseValue E inp = .err ErrPositionalAfterKeyword ↔
        PositionalAfterKeyword root.nodes) ∧
      (¬ PositionalAfterKeyword root.nodes → ∃ p, parseValue E inp = .ok p)) ∧
    parseValue asciiLib "foo=1,2" = .err ErrPositionalAfterKeyword ∧
    (∃ p, parseValue asciiLib "2,foo=1" = .ok p) := by
  obtain ⟨root, hr, -⟩ := Parse_ok_root E inp t h
  refine ⟨⟨root, hr, ?_, ?_⟩, by decide!, ?_⟩
  · simp only [parseValue, h, hr]
    rw [parseValueLoop_err_iff]
    simp
  · intro hn
    simp only [parseValue, h, hr]
    rcases parseValueLoop_result root.nodes ⟨[], []⟩ with hp | hp
    · exact hp
    · exact absurd ((parseValueLoop_err_iff root.nodes ⟨[], []⟩).mp hp) (by simpa using hn)
  · exact ⟨⟨[.numberN ⟨0, true, true, true, 2, 2, 4611686018427387904, "2"⟩],
      [("foo", .numberN ⟨6, true, true, true, 1, 1, 4607182418800017408, "1"⟩)]⟩, by decide!⟩

/-- C4 at the input "k=a,b", which `Parse` accepts: the positional `b`
stands after the keyword argument `k=a`, and `parseValue` returns the error. -/
theorem C4_positional_after_keyword_witness :
    ∃ t, Parse asciiLib "k=a,b" = .ok t ∧
      ((∃ root, t.root = some root ∧
        (parseValue asciiLib "k=a,b" = .err ErrPositionalAfterKeyword ↔
          PositionalAfterKeyword root.nodes) ∧
        (¬ PositionalAfterKeyword root.nodes → ∃ p, parseValue asciiLib "k=a,b" = .ok p)) ∧
      parseValue asciiLib "foo=1,2" = .err ErrPositionalAfterKeyword ∧
      (∃ p, parseValue asciiLib "2,foo=1" = .ok p)) :=
  ⟨⟨some ⟨0, [⟨0, some ⟨0, "k"⟩, .identifierN ⟨2, "a"⟩⟩, ⟨4, none, .identifierN ⟨4, "b"⟩⟩]⟩, [],
      ⟨.itemEOF, 5, ""⟩, ⟨.itemIdentifier, 4, "b"⟩, zeroItem, 0⟩, by decide!,
    C4_positional_after_keyword asciiLib "k=a,b" _ (by decide!)⟩


/-! ## C5: the resolved-argument view -/

/-- C5: whenever `parseValue` succeeds, its indexed sequence is the values of
the arguments without identifier in source order; the keys of its keyword
mapping, each present once, are exactly the identifiers of the arguments that
carry one; a key is mapped to the value of the last argument with that
identifier; and a switch argument carries the identifier of its switch. -/
theorem C5_resolved_view (E : Lib) (inp : String) (t : tree) (root : listNode) (p : parsed)
    (hP : Parse E inp = .ok t) (hr : t.root = some root) (hv : parseValue E inp = .ok p) :
    p.indexed = (root.nodes.filter (fun a => a.ident.isNone)).map argumentNode.value ∧
    (∀ k, k ∈ p.keyword.map Prod.fst ↔
      ∃ a ∈ root.nodes, ∃ id, a.ident = some id ∧ id.String = k) ∧
    (p.keyword.map Prod.fst).Nodup ∧
    (∀ k, mapLookup p.keyword k = lastNamed root.nodes k) ∧
    (∀ a ∈ root.nodes, ∀ sn, a.value = .switchN sn → a.ident = some sn.ident) := by
  obtain ⟨root1, hr1, hwf⟩ := Parse_ok_root E inp t hP
  rw [hr] at hr1
  cases hr1
  simp only [parseValue, hP, hr] at hv
  obtain ⟨h1, h2, h3, h4⟩ := parseValueLoop_ok root.nodes ⟨[], []⟩ p hv
  refine ⟨by simpa using h1, ?_, h4 (by simp), ?_, fun a ha sn hs => hwf a ha sn hs⟩
  · intro k
    rw [h3]
    simp
  · intro k
    rw [h2]
    simp [mapLookup]

/-- C5 at the input "a,k=b,k=c": one indexed value and the key `k`, mapped to
the value of its last occurrence. -/
theorem C5_resolved_view_witness :
    ∃ t root p, Parse asciiLib "a,k=b,k=c" = .ok t ∧ t.root = some root ∧
      parseValue asciiLib "a,k=b,k=c" = .ok p ∧
      p.keyword = [("k", .identifierN ⟨8, "c"⟩)] ∧
      (p.indexed = (root.nodes.filter (fun a => a.ident.isNone)).map argumentNode.value ∧
      (∀ k, k ∈ p.keyword.map Prod.fst ↔
        ∃ a ∈ root.nodes, ∃ id, a.ident = some id ∧ id.String = k) ∧
      (p.keyword.map Prod.fst).Nodup ∧
      (∀ k, mapLookup p.keyword k = lastNamed root.nodes k) ∧
      (∀ a ∈ root.nodes, ∀ sn, a.value = .switchN sn → a.ident = some sn.ident)) :=
  by
  have hP : Parse asciiLib "a,k=b,k=c" = .ok
      ⟨some ⟨0, [⟨0, none, .identifierN ⟨0, "a"⟩⟩, ⟨2, some ⟨2, "k"⟩, .identifierN ⟨4, "b"⟩⟩,
        ⟨6, some ⟨6, "k"⟩, .identifierN ⟨8, "c"⟩⟩]⟩, [],
      ⟨.itemEOF, 9, ""⟩, ⟨.itemIdentifier, 8, "c"⟩, zeroItem, 0⟩ := by decide!
  have hv : parseValue asciiLib "a,k=b,k=c" = .ok
      ⟨[.identifierN ⟨0, "a"⟩], [("k", .identifierN ⟨8, "c"⟩)]⟩ := by decide!
  exact ⟨_, _, _, hP, rfl, hv, rfl, C5_resolved_view asciiLib "a,k=b,k=c" _ _ _ hP rfl hv⟩


/-! ## C6: the grammar -/

/-- C6 (the code departs from the claim): `Parse` does not enforce the
grammar.  The items of "nil=1" are `nil`, `=`, `1` and the end of input,
which no `tag` derives, yet `Parse` returns a root of two positional
arguments: the `=` after the first argument is dropped.  Likewise the `;`
after a switch, and the end of input after a `,`. -/
theorem C6_grammar_not_enforced :
    lex asciiLib "nil=1" = .ok [⟨.itemNil, 0, "nil"⟩, ⟨.itemAssign, 3, "="⟩,
      ⟨.itemNumber, 4, "1"⟩, ⟨.itemEOF, 5, ""⟩] ∧
    (Parse asciiLib "nil=1").map tree.root = .ok (some ⟨0,
      [⟨0, none, .nilN ⟨0⟩⟩,
        ⟨4, none, .numberN ⟨4, true, true, true, 1, 1, 4607182418800017408, "1"⟩⟩]⟩) ∧
    (Parse asciiLib "~on;x").map tree.root = .ok (some ⟨0,
      [⟨0, some ⟨1, "on"⟩, .switchN ⟨0, ⟨1, "on"⟩, ⟨0, true⟩⟩⟩,
        ⟨4, none, .identifierN ⟨4, "x"⟩⟩]⟩) ∧
    (Parse asciiLib "foo,").map tree.root = .ok (some ⟨0,
      [⟨0, none, .identifierN ⟨0, "foo"⟩⟩]⟩) := by
  refine ⟨?_, ?_, ?_, ?_⟩ <;> decide!


/-! ## C7: a lexical error ends the parse -/

/-- C7: for every input whose scan ends with an error token, `Parse` returns
no tree: it ends in a panic, which the package does not recover. -/
theorem C7_error_token_fails (E : Lib) (input : String) (items : List item) (last : item)
    (hl : lex E input = .ok (items ++ [last])) (he : last.typ = .itemError) :
    ∃ msg, Parse E input = .panic msg := by
  have hno := no_eof_of_error E input items last hl he
  have hs := Parse_spec E input
  cases hp : Parse E input with
  | ok t =>
    rw [hp] at hs
    obtain ⟨⟨its, h1, i, hi, hty⟩, -⟩ := hs
    rw [hl] at h1
    cases h1
    exact absurd hty (hno i hi)
  | panic m => exact ⟨m, rfl⟩
  | err m => rw [hp] at hs; exact hs.elim
  | diverge => rw [hp] at hs; exact hs.elim

/-- C7 at the input "foo=@", whose scan ends with the error token for `@`. -/
theorem C7_error_token_fails_witness :
    lex asciiLib "foo=@" = .ok ([⟨.itemIdentifier, 0, "foo"⟩, ⟨.itemAssign, 3, "="⟩] ++
      [⟨.itemError, 4, "bad character U+0040 '@'"⟩]) ∧
    ∃ msg, Parse asciiLib "foo=@" = .panic msg :=
  ⟨by decide!, C7_error_token_fails asciiLib "foo=@"
    [⟨.itemIdentifier, 0, "foo"⟩, ⟨.itemAssign, 3, "="⟩]
    ⟨.itemError, 4, "bad character U+0040 '@'"⟩ (by decide!) rfl⟩


/-! ## C8: the scanner halts -/

/-- C8: for every input the scanner halts after sending finitely many items;
the sequence is not empty, its last item is the end-of-input token or an
error token, and no earlier item is either of them. -/
theorem C8_scanner_halts (E : Lib) (input : String) :
    ∃ (front : List item) (last : item), lex E input = .ok (front ++ [last]) ∧
      (last.typ = .itemEOF ∨ last.typ = .itemError) ∧
      ∀ i ∈ front, i.typ ≠ .itemEOF ∧ i.typ ≠ .itemError := by
  obtain ⟨items, h1, front, last, h2, h3, h4⟩ := lex_scanned E input
  exact ⟨front, last, by rw [h1, h2]; rfl, h3, h4⟩


/-! ## C9: binding a Number -/

/-- C9 fails in the code: `applyNode` chooses the setter by the flags of the
Number, `IsInt` first, and not by the kind of the field.  A Number for which
`IsInt` holds is handed to `SetInt` whatever the field is, so binding it to an
unsigned or to a floating-point field panics; the literal 12, for which all
three flags hold and `Uint64` is 12, makes `Fill` panic on either field and
leaves the field as it was. -/
theorem C9_number_binding_ignores_field :
    (∀ (E : Lib) (pos : Nat) (isUint isFloat : Bool) (i : Int) (u fl : Nat) (text : String)
      (bits x : Nat),
      (∃ msg, applyNode E true (.uint bits x)
          (.numberN ⟨pos, true, isUint, isFloat, i, u, fl, text⟩) = (.uint bits x, .panic msg)) ∧
      (∃ msg, applyNode E true (.float bits x)
          (.numberN ⟨pos, true, isUint, isFloat, i, u, fl, text⟩) =
            (.float bits x, .panic msg))) ∧
    (∃ nv, parseValue asciiLib "12" = .ok ⟨[.numberN nv], []⟩ ∧ nv.IsInt = true ∧
      nv.IsUint = true ∧ nv.IsFloat = true ∧ nv.Int64 = 12 ∧ nv.Uint64 = 12) ∧
    (∃ msg, Tag.Fill asciiLib ⟨"test", "12"⟩
        (.structPointer "T" [⟨"N", true, .uint 64 0, false⟩]) =
      (.structPointer "T" [⟨"N", true, .uint 64 0, false⟩], .panic msg)) ∧
    (∃ msg, Tag.Fill asciiLib ⟨"test", "12"⟩
        (.structPointer "T" [⟨"N", true, .float 64 0, false⟩]) =
      (.structPointer "T" [⟨"N", true, .float 64 0, false⟩], .panic msg)) := by
  refine ⟨fun E pos isUint isFloat i u fl text bits x => ⟨⟨_, rfl⟩, ⟨_, rfl⟩⟩,
    ⟨⟨0, true, true, true, 12, 12, 4622945017495814144, "12"⟩, by decide!, rfl, rfl, rfl, rfl, rfl⟩,
    ⟨"reflect: call of reflect.Value.SetInt on non-int Value", by decide!⟩,
    ⟨"reflect: call of reflect.Value.SetInt on non-int Value", by decide!⟩⟩


/-! ## C10: binding to a pointer field -/

/-- C10 fails in the code for a pointer that already holds a value:
`applyNode` steps through a pointer only when it is nil, so on a pointer that
is not nil the setter is called on the pointer itself and panics.  The tag
"~switch" bound to the struct of the test leaves `Switch` pointing to true;
bound a second time to the same struct it makes `Fill` panic. -/
theorem C10_pointer_holding_a_value :
    (∀ (E : Lib) (elem : GoType) (g : GoValue) (pos : Nat) (b : Bool),
      ∃ msg, applyNode E true (.pointer elem (some g)) (.boolN ⟨pos, b⟩) =
        (.pointer elem (some g), .panic msg)) ∧
    (∀ (E : Lib) (elem : GoType) (g : GoValue) (pos : Nat) (s : String),
      ∃ msg, applyNode E true (.pointer elem (some g)) (.identifierN ⟨pos, s⟩) =
        (.pointer elem (some g), .panic msg)) ∧
    Tag.Fill asciiLib ⟨"test", "~switch"⟩ (.structPointer "TestStruct" TestStruct) =
      (.structPointer "TestStruct"
        [⟨"NumField", true, .int 64 0, false⟩, ⟨"BoolField", true, .bool false, false⟩,
          ⟨"StringField", true, .string "", false⟩,
          ⟨"Switch", true, .pointer .bool (some (.bool true)), false⟩,
          ⟨"Slice", true, .slice .string none, false⟩], .ok ()) ∧
    (∃ msg, Tag.Fill asciiLib ⟨"test", "~switch"⟩
        (.structPointer "TestStruct"
          [⟨"NumField", true, .int 64 0, false⟩, ⟨"BoolField", true, .bool false, false⟩,
            ⟨"StringField", true, .string "", false⟩,
            ⟨"Switch", true, .pointer .bool (some (.bool true)), false⟩,
            ⟨"Slice", true, .slice .string none, false⟩]) =
      (.structPointer "TestStruct"
        [⟨"NumField", true, .int 64 0, false⟩, ⟨"BoolField", true, .bool false, false⟩,
          ⟨"StringField", true, .string "", false⟩,
          ⟨"Switch", true, .pointer .bool (some (.bool true)), false⟩,
          ⟨"Slice", true, .slice .string none, false⟩], .panic msg)) := by
  refine ⟨fun E elem g pos b => ⟨_, rfl⟩, fun E elem g pos s => ⟨_, rfl⟩, by decide!,
    ⟨"reflect: call of reflect.Value.SetBool on non-bool Value", by decide!⟩⟩


/-! ## C11: values that no field takes -/

/-- C11 (the code departs from the claim): when the view of a tag other than
"-" holds more positional values than the struct has fields, or a key that is
the kebab-case name of no field, `Fill` does not succeed, but it does not
return an error either: the call ends in a run-time panic of `reflect`, which
unwinds through the caller.  The fields of a struct are its own and, where a
field is embedded, the fields it promotes; on a struct without embedded
fields the second condition on a field is empty. -/
theorem C11_unbound_value_panics (E : Lib) (tag : Tag) (ty : String) (fs : List Field)
    (p : parsed) (hd : tag.Value ≠ "-") (hp : parseValue E tag.Value = .ok p)
    (h : fs.length < p.indexed.length ∨
      ∃ k ∈ p.keyword.map Prod.fst, ∀ f ∈ fs, E.toKebabCase f.name ≠ k ∧
        (f.embedded = true →
          ∀ name ∈ GoType.innerNames f.value.typeOf, E.toKebabCase name ≠ k)) :
    ∃ msg, (Tag.Fill E tag (.structPointer ty fs)).2 = .panic msg := by
  have hd1 : (tag.Value == "-") = false := by simpa using hd
  rcases fillIndexed_ok_or_panic E p.indexed 0 fs with hok | ⟨m, hm⟩
  · rcases h with h | ⟨k, hk, hno⟩
    · obtain ⟨m, hm⟩ := fillIndexed_short E p.indexed 0 fs (Nat.zero_le _) (by omega)
      rw [hok] at hm
      cases hm
    · obtain ⟨h1, -, -⟩ := fillIndexed_spec E p.indexed 0 fs
      obtain ⟨v, hv⟩ := (mem_keys_iff p.keyword k).1 hk
      obtain ⟨m, hm⟩ := fillKeyword_unmatched E ty fs k (mapRange E p.keyword)
        (fillIndexed E p.indexed 0 fs).1 h1
        (fun kv hkv => parseValue_keyword_mem E tag.Value p hp kv.1 kv.2
          ((mem_mapRange E p.keyword kv.1 kv.2).1 hkv))
        ⟨(k, v), (mem_mapRange E p.keyword k v).2 hv, rfl⟩
        (fieldByNameFunc_none ty fs _ (fun f hf => by simpa using (hno f hf).1)
          (fun name hn => by
            obtain ⟨t, ht, he, hx⟩ := (mem_promotedNames name _).1 hn
            obtain ⟨f, hf, rfl⟩ := List.mem_map.1 ht
            simpa using (hno f hf).2 he name hx))
      exact ⟨m, by simp only [Tag.Fill, hd1, Bool.false_eq_true, ↓reduceIte, hp, hok, hm]⟩
  · exact ⟨m, by simp only [Tag.Fill, hd1, Bool.false_eq_true, ↓reduceIte, hp, hm]⟩

/-- C11 at the tag "nope=1" on the struct of the test, none of whose fields
is named so; and the two panics evaluated: for a key without a field, and for
a third value bound to a struct of two fields. -/
theorem C11_unbound_value_panics_witness :
    (∃ msg, (Tag.Fill asciiLib ⟨"test", "nope=1"⟩ (.structPointer "TestStruct" TestStruct)).2 =
      .panic msg) ∧
    (Tag.Fill asciiLib ⟨"test", "nope=1"⟩ (.structPointer "TestStruct" TestStruct)).2 =
      .panic "reflect: call of reflect.Value.SetInt on zero Value" ∧
    (Tag.Fill asciiLib ⟨"test", "1,true,a"⟩
        (.structPointer "T" [⟨"A", true, .int 64 0, false⟩, ⟨"B", true, .bool false, false⟩])).2 =
      .panic "reflect: Field index out of range" := by
  have hp : parseValue asciiLib "nope=1" = .ok
      ⟨[], [("nope", .numberN ⟨5, true, true, true, 1, 1, 4607182418800017408, "1"⟩)]⟩ := by
    decide!
  exact ⟨C11_unbound_value_panics asciiLib ⟨"test", "nope=1"⟩ "TestStruct" TestStruct _
    (by decide) hp (Or.inr ⟨"nope", by simp, by decide!⟩), by decide!, by decide!⟩


/-! ## C12: the fields a tag does not name -/

/-- C12 (amended): whenever `Fill` succeeds on a tag with the view `p`, the
target is the struct it was, with every field named and typed as before, and
a field has the value it had when its index is not below the number of
positional values, its kebab-case name is not a key of the view and, should
it be embedded, no key of the view is found at a field promoted through
it. -/
theorem C12_fill_frame (E : Lib) (tag : Tag) (ty : String) (fs : List Field) (p : parsed)
    (m1 : Model) (hp : parseValue E tag.Value = .ok p)
    (hfill : Tag.Fill E tag (.structPointer ty fs) = (m1, .ok ())) :
    ∃ fs1, m1 = .structPointer ty fs1 ∧ fs1.map FieldOf.shape = fs.map FieldOf.shape ∧
      ∀ (j : Nat) (f : Field), fs[j]? = some f → p.indexed.length ≤ j →
        E.toKebabCase f.name ∉ p.keyword.map Prod.fst →
        (f.embedded = true → ∀ k ∈ p.keyword.map Prod.fst, ∀ index,
          fieldByNameFunc ty fs (fun s => E.toKebabCase s == k) = .ok (some index) →
          index.head? ≠ some j) →
        fs1[j]? = some f := by
  by_cases hd : (tag.Value == "-") = true
  · simp only [Tag.Fill, hd, ↓reduceIte, Prod.mk.injEq] at hfill
    exact ⟨fs, hfill.1.symm, rfl, fun j f hf _ _ _ => hf⟩
  · obtain ⟨h1, h2, -⟩ := fillIndexed_spec E p.indexed 0 fs
    cases hr : (fillIndexed E p.indexed 0 fs).2 <;>
      simp only [Tag.Fill, hd, Bool.false_eq_true, ↓reduceIte, hp, hr, Prod.mk.injEq,
        reduceCtorEq, and_false] at hfill
    refine ⟨_, hfill.1.symm, (fillKeyword_shape E ty _ _).trans h1, fun j f hf hj hk hq => ?_⟩
    rw [fillKeyword_untouched E ty fs j _ _ h1, h2 j (Or.inr (by omega))]
    · exact hf
    · intro kv hkv index hi hcon
      have hkey : kv.1 ∈ p.keyword.map Prod.fst :=
        (mem_keys_iff p.keyword kv.1).2 ⟨kv.2, (mem_mapRange E p.keyword kv.1 kv.2).1 hkv⟩
      rcases fieldByNameFunc_head ty fs _ index hi with
        ⟨i, g, rfl, hg, hm⟩ | ⟨i, rest, g, rfl, -, hg, he⟩
      · simp only [List.head?_cons, Option.some.injEq] at hcon
        subst hcon
        rw [hf] at hg
        cases hg
        simp only [beq_iff_eq] at hm
        exact hk (hm ▸ hkey)
      · simp only [List.head?_cons, Option.some.injEq] at hcon
        subst hcon
        rw [hf] at hg
        cases hg
        exact hq he kv.1 hkey _ hi rfl

/-- C12 at the tag "12,bool-field=true" on the struct of the test: the fields
`StringField`, `Switch` and `Slice` are left as they were; and at the tag
"name=x" on a struct with an embedded struct, through which the key is not
found: the embedded field is left as it was. -/
theorem C12_fill_frame_witness :
    (∃ fs1, Model.structPointer "TestStruct"
        [⟨"NumField", true, .int 64 12, false⟩, ⟨"BoolField", true, .bool true, false⟩,
          ⟨"StringField", true, .string "", false⟩, ⟨"Switch", true, .pointer .bool none, false⟩,
          ⟨"Slice", true, .slice .string none, false⟩] = .structPointer "TestStruct" fs1 ∧
      fs1.map FieldOf.shape = TestStruct.map FieldOf.shape ∧
      ∀ (j : Nat) (f : Field), TestStruct[j]? = some f → 1 ≤ j →
        kebab f.name ∉ ["bool-field"] →
        (f.embedded = true → ∀ k ∈ ["bool-field"], ∀ index,
          fieldByNameFunc "TestStruct" TestStruct (fun s => kebab s == k) = .ok (some index) →
          index.head? ≠ some j) →
        fs1[j]? = some f) ∧
    ∃ fs1, Tag.Fill asciiLib ⟨"test", "name=x"⟩
        (.structPointer "Outer"
          [⟨"Inner", true, .struct "Inner" [⟨"Flag", true, .bool false, false⟩], true⟩,
            ⟨"Name", true, .string "", false⟩]) = (.structPointer "Outer" fs1, .ok ()) ∧
      fs1[0]? =
        some ⟨"Inner", true, .struct "Inner" [⟨"Flag", true, .bool false, false⟩], true⟩ := by
  refine ⟨C12_fill_frame asciiLib ⟨"test", "12,bool-field=true"⟩ "TestStruct" TestStruct
    ⟨[.numberN ⟨0, true, true, true, 12, 12, 4622945017495814144, "12"⟩],
      [("bool-field", .boolN ⟨14, true⟩)]⟩ _ (by decide!) (by decide!), ?_⟩
  have hl : fieldByNameFunc "Outer"
      [⟨"Inner", true, .struct "Inner" [⟨"Flag", true, .bool false, false⟩], true⟩,
        ⟨"Name", true, .string "", false⟩] (fun s => asciiLib.toKebabCase s == "name") =
      .ok (some [1]) := by decide!
  obtain ⟨fs1, hm, -, hfr⟩ := C12_fill_frame asciiLib ⟨"test", "name=x"⟩ "Outer"
    [⟨"Inner", true, .struct "Inner" [⟨"Flag", true, .bool false, false⟩], true⟩,
      ⟨"Name", true, .string "", false⟩]
    ⟨[], [("name", .identifierN ⟨5, "x"⟩)]⟩
    (.structPointer "Outer"
      [⟨"Inner", true, .struct "Inner" [⟨"Flag", true, .bool false, false⟩], true⟩,
        ⟨"Name", true, .string "x", false⟩]) (by decide!) (by decide!)
  refine ⟨fs1, ?_, hfr 0 _ rfl (Nat.zero_le _) (by decide!) (fun _ k hk index hi => ?_)⟩
  · rw [← hm]
    decide!
  · simp only [List.map_cons, List.map_nil, List.mem_singleton] at hk
    subst hk
    rw [hl] at hi
    simp only [Result.ok.injEq, Option.some.injEq] at hi
    subst hi
    decide

/-- C12 as stated fails on a struct with an embedded struct: the fields of
the embedded struct are promoted, so the key `flag` is found at the field
`Flag` of the embedded `Inner`, and `Fill` succeeds and changes the field
`Inner` of the target, whose index is not below the number of positional
values, none, and whose kebab-case name, `inner`, is no key of the tag. -/
theorem C12_counterexample :
    parseValue asciiLib "flag=true" = .ok ⟨[], [("flag", .boolN ⟨5, true⟩)]⟩ ∧
    kebab "Inner" = "inner" ∧
    Tag.Fill asciiLib ⟨"test", "flag=true"⟩
        (.structPointer "Outer"
          [⟨"Inner", true, .struct "Inner" [⟨"Flag", true, .bool false, false⟩], true⟩,
            ⟨"Name", true, .string "", false⟩]) =
      (.structPointer "Outer"
        [⟨"Inner", true, .struct "Inner" [⟨"Flag", true, .bool true, false⟩], true⟩,
          ⟨"Name", true, .string "", false⟩], .ok ()) := by
  refine ⟨?_, ?_, ?_⟩ <;> decide!


/-! ## C13: the tag "-" -/

/-- C13: on a pointer to a struct, `Fill` with a tag whose value is "-"
returns nil and leaves every field as it was, whatever the name of the tag
and the fields are; the text is not parsed, which for "-" would end in a
panic. -/
theorem C13_dash_is_skipped :
    (∀ (E : Lib) (name ty : String) (fs : List Field),
      Tag.Fill E ⟨name, "-"⟩ (.structPointer ty fs) = (.structPointer ty fs, .ok ())) ∧
    ∃ msg, parseValue asciiLib "-" = .panic msg :=
  ⟨fun _ _ _ _ => rfl, "illegal number syntax: \"-\"", by decide!⟩

/-! ## C14: a Slice of simple values -/

/-- C14: for every sequence of two or more simple value literals, each
valid on its own (the scanner reads it as one token, and `Parse` returns one
argument without an identifier that holds its node), `Parse` of the literals
with `;` between them returns a root with exactly one argument, which has no
identifier and whose value is a Slice of as many elements as there are
literals, the i-th being the node of the i-th literal, byte offsets aside. -/
theorem C14_slice_collapsing (E : Lib) (lits : List (String × node)) (hn : 2 ≤ lits.length)
    (h : ∀ l ∈ lits, SimpleLiteral E l.1 l.2) :
    ∃ t p q r values, Parse E (String.intercalate ";" (lits.map Prod.fst)) = .ok t ∧
      t.root = some ⟨p, [⟨q, none, .sliceN r values⟩]⟩ ∧
      values.length = lits.length ∧
      values.map node.strip = lits.map (fun l => l.2.strip) := by
  obtain ⟨t, p, q, r, values, h1, h2, h3⟩ := Parse_literals E lits hn h
  refine ⟨t, p, q, r, values, h1, h2, ?_, h3⟩
  have := congrArg List.length h3
  simpa using this

/-- C14 at the literals "nil" and "12": `Parse` of "nil;12" returns one
argument that holds a Slice of a Nil and the Number 12. -/
theorem C14_slice_collapsing_witness :
    (Parse asciiLib "nil;12").map tree.root = .ok (some ⟨0, [⟨0, none, .sliceN 0 [.nilN ⟨0⟩,
      .numberN ⟨4, true, true, true, 12, 12, 4622945017495814144, "12"⟩]⟩]⟩) ∧
    ∃ t p q r values,
      Parse asciiLib (String.intercalate ";" ([("nil", node.nilN ⟨0⟩),
        ("12", node.numberN ⟨0, true, true, true, 12, 12, 4622945017495814144, "12"⟩)].map
          Prod.fst)) = .ok t ∧
      t.root = some ⟨p, [⟨q, none, .sliceN r values⟩]⟩ ∧
      values.length = [("nil", node.nilN ⟨0⟩),
        ("12", node.numberN ⟨0, true, true, true, 12, 12, 4622945017495814144, "12"⟩)].length ∧
      values.map node.strip = [("nil", node.nilN ⟨0⟩),
        ("12", node.numberN ⟨0, true, true, true, 12, 12, 4622945017495814144, "12"⟩)].map
          (fun l => l.2.strip) := by
  have h1 : SimpleLiteral asciiLib "nil" (.nilN ⟨0⟩) :=
    ⟨⟨⟨.itemNil, 0, "nil"⟩, ⟨.itemEOF, 3, ""⟩, by decide!, rfl⟩,
      ⟨some ⟨0, [⟨0, none, .nilN ⟨0⟩⟩]⟩, [], ⟨.itemEOF, 3, ""⟩, ⟨.itemNil, 0, "nil"⟩, zeroItem, 0⟩,
      by decide!, rfl⟩
  have h2 : SimpleLiteral asciiLib "12"
      (.numberN ⟨0, true, true, true, 12, 12, 4622945017495814144, "12"⟩) :=
    ⟨⟨⟨.itemNumber, 0, "12"⟩, ⟨.itemEOF, 2, ""⟩, by decide!, rfl⟩,
      ⟨some ⟨0, [⟨0, none,
        .numberN ⟨0, true, true, true, 12, 12, 4622945017495814144, "12"⟩⟩]⟩, [],
        ⟨.itemEOF, 2, ""⟩, ⟨.itemNumber, 0, "12"⟩, zeroItem, 0⟩,
      by decide!, rfl⟩
  refine ⟨by decide!, C14_slice_collapsing asciiLib _ (by decide) ?_⟩
  intro l hl
  simp only [List.mem_cons, List.mem_singleton, List.not_mem_nil, or_false] at hl
  rcases hl with rfl | rfl
  · exact h1
  · exact h2

/-! ## C15: keyword and positional arguments -/

/-- C15: for every identifier `k` (a letter followed by letters, digits, `_`
or `-`, other than `true`, `false` and `nil`) and every text `v` that `Parse`
accepts alone as one argument without an identifier, with the value `n`,
`Parse` of `k`, `=` and `v` returns exactly one argument, whose identifier is
`k` and whose value equals `n`, byte offsets aside; and `Parse` of `k` alone
returns exactly one argument, which has no identifier and whose value is
the Identifier `k`. -/
theorem C15_keyword_argument (E : Lib) (k v : String) (t : tree) (p q : Nat) (n : node)
    (hk : IsIdentifier E k) (h : Parse E v = .ok t)
    (hr : t.root = some ⟨p, [⟨q, none, n⟩]⟩) :
    (∃ t1 n1, Parse E (k ++ "=" ++ v) = .ok t1 ∧
      t1.root = some ⟨0, [⟨0, some ⟨0, k⟩, n1⟩]⟩ ∧ n1.strip = n.strip) ∧
    ∃ t2, Parse E k = .ok t2 ∧ t2.root = some ⟨0, [⟨0, none, .identifierN ⟨0, k⟩⟩]⟩ :=
  ⟨Parse_keyword E k v t p q n hk h hr, Parse_identifier E k hk⟩

/-- C15 at the identifier "key" and the text "'a';b", which `Parse` reads
as a Slice of a String and an Identifier. -/
theorem C15_keyword_argument_witness :
    IsIdentifier asciiLib "key" ∧
    (Parse asciiLib "key='a';b").map tree.root = .ok (some ⟨0, [⟨0, some ⟨0, "key"⟩,
      .sliceN 4 [.stringN ⟨4, "'a'", "a"⟩, .identifierN ⟨8, "b"⟩]⟩]⟩) ∧
    (∃ t1 n1, Parse asciiLib ("key" ++ "=" ++ "'a';b") = .ok t1 ∧
      t1.root = some ⟨0, [⟨0, some ⟨0, "key"⟩, n1⟩]⟩ ∧
      n1.strip = (node.sliceN 0 [.stringN ⟨0, "'a'", "a"⟩, .identifierN ⟨4, "b"⟩]).strip) ∧
    ∃ t2, Parse asciiLib "key" = .ok t2 ∧
      t2.root = some ⟨0, [⟨0, none, .identifierN ⟨0, "key"⟩⟩]⟩ := by
  have hid : IsIdentifier asciiLib "key" :=
    ⟨⟨'k', ['e', 'y'], rfl, by decide, by decide⟩, by decide, by decide, by decide⟩
  have hP : Parse asciiLib "'a';b" = .ok
      ⟨some ⟨0, [⟨0, none, .sliceN 0 [.stringN ⟨0, "'a'", "a"⟩, .identifierN ⟨4, "b"⟩]⟩]⟩, [],
      ⟨.itemEOF, 5, ""⟩, ⟨.itemString, 0, "'a'"⟩, zeroItem, 0⟩ := by decide!
  exact ⟨hid, by decide!, C15_keyword_argument asciiLib "key" "'a';b" _ 0 0 _ hid hP rfl⟩

/-! ## C16: switches -/

/-- C16: for every identifier `x` (a letter followed by letters, digits, `_`
or `-`, other than `true`, `false` and `nil`), `Parse` of "~" followed by `x`
returns a tree whose root has exactly one argument, with the identifier `x`
and a Switch with the value true as its value, and the root renders back to
"~" followed by `x`; likewise for "!" with the value false. -/
theorem C16_switch_round_trip (E : Lib) (x : String) (h : IsIdentifier E x) :
    (∃ t r, Parse E ("~" ++ x) = .ok t ∧ t.root = some r ∧
      r.nodes = [⟨0, some ⟨1, x⟩, .switchN ⟨0, ⟨1, x⟩, ⟨0, true⟩⟩⟩] ∧
      r.String = "~" ++ x) ∧
    (∃ t r, Parse E ("!" ++ x) = .ok t ∧ t.root = some r ∧
      r.nodes = [⟨0, some ⟨1, x⟩, .switchN ⟨0, ⟨1, x⟩, ⟨0, false⟩⟩⟩] ∧
      r.String = "!" ++ x) := by
  obtain ⟨t1, h1, h2⟩ := Parse_switch E '~' x (Or.inl rfl) h
  obtain ⟨t2, h3, h4⟩ := Parse_switch E '!' x (Or.inr rfl) h
  exact ⟨⟨t1, _, h1, h2, rfl, rfl⟩, ⟨t2, _, h3, h4, rfl, rfl⟩⟩

/-- C16 at the identifier "on-1". -/
theorem C16_switch_round_trip_witness :
    IsIdentifier asciiLib "on-1" ∧
    (∃ t r, Parse asciiLib ("~" ++ "on-1") = .ok t ∧ t.root = some r ∧
      r.nodes = [⟨0, some ⟨1, "on-1"⟩, .switchN ⟨0, ⟨1, "on-1"⟩, ⟨0, true⟩⟩⟩] ∧
      r.String = "~" ++ "on-1") ∧
    (∃ t r, Parse asciiLib ("!" ++ "on-1") = .ok t ∧ t.root = some r ∧
      r.nodes = [⟨0, some ⟨1, "on-1"⟩, .switchN ⟨0, ⟨1, "on-1"⟩, ⟨0, false⟩⟩⟩] ∧
      r.String = "!" ++ "on-1") :=
  have hid : IsIdentifier asciiLib "on-1" :=
    ⟨⟨'o', ['n', '-', '1'], rfl, by decide, by decide⟩, by decide, by decide, by decide⟩
  ⟨hid, C16_switch_round_trip asciiLib "on-1" hid⟩

/-! ## C17: parsing the rendered text again -/

/-- C17: for every input on which `Parse` succeeds, `Parse` of the rendered
text of the root succeeds too, and its root is structurally equal to the
first one: the same number of arguments in the same order, with the same
identifiers and the same kinds and values of nodes, byte offsets aside. -/
theorem C17_reparse_rendered (E : Lib) (inp : String) (t : tree) (r : listNode)
    (h : Parse E inp = .ok t) (hr : t.root = some r) :
    ∃ t1 r1, Parse E r.String = .ok t1 ∧ t1.root = some r1 ∧
      r1.nodes.length = r.nodes.length ∧
      r1.nodes.map argumentNode.strip = r.nodes.map argumentNode.strip := by
  obtain ⟨toks, nodes, -, -, -, h4, h5⟩ := Parse_ok_args E inp t h
  rw [hr] at h4
  cases h4
  obtain ⟨t1, nodes1, e1, e2, e3⟩ := Parse_render E 0 nodes h5
  refine ⟨t1, _, e1, e2, ?_, e3⟩
  have := congrArg List.length e3
  simpa using this

/-- C17 at the input "nil=3,": the root renders to "nil,3", which parses to
the same two arguments at other byte offsets. -/
theorem C17_reparse_rendered_witness :
    ∃ t r, Parse asciiLib "nil=3," = .ok t ∧ t.root = some r ∧ r.String = "nil,3" ∧
      ∃ t1 r1, Parse asciiLib r.String = .ok t1 ∧ t1.root = some r1 ∧
        r1.nodes.length = r.nodes.length ∧
        r1.nodes.map argumentNode.strip = r.nodes.map argumentNode.strip := by
  have hP : Parse asciiLib "nil=3," = .ok
      ⟨some ⟨0, [⟨0, none, .nilN ⟨0⟩⟩,
        ⟨4, none, .numberN ⟨4, true, true, true, 3, 3, 4613937818241073152, "3"⟩⟩]⟩, [],
      ⟨.itemEOF, 6, ""⟩, ⟨.itemNumber, 4, "3"⟩, zeroItem, 1⟩ := by decide!
  exact ⟨_, _, hP, rfl, by decide, C17_reparse_rendered asciiLib "nil=3," _ _ hP rfl⟩


/-! ## C18: binding a Slice -/

/-- C18: when the element type of a slice type is compatible with each of the
`n` values of a Slice, in that the value can be bound to a zero element of
the type, binding the Slice to a settable field of the slice type succeeds,
whatever the field held before; afterwards the field holds a slice of exactly
`n` elements, the `i`-th being what binding the `i`-th value to a zero
element leaves, and that element holds the value.  The element type is any
type; `applyNode_ok_iff` says by kinds which values can be bound to it. -/
theorem C18_slice_binding (E : Lib) (elem : GoType) (prev : Option (List GoValue)) (pos : Nat)
    (values : List node) (hc : ∀ v ∈ values, (applyNode E true elem.zero v).2 = .ok ()) :
    applyNode E true (.slice elem prev) (.sliceN pos values) =
      (.slice elem (some (values.map (fun v => (applyNode E true elem.zero v).1))), .ok ()) ∧
    (values.map (fun v => (applyNode E true elem.zero v).1)).length = values.length ∧
    ∀ v ∈ values, Holds E (applyNode E true elem.zero v).1 v := by
  refine ⟨?_, by simp, fun v hv => applyNode_holds E elem.zero v (hc v hv)⟩
  have h1 : applyNode E true (.slice elem prev) (.sliceN pos values) =
      (.slice elem (some (applyElems E true elem values).1),
        (applyElems E true elem values).2) := by
    simp only [applyNode, throughNilPointer, applyKind, GoValue.typeOf, Bool.not_true,
      Bool.false_eq_true, ↓reduceIte]
  rw [h1, applyElems_ok E elem values hc]

/-- C18 at the two strings of the tag "slice='foo';'baa'" bound to a string
slice that held three elements; at a Number that is a float only and nil
bound to a slice of pointers to floats; and the tag of the test bound to the
struct of the test. -/
theorem C18_slice_binding_witness :
    (applyNode asciiLib true (.slice .string (some [.string "a", .string "b", .string "c"]))
        (.sliceN 6 [.stringN ⟨6, "'foo'", "foo"⟩, .stringN ⟨12, "'baa'", "baa"⟩]) =
      (.slice .string (some ([node.stringN ⟨6, "'foo'", "foo"⟩,
        node.stringN ⟨12, "'baa'", "baa"⟩].map
          (fun v => (applyNode asciiLib true GoType.string.zero v).1))), .ok ()) ∧
      ([node.stringN ⟨6, "'foo'", "foo"⟩, node.stringN ⟨12, "'baa'", "baa"⟩].map
        (fun v => (applyNode asciiLib true GoType.string.zero v).1)).length = 2 ∧
      ∀ v ∈ [node.stringN ⟨6, "'foo'", "foo"⟩, node.stringN ⟨12, "'baa'", "baa"⟩],
        Holds asciiLib (applyNode asciiLib true GoType.string.zero v).1 v) ∧
    (applyNode asciiLib true (.slice (.pointer (.float 64)) none)
        (.sliceN 0 [.numberN ⟨0, false, false, true, 0, 0, 4609434218613702656, "1.5"⟩,
          .nilN ⟨4⟩]) =
      (.slice (.pointer (.float 64)) (some
        ([node.numberN ⟨0, false, false, true, 0, 0, 4609434218613702656, "1.5"⟩,
          node.nilN ⟨4⟩].map
          (fun v => (applyNode asciiLib true (GoType.pointer (.float 64)).zero v).1))), .ok ()) ∧
      ([node.numberN ⟨0, false, false, true, 0, 0, 4609434218613702656, "1.5"⟩,
          node.nilN ⟨4⟩].map
        (fun v => (applyNode asciiLib true (GoType.pointer (.float 64)).zero v).1)).length = 2 ∧
      ∀ v ∈ [node.numberN ⟨0, false, false, true, 0, 0, 4609434218613702656, "1.5"⟩,
          node.nilN ⟨4⟩],
        Holds asciiLib (applyNode asciiLib true (GoType.pointer (.float 64)).zero v).1 v) ∧
    applyNode asciiLib true (.slice (.pointer (.float 64)) none)
        (.sliceN 0 [.numberN ⟨0, false, false, true, 0, 0, 4609434218613702656, "1.5"⟩,
          .nilN ⟨4⟩]) =
      (.slice (.pointer (.float 64)) (some [.pointer (.float 64)
          (some (.float 64 4609434218613702656)), .pointer (.float 64) (some (.float 64 0))]),
        .ok ()) ∧
    Tag.Fill asciiLib ⟨"test", "slice='foo';'baa'"⟩ (.structPointer "TestStruct" TestStruct) =
      (.structPointer "TestStruct"
        [⟨"NumField", true, .int 64 0, false⟩, ⟨"BoolField", true, .bool false, false⟩,
          ⟨"StringField", true, .string "", false⟩, ⟨"Switch", true, .pointer .bool none, false⟩,
          ⟨"Slice", true, .slice .string (some [.string "foo", .string "baa"]), false⟩],
        .ok ()) :=
  ⟨C18_slice_binding asciiLib .string (some [.string "a", .string "b", .string "c"]) 6
    [.stringN ⟨6, "'foo'", "foo"⟩, .stringN ⟨12, "'baa'", "baa"⟩]
    (fun v hv => by
      simp only [List.mem_cons, List.mem_singleton, List.not_mem_nil, or_false] at hv
      rcases hv with rfl | rfl <;> rfl),
    C18_slice_binding asciiLib (.pointer (.float 64)) none 0
      [.numberN ⟨0, false, false, true, 0, 0, 4609434218613702656, "1.5"⟩, .nilN ⟨4⟩]
      (fun v hv => by
        simp only [List.mem_cons, List.mem_singleton, List.not_mem_nil, or_false] at hv
        rcases hv with rfl | rfl <;> rfl), by decide!, by decide!⟩


/-! ## C19: a decimal literal as a Number -/

/-- C19 (amended): for every text of decimal digits that does not open with
`0`, or is `0` itself, and whose value `v` in base ten is at most 2^63 - 1,
`newNumber` returns a Number for which `IsInt` and `IsUint` hold, with
`Int64 = v` and `Uint64 = v`. -/
theorem C19_decimal_number (E : Lib) (pos : Nat) (cs : List Char) (h : DecimalLiteral cs)
    (hv : decimalValue cs ≤ 2 ^ 63 - 1) :
    ∃ n, newNumber E pos (String.mk cs) = .ok n ∧ n.IsInt = true ∧ n.IsUint = true ∧
      n.Int64 = decimalValue cs ∧ n.Uint64 = decimalValue cs :=
  ⟨_, newNumber_decimal E pos cs h (by omega), rfl, rfl, rfl, rfl⟩

/-- C19 at the literal "12". -/
theorem C19_decimal_number_witness :
    ∃ n, newNumber asciiLib 0 (String.mk ['1', '2']) = .ok n ∧ n.IsInt = true ∧
      n.IsUint = true ∧ n.Int64 = decimalValue ['1', '2'] ∧ n.Uint64 = decimalValue ['1', '2'] :=
  C19_decimal_number asciiLib 0 ['1', '2'] ⟨by decide, by decide, by decide⟩ (by decide)

/-- C19 as stated fails for digits that open with `0`: `ParseUint` and
`ParseInt` are called with base 0, which reads them in base eight, so the
text "012", twelve in base ten, gives a Number with `Int64 = Uint64 = 10`. -/
theorem C19_counterexample :
    decimalValue "012".data = 12 ∧
    newNumber asciiLib 0 "012" =
      .ok ⟨0, true, true, true, 10, 10, 4621819117588971520, "012"⟩ := by
  refine ⟨?_, ?_⟩ <;> decide!

/-! ## C20: integer literals out of range -/

/-- C20 (amended): for every literal made of an optional sign and decimal
digits that do not open with `0`, whose value lies outside the range
-2^63 .. 2^64 - 1, `newNumber` returns an error and no Number node at every
position, and `Parse` of the literal returns no tree: it ends in a panic. -/
theorem C20_overflow_literal (E : Lib) (sign cs : List Char)
    (hs : sign = [] ∨ sign = ['+'] ∨ sign = ['-']) (hd : DecimalLiteral cs)
    (hv : if sign = ['-'] then 2 ^ 63 < decimalValue cs else 2 ^ 64 ≤ decimalValue cs) :
    (∀ pos, ∃ msg, newNumber E pos (String.mk (sign ++ cs)) = .err msg) ∧
    ∃ msg, Parse E (String.mk (sign ++ cs)) = .panic msg := by
  have hnz : cs.head? ≠ some '0' := by
    intro h0
    have := hd.2.2 h0
    subst this
    revert hv
    split_ifs <;> decide
  have hloc := number_local E sign cs hs hd.1 hd.2.1 hnz
  exact ⟨fun pos => ⟨_, newNumber_overflow E pos sign cs hs hd hv⟩,
    _, Parse_number_err E _ _ hloc (newNumber_overflow E 0 sign cs hs hd hv)⟩

/-- C20 at the literal "-9223372036854775809", one below -2^63. -/
theorem C20_overflow_literal_witness :
    (∀ pos, ∃ msg, newNumber asciiLib pos
      (String.mk (['-'] ++ "9223372036854775809".data)) = .err msg) ∧
    ∃ msg, Parse asciiLib (String.mk (['-'] ++ "9223372036854775809".data)) = .panic msg :=
  C20_overflow_literal asciiLib ['-'] "9223372036854775809".data (Or.inr (Or.inr rfl))
    ⟨by decide, by decide, by decide⟩ (by decide)

/-- C20 as stated fails for digits that open with `0`: the text
"01777777777777777777777" is a run of decimal digits whose value in base ten
is above 2^64 - 1, yet `ParseUint`, called with base 0, reads it in base
eight as 2^64 - 1, so `newNumber` returns a Number and `Parse` returns a
tree. -/
theorem C20_counterexample :
    (∀ c ∈ "01777777777777777777777".data, isDecDigit c = true) ∧
    2 ^ 64 - 1 < decimalValue "01777777777777777777777".data ∧
    newNumber asciiLib 0 "01777777777777777777777" =
      .ok ⟨0, false, true, true, 0, 18446744073709551615, 4895412794951729152,
        "01777777777777777777777"⟩ ∧
    (Parse asciiLib "01777777777777777777777").map tree.root = .ok (some ⟨0,
      [⟨0, none, .numberN ⟨0, false, true, true, 0, 18446744073709551615,
        4895412794951729152, "01777777777777777777777"⟩⟩]⟩) := by
  refine ⟨by decide, by decide, ?_, ?_⟩ <;> decide!

/-! ## C21: a quoted string that is not terminated -/

/-- C21: when the scanner enters `lexQuote` on a quote character `q` (a
value that starts with a quote) and the rest of the input holds no `q` that
is not escaped by a backslash before it, the scan ends with the error token
"unterminated quoted string" right behind the items sent before the literal:
no string token is sent for it. -/
theorem C21_unterminated_string (E : Lib) (inp : String) (n : Nat) (l : lexer) (q : Char)
    (hreach : lexer.runSteps E n .lexArgumentStart ⟨inp.data, 0, 0, false, []⟩ =
      .ok (some .lexQuote, l))
    (hcur : inp.data[l.pos]? = some q) (hun : Unclosed q (inp.data.drop (l.pos + 1))) :
    lex E inp = .ok (l.items ++
      [⟨.itemError, byteOffset inp.data l.start, "unterminated quoted string"⟩]) := by
  obtain ⟨h1, h2, -, h4, h5⟩ := lexer.runSteps_spec E n .lexArgumentStart
    ⟨inp.data, 0, 0, false, []⟩ .lexQuote l ⟨fun h => Bool.noConfusion h, Nat.zero_le _⟩ trivial
    hreach
  simp only at h1
  rw [← h1] at hcur hun
  obtain ⟨l1, e1, e2⟩ := lexQuote_unclosed h2 hcur hun
  have hpot : potential .lexArgumentStart ⟨inp.data, 0, 0, false, []⟩ =
      2 * inp.data.length + 2 := by
    simp [potential]
  have hpos : 1 ≤ potential .lexQuote l := by
    simp [potential]
  obtain ⟨m, hm⟩ : ∃ m, 2 * inp.data.length + 2 = m + 1 + n :=
    ⟨2 * inp.data.length + 2 - 1 - n, by omega⟩
  have hrun : lexer.run E ⟨inp.data, 0, 0, false, []⟩ = .ok l1 := by
    simp only [lexer.run]
    rw [hm, h5 (m + 1), lexer.runLoop_none E m (by simp only [callState]; exact e1)]
  simp only [lex, hrun, e2, h1]

/-- C21 at the input "foo='bar": after four calls the scanner enters
`lexQuote` on the quote behind `=`, and nothing closes it. -/
theorem C21_unterminated_string_witness :
    lex asciiLib "foo='bar" = .ok ([⟨.itemIdentifier, 0, "foo"⟩, ⟨.itemAssign, 3, "="⟩] ++
      [⟨.itemError, byteOffset "foo='bar".data 4, "unterminated quoted string"⟩]) :=
  C21_unterminated_string asciiLib "foo='bar" 4
    ⟨"foo='bar".data, 4, 4, false, [⟨.itemIdentifier, 0, "foo"⟩, ⟨.itemAssign, 3, "="⟩]⟩
    singleQuote (by decide!) (by decide) (by decide)

/-! ## C22: the message of a lexical error -/

/-- C22, amended: for every input whose scan ends with an error token that
stands where a value is expected (it is the first token, or the token before
it is a separator or a switch mark), and in which the parser rejects no token
before it (every number and string token yields a node, and every switch mark
that a token follows is followed by an identifier), `Parse` ends in the
failure "unexpected " followed by the message of the error token. -/
theorem C22_error_message (E : Lib) (inp : String) (items : List item) (last : item)
    (h : lex E inp = .ok (items ++ [last])) (he : last.typ = .itemError)
    (hpos : ∀ prev ∈ items.getLast?, prev.typ.opens = true)
    (hleaf : ∀ tok ∈ items, tok.typ = .itemNumber ∨ tok.typ = .itemString →
      ∃ n, leafOf E tok = .ok n)
    (hsw : ∀ (i : Nat) (mark tok : item), items[i]? = some mark → mark.typ.isMark = true →
      items[i + 1]? = some tok → tok.typ = .itemIdentifier) :
    Parse E inp = .panic ("unexpected " ++ last.val) := by
  have hch := lex_chained E inp _ h
  have hfront : ∀ tok ∈ items, tok.typ ≠ .itemEOF ∧ tok.typ ≠ .itemError := by
    obtain ⟨its, h1, front, last1, h2, -, h4⟩ := lex_scanned E inp
    rw [h] at h1
    cases h1
    simp only [List.nil_append] at h2
    obtain ⟨e1, -⟩ := List.append_inj' h2 rfl
    subst e1
    exact h4
  have hform := errForm_of_chained E last items.length items none (le_refl _) (Or.inl rfl) hch
    hfront hpos hleaf hsw
  have hargs := refArgs_errForm E he ((items ++ [last]).length + 2) (items ++ [last]) [] hform
    (by omega)
  have href := Parse_ref E inp _ h
  simp only [refParse, hargs] at href
  exact href

/-- C22 at the input "foo=@", where the error token for `@` stands behind
`=`, and at the input "~a,12;'x'=@", where it stands behind a switch and a
Slice that the parser reads. -/
theorem C22_error_message_witness :
    Parse asciiLib "foo=@" = .panic ("unexpected " ++ "bad character U+0040 '@'") ∧
    Parse asciiLib "~a,12;'x'=@" = .panic ("unexpected " ++ "bad character U+0040 '@'") :=
  ⟨C22_error_message asciiLib "foo=@" [⟨.itemIdentifier, 0, "foo"⟩, ⟨.itemAssign, 3, "="⟩]
    ⟨.itemError, 4, "bad character U+0040 '@'"⟩ (by decide!) rfl
    (fun prev hp => by
      have e : prev = ⟨.itemAssign, 3, "="⟩ := (Option.some.inj hp).symm
      rw [e]
      rfl)
    (fun tok ht hty => by
      simp only [List.mem_cons, List.mem_singleton, List.not_mem_nil, or_false] at ht
      rcases ht with rfl | rfl <;> rcases hty with hty | hty <;> cases hty)
    (fun i mark tok h1 h2 _ => by
      match i, h1 with
      | 0, h1 =>
        have e : mark = ⟨.itemIdentifier, 0, "foo"⟩ := (Option.some.inj h1).symm
        rw [e] at h2
        cases h2
      | 1, h1 =>
        have e : mark = ⟨.itemAssign, 3, "="⟩ := (Option.some.inj h1).symm
        rw [e] at h2
        cases h2
      | i + 2, h1 => cases h1),
  C22_error_message asciiLib "~a,12;'x'=@"
    [⟨.itemEnable, 0, "~"⟩, ⟨.itemIdentifier, 1, "a"⟩, ⟨.itemArgumentSeparator, 2, ","⟩,
      ⟨.itemNumber, 3, "12"⟩, ⟨.itemListSeparator, 5, ";"⟩, ⟨.itemString, 6, "'x'"⟩,
      ⟨.itemAssign, 9, "="⟩]
    ⟨.itemError, 10, "bad character U+0040 '@'"⟩ (by decide!) rfl
    (fun prev hp => by
      have e : prev = ⟨.itemAssign, 9, "="⟩ := (Option.some.inj hp).symm
      rw [e]
      rfl)
    (fun tok ht hty => by
      simp only [List.mem_cons, List.mem_singleton, List.not_mem_nil, or_false] at ht
      rcases ht with rfl | rfl | rfl | rfl | rfl | rfl | rfl
      · rcases hty with hty | hty <;> cases hty
      · rcases hty with hty | hty <;> cases hty
      · rcases hty with hty | hty <;> cases hty
      · exact ⟨.numberN ⟨3, true, true, true, 12, 12, 4622945017495814144, "12"⟩, by decide!⟩
      · rcases hty with hty | hty <;> cases hty
      · exact ⟨.stringN ⟨6, "'x'", "x"⟩, by decide!⟩
      · rcases hty with hty | hty <;> cases hty)
    (fun i mark tok h1 h2 h3 => by
      match i, h1, h3 with
      | 0, _, h3 =>
        have e : tok = ⟨.itemIdentifier, 1, "a"⟩ := (Option.some.inj h3).symm
        rw [e]
      | 1, h1, _ =>
        have e : mark = ⟨.itemIdentifier, 1, "a"⟩ := (Option.some.inj h1).symm
        rw [e] at h2
        cases h2
      | 2, h1, _ =>
        have e : mark = ⟨.itemArgumentSeparator, 2, ","⟩ := (Option.some.inj h1).symm
        rw [e] at h2
        cases h2
      | 3, h1, _ =>
        have e : mark = ⟨.itemNumber, 3, "12"⟩ := (Option.some.inj h1).symm
        rw [e] at h2
        cases h2
      | 4, h1, _ =>
        have e : mark = ⟨.itemListSeparator, 5, ";"⟩ := (Option.some.inj h1).symm
        rw [e] at h2
        cases h2
      | 5, h1, _ =>
        have e : mark = ⟨.itemString, 6, "'x'"⟩ := (Option.some.inj h1).symm
        rw [e] at h2
        cases h2
      | 6, h1, _ =>
        have e : mark = ⟨.itemAssign, 9, "="⟩ := (Option.some.inj h1).symm
        rw [e] at h2
        cases h2
      | i + 7, h1, _ => cases h1)⟩

/-- C22 as stated fails when the parser rejects a token before it reaches
the error token: the scan of "0x,@" ends with the error token for `@`, but
`Parse` fails on the number `0x`, with a message that does not hold the
message of the error token. -/
theorem C22_counterexample :
    lex asciiLib "0x,@" = .ok ([⟨.itemNumber, 0, "0x"⟩, ⟨.itemArgumentSeparator, 2, ","⟩] ++
      [⟨.itemError, 3, "bad character U+0040 '@'"⟩]) ∧
    Parse asciiLib "0x,@" = .panic "illegal number syntax: \"0x\"" ∧
    ¬ ("bad character U+0040 '@'".data <:+: "illegal number syntax: \"0x\"".data) := by
  refine ⟨by decide!, by decide!, by decide⟩

/-! ## C23: white space stands in quoted strings only -/

/-- C23: for every input whose scan ends with the end-of-input token, every
space, tab, carriage return and line feed of the input lies inside a string
token; and so a white space that lies in no string token makes the scan end
with an error token. -/
theorem C23_spaces_in_strings (E : Lib) (inp : String) (items : List item)
    (h : lex E inp = .ok items) :
    ((∃ front last, items = front ++ [last] ∧ last.typ = .itemEOF) →
      ∀ (i : Nat) (c : Char), inp.data[i]? = some c → isSpace (some c) = true →
        InString items (byteOffset inp.data i)) ∧
    ((∃ (i : Nat) (c : Char), inp.data[i]? = some c ∧ isSpace (some c) = true ∧
        ¬ InString items (byteOffset inp.data i)) →
      ∃ front last, items = front ++ [last] ∧ last.typ = .itemError) := by
  have hfirst : (∃ front last, items = front ++ [last] ∧ last.typ = .itemEOF) →
      ∀ (i : Nat) (c : Char), inp.data[i]? = some c → isSpace (some c) = true →
        InString items (byteOffset inp.data i) := by
    rintro ⟨front, last, rfl, he⟩ i c hi hc
    obtain ⟨toks, hlexed, htoks⟩ := lexed_of_lex E inp _ h ⟨last, by simp, he⟩
    obtain ⟨tok, h1, h2, h3, h4⟩ := hlexed.spaces 0 i c hi hc
    rw [Nat.zero_add] at h3 h4
    exact ⟨tok, by rw [htoks]; exact h1, h2, h3, h4⟩
  refine ⟨hfirst, ?_⟩
  rintro ⟨i, c, hi, hc, hn⟩
  obtain ⟨its, h1, front, last, h2, h3, -⟩ := lex_scanned E inp
  rw [h] at h1
  cases h1
  simp only [List.nil_append] at h2
  refine ⟨front, last, h2, ?_⟩
  rcases h3 with h3 | h3
  · exact absurd (hfirst ⟨front, last, h2, h3⟩ i c hi hc) hn
  · exact h3

/-- C23 at the input "a='b c'", whose space lies in the string token, and at
the input "a b", whose scan ends with the error token for the space. -/
theorem C23_spaces_in_strings_witness :
    InString [⟨.itemIdentifier, 0, "a"⟩, ⟨.itemAssign, 1, "="⟩, ⟨.itemString, 2, "'b c'"⟩,
      ⟨.itemEOF, 7, ""⟩] (byteOffset "a='b c'".data 4) ∧
    ∃ front last, [⟨.itemIdentifier, 0, "a"⟩, (⟨.itemError, 1, "bad character U+0020 ' '"⟩ : item)] =
      front ++ [last] ∧ last.typ = .itemError :=
  ⟨(C23_spaces_in_strings asciiLib "a='b c'" _ (by decide!)).1
      ⟨[⟨.itemIdentifier, 0, "a"⟩, ⟨.itemAssign, 1, "="⟩, ⟨.itemString, 2, "'b c'"⟩],
        ⟨.itemEOF, 7, ""⟩, rfl, rfl⟩ 4 ' ' rfl rfl,
    (C23_spaces_in_strings asciiLib "a b" _ (by decide!)).2
      ⟨1, ' ', rfl, rfl, by
        rintro ⟨tok, h1, h2, -⟩
        simp only [List.mem_cons, List.mem_singleton, List.not_mem_nil, or_false] at h1
        rcases h1 with rfl | rfl <;> cases h2⟩⟩

/-! ## C24: the tokens of a scan tile the input -/

/-- C24: for every input whose scan ends with the end-of-input token, the
texts of the tokens joined in order are the input, the offset of each token
is the total length in bytes of the texts of the tokens before it, the
offsets never decrease, and the end-of-input token has the empty text and
the length of the input as its offset. -/
theorem C24_tokens_tile_input (E : Lib) (inp : String) (items : List item) (last : item)
    (h : lex E inp = .ok (items ++ [last])) (he : last.typ = .itemEOF) :
    String.join ((items ++ [last]).map item.val) = inp ∧
    (∀ (i : Nat) (tok : item), (items ++ [last])[i]? = some tok →
      tok.pos = (((items ++ [last]).take i).map (fun t => t.val.utf8ByteSize)).sum) ∧
    (items ++ [last]).Pairwise (fun a b => a.pos ≤ b.pos) ∧
    last = ⟨.itemEOF, inp.utf8ByteSize, ""⟩ := by
  obtain ⟨toks, hlexed, htoks⟩ := lexed_of_lex E inp (items ++ [last]) h
    ⟨last, by simp, he⟩
  have htext := hlexed.flat
  refine ⟨?_, ?_, ?_, ?_⟩
  · apply String.ext
    rw [String.data_join, List.map_map, htoks]
    rw [htext]
    exact tokensAt_vals toks 0
  · intro i tok hi
    rw [htoks] at hi ⊢
    have := tokensAt_pos toks 0 i tok hi
    rw [this, Nat.zero_add]
  · rw [htoks]
    exact (tokensAt_sorted toks 0).2
  · obtain ⟨front, hf⟩ := tokensAt_last toks 0
    rw [hf] at htoks
    have := last_typ htoks
    rw [this, Nat.zero_add, ← htext]
    show _ = item.mk .itemEOF (String.mk inp.data).utf8ByteSize ""
    rw [utf8ByteSize_mk]

/-- C24 at the input "a='b c'" of four tokens. -/
theorem C24_tokens_tile_input_witness :
    String.join ((([⟨.itemIdentifier, 0, "a"⟩, ⟨.itemAssign, 1, "="⟩,
        ⟨.itemString, 2, "'b c'"⟩] : List item) ++ [(⟨.itemEOF, 7, ""⟩ : item)]).map item.val) =
      "a='b c'" ∧
    (∀ (i : Nat) (tok : item),
      (([⟨.itemIdentifier, 0, "a"⟩, ⟨.itemAssign, 1, "="⟩,
        ⟨.itemString, 2, "'b c'"⟩] : List item) ++ [(⟨.itemEOF, 7, ""⟩ : item)])[i]? = some tok →
      tok.pos = (((([⟨.itemIdentifier, 0, "a"⟩, ⟨.itemAssign, 1, "="⟩,
        ⟨.itemString, 2, "'b c'"⟩] : List item) ++ [(⟨.itemEOF, 7, ""⟩ : item)]).take i).map
          (fun t => t.val.utf8ByteSize)).sum) ∧
    (([⟨.itemIdentifier, 0, "a"⟩, ⟨.itemAssign, 1, "="⟩,
        ⟨.itemString, 2, "'b c'"⟩] : List item) ++ [(⟨.itemEOF, 7, ""⟩ : item)]).Pairwise
      (fun a b => a.pos ≤ b.pos) ∧
    (⟨.itemEOF, 7, ""⟩ : item) = ⟨.itemEOF, "a='b c'".utf8ByteSize, ""⟩ :=
  C24_tokens_tile_input asciiLib "a='b c'"
    [⟨.itemIdentifier, 0, "a"⟩, ⟨.itemAssign, 1, "="⟩, ⟨.itemString, 2, "'b c'"⟩]
    ⟨.itemEOF, 7, ""⟩ (by decide!) rfl

/-! ## C25: a tag without a view assigns nothing -/

/-- C25: when the value of the tag cannot be turned into a resolved-argument
view, `Fill` assigns nothing: the target is after the call what it was
before.  The call fails: on a pointer to a struct it ends with the failure of
`parseValue`, and on any other target with the failure of the guard.  Only the
value "-", which `Fill` skips without parsing it, ends the call with nil. -/
theorem C25_no_view_no_assignment (E : Lib) (tag : Tag) (model : Model)
    (h : ∀ p, parseValue E tag.Value ≠ .ok p) :
    (Tag.Fill E tag model).1 = model ∧
    (tag.Value ≠ "-" → ∀ u, (Tag.Fill E tag model).2 ≠ .ok u) ∧
    (tag.Value ≠ "-" → ∀ ty fs, model = .structPointer ty fs →
      (Tag.Fill E tag model).2 = (parseValue E tag.Value).map (fun _ => ())) := by
  cases model with
  | invalid => exact ⟨rfl, fun _ _ hu => Result.noConfusion hu, fun _ _ _ hm => Model.noConfusion hm⟩
  | nilValue n => exact ⟨rfl, fun _ _ hu => Result.noConfusion hu, fun _ _ _ hm => Model.noConfusion hm⟩
  | notNilable n => exact ⟨rfl, fun _ _ hu => Result.noConfusion hu, fun _ _ _ hm => Model.noConfusion hm⟩
  | notStructPointer n =>
    exact ⟨rfl, fun _ _ hu => Result.noConfusion hu, fun _ _ _ hm => Model.noConfusion hm⟩
  | structPointer ty fs =>
    by_cases hd : tag.Value = "-"
    · refine ⟨?_, fun hn => absurd hd hn, fun hn => absurd hd hn⟩
      simp only [Tag.Fill, hd, beq_self_eq_true, ↓reduceIte]
    · have hb : (tag.Value == "-") = false := by simpa using hd
      cases hp : parseValue E tag.Value with
      | ok p => exact absurd hp (h p)
      | err m =>
        have hf : Tag.Fill E tag (.structPointer ty fs) = (.structPointer ty fs, .err m) := by
          simp only [Tag.Fill, hb, hp, Bool.false_eq_true, ↓reduceIte]
        rw [hf]
        exact ⟨rfl, fun _ _ hu => Result.noConfusion hu, fun _ _ _ _ => rfl⟩
      | panic m =>
        have hf : Tag.Fill E tag (.structPointer ty fs) = (.structPointer ty fs, .panic m) := by
          simp only [Tag.Fill, hb, hp, Bool.false_eq_true, ↓reduceIte]
        rw [hf]
        exact ⟨rfl, fun _ _ hu => Result.noConfusion hu, fun _ _ _ _ => rfl⟩
      | diverge =>
        have hf : Tag.Fill E tag (.structPointer ty fs) = (.structPointer ty fs, .diverge) := by
          simp only [Tag.Fill, hb, hp, Bool.false_eq_true, ↓reduceIte]
        rw [hf]
        exact ⟨rfl, fun _ _ hu => Result.noConfusion hu, fun _ _ _ _ => rfl⟩

/-- C25 at the four ways a tag misses its view, on the struct of the test: a
lexical error ("foo=@"), an unexpected token ("~true"), a number that is
rejected ("0x") and a positional argument after a keyword ("foo=1,2"). -/
theorem C25_no_view_no_assignment_witness :
    Tag.Fill asciiLib ⟨"test", "foo=@"⟩ (.structPointer "TestStruct" TestStruct) =
      (.structPointer "TestStruct" TestStruct,
        .panic "unexpected bad character U+0040 '@'") ∧
    Tag.Fill asciiLib ⟨"test", "~true"⟩ (.structPointer "TestStruct" TestStruct) =
      (.structPointer "TestStruct" TestStruct, .panic "unexpected \"true\"") ∧
    Tag.Fill asciiLib ⟨"test", "0x"⟩ (.structPointer "TestStruct" TestStruct) =
      (.structPointer "TestStruct" TestStruct, .panic "illegal number syntax: \"0x\"") ∧
    Tag.Fill asciiLib ⟨"test", "foo=1,2"⟩ (.structPointer "TestStruct" TestStruct) =
      (.structPointer "TestStruct" TestStruct, .err "positional argument after keywords") := by
  have e1 : parseValue asciiLib "foo=@" = .panic "unexpected bad character U+0040 '@'" := by
    decide!
  have e2 : parseValue asciiLib "~true" = .panic "unexpected \"true\"" := by decide!
  have e3 : parseValue asciiLib "0x" = .panic "illegal number syntax: \"0x\"" := by decide!
  have e4 : parseValue asciiLib "foo=1,2" = .err "positional argument after keywords" := by
    decide!
  have h1 := C25_no_view_no_assignment asciiLib ⟨"test", "foo=@"⟩
    (.structPointer "TestStruct" TestStruct) (fun p hp => by rw [e1] at hp; cases hp)
  have h2 := C25_no_view_no_assignment asciiLib ⟨"test", "~true"⟩
    (.structPointer "TestStruct" TestStruct) (fun p hp => by rw [e2] at hp; cases hp)
  have h3 := C25_no_view_no_assignment asciiLib ⟨"test", "0x"⟩
    (.structPointer "TestStruct" TestStruct) (fun p hp => by rw [e3] at hp; cases hp)
  have h4 := C25_no_view_no_assignment asciiLib ⟨"test", "foo=1,2"⟩
    (.structPointer "TestStruct" TestStruct) (fun p hp => by rw [e4] at hp; cases hp)
  refine ⟨Prod.ext h1.1 ?_, Prod.ext h2.1 ?_, Prod.ext h3.1 ?_, Prod.ext h4.1 ?_⟩
  · rw [h1.2.2 (by decide) _ _ rfl, e1]; rfl
  · rw [h2.2.2 (by decide) _ _ rfl, e2]; rfl
  · rw [h3.2.2 (by decide) _ _ rfl, e3]; rfl
  · rw [h4.2.2 (by decide) _ _ rfl, e4]; rfl

/-! ## C26: a Slice has at least two elements -/

/-- C26: every Slice node in a tree returned by `Parse` has at least two
elements.  The two reasons: a `;` among the items of the scan that is not
followed by a value token makes `Parse` fail; and `argumentValue`, entered
before a token that is not followed by `;`, returns a simple value and never
a Slice. -/
theorem C26_slice_two_elements (E : Lib) (inp : String) :
    (∀ t, Parse E inp = .ok t →
      ∃ r, t.root = some r ∧ ∀ a ∈ r.nodes, a.value.wideSlices = true) ∧
    (∀ (items : List item) (i : Nat) (tok : item), lex E inp = .ok items →
      items[i]? = some tok → tok.typ = .itemListSeparator →
      (∀ v, items[i + 1]? = some v → v.typ.isValue = false) →
      ∃ msg, Parse E inp = .panic msg) ∧
    (∀ (t0 : tree) (L : List item), t0.peekCount ≤ 2 → t0.Reads L →
      (L.tail.headD zeroItem).typ ≠ .itemListSeparator →
      ∀ (n : node) (t1 : tree), t0.argumentValue E = .ok (n, t1) →
        ∀ (p : Nat) (vs : List node), n ≠ .sliceN p vs) := by
  refine ⟨fun t h => ?_, fun items i tok hitems hi hty hnext => ?_, ?_⟩
  · obtain ⟨toks, nodes, -, -, -, hroot, hargs⟩ := Parse_ok_args E inp t h
    exact ⟨_, hroot, fun a ha => (hargs a ha).wide⟩
  · have hs := Parse_spec E inp
    cases hp : Parse E inp with
    | panic m => exact ⟨m, rfl⟩
    | err m => rw [hp] at hs; exact hs.elim
    | diverge => rw [hp] at hs; exact hs.elim
    | ok t =>
      exfalso
      obtain ⟨toks, nodes, hlexed, hlex, -, -, -⟩ := Parse_ok_args E inp t hp
      rw [hitems] at hlex
      cases hlex
      have h1 : ((tokensAt 0 toks).map item.typ)[i]? = some .itemListSeparator := by
        rw [List.getElem?_map, hi, Option.map_some', hty]
      rw [tokensAt_typ] at h1
      have hlt : i < toks.length := by
        by_contra hge
        have hlen : (toks.map Prod.fst).length ≤ i := by
          rw [List.length_map]
          omega
        rw [List.getElem?_append_right hlen] at h1
        cases hk : i - (toks.map Prod.fst).length with
        | zero => rw [hk] at h1; cases h1
        | succ k => rw [hk] at h1; cases h1
      rw [List.getElem?_append_left (by rw [List.length_map]; exact hlt)] at h1
      obtain ⟨ty, h2, h3⟩ := hlexed.listSep_value.2 i h1
      have h4 : ((tokensAt 0 toks).map item.typ)[i + 1]? = some ty := by
        rw [tokensAt_typ]
        have hlt1 : i + 1 < (toks.map Prod.fst).length := by
          by_contra hge
          rw [List.getElem?_eq_none_iff.mpr (not_lt.mp hge)] at h2
          cases h2
        rw [List.getElem?_append_left hlt1]
        exact h2
      rw [List.getElem?_map] at h4
      cases hv : (tokensAt 0 toks)[i + 1]? with
      | none => rw [hv] at h4; cases h4
      | some v =>
        rw [hv] at h4
        simp only [Option.map_some', Option.some.injEq] at h4
        have := hnext v hv
        rw [h4, h3] at this
        cases this
  · intro t0 L hp hr hs n t1 hv p vs hn
    have := tree.argumentValue_simple E hp hr hs hv
    rw [hn] at this
    cases this

/-- C26 at the input "nil;nil", whose tree holds a Slice of two elements, at
the input "nil;", where no value follows the `;`, and at the tokens of
"nil,nil", where `argumentValue` returns the first Nil alone. -/
theorem C26_slice_two_elements_witness :
    (∃ r, (some ⟨0, [⟨0, none, .sliceN 0 [.nilN ⟨0⟩, .nilN ⟨4⟩]⟩]⟩ : Option listNode) = some r ∧
      ∀ a ∈ r.nodes, a.value.wideSlices = true) ∧
    (∃ msg, Parse asciiLib "nil;" = .panic msg) ∧
    ∀ (p : Nat) (vs : List node), node.nilN ⟨0⟩ ≠ .sliceN p vs :=
  ⟨(C26_slice_two_elements asciiLib "nil;nil").1
      ⟨some ⟨0, [⟨0, none, .sliceN 0 [.nilN ⟨0⟩, .nilN ⟨4⟩]⟩]⟩, [], ⟨.itemEOF, 7, ""⟩,
        ⟨.itemNil, 0, "nil"⟩, zeroItem, 0⟩ (by decide!),
    (C26_slice_two_elements asciiLib "nil;").2.1
      [⟨.itemNil, 0, "nil"⟩, ⟨.itemListSeparator, 3, ";"⟩,
        ⟨.itemError, 4, "assignment missing simpleValue"⟩] 1
      ⟨.itemListSeparator, 3, ";"⟩ (by decide!) rfl rfl
      (fun v hv => by
        have e : v = ⟨.itemError, 4, "assignment missing simpleValue"⟩ :=
          (Option.some.inj hv).symm
        rw [e]
        rfl),
    (C26_slice_two_elements asciiLib "nil,nil").2.2
      ⟨none, [⟨.itemNil, 0, "nil"⟩, ⟨.itemArgumentSeparator, 3, ","⟩, ⟨.itemNil, 4, "nil"⟩,
        ⟨.itemEOF, 7, ""⟩], zeroItem, zeroItem, zeroItem, 0⟩
      [⟨.itemNil, 0, "nil"⟩, ⟨.itemArgumentSeparator, 3, ","⟩, ⟨.itemNil, 4, "nil"⟩,
        ⟨.itemEOF, 7, ""⟩]
      (Nat.zero_le 2) (tree.reads_newTree _ none _ _ _) (by decide) (.nilN ⟨0⟩)
      ⟨none, [⟨.itemNil, 4, "nil"⟩, ⟨.itemEOF, 7, ""⟩], ⟨.itemArgumentSeparator, 3, ","⟩,
        ⟨.itemNil, 0, "nil"⟩, zeroItem, 1⟩ (by decide!)⟩


end Stragts
